import Mathlib


/-!
Verification of findglob: glob parser, name matcher and path-descent state machine

A shallow embedding of `src/findglob/findglob.c` (Unix build) and the properties
its specification states about it.

Conventions of the embedding:

* a `string_t` (pointer, length) is a `List Char`; a pointer advanced by `i`
  is the suffix of the list after dropping `i` elements;
* array reads outside an array are undefined behaviour in C; functions that
  could perform one return `Option`, with `none` standing for such a read;
* `exit(1)` and error returns are `none` or an explicit error value;
* bit sets (`class_e`, `match_flags_e`) are natural numbers with the
  bitwise operators of the source;
* `PATH_MAX` comes from the system headers and is a parameter.
-/

namespace Findglob

/-! ## string_t -/

/-- A `string_t`: the bytes `text[0 .. len)`. -/
abbrev string_t := List Char

/-- The libc `strncmp`: compares at most `n` bytes, as unsigned values, and
stops after a NUL byte that both strings share.  Every caller passes `n` no
larger than both lengths, so the last equation is never reached. -/
def strncmp : List Char → List Char → Nat → Int
  | _, _, 0 => 0
  | a :: as, b :: bs, n + 1 =>
    if a ≠ b then (a.toNat : Int) - (b.toNat : Int)
    else if a.toNat = 0 then 0
    else strncmp as bs n
  | _, _, _ + 1 => 0

/-- The libc `memcmp(a, b, n) == 0`: the first `n` bytes agree. -/
def memcmp_eq (a b : List Char) (n : Nat) : Bool :=
  a.take n == b.take n

/-- Function `string_eq`: `a.len == b.len && strncmp(a.text, b.text, a.len) == 0`. -/
def string_eq (a b : string_t) : Bool :=
  a.length == b.length && strncmp a b a.length == 0

/-- Function `string_sub`: the bytes from `start` to `end`, both clamped to the
length, and `end` clamped to at least `start`. -/
def string_sub (s : string_t) (start stop : Nat) : string_t :=
  let so := min s.length start
  let eo := min s.length stop
  let eo := max so eo
  (s.drop so).take (eo - so)

/-- Function `string_startswith`: `s.len >= tgt.len && memcmp(s.text, tgt.text, tgt.len) == 0`. -/
def string_startswith (s tgt : string_t) : Bool :=
  decide (s.length ≥ tgt.length) && memcmp_eq s tgt tgt.length

/-- Function `string_endswith`: compares the last `tgt.len` bytes of `s` with `tgt`. -/
def string_endswith (s tgt : string_t) : Bool :=
  decide (s.length ≥ tgt.length) && memcmp_eq (s.drop (s.length - tgt.length)) tgt tgt.length

/-- Function `string_contains`: the loop `for(i = 0; i + tgt.len <= s.len; i++)`, with the
first argument standing for `s.text + i`. -/
def string_contains : string_t → string_t → Bool
  | s, tgt =>
    if tgt.length ≤ s.length then
      if memcmp_eq s tgt tgt.length then true
      else
        match s with
        | [] => false
        | _ :: rest => string_contains rest tgt
    else false

def STAR : string_t := ['*']
def QUESTION : string_t := ['?']
def DOUBLESTAR : string_t := ['*', '*']
def DOT : string_t := ['.']
def DOTDOT : string_t := ['.', '.']

/-- Function `_is_sep`: only `/` separates, on both platforms. -/
def _is_sep (c : Char) : Bool := c == '/'

/-! ## Sections and patterns -/

/-- The optimization strategies `opt_e`. -/
inductive opt_e
  | OPT_ANY
  | OPT_PREFIX
  | OPT_SUFFIX
  | OPT_BOOKENDS
  | OPT_CONTAINS
  | OPT_NONE
  deriving DecidableEq

/-- The payload `glob_t` of a glob section; fields a variant does not use are
left empty, as the zero-initialised C struct leaves them. -/
structure glob_t where
  opt : opt_e
  text : string_t := []
  text2 : string_t := []
  lit : List Bool := []
  deriving DecidableEq

/-- A `section_t`: the tag `section_e` together with the member of the union
that the tag selects. -/
inductive section_t
  | SECTION_ANY
  | SECTION_CONSTANT (constant : string_t)
  | SECTION_GLOB (glob : glob_t)
  deriving DecidableEq

/-- The test `sect.type == SECTION_ANY`. -/
def section_t.isAny : section_t → Bool
  | .SECTION_ANY => true
  | _ => false

/-- The bit set `class_e`. -/
abbrev class_e := Nat

def CLASS_FILE : class_e := 1
def CLASS_DIR : class_e := 2
def CLASS_ANY : class_e := 3

/-- A parsed pattern `pattern_t`; `len` is the length of `sects` (the
capacity of the array is not modelled). -/
structure pattern_t where
  sects : List section_t := []
  anti : Bool := false
  cls : class_e := 0
  start : string_t := []
  printstart : string_t := []
  order : Nat := 0
  deriving DecidableEq

/-- The field `len` of a pattern. -/
def pattern_t.len (p : pattern_t) : Nat := p.sects.length

/-! ## Name-level matching -/

mutual
/-- Function `glob_match`: the entry checks of the function, then its `while(true)` loop. -/
def glob_match (glob : string_t) (lit : List Bool) (text : string_t) : Bool :=
  if glob.length = 0 then text.length == 0
  else if text.length = 0 then string_eq glob STAR && (lit.head? == some false)
  else glob_match_loop glob lit text
termination_by (glob.length, text.length, 1)
decreasing_by all_goals simp [Prod.lex_def]

/-- The loop of `glob_match` at the head of an iteration; the arguments are
what `g`, `l` and `t` point at, so `ig == glob.len` reads "the rest of the
glob is empty" and `it == text.len` reads "the rest of the text is empty".
The loop head is only reached with all three non-empty. -/
def glob_match_loop : string_t → List Bool → string_t → Bool
  | g :: gs, l :: ls, t :: ts =>
    if l || g == '?' then
      -- literal matches, or a '?' wildcard
      if g != t && l then false
      else if gs.length = 0 then ts.length == 0
      else if ts.length = 0 then
        gs.length == 1 && gs.head? == some '*' && (ls.head? == some false)
      else glob_match_loop gs ls ts
    else
      -- otherwise, *g == '*'
      if gs.length = 0 then true
      else if glob_match gs ls (t :: ts) then true
      else if ts.length = 0 then false
      else glob_match_loop (g :: gs) (l :: ls) ts
  | _, _, _ => false
termination_by glob _ text => (glob.length, text.length, 0)
decreasing_by all_goals simp [Prod.lex_def]
end

/-- Function `section_matches`: does one section accept one name. -/
def section_matches (sect : section_t) (text : string_t) : Bool :=
  match sect with
  | .SECTION_CONSTANT constant => string_eq constant text
  | .SECTION_ANY => true
  | .SECTION_GLOB glob =>
    match glob.opt with
    | .OPT_ANY => true
    | .OPT_PREFIX => string_startswith text glob.text
    | .OPT_SUFFIX => string_endswith text glob.text
    | .OPT_CONTAINS => string_contains text glob.text
    | .OPT_BOOKENDS =>
      decide (text.length ≥ glob.text.length + glob.text2.length)
        && string_startswith text glob.text
        && string_endswith text glob.text2
    | .OPT_NONE => glob_match glob.text glob.lit text

/-! ## The path-descent state machine -/

/-- The state `match_t` of one pattern in a traversal. -/
structure match_t where
  pattern : pattern_t
  matched : Nat
  deriving DecidableEq

/-- The bit set `match_flags_e`. -/
abbrev match_flags_e := Nat

def MATCH_NONE : match_flags_e := 0
def MATCH_0 : match_flags_e := 1
def MATCH_1 : match_flags_e := 2
def MATCH_2 : match_flags_e := 4
def MATCH_TERMINAL : match_flags_e := 8

/-- Function `match_text`: the transitions of one match on one directory entry.  `none`
is a read outside `pattern->sects`. -/
def match_text (m : match_t) (text : string_t) (cls : class_e) : Option match_flags_e := do
  let sect ← m.pattern.sects[m.matched]?
  let classmatch : Bool := (cls &&& m.pattern.cls) != 0
  let isdir : Bool := cls == CLASS_DIR
  let remains := m.pattern.len - m.matched
  -- x case
  if !section_matches sect text then return MATCH_NONE
  if sect.isAny then
    if remains == 1 then
      -- ** case
      return MATCH_0 ||| (MATCH_TERMINAL * classmatch.toNat)
    let next ← m.pattern.sects[m.matched + 1]?
    if !section_matches next text then
      -- **/x case
      return MATCH_0
    if remains == 2 then
      -- **/a case
      return MATCH_0 ||| (MATCH_TERMINAL * classmatch.toNat)
    let nextnext ← m.pattern.sects[m.matched + 2]?
    if nextnext.isAny then
      if remains == 3 then
        -- **/a/** case
        return MATCH_2 ||| (MATCH_TERMINAL * classmatch.toNat * isdir.toNat)
      -- **/a/**/x case
      return MATCH_2
    -- **/a/x case
    return MATCH_0 ||| MATCH_2
  if remains == 1 then
    -- a case
    return MATCH_TERMINAL * classmatch.toNat
  if remains == 2 then
    let next ← m.pattern.sects[m.matched + 1]?
    if next.isAny then
      -- a/** case
      return MATCH_1 ||| (MATCH_TERMINAL * classmatch.toNat * isdir.toNat)
  -- a/x, a/**/x
  return MATCH_1

end Findglob


namespace Findglob

/-! ## The transition table of the specification -/

/-- The four action flags of the specification. -/
inductive action
  | MATCH_0
  | MATCH_1
  | MATCH_2
  | TERMINAL
  deriving DecidableEq

/-- The bit of `match_flags_e` that stands for an action flag. -/
def action.bit : action → match_flags_e
  | .MATCH_0 => Findglob.MATCH_0
  | .MATCH_1 => Findglob.MATCH_1
  | .MATCH_2 => Findglob.MATCH_2
  | .TERMINAL => Findglob.MATCH_TERMINAL

/-- The value of `match_flags_e` that stands for a set of action flags. -/
def flags_of (s : List action) : match_flags_e :=
  s.foldr (fun a acc => a.bit ||| acc) 0

/-- The test `flags & FLAG` of the source. -/
def has_flag (flags : match_flags_e) (a : action) : Bool :=
  (flags &&& a.bit) != 0

/-- The class test `c ∈ pattern.class` of the specification. -/
def class_mem (c pc : class_e) : Bool := (c &&& pc) != 0

/-- The set that holds `TERMINAL` iff the condition holds. -/
def terminal_iff (b : Bool) : List action := if b then [action.TERMINAL] else []

/-- Does the section at an index, when there is one, accept the name. -/
def sect_accepts (s : Option section_t) (name : string_t) : Bool :=
  match s with
  | some sect => section_matches sect name
  | none => false

/-- The decision procedure of the specification for a match `(pattern, k)`
and a directory entry `name` of class `c`, clause by clause. -/
def match_text_spec (p : pattern_t) (k : Nat) (name : string_t) (c : class_e) : List action :=
  let remains := p.sects.length - k
  let classmatch := class_mem c p.cls
  let isdir : Bool := c == CLASS_DIR
  let sec := p.sects[k]?
  let next := p.sects[k + 1]?
  let next2 := p.sects[k + 2]?
  -- 1.
  if !sect_accepts sec name then []
  -- 2.
  else if sec = some .SECTION_ANY then
    if remains = 1 then action.MATCH_0 :: terminal_iff classmatch
    else if !sect_accepts next name then [action.MATCH_0]
    else if remains = 2 then action.MATCH_0 :: terminal_iff classmatch
    else if next2 = some .SECTION_ANY then
      if remains = 3 then action.MATCH_2 :: terminal_iff (classmatch && isdir)
      else [action.MATCH_2]
    else [action.MATCH_0, action.MATCH_2]
  -- 3.
  else
    if remains = 1 then terminal_iff classmatch
    else if remains = 2 ∧ next = some .SECTION_ANY then
      action.MATCH_1 :: terminal_iff (classmatch && isdir)
    else [action.MATCH_1]

end Findglob


namespace Findglob

/-! ## process_dir -/

/-- Function `match_minus`: the match with `n` more sections consumed; `none` is
the `exit(1)` of the "array overflow" check. -/
def match_minus (m : match_t) (n : Nat) : Option match_t :=
  if m.matched + n ≥ m.pattern.len then none
  else some { pattern := m.pattern, matched := m.matched + n }

/-- The three outputs of `process_dir`. -/
structure process_dir_out where
  newmatches : List match_t
  isintermediate : Bool
  isterminal : Bool
  deriving DecidableEq

/-- One of the three `if(flags & MATCH_n)` blocks of `process_dir`. -/
def process_dir_add (m : match_t) (flags : match_flags_e) (bit : match_flags_e) (n : Nat)
    (out : process_dir_out) : Option process_dir_out :=
  if (flags &&& bit) != 0 then do
    let m' ← match_minus m n
    pure { out with
      newmatches := out.newmatches ++ [m'],
      isintermediate := if !m.pattern.anti then true else out.isintermediate }
  else pure out

/-- The loop of `process_dir` over `parent_matches`, from the member the loop
index points at; `none` is an exit or a read outside an array. -/
def process_dir_loop (name : string_t) : List match_t → process_dir_out → Option process_dir_out
  | [], out => some out
  | m :: rest, out => do
    let anti := m.pattern.anti
    let flags ← match_text m name CLASS_DIR
    if (flags &&& MATCH_TERMINAL) != 0 && anti then
      -- terminal antipatterns means we stop trying to match anything
      some out
    else do
      let out := if (flags &&& MATCH_TERMINAL) != 0 then { out with isterminal := true } else out
      let out ← process_dir_add m flags MATCH_0 0 out
      let out ← process_dir_add m flags MATCH_1 1 out
      let out ← process_dir_add m flags MATCH_2 2 out
      process_dir_loop name rest out

/-- Function `process_dir`: the transitions of every member of `parent_matches` on the
directory `name`, appended to `newmatches`. -/
def process_dir (name : string_t) (parent_matches : List match_t) (newmatches : List match_t) :
    Option process_dir_out :=
  process_dir_loop name parent_matches
    { newmatches := newmatches, isintermediate := false, isterminal := false }

/-! ## Stepping the state machine along a path -/

/-- The states that a match at `k` moves to under a set of flags: `MATCH_n`
leads to `k + n`. -/
def step_targets (flags : match_flags_e) (k : Nat) : List Nat :=
  (if has_flag flags .MATCH_0 then [k] else [])
    ++ (if has_flag flags .MATCH_1 then [k + 1] else [])
    ++ (if has_flag flags .MATCH_2 then [k + 2] else [])

/-- The states that the state `k` of a pattern moves to on a directory name. -/
def state_succ (p : pattern_t) (name : string_t) (k : Nat) : List Nat :=
  match match_text ⟨p, k⟩ name CLASS_DIR with
  | some flags => step_targets flags k
  | none => []

/-- One step of every live state of a pattern on a directory name. -/
def live_step (p : pattern_t) (ks : List Nat) (name : string_t) : List Nat :=
  ks.flatMap (state_succ p name)

/-- The live states of a pattern after descending through a sequence of
directories, starting from the single state `k = 0`. -/
def live_states (p : pattern_t) (dirs : List string_t) : List Nat :=
  dirs.foldl (live_step p) [0]

/-- Some live state yields `TERMINAL` on the entry `(name, cls)`. -/
def some_terminal (p : pattern_t) (ks : List Nat) (name : string_t) (cls : class_e) : Prop :=
  ∃ k ∈ ks, ∃ flags, match_text ⟨p, k⟩ name cls = some flags ∧ has_flag flags .TERMINAL = true

/-- The calls of `process_dir` along a sequence of directory names, each on the
output match set of the one before. -/
def descend_from (out : process_dir_out) : List string_t → Option process_dir_out
  | [] => some out
  | d :: rest => do
    let out' ← process_dir d out.newmatches []
    descend_from out' rest

/-- Repeated `process_dir`, from the single match `(p, 0)`, over a sequence of
directory names: the output of the last call (for the empty sequence, the
initial match set, with no flag set). -/
def descend (p : pattern_t) (dirs : List string_t) : Option process_dir_out :=
  descend_from { newmatches := [⟨p, 0⟩], isintermediate := false, isterminal := false } dirs

/-! ## What it means for a path to satisfy a pattern -/

/-- No two consecutive `ANY` sections. -/
def no_consecutive_any (sects : List section_t) : Prop :=
  ∀ i, sects[i]? = some .SECTION_ANY → sects[i + 1]? ≠ some .SECTION_ANY

/-- The components that one section may be aligned with: `**` covers zero or
more components, every other section exactly one component that it matches. -/
def covers (sect : section_t) (piece : List string_t) : Prop :=
  match sect with
  | .SECTION_ANY => True
  | s => ∃ c, piece = [c] ∧ section_matches s c = true

/-- The component sequence `comps`, whose last entry has class `cls`, fully
satisfies the pattern: the components are aligned with the sections, the class
is in the class of the pattern, and a final `**` that covers no component
wants a directory. -/
def fully_satisfies (p : pattern_t) (comps : List string_t) (cls : class_e) : Prop :=
  ∃ pieces : List (List string_t),
    List.Forall₂ covers p.sects pieces ∧ pieces.flatten = comps ∧
    class_mem cls p.cls = true ∧
    (p.sects.getLast? = some .SECTION_ANY → pieces.getLast? = some [] → cls = CLASS_DIR)

/-- A recursive reading of the alignment of components with sections, over the
sections that are still to be matched; `d` says that the last entry is a
directory. -/
def aligns (d : Prop) : List section_t → List string_t → Prop
  | [], comps => comps = []
  | x :: rest, comps =>
    match x with
    | .SECTION_ANY =>
      if rest = [] then comps ≠ [] ∨ d
      else ∃ n, aligns d rest (comps.drop n)
    | _ => ∃ c tl, comps = c :: tl ∧ section_matches x c = true ∧ aligns d rest tl

/-- The action flag `MATCH_n`, for `n` up to 2. -/
def match_n : Nat → action
  | 0 => .MATCH_0
  | 1 => .MATCH_1
  | _ => .MATCH_2

end Findglob


namespace Findglob

/-! ## What a glob means -/

/-- The piece of a name that one glob position accepts: a literal position
exactly its own byte, a non-literal `?` exactly one byte, a non-literal `*`
any run of bytes. -/
def piece_ok (g : Char) (l : Bool) (piece : string_t) : Prop :=
  if l then piece = [g]
  else if g = '?' then ∃ b, piece = [b]
  else g = '*'

/-- The name splits into consecutive pieces, one per glob position, each
accepted by its position; both ends are aligned because the pieces make up the
whole name. -/
def glob_split (glob : string_t) (lit : List Bool) (name : string_t) : Prop :=
  ∃ pieces : List string_t,
    List.Forall₂ (fun (gl : Char × Bool) piece => piece_ok gl.1 gl.2 piece) (glob.zip lit) pieces
      ∧ pieces.flatten = name

/-- Position `i` of the glob is a wildcard `*`. -/
def wild_star (glob : string_t) (lit : List Bool) (i : Nat) : Prop :=
  glob[i]? = some '*' ∧ lit[i]? = some false

/-- The globs that the matcher is meant for: one flag per position, every
non-literal position holds `*` or `?`, and no two adjacent positions are both a
wildcard `*`. -/
def glob_wf (glob : string_t) (lit : List Bool) : Prop :=
  lit.length = glob.length
    ∧ (∀ (i : Nat) (g : Char), glob[i]? = some g → lit[i]? = some false → g = '*' ∨ g = '?')
    ∧ (∀ i : Nat, ¬ (wild_star glob lit i ∧ wild_star glob lit (i + 1)))

/-- A recursive reading of `glob_split`, position by position. -/
def gsplit : string_t → List Bool → string_t → Prop
  | [], _, name => name = []
  | _ :: _, [], _ => False
  | g :: gs, l :: ls, name =>
    if l then ∃ tl, name = g :: tl ∧ gsplit gs ls tl
    else if g = '?' then ∃ b tl, name = b :: tl ∧ gsplit gs ls tl
    else if g = '*' then ∃ n, gsplit gs ls (name.drop n)
    else False

/-- No byte of the string is NUL. -/
def nul_free (s : string_t) : Prop := ∀ c ∈ s, c.toNat ≠ 0

end Findglob


namespace Findglob

/-! ## section_parse -/

/-- The local variables of the loop of `section_parse`; `len` is the length
of `buf`, whose first `len` entries (and those of `lit`) are the ones written
so far. -/
structure parse_state where
  buf : List Char := []
  lit : List Bool := []
  escaped : Bool := false
  nstar : Nat := 0
  star1 : Nat := 0
  star2 : Nat := 0
  nquestion : Nat := 0
  deriving DecidableEq

/-- The variable `len` of `section_parse`. -/
def parse_state.len (st : parse_state) : Nat := st.buf.length

/-- The loop `for(size_t i = 0; i < s.len; i++)` of `section_parse` from the byte
the index points at; `none` is one of its `return 1`. `PATH_MAX` is
`sizeof(buf)`. -/
def section_parse_loop (PATH_MAX : Nat) : List Char → parse_state → Option parse_state
  | [], st => some st
  | c :: rest, st =>
    if st.len = PATH_MAX then none
    else if c = '\\' then
      if !st.escaped then section_parse_loop PATH_MAX rest { st with escaped := true }
      else section_parse_loop PATH_MAX rest
        { st with buf := st.buf ++ ['\\'], lit := st.lit ++ [true], escaped := false }
    else if c = '*' then
      let nstar := if !st.escaped then st.nstar + 1 else st.nstar
      let star1 := if !st.escaped && nstar == 1 then st.len else st.star1
      let star2 := if !st.escaped && nstar == 2 then st.len else st.star2
      -- disallow duplicate '*'s
      if !st.escaped && st.len != 0 && st.buf.getLast? == some '*'
          && st.lit.getLast? == some false then none
      else section_parse_loop PATH_MAX rest
        { st with buf := st.buf ++ ['*'], lit := st.lit ++ [st.escaped], escaped := false,
                  nstar := nstar, star1 := star1, star2 := star2 }
    else if c = '?' then
      section_parse_loop PATH_MAX rest
        { st with buf := st.buf ++ ['?'], lit := st.lit ++ [st.escaped], escaped := false,
                  nquestion := st.nquestion + (!st.escaped).toNat }
    else
      if st.escaped then none
      else section_parse_loop PATH_MAX rest
        { st with buf := st.buf ++ [c], lit := st.lit ++ [true], escaped := false }

/-- The part of `section_parse` after its loop: the section that the buffers
and counters give. -/
def section_classify (st : parse_state) : section_t :=
  let len := st.len
  let out := st.buf
  -- the bare * case
  if len = 1 ∧ st.nstar = 1 then .SECTION_GLOB { opt := .OPT_ANY }
  else if st.nquestion = 0 ∧ st.nstar = 0 then .SECTION_CONSTANT out
  else if st.nquestion = 0 ∧ st.nstar = 1 ∧ st.star1 = 0 then
    .SECTION_GLOB { opt := .OPT_SUFFIX, text := (out.drop 1).take (len - 1) }
  else if st.nquestion = 0 ∧ st.nstar = 1 ∧ st.star1 = len - 1 then
    .SECTION_GLOB { opt := .OPT_PREFIX, text := out.take (len - 1) }
  else if st.nquestion = 0 ∧ st.nstar = 1 then
    .SECTION_GLOB { opt := .OPT_BOOKENDS, text := out.take st.star1,
                    text2 := (out.drop (st.star1 + 1)).take (len - st.star1 - 1) }
  else if st.nquestion = 0 ∧ st.nstar = 2 ∧ st.star1 = 0 ∧ st.star2 = len - 1 then
    .SECTION_GLOB { opt := .OPT_CONTAINS, text := (out.drop 1).take (len - 2) }
  else .SECTION_GLOB { opt := .OPT_NONE, text := out, lit := st.lit.take len }

/-- Function `section_parse`: the section that one path segment of a pattern stands
for; `none` is a non-zero return. -/
def section_parse (PATH_MAX : Nat) (s : string_t) : Option section_t :=
  if s.length = 0 then none
  else if string_eq s DOUBLESTAR then some .SECTION_ANY
  else
    match section_parse_loop PATH_MAX s {} with
    | none => none
    | some st => if st.escaped then none else some (section_classify st)

/-! ## The grammar of a section, as the specification gives it -/

/-- The tokens of the grammar of a section. -/
inductive token
  | esc (c : Char)  -- a backslash followed by a byte
  | plain (c : Char)  -- a byte that no backslash precedes
  | dangling  -- a backslash at the very end
  deriving DecidableEq

/-- The tokens of a section string, left to right. -/
def tokenize : string_t → List token
  | [] => []
  | c :: rest =>
    if c = '\\' then
      match rest with
      | [] => [.dangling]
      | x :: rest' => .esc x :: tokenize rest'
    else .plain c :: tokenize rest

/-- The unescaped byte of a token and whether it is a literal: `\\`, `\*` and
`\?` are the literal bytes, an unescaped `*` or `?` is a wildcard, every other
unescaped byte is a literal; a trailing backslash and any other escape are
errors. -/
def token.unescape : token → Option (Char × Bool)
  | .esc c => if c = '\\' ∨ c = '*' ∨ c = '?' then some (c, true) else none
  | .plain c => some (c, !(c == '*' || c == '?'))
  | .dangling => none

/-- The unescaped bytes of a run of tokens; `none` when a token is an error. -/
def unescape_tokens : List token → Option (List (Char × Bool))
  | [] => some []
  | t :: ts =>
    match t.unescape, unescape_tokens ts with
    | some x, some ul => some (x :: ul)
    | _, _ => none

/-- The unescaped text of a section string, each byte with its literal flag;
`none` when a token is an error. -/
def unescape (s : string_t) : Option (List (Char × Bool)) :=
  unescape_tokens (tokenize s)

/-- The positions of the unescaped `*` in an unescaped text. -/
def wild_stars (ul : List (Char × Bool)) : List Nat :=
  (List.range ul.length).filter fun i => ul[i]? == some ('*', false)

/-- The number of unescaped `?` in an unescaped text. -/
def wild_questions (ul : List (Char × Bool)) : Nat :=
  ul.count ('?', false)

/-- The classification of a section string with unescaped text `ul`, as the
specification lists it. -/
def classify_spec (s : string_t) (ul : List (Char × Bool)) : section_t :=
  let u := ul.map Prod.fst
  if s = ['*', '*'] then .SECTION_ANY
  else if ul = [('*', false)] then .SECTION_GLOB { opt := .OPT_ANY }
  else if wild_questions ul = 0 then
    match wild_stars ul with
    | [] => .SECTION_CONSTANT u
    | [i] =>
      if i = 0 then .SECTION_GLOB { opt := .OPT_SUFFIX, text := u.drop 1 }
      else if i = u.length - 1 then .SECTION_GLOB { opt := .OPT_PREFIX, text := u.dropLast }
      else .SECTION_GLOB { opt := .OPT_BOOKENDS, text := u.take i, text2 := u.drop (i + 1) }
    | [i, j] =>
      if i = 0 ∧ j = u.length - 1 then
        .SECTION_GLOB { opt := .OPT_CONTAINS, text := (u.drop 1).dropLast }
      else .SECTION_GLOB { opt := .OPT_NONE, text := u, lit := ul.map Prod.snd }
    | _ => .SECTION_GLOB { opt := .OPT_NONE, text := u, lit := ul.map Prod.snd }
  else .SECTION_GLOB { opt := .OPT_NONE, text := u, lit := ul.map Prod.snd }

/-- Two consecutive unescaped `*` in a section string. -/
def consecutive_stars (s : string_t) : Prop :=
  ∃ i : Nat, (tokenize s)[i]? = some (.plain '*') ∧ (tokenize s)[i + 1]? = some (.plain '*')

/-- An escape `\X` for `X` other than `\`, `*` and `?`. -/
def illegal_escape (s : string_t) : Prop :=
  ∃ x : Char, token.esc x ∈ tokenize s ∧ x ≠ '\\' ∧ x ≠ '*' ∧ x ≠ '?'

/-- The section string ends in an unescaped backslash. -/
def trailing_backslash (s : string_t) : Prop :=
  token.dangling ∈ tokenize s

/-- The length of the unescaped text of a section string: one byte per token. -/
def unescaped_length (s : string_t) : Nat := (tokenize s).length

/-! ## Auxiliary readings of the parser loop -/

/-- The loop state after one more unescaped byte was written. -/
def parse_state.push (st : parse_state) (x : Char × Bool) : parse_state :=
  { buf := st.buf ++ [x.1], lit := st.lit ++ [x.2], escaped := false,
    nstar := if x = ('*', false) then st.nstar + 1 else st.nstar,
    star1 := if x = ('*', false) ∧ st.nstar + 1 = 1 then st.len else st.star1,
    star2 := if x = ('*', false) ∧ st.nstar + 1 = 2 then st.len else st.star2,
    nquestion := if x = ('?', false) then st.nquestion + 1 else st.nquestion }

/-- The loop state after a run of unescaped bytes was written. -/
def parse_state.extend (st : parse_state) (ul : List (Char × Bool)) : parse_state :=
  ul.foldl parse_state.push st

/-- The byte to write is an unescaped `*` right after an unescaped `*`. -/
def star_clash (st : parse_state) (x : Char × Bool) : Prop :=
  x = ('*', false) ∧ st.buf.getLast? = some '*' ∧ st.lit.getLast? = some false

instance (st : parse_state) (x : Char × Bool) : Decidable (star_clash st x) := by
  unfold star_clash
  infer_instance

/-- The loop accepts the run of unescaped bytes from the state: the buffer is
not full when a byte arrives and no byte is an unescaped `*` right after one. -/
def loop_accepts (PATH_MAX : Nat) : parse_state → List (Char × Bool) → Prop
  | _, [] => True
  | st, x :: ul => st.len ≠ PATH_MAX ∧ ¬ star_clash st x ∧ loop_accepts PATH_MAX (st.push x) ul

/-- Two neighbours of an unescaped text are not both an unescaped `*`. -/
def not_both_stars (a b : Char × Bool) : Prop := ¬ (a = ('*', false) ∧ b = ('*', false))

end Findglob


namespace Findglob

/-! ## Path utilities (Unix build) -/

/-- The loop of `_get_leading_sep`, from the byte at `out + skip`. -/
def _get_leading_sep_loop : List Char → Nat → Nat
  | [], out => out
  | c :: rest, out => if !_is_sep c then out else _get_leading_sep_loop rest (out + 1)

/-- Function `_get_leading_sep`: the number of separators at `path[skip ..]`. -/
def _get_leading_sep (path : string_t) (skip : Nat) : Nat :=
  _get_leading_sep_loop (path.drop skip) 0

/-- The loop of `_get_leading_nonsep`, from the byte at `out + skip`. -/
def _get_leading_nonsep_loop : List Char → Nat → Nat
  | [], out => out
  | c :: rest, out => if _is_sep c then out else _get_leading_nonsep_loop rest (out + 1)

/-- Function `_get_leading_nonsep`: the number of non-separators at `path[skip ..]`. -/
def _get_leading_nonsep (path : string_t) (skip : Nat) : Nat :=
  _get_leading_nonsep_loop (path.drop skip) 0

/-- Function `_get_volume` on Unix: a leading `/` is the volume. -/
def _get_volume (path : string_t) : Nat :=
  match path with
  | c :: _ => if _is_sep c then 1 else 0
  | [] => 0

/-- The test `_is_sep(s.text[s.len - 1])` on a string that is not empty. -/
def last_is_sep (s : string_t) : Bool :=
  match s.getLast? with
  | some c => _is_sep c
  | none => false

/-- Function `path_extend`: appends `text` to `base`, with a `/` between them when
`base` is not empty and does not end in one; the return value is non-zero, and
`base` unmodified, when the result and its NUL would not fit in `cap` bytes. -/
def path_extend (base text : string_t) (cap : Nat) : Int × string_t :=
  let needsep : Bool := base.length != 0 && !last_is_sep base
  if base.length + needsep.toNat + text.length + 1 > cap then (-1, base)
  else (0, (if needsep then base ++ ['/'] else base) ++ text)

/-- The iterator `path_iter_t`. -/
structure path_iter_t where
  base : string_t := []
  nskip : Nat := 0
  ok : Bool := false
  isvol : Bool := false
  i : Nat := 0
  deriving DecidableEq

/-- Function `path_next`: the next segment and the iterator after the call. -/
def path_next (it : path_iter_t) : string_t × path_iter_t :=
  let it := { it with isvol := false }
  if !it.ok then ([], it)
  else
    -- increment i once anytime we are iterating for a second time
    let it := if it.nskip != 0 then { it with i := it.i + 1 } else it
    if it.nskip ≥ it.base.length then ([], { it with ok := false })
    else
      let nvolume := _get_volume it.base
      if it.nskip = 0 ∧ nvolume ≠ 0 then
        -- the nvolume becomes the first part of the path
        (string_sub it.base 0 nvolume, { it with nskip := nvolume, isvol := true })
      else
        -- skip leading sep
        let nsep := _get_leading_sep it.base it.nskip
        let nsect := _get_leading_nonsep it.base (it.nskip + nsep)
        if nsect = 0 then
          -- no more sections to read
          ([], { it with nskip := it.base.length, ok := false })
        else
          -- new section
          let start := it.nskip + nsep
          let stop := start + nsect
          (string_sub it.base start stop, { it with nskip := stop })

/-- Function `path_iter`: starts an iteration and returns its first segment. -/
def path_iter (base : string_t) : string_t × path_iter_t :=
  path_next { base := base, nskip := 0, ok := true, i := 0 }

/-- What is left to iterate: decreases with every call of `path_next` on an
iterator that is `ok`. -/
def path_iter_t.fuel (it : path_iter_t) : Nat :=
  if it.ok then it.base.length - it.nskip + 1 else 0

/-! ## pattern_parse -/

/-- The loop of `extended_syntax_parse` from index `i`, over the bytes from that
index on: the number of consumed bytes (`0` on error) with the flags. -/
def extended_syntax_parse_loop : List Char → Nat → Bool → class_e → Nat × Bool × class_e
  | [], _, anti, cls => (0, anti, cls)
  | c :: rest, i, anti, cls =>
    if c = ':' then
      -- no type flags implies all type flags
      (i + 1, anti, if cls = 0 then CLASS_ANY else cls)
    else if c = '!' then
      if anti then (0, anti, cls)
      else extended_syntax_parse_loop rest (i + 1) true cls
    else if c = 'd' then
      if (cls &&& CLASS_DIR) != 0 then (0, anti, cls)
      else extended_syntax_parse_loop rest (i + 1) anti (cls ||| CLASS_DIR)
    else if c = 'f' then
      if (cls &&& CLASS_FILE) != 0 then (0, anti, cls)
      else extended_syntax_parse_loop rest (i + 1) anti (cls ||| CLASS_FILE)
    else (0, anti, cls)

/-- Function `extended_syntax_parse`: the length of the `:flags:` header (`0` on
error) with the values left in `*anti` and `*class`. -/
def extended_syntax_parse (path : string_t) : Nat × Bool × class_e :=
  extended_syntax_parse_loop (path.drop 1) 1 false 0

/-- The loop `for(sub = path_iter(&it, path); it.ok; sub = path_next(&it))` of
`pattern_parse`, from the test of `it.ok`; `none` is the non-zero return of
`section_parse`. -/
def pattern_parse_sections (PATH_MAX : Nat) (sub : string_t) (it : path_iter_t)
    (sects : List section_t) : Option (List section_t) :=
  if h : it.ok = true then
    if it.isvol then
      -- volume case: wildcards not allowed
      pattern_parse_sections PATH_MAX (path_next it).1 (path_next it).2
        (sects ++ [.SECTION_CONSTANT sub])
    else
      -- normal case
      match section_parse PATH_MAX sub with
      | none => none
      | some sect =>
        pattern_parse_sections PATH_MAX (path_next it).1 (path_next it).2 (sects ++ [sect])
  else some sects
termination_by it.fuel
decreasing_by
  all_goals
    unfold path_next path_iter_t.fuel
    simp only [h]
    split_ifs <;> simp_all <;>
      first
      | omega
      | (refine ⟨List.length_pos.2 (by assumption), ?_⟩; omega)

/-- The loop of `pattern_parse` that looks for two consecutive `**`: `true` when
it finds them. -/
def consecutive_any_loop : List section_t → Bool → Bool
  | [], _ => false
  | sect :: rest, was =>
    let is := sect.isAny
    if was && is then true else consecutive_any_loop rest is

/-- The loop of `pattern_parse` that builds `start` from the leading `CONSTANT`
sections; `none` is "pattern start is too long". -/
def pattern_start_loop (PATH_MAX : Nat) : List section_t → string_t → Option string_t
  | [], start => some start
  | sect :: rest, start =>
    match sect with
    | .SECTION_CONSTANT constant =>
      if (path_extend start constant PATH_MAX).1 ≠ 0 then none
      else pattern_start_loop PATH_MAX rest (path_extend start constant PATH_MAX).2
    | _ => some start

/-- The first part of `pattern_parse`, up to `pattern->class = class`: the text
that is split into sections, with the `anti` flag and the class; `none` is a
non-zero return.  The argument is the C string without its NUL. -/
def pattern_parse_header (text : string_t) : Option (string_t × Bool × class_e) :=
  let path := text
  if path.length = 0 ∨ (path.length = 1 ∧ path.head? = some '!') then none
  else if path.head? = some ':' then
    -- handle extended syntax patterns
    let ext := extended_syntax_parse path
    if ext.1 = 0 then none
    else some (string_sub path ext.1 path.length, ext.2.1, ext.2.2)
  else
    -- handle shorthand antipattern notation (leading '!')
    let anti : Bool := path.head? = some '!'
    let path := if anti then string_sub path 1 path.length else path
    -- handle shorthand dir-only notation (trailing '/')
    let cls := if last_is_sep path then CLASS_DIR else CLASS_ANY
    some (path, anti, cls)

/-- Function `pattern_parse`: the pattern that a pattern string stands for; `none` is
a non-zero return.  The argument is the C string without its NUL. -/
def pattern_parse (PATH_MAX : Nat) (text : string_t) : Option pattern_t :=
  match pattern_parse_header text with
  | none => none
  | some (path, anti, cls) =>
    match pattern_parse_sections PATH_MAX (path_iter path).1 (path_iter path).2 [] with
    | none => none
    | some sects =>
      -- check that there are no consecutive **'s
      if consecutive_any_loop sects false then none
      else
        -- build the start
        match pattern_start_loop PATH_MAX sects [] with
        | none => none
        | some start =>
          some { sects := sects, anti := anti, cls := cls, start := start,
                 printstart := start, order := 0 }

end Findglob


namespace Findglob

/-! ## What pattern_parse is specified to compute -/

/-- The segments that `path_iter` and repeated `path_next` yield while the
iterator is `ok`, each with its `isvol` flag, from the segment `sub` that the
last call returned. -/
def path_iter_collect (sub : string_t) (it : path_iter_t) : List (string_t × Bool) :=
  if h : it.ok = true then
    (sub, it.isvol) :: path_iter_collect (path_next it).1 (path_next it).2
  else []
termination_by it.fuel
decreasing_by
  all_goals
    unfold path_next path_iter_t.fuel
    simp only [h]
    split_ifs <;> simp_all <;>
      first
      | omega
      | (refine ⟨List.length_pos.2 (by assumption), ?_⟩; omega)

/-- The segments of a path, as `path_iter` yields them. -/
def path_segments (path : string_t) : List (string_t × Bool) :=
  path_iter_collect (path_iter path).1 (path_iter path).2

/-- The section that a segment stands for: a volume verbatim as a `CONSTANT`,
every other segment through `section_parse`. -/
def segment_section (PATH_MAX : Nat) (seg : string_t × Bool) (sect : section_t) : Prop :=
  if seg.2 then sect = .SECTION_CONSTANT seg.1 else section_parse PATH_MAX seg.1 = some sect

/-- The part of a pattern string that is split into sections: what follows the
`!` shorthand, or the header `:flags:` of the extended form. -/
def pattern_payload (text : string_t) : string_t :=
  if text.head? = some ':' then ((text.drop 1).dropWhile (fun c => c != ':')).drop 1
  else if text.head? = some '!' then text.drop 1
  else text

/-- The pattern string has two consecutive `**` sections. -/
def consecutive_doublestar (text : string_t) : Prop :=
  ∃ i : Nat, ((path_segments (pattern_payload text)).map Prod.fst)[i]? = some ['*', '*']
    ∧ ((path_segments (pattern_payload text)).map Prod.fst)[i + 1]? = some ['*', '*']

/-- The texts of the leading `CONSTANT` sections, up to the first section that
is not one. -/
def leading_constants : List section_t → List string_t
  | .SECTION_CONSTANT constant :: rest => constant :: leading_constants rest
  | _ => []

/-- The leading constants joined with a single `/`, without one more `/` after a
leading volume `/`. -/
def start_spec (consts : List string_t) : string_t :=
  match consts with
  | ['/'] :: rest => '/' :: ['/'].intercalate rest
  | _ => ['/'].intercalate consts

/-- A segment as the path iterator gives it: a volume is `/`, any other segment
is a non-empty run without `/`. -/
def good_segment (seg : string_t × Bool) : Prop :=
  if seg.2 then seg.1 = ['/'] else seg.1 ≠ [] ∧ '/' ∉ seg.1

end Findglob


namespace Findglob

/-! ## What extended_syntax_parse is specified to compute -/

/-- The flag characters of `:flags:payload`: what stands between the first `:`
and the next one, or all that follows the first `:` when there is no other. -/
def ext_flags (rest : string_t) : string_t :=
  rest.takeWhile (fun c => c != ':')

/-- The flags are legal: a closing `:` exists, and the flags are drawn from `!`,
`f` and `d` with no character repeated. -/
def ext_legal (rest : string_t) : Prop :=
  ':' ∈ rest ∧ (∀ c ∈ ext_flags rest, c = '!' ∨ c = 'f' ∨ c = 'd') ∧ (ext_flags rest).Nodup

/-- The flags are legal after the flags `seen` have been read: as `ext_legal`,
and no flag repeats one of `seen`. -/
def ext_legal_from (seen rest : string_t) : Prop :=
  ':' ∈ rest ∧ (∀ c ∈ ext_flags rest, (c = '!' ∨ c = 'f' ∨ c = 'd') ∧ c ∉ seen)
    ∧ (ext_flags rest).Nodup

/-- The union of `FILE` for `f` and `DIR` for `d`. -/
def ext_bits (flags : string_t) : class_e :=
  (if 'f' ∈ flags then CLASS_FILE else 0) ||| (if 'd' ∈ flags then CLASS_DIR else 0)

/-- The class that the flags stand for: `FILE|DIR` when neither `f` nor `d` appears. -/
def ext_class (flags : string_t) : class_e :=
  if 'f' ∉ flags ∧ 'd' ∉ flags then CLASS_FILE ||| CLASS_DIR else ext_bits flags

/-! ## path_startswith -/

/-- The test `_is_sep(s.text[i])`, for an index inside the string. -/
def byte_is_sep (s : string_t) (i : Nat) : Bool :=
  match s[i]? with
  | some c => _is_sep c
  | none => false

/-- Function `path_startswith`: is aware that `a/b/c` starts with `a/b` but `a/bb`
does not.  The byte `a.text[b.len]` is read only when `a` is longer than `b`. -/
def path_startswith (a b : string_t) : Bool :=
  if !string_startswith a b then false
  else
    -- since a startswith b, a.len => b.len
    (b.length != 0 && last_is_sep b) || a.length == b.length || byte_is_sep a b.length

/-! ## What the path iterator is specified to yield -/

/-- The maximal non-empty runs of bytes other than `/`, from left to right. -/
def nonsep_runs (p : string_t) : List string_t :=
  (p.splitOn '/').filter (fun r => !r.isEmpty)

/-- The specified segments of a path: the one-byte volume `/` first when the
path begins with `/`, then the runs of bytes other than `/`. -/
def segments_spec (p : string_t) : List (string_t × Bool) :=
  (if p.head? = some '/' then [(['/'], true)] else [])
    ++ (nonsep_runs p).map (fun r => (r, false))

end Findglob


namespace Findglob

/-! ## What path_extend is specified to do -/

/-- The number of `/` that joins `base` and the text appended to it: one if
`base` is non-empty and does not end in `/`, none otherwise. -/
def join_count (base : string_t) : Nat :=
  if base ≠ [] ∧ base.getLast? ≠ some '/' then 1 else 0

/-! ## The root planner -/

/-- The capacity `MAX_PATTERNS` of the array `members` of a `roots_iter_t`. -/
def MAX_PATTERNS : Nat := 256

/-- The iterator `roots_iter_t`: `members` holds `members[0 .. nmembers)`, and
`patterns` the array `patterns[0 .. npatterns)`. -/
structure roots_iter_t where
  patterns : List pattern_t
  members : List Nat := []
  i : Nat := 0
  deriving DecidableEq

/-- The statement `it->members[it->nmembers++] = j`; `none` is a write past the
end of `members`. -/
def members_add (members : List Nat) (j : Nat) : Option (List Nat) :=
  if members.length ≥ MAX_PATTERNS then none else some (members ++ [j])

/-- The inner loop `for(j = 0; j < npatterns; j++)` of `roots_next` for the
candidate `i` with start `a`, from the pattern at index `j`: the value of `isroot`
after the loop, with the members. -/
def roots_next_inner (a : string_t) (i : Nat) :
    List pattern_t → Nat → List Nat → Option (Bool × List Nat)
  | [], _, members => some (true, members)
  | pj :: rest, j, members =>
    -- skip self-comparisons
    if i = j then roots_next_inner a i rest (j + 1) members
    -- all antipatterns are always included in each search
    else if pj.anti then
      match members_add members j with
      | none => none
      | some members => roots_next_inner a i rest (j + 1) members
    -- first check if a is still possibly a root
    else if path_startswith a pj.start && (a.length != pj.start.length || decide (i > j)) then
      some (false, members)
    -- otherwise check if b is a child of a
    else if path_startswith pj.start a then
      match members_add members j with
      | none => none
      | some members => roots_next_inner a i rest (j + 1) members
    else roots_next_inner a i rest (j + 1) members

/-- The outer loop `for(i = it->i; i < npatterns; i++)` of `roots_next`, from the
pattern at index `i`: the return value with the iterator. -/
def roots_next_outer : List pattern_t → Nat → roots_iter_t → Option (Bool × roots_iter_t)
  | [], _, it => some (false, it)
  | p :: rest, i, it =>
    -- antipatterns are never roots
    if p.anti then roots_next_outer rest (i + 1) it
    else
      -- a is always the first member of the group
      match roots_next_inner p.start i it.patterns 0 [i] with
      | none => none
      | some (isroot, members) =>
        if !isroot then roots_next_outer rest (i + 1) { it with members := members }
        else some (true, { it with members := members, i := i + 1 })

/-- Function `roots_next`: returns false when it finishes; `none` is a write past
the end of `members`. -/
def roots_next (it : roots_iter_t) : Option (Bool × roots_iter_t) :=
  roots_next_outer (it.patterns.drop it.i) it.i it

/-- Function `roots_iter`. -/
def roots_iter (patterns : List pattern_t) : Option (Bool × roots_iter_t) :=
  roots_next { patterns := patterns, members := [], i := 0 }

/-- The loop `for(ok = roots_iter(..); ok; ok = roots_next(&it))` of `findglob`,
from the test of `ok`: the member lists of the groups it visits.  Every round
moves `it.i` forward, so the loop body runs at most `npatterns` times and the
fuel `npatterns + 1` is never used up. -/
def roots_loop : Nat → Option (Bool × roots_iter_t) → Option (List (List Nat))
  | _, none => none
  | 0, some _ => none
  | fuel + 1, some (ok, it) =>
    if !ok then some []
    else
      match roots_loop fuel (roots_next it) with
      | none => none
      | some groups => some (it.members :: groups)

/-- The groups that the roots iterator enumerates for a pattern list. -/
def roots_groups (patterns : List pattern_t) : Option (List (List Nat)) :=
  roots_loop (patterns.length + 1) (roots_iter patterns)

/-! ## What the root planner is specified to compute -/

/-- Pattern `j` does not keep the pattern `i`, with start `a`, from being a root:
it is `i` itself or an anti-pattern, or `a` does not `path_startswith` the start of
`j`, or the two starts are equal and `i < j`. -/
def root_ok (a : string_t) (i : Nat) (jp : Nat × pattern_t) : Bool :=
  jp.1 == i || jp.2.anti || !path_startswith a jp.2.start
    || (a == jp.2.start && decide (i < jp.1))

/-- Pattern `j` is a member, other than the root, of the group of the root `i`
with start `a`: an anti-pattern, or a pattern whose start `path_startswith` `a`. -/
def member_ok (a : string_t) (i : Nat) (jp : Nat × pattern_t) : Bool :=
  jp.1 != i && (jp.2.anti || path_startswith jp.2.start a)

/-- Pattern `i` is a root: it is not an anti-pattern, and for every other
non-anti pattern `j` either the start of `i` does not `path_startswith` the start
of `j`, or the two starts are equal and `i < j`. -/
def root_spec (ps : List pattern_t) (i : Nat) : Bool :=
  match ps[i]? with
  | none => false
  | some p => !p.anti && ps.enum.all (root_ok p.start i)

/-- The members of the group of root `i`: `i` first, then, by increasing index,
every anti-pattern and every other pattern whose start `path_startswith` the start
of `i`. -/
def group_spec (ps : List pattern_t) (i : Nat) : List Nat :=
  match ps[i]? with
  | none => []
  | some p => i :: (ps.enum.filter (member_ok p.start i)).map Prod.fst

/-- The roots of a pattern list, by increasing index. -/
def roots_spec (ps : List pattern_t) : List Nat :=
  (List.range ps.length).filter (root_spec ps)

end Findglob


namespace Findglob

/-! ## The properties of the root planner -/

/-- Pattern `i` is a root, in the words of the specification: it is not an
anti-pattern, and for every other non-anti pattern `j` either the start of `i` does
not `path_startswith` the start of `j`, or the two starts are equal and `i < j`. -/
def is_root (ps : List pattern_t) (i : Nat) : Prop :=
  ∃ p, ps[i]? = some p ∧ p.anti = false
    ∧ ∀ (j : Nat) (pj : pattern_t), ps[j]? = some pj → j ≠ i → pj.anti = false →
        path_startswith p.start pj.start = false ∨ (p.start = pj.start ∧ i < j)

/-- Pattern `j` is a member of the group of root `i`, in the words of the
specification: `i` itself, an anti-pattern, or a pattern whose start
`path_startswith` the start of `i`. -/
def is_member (ps : List pattern_t) (i j : Nat) : Prop :=
  j = i ∨ ∃ p pj, ps[i]? = some p ∧ ps[j]? = some pj
    ∧ (pj.anti = true ∨ path_startswith pj.start p.start = true)

/-- The groups partition the patterns that are not anti-patterns: each of these
is in the member list of exactly one group of the sequence, and starts with the
start of the root (the first member) of its group. -/
def groups_partition_patterns (ps : List pattern_t) (gs : List (List Nat)) : Prop :=
  (∀ (j : Nat) (pj : pattern_t), ps[j]? = some pj → pj.anti = false →
      ∃! n : Nat, ∃ g : List Nat, gs[n]? = some g ∧ j ∈ g)
    ∧ (∀ g ∈ gs, ∃ (r : Nat) (pr : pattern_t), g.head? = some r ∧ ps[r]? = some pr
        ∧ pr.anti = false
        ∧ ∀ (j : Nat) (pj : pattern_t), j ∈ g → ps[j]? = some pj → pj.anti = false →
            path_startswith pj.start pr.start = true)

/-- The groups are those of the roots: an index is the first member of a group
iff it is a root, and the members of a group are those the specification lists. -/
def groups_of_roots (ps : List pattern_t) (gs : List (List Nat)) : Prop :=
  (∀ i : Nat, (∃ g ∈ gs, g.head? = some i) ↔ is_root ps i)
    ∧ (∀ g ∈ gs, ∀ i : Nat, g.head? = some i → ∀ j : Nat, j ∈ g ↔ is_member ps i j)

/-- A pattern as `pattern_parse` and `pattern_rewrite_start` leave it for an
absolute path of one component `/name`, with the given `anti` flag. -/
def one_component_pattern (name : string_t) (anti : Bool) : pattern_t :=
  { sects := [.SECTION_CONSTANT ['/'], .SECTION_CONSTANT name], anti := anti, cls := CLASS_ANY,
    start := '/' :: name, printstart := '/' :: name, order := 0 }

/-- A list of 257 patterns: the pattern `/a` and 256 times the anti-pattern `!/b`. -/
def patterns_one_and_antis : List pattern_t :=
  one_component_pattern ['a'] false :: List.replicate 256 (one_component_pattern ['b'] true)

/-- A list of 257 patterns: 257 times the pattern `/a`. -/
def patterns_all_same : List pattern_t :=
  List.replicate 257 (one_component_pattern ['a'] false)

end Findglob


namespace Findglob

/-! ## qsort_patterns -/

/-- Function `_qsort_pattern_cmp`: anti-patterns first, then by `order`. -/
def _qsort_pattern_cmp (a b : pattern_t) : Int :=
  if a.anti != b.anti then
    -- return 1 if b is anti
    2 * (b.anti.toNat : Int) - 1
  else
    -- return 1 if b came after
    1 - 2 * ((decide (a.order < b.order)).toNat : Int)

/-- The loop of `qsort_patterns` that assigns `patterns[i].order = i`, from index `i`. -/
def assign_order : List pattern_t → Nat → List pattern_t
  | [], _ => []
  | p :: rest, i => { p with order := i } :: assign_order rest (i + 1)

/-- What the C standard promises of the libc `qsort`: the array holds the
elements it held before, and every element compares less than or equal to the
element after it. -/
def qsort_post {α : Type} (cmp : α → α → Int) (input output : List α) : Prop :=
  output.Perm input ∧ output.Chain' (fun x y => cmp x y ≤ 0)

/-- Function `qsort_patterns`: `out` is an array that a call may leave, whatever
the sorting algorithm of `qsort` is. -/
def qsort_patterns (patterns out : List pattern_t) : Prop :=
  qsort_post _qsort_pattern_cmp (assign_order patterns 0) out

/-- The order that `_qsort_pattern_cmp` stands for: an anti-pattern before a
pattern that is not one, and otherwise the lower original ordinal first. -/
def pattern_before (a b : pattern_t) : Prop :=
  (a.anti = true ∧ b.anti = false) ∨ (a.anti = b.anti ∧ a.order < b.order)

/-- The patterns with their original ordinals, the anti-patterns first, each of
the two blocks in the original order. -/
def anti_first (patterns : List pattern_t) : List pattern_t :=
  (patterns.enum.map (fun ip => { ip.2 with order := ip.1 })).filter (fun p => p.anti)
    ++ (patterns.enum.map (fun ip => { ip.2 with order := ip.1 })).filter (fun p => !p.anti)

/-! ## What process_dir is specified to compute -/

/-- The flags of `match_text` for a member of the match array on the directory
`name` (no flag when the member is outside its pattern). -/
def member_flags (name : string_t) (m : match_t) : match_flags_e :=
  (match_text m name CLASS_DIR).getD MATCH_NONE

/-- The entries that a member adds to the output array: `(pattern, k + 0)` if
`MATCH_0`, then `(pattern, k + 1)` if `MATCH_1`, then `(pattern, k + 2)` if `MATCH_2`. -/
def member_entries (name : string_t) (m : match_t) : List match_t :=
  (step_targets (member_flags name m) m.matched).map (fun k => ⟨m.pattern, k⟩)

/-- The specified output of `process_dir` on a match array in which no
anti-pattern member yields `TERMINAL`. -/
def process_dir_spec (name : string_t) (parent_matches newmatches : List match_t) :
    process_dir_out :=
  { newmatches := newmatches ++ parent_matches.flatMap (member_entries name),
    isintermediate := parent_matches.any (fun m =>
      !m.pattern.anti && (has_flag (member_flags name m) .MATCH_0
        || has_flag (member_flags name m) .MATCH_1 || has_flag (member_flags name m) .MATCH_2)),
    isterminal := parent_matches.any (fun m =>
      !m.pattern.anti && has_flag (member_flags name m) .TERMINAL) }

end Findglob


namespace Findglob

/-! ## keep_dir and keep_file -/

/-- The loop of `keep_dir` over the match array; `none` is a read of
`sects[matched]` outside the sections of a pattern. -/
def keep_dir_loop (name : string_t) : List match_t → Option Bool
  | [] => some false
  | m :: rest =>
    match m.pattern.sects[m.matched]? with
    | none => none
    | some sect =>
      if m.pattern.anti then keep_dir_loop name rest
      else if !section_matches sect name then keep_dir_loop name rest
      else some true

/-- Function `keep_dir` on the match array `ms`: filters directories which are
obvious non-matches. -/
def keep_dir (ms : List match_t) (name : string_t) : Option Bool :=
  -- always ignore "." or ".."
  if string_eq name DOT then some false
  else if string_eq name DOTDOT then some false
  else keep_dir_loop name ms

/-- Function `keep_file`: filters regular files which are not `TERMINAL` matches. -/
def keep_file : List match_t → string_t → Option Bool
  | [], _ => some false
  | m :: rest, name =>
    match match_text m name CLASS_FILE with
    | none => none
    | some flags =>
      if (flags &&& MATCH_TERMINAL) == 0 then keep_file rest name
      else some (!m.pattern.anti)

/-! ## What keep_dir, keep_file and process_dir are specified to do -/

/-- In the match array the anti-pattern members precede the members that are
not anti-patterns. -/
def antis_first (ms : List match_t) : Prop :=
  ms.Pairwise (fun a b => b.pattern.anti = true → a.pattern.anti = true)

/-- The current section `sections[matched]` of a member matches the name. -/
def current_section_matches (name : string_t) (m : match_t) : Bool :=
  match m.pattern.sects[m.matched]? with
  | some sect => section_matches sect name
  | none => false

/-- The member yields `TERMINAL` on the entry `(name, cls)`. -/
def yields_terminal (name : string_t) (cls : class_e) (m : match_t) : Bool :=
  match match_text m name cls with
  | some flags => has_flag flags .TERMINAL
  | none => false

end Findglob


namespace Findglob

/-! ## pattern_rewrite_start -/

/-- The zeroed section `(section_t){0}` that `section_free` leaves: the tag 0 is
`SECTION_ANY`. -/
def section_zero : section_t := .SECTION_ANY

/-- The dummy section `(section_t){.type=SECTION_GLOB}`, with a zeroed glob. -/
def section_dummy : section_t := .SECTION_GLOB { opt := .OPT_ANY }

/-- The loops `for(path_iter(&it, s); it.ok; path_next(&it)) n++` that count the
segments of a path. -/
def path_count (s : string_t) : Nat := (path_segments s).length

/-- The libc `memmove(&buf[dst], &buf[src], n * sizeof(*buf))` inside one array. -/
def memmove_sects (buf : List section_t) (dst src n : Nat) : List section_t :=
  buf.take dst ++ (buf.drop src).take n ++ buf.drop (dst + n)

/-- The loop of `pattern_rewrite_start` that writes `sects[it.i]` for every segment
of the new start, from the test of `it.ok`; `none` is a write outside the array. -/
def rewrite_write_loop (sub : string_t) (it : path_iter_t) (buf : List section_t) :
    Option (List section_t) :=
  if h : it.ok = true then
    if it.i < buf.length then
      rewrite_write_loop (path_next it).1 (path_next it).2 (buf.set it.i (.SECTION_CONSTANT sub))
    else none
  else some buf
termination_by it.fuel
decreasing_by
  all_goals
    unfold path_next path_iter_t.fuel
    simp only [h]
    split_ifs <;> simp_all <;>
      first
      | omega
      | (refine ⟨List.length_pos.2 (by assumption), ?_⟩; omega)

/-- Function `pattern_rewrite_start`: replaces the original start, including its
`CONSTANT` sections, with a new one; the return value with the pattern after the
call, `none` for an access outside the section array. -/
def pattern_rewrite_start (PATH_MAX : Nat) (pattern : pattern_t) (new : string_t) :
    Option (Int × pattern_t) :=
  -- count sections of the old start
  let nold := path_count pattern.start
  -- free the sections we're removing
  if nold > pattern.len then none
  else
    let buf := List.replicate nold section_zero ++ pattern.sects.drop nold
    -- count sections of the new start
    let nnew := path_count new
    -- count sections which were not in start
    let nextra := pattern.len - nold
    -- append some dummy section_t's to allocate any space needed
    let buf := buf ++ List.replicate (nnew - nold) section_dummy
    -- fix the length
    let len := nnew + nextra
    -- shift the section_t's we're keeping to the left or right
    let buf := if nold ≠ nnew then memmove_sects buf nnew nold nextra else buf
    -- add in new sections
    match rewrite_write_loop (path_iter new).1 (path_iter new).2 (buf.take len) with
    | none => none
    | some sects =>
      -- replace pattern->start
      if new.length + 1 > PATH_MAX then some (1, { pattern with sects := sects })
      else some (0, { pattern with sects := sects, start := new })

end Findglob


namespace Findglob

/-! ## sprint_pattern (test.c) -/

/-- The libc `sprintf(bufp, "%.*s", (int)s.len, s.text)`: the bytes of `s` up to a
NUL byte. -/
def sprintf_s (s : string_t) : string_t :=
  s.takeWhile (fun c => c.toNat != 0)

/-- The loop of `sprint_pattern` over the bytes of an `OPT_NONE` glob, with the
flags `lit`; `none` is a read outside `lit`. -/
def sprint_glob_none : List Char → List Bool → Option string_t
  | [], _ => some []
  | _ :: _, [] => none
  | c :: cs, t :: ts =>
    match sprint_glob_none cs ts with
    | none => none
    | some rest =>
      if (c == '*' || c == '?' || c == '\\') && t then some ('\\' :: c :: rest)
      else some (c :: rest)

/-- The `switch(sect.type)` of `sprint_pattern`: what it prints for one section. -/
def sprint_section (sect : section_t) : Option string_t :=
  match sect with
  | .SECTION_ANY => some ['*', '*']
  | .SECTION_CONSTANT constant => some (sprintf_s constant)
  | .SECTION_GLOB glob =>
    match glob.opt with
    | .OPT_ANY => some ['*']
    | .OPT_PREFIX => some (sprintf_s glob.text ++ ['*'])
    | .OPT_SUFFIX => some ('*' :: sprintf_s glob.text)
    | .OPT_BOOKENDS => some (sprintf_s glob.text ++ '*' :: sprintf_s glob.text2)
    | .OPT_CONTAINS => some ('*' :: sprintf_s glob.text ++ ['*'])
    | .OPT_NONE => sprint_glob_none glob.text glob.lit

/-- The loop of `sprint_pattern` from the section at `i + skip`, with the bytes
printed so far; `none` is a read outside an array (of `*(bufp-1)` before the
buffer, or of `lit`). -/
def sprint_loop : List section_t → Nat → string_t → Option string_t
  | [], _, buf => some buf
  | sect :: rest, i, buf =>
    let joined : Option string_t :=
      if i > 1 then some (buf ++ ['/'])
      else if i = 1 then
        match buf.getLast? with
        | none => none
        | some c => if !_is_sep c then some (buf ++ ['/']) else some buf
      else some buf
    match joined, sprint_section sect with
    | some buf1, some s => sprint_loop rest (i + 1) (buf1 ++ s)
    | _, _ => none

/-- Function `sprint_pattern` of the tests: the text of a pattern from its section
`skip` on. -/
def sprint_pattern (pattern : pattern_t) (skip : Nat) : Option string_t :=
  sprint_loop (pattern.sects.drop skip) 0 (if pattern.anti then ['!'] else [])

end Findglob


namespace Findglob

/-! ## findglob_main -/

/-- What `findglob_main` does that can be seen from outside, in order: its
messages, its calls of `realpath` and of `findglob`. -/
inductive main_event
  | usage
  | help
  | version
  | parse_error
  | only_antipatterns (nantipatterns : Nat)
  | realpath (oldname : string_t)
  | realpath_failed
  | rewrite_failed
  | findglob (patterns : List pattern_t)
  deriving DecidableEq

/-- The loop of `findglob_main` that parses `argv[1 ..]`: the patterns with the
number of anti-patterns among them, or `none` when `pattern_parse` returns
non-zero. -/
def main_parse_loop (PATH_MAX : Nat) :
    List string_t → List pattern_t → Nat → Option (List pattern_t × Nat)
  | [], patterns, nantipatterns => some (patterns, nantipatterns)
  | arg :: rest, patterns, nantipatterns =>
    match pattern_parse PATH_MAX arg with
    | none => none
    | some p =>
      main_parse_loop PATH_MAX rest (patterns ++ [p])
        (if p.anti then nantipatterns + 1 else nantipatterns)

/-- The loop of `findglob_main` that rewrites all startpoints as absolute paths,
on the Unix build, with the events so far: the patterns after it, or the return
value of the failure; `none` is an access outside a section array. -/
def main_rewrite_loop (PATH_MAX : Nat) (realpath : string_t → Option string_t) :
    List pattern_t → List pattern_t → List main_event
      → Option (Except (Int × List main_event) (List pattern_t × List main_event))
  | [], done, events => some (.ok (done, events))
  | p :: rest, done, events =>
    -- handle the empty-start case
    let oldname := if p.start.length ≠ 0 then p.start else ['.']
    match realpath oldname with
    | none => some (.error (1, events ++ [.realpath oldname, .realpath_failed]))
    | some real =>
      match pattern_rewrite_start PATH_MAX p real with
      | none => none
      | some (ret, p') =>
        if ret ≠ 0 then some (.error (ret, events ++ [.realpath oldname, .rewrite_failed]))
        else main_rewrite_loop PATH_MAX realpath rest (done ++ [p'])
          (events ++ [.realpath oldname])

/-- Function `findglob_main`: the return value and the events, for the argument
vector `argv` (with `argv[0]`); the arguments are C strings, so `strcmp` is equality,
and `realpath` and `findglob` are taken as given. -/
def findglob_main (PATH_MAX : Nat) (realpath : string_t → Option string_t)
    (findglob : List pattern_t → Int) (argv : List string_t) : Option (Int × List main_event) :=
  match argv with
  | [] => some (1, [.usage])
  | [_] => some (1, [.usage])
  | _ :: arg1 :: args =>
    if arg1 = ['-', '-', 'h', 'e', 'l', 'p'] ∨ arg1 = ['-', 'h'] then some (0, [.help])
    else if arg1 = ['-', '-', 'v', 'e', 'r', 's', 'i', 'o', 'n'] then some (0, [.version])
    else
      match main_parse_loop PATH_MAX (arg1 :: args) [] 0 with
      | none => some (1, [.parse_error])
      | some (patterns, nantipatterns) =>
        if patterns.length = nantipatterns then
          some (1, [.only_antipatterns nantipatterns])
        else
          match main_rewrite_loop PATH_MAX realpath patterns [] [] with
          | none => none
          | some (.error res) => some res
          | some (.ok (patterns, events)) =>
            some (findglob patterns, events ++ [.findglob patterns])

end Findglob


namespace Findglob

/-! ## The directory walk: string_cmp, qsort_files, _findglob (Unix build) -/

/-- Function `string_cmp`: `strncmp` over the shorter of the two lengths, and at a
tie the shorter string first. -/
def string_cmp (a b : string_t) : Int :=
  let n := if a.length < b.length then a.length else b.length
  let cmp := strncmp a b n
  if cmp ≠ 0 then cmp
  else if a.length < b.length then -1
  else if b.length < a.length then 1 else 0

/-- The struct `file_t`. -/
structure file_t where
  name : string_t
  isdir : Bool
  deriving DecidableEq

/-- Function `_qsort_files_cmp`. -/
def _qsort_files_cmp (a b : file_t) : Int := string_cmp a.name b.name

/-- Function `qsort_files`: `out` is an array that the call of `qsort` may leave. -/
def qsort_files (files out : List file_t) : Prop :=
  qsort_post _qsort_files_cmp files out

/-- What `_findglob` reads of a `struct dirent`: the bytes of `d_name`, and whether
`d_type` is `DT_DIR`. -/
structure dirent where
  d_name : List Char
  isdir : Bool
  deriving DecidableEq

/-- Function `string_dup`: the bytes of a C string before its terminator
(`strlen`, then `memcpy`). -/
def string_dup (c : List Char) : string_t :=
  c.takeWhile (fun x => x.toNat != 0)

/-- The C string that starts a buffer holding `buf` and then a NUL byte: what
`opendir` and the conversion `%s` read of it. -/
def c_str (buf : string_t) : List Char :=
  buf.takeWhile (fun x => x.toNat != 0)

/-- The `readdir` loop of `_findglob`: the files kept so far and the largest
length of their names; `none` is a read outside a section array in `keep_dir` or
`keep_file`. -/
def findglob_scan (parent_matches : List match_t) :
    List dirent → List file_t → Nat → Option (List file_t × Nat)
  | [], files, maxlen => some (files, maxlen)
  | entry :: rest, files, maxlen =>
    let isdir := entry.isdir
    let name := string_dup entry.d_name
    match (if isdir then keep_dir parent_matches name else keep_file parent_matches name) with
    | none => none
    | some false => findglob_scan parent_matches rest files maxlen
    | some true =>
      findglob_scan parent_matches rest (files ++ [{ name := name, isdir := isdir }])
        (if name.length > maxlen then name.length else maxlen)

/-- The joining `/` of `_findglob`: added to a path that is not empty and does not
end in a separator. -/
def findglob_join (path : string_t) : string_t :=
  match path.getLast? with
  | none => path
  | some c => if !_is_sep c then path ++ ['/'] else path

/-- The loop of `_findglob` over the sorted files, with the recursive call as
`recurse`, the return value, the capacity of the path buffer and the lines
printed so far; `path` is what the buffer holds in front of the name.  The
result is `none` for a `memcpy` beyond the buffer, and for an exit or a read
outside an array in `process_dir` or below. -/
def findglob_loop
    (recurse : string_t → Nat → List match_t → Option (Int × Nat × List string_t))
    (path : string_t) (parent_matches : List match_t) :
    List file_t → Int → Nat → List string_t → Option (Int × Nat × List string_t)
  | [], retval, pathcap, out => some (retval, pathcap, out)
  | file :: rest, retval, pathcap, out =>
    if path.length + file.name.length + 1 > pathcap then none
    else
      let sub := path ++ file.name
      if !file.isdir then
        -- regular files: already known to be TERMINAL, just print
        findglob_loop recurse path parent_matches rest retval pathcap (out ++ [c_str sub])
      else
        match process_dir file.name parent_matches [] with
        | none => none
        | some r =>
          let out := if r.isterminal then out ++ [c_str sub] else out
          if r.isintermediate then
            match recurse sub pathcap r.newmatches with
            | none => none
            | some (ret, pathcap, lines) =>
              -- finish the loop but remember the error
              findglob_loop recurse path parent_matches rest (if ret ≠ 0 then ret else retval)
                pathcap (out ++ lines)
          else findglob_loop recurse path parent_matches rest retval pathcap out

/-- Function `_findglob` on the Unix build, over a file system that `opendir`
stands for: the entries that `readdir` returns for a path, in its order, or `none`
when the directory cannot be opened.  `qsort` is the libc sort behind
`qsort_files`.  The arguments are the bytes `path[0 .. pathlen]` of the path
buffer, its capacity `pathcap`, and the parent matches; the result is the return
value, the capacity at return and the lines printed, without their newlines.  The
first argument bounds the depth of the recursion.  The result is `none` when the
bound is reached, when the buffer does not hold the path and its terminator, and
where the loops are `none`.  Allocation failures are not modelled. -/
def _findglob (opendir : List Char → Option (List dirent))
    (qsort : List file_t → List file_t) :
    Nat → string_t → Nat → List match_t → Option (Int × Nat × List string_t)
  | 0, _, _, _ => none
  | fuel + 1, path, pathcap, parent_matches =>
    if path.length + 1 > pathcap then none
    else
      -- empty-start case: open '.' instead
      let openpath := if path.length ≠ 0 then c_str path else ['.']
      match opendir openpath with
      | none => some (1, pathcap, [])
      | some entries =>
        match findglob_scan parent_matches entries [] 0 with
        | none => none
        | some (files, maxlen) =>
          -- sort for deterministic output
          let files := qsort files
          let pathcap := if path.length + maxlen + 2 > pathcap then pathcap * 2 else pathcap
          findglob_loop (_findglob opendir qsort fuel) (findglob_join path) parent_matches
            files 0 pathcap []

/-! ### The vocabulary of the claims on the walk -/

/-- The byte-lexicographic order: at the first position where two strings differ
the smaller byte decides, and a string comes before every string that continues
it. -/
def byte_lex (a b : string_t) : Prop :=
  List.Lex (fun x y : Char => x.toNat < y.toNat) a b

instance (a b : string_t) : Decidable (byte_lex a b) := by
  unfold byte_lex
  exact inferInstance

/-- An insertion sort of the files by the byte-lexicographic order of their
names: one algorithm that the libc `qsort` may run. -/
def insertion_qsort (files : List file_t) : List file_t :=
  List.insertionSort (fun a b : file_t => ¬ byte_lex b.name a.name) files

/-- The filter of the `readdir` loop on one entry: `keep_dir` for a directory,
`keep_file` for anything else. -/
def keep_entry (parent_matches : List match_t) (e : dirent) : Option Bool :=
  if e.isdir then keep_dir parent_matches (string_dup e.d_name)
  else keep_file parent_matches (string_dup e.d_name)

/-- The file that the `readdir` loop makes of an entry. -/
def entry_file (e : dirent) : file_t :=
  { name := string_dup e.d_name, isdir := e.isdir }

/-- The name of a directory entry: not empty, without a `/`, and at most 255
bytes long (`d_name` is an array of 256 bytes). -/
def entry_name_ok (n : string_t) : Prop :=
  n ≠ [] ∧ '/' ∉ n ∧ n.length ≤ 255

/-- What the file system promises of the entries of one directory: their names
are proper names, and no two entries share a name. -/
def readdir_ok (entries : List dirent) : Prop :=
  (entries.map (fun e => string_dup e.d_name)).Nodup
    ∧ ∀ e ∈ entries, entry_name_ok (string_dup e.d_name)

/-- The directories that the walk opens from `path` with the matches `ms` are at
most `depth` deep.  The walk descends only into an entry that is a directory, that
`keep_dir` keeps (never `.` or `..`) and that `process_dir` finds intermediate, and
it descends with the matches that `process_dir` returns. -/
def tree_within (opendir : List Char → Option (List dirent)) :
    Nat → string_t → List match_t → Prop
  | 0, _, _ => False
  | depth + 1, path, ms =>
    ∀ entries, opendir (if path.length ≠ 0 then c_str path else ['.']) = some entries →
      ∀ e ∈ entries, e.isdir = true → keep_dir ms (string_dup e.d_name) = some true →
        ∀ r, process_dir (string_dup e.d_name) ms [] = some r → r.isintermediate = true →
          tree_within opendir depth (findglob_join path ++ string_dup e.d_name) r.newmatches

/-- The tree of directories below `path` is at most `depth` deep, where the
entries `.` and `..` of a directory do not count. -/
def dirs_within (opendir : List Char → Option (List dirent)) : Nat → string_t → Prop
  | 0, _ => False
  | depth + 1, path =>
    ∀ entries, opendir (if path.length ≠ 0 then c_str path else ['.']) = some entries →
      ∀ e ∈ entries, e.isdir = true →
        string_dup e.d_name ≠ ['.'] → string_dup e.d_name ≠ ['.', '.'] →
          dirs_within opendir depth (findglob_join path ++ string_dup e.d_name)

/-- The rank of a byte in the order of the walk: the separator ranks below every
other byte of a path. -/
def path_key (c : Char) : Nat := if c = '/' then 0 else c.toNat

/-- The order of the walk on paths: byte-lexicographic, with the separator below
every other byte, so that a directory comes before every path below it, and these
before the siblings that follow the directory. -/
def path_before (x y : string_t) : Prop :=
  List.Lex (fun m n : Nat => m < n) (x.map path_key) (y.map path_key)

/-- Two file systems that differ only in the order in which `readdir` returns
the entries of a directory. -/
def same_entries (opendir opendir2 : List Char → Option (List dirent)) : Prop :=
  ∀ path, match opendir path, opendir2 path with
    | some entries, some entries2 => entries2.Perm entries
    | none, none => True
    | _, _ => False

/-- A file system for the examples: every directory lists `.` and `..`; the
directory `.` holds the file `b` and the directory `a`, returned in this order, and
`a` holds the file `c`. -/
def example_tree (path : List Char) : Option (List dirent) :=
  if path = ['.'] then
    some [{ d_name := ['.'], isdir := true }, { d_name := ['.', '.'], isdir := true },
      { d_name := ['b'], isdir := false }, { d_name := ['a'], isdir := true }]
  else if path = ['a'] then
    some [{ d_name := ['.'], isdir := true }, { d_name := ['.', '.'], isdir := true },
      { d_name := ['c'], isdir := false }]
  else none

end Findglob


namespace Findglob

/-! ## matches_init -/

/-- The loop of `matches_init` over the segments of the start that are left, with
the match array and the `_isterminal` of the last round: the array that the
function returns, `*isterminal`, and whether the print start was printed.  `none`
is an exit or a read outside an array in `process_dir`. -/
def matches_init_loop :
    List (string_t × Bool) → List match_t → Bool → Option (List match_t × Bool × Bool)
  | [], ms, _isterminal => some (ms, _isterminal, false)
  | (text, _) :: rest, ms, _ =>
    match process_dir text ms [] with
    | none => none
    | some r =>
      -- non-intermediate means we don't continue
      if !r.isintermediate then
        -- if this was a perfect match, print before exiting
        some ([], false, r.isterminal && rest.isEmpty)
      else matches_init_loop rest r.newmatches r.isterminal

/-- Function `matches_init`: walks through the components of the start and creates
the starting set of matches; the segments are those that `path_iter` yields. -/
def matches_init (patterns : List pattern_t) (start : string_t) :
    Option (List match_t × Bool × Bool) :=
  matches_init_loop (path_segments start) (patterns.map (fun p => ⟨p, 0⟩)) false

/-- The match array that the walk holds below a chain of directories: the output
array of `process_dir` on each name in turn. -/
def process_dir_path : List match_t → List string_t → Option (List match_t)
  | ms, [] => some ms
  | ms, name :: rest =>
    match process_dir name ms [] with
    | none => none
    | some r => process_dir_path r.newmatches rest

end Findglob


namespace Findglob

/-! ## string_icmp and string_ieq -/

/-- The libc `tolower` on a byte, in the C locale. -/
def tolower (c : Char) : Nat :=
  if 65 ≤ c.toNat ∧ c.toNat ≤ 90 then c.toNat + 32 else c.toNat

/-- The libc `strncasecmp` in the C locale: `strncmp` on the lower-case bytes.  Every
caller passes `n` no larger than both lengths. -/
def strncasecmp : List Char → List Char → Nat → Int
  | _, _, 0 => 0
  | a :: as, b :: bs, n + 1 =>
    if tolower a ≠ tolower b then (tolower a : Int) - (tolower b : Int)
    else if a.toNat = 0 then 0
    else strncasecmp as bs n
  | _, _, _ + 1 => 0

/-- Function `string_icmp` on the Unix build; the last line is
`return (int)(b.len > a.len);`. -/
def string_icmp (a b : string_t) : Int :=
  let n := if a.length < b.length then a.length else b.length
  let cmp := strncasecmp a b n
  if cmp ≠ 0 then cmp
  -- n-length substrings match, return -1 if a is shorter, 1 if b is shorter
  else if a.length < b.length then -1
  else if b.length > a.length then 1 else 0

/-- Function `string_ieq` on the Unix build. -/
def string_ieq (a b : string_t) : Bool :=
  a.length == b.length && strncasecmp a b a.length == 0

/-! ## The index and the volume flag of the path iterator -/

/-- The loop `for(sub = path_iter(&it, path); it.ok; sub = path_next(&it))`, from the
test of `it.ok`: what the body sees in each round (the segment, `it.isvol` and
`it.i`), and `it.i` after the loop. -/
def path_iter_trace (sub : string_t) (it : path_iter_t) : List (string_t × Bool × Nat) × Nat :=
  if h : it.ok = true then
    ((sub, it.isvol, it.i) :: (path_iter_trace (path_next it).1 (path_next it).2).1,
      (path_iter_trace (path_next it).1 (path_next it).2).2)
  else ([], it.i)
termination_by it.fuel
decreasing_by
  all_goals
    unfold path_next path_iter_t.fuel
    simp only [h]
    split_ifs <;> simp_all <;>
      first
      | omega
      | (refine ⟨List.length_pos.2 (by assumption), ?_⟩; omega)

/-! ## Absolute paths as realpath returns them -/

end Findglob

namespace Manifest

/-! ## The manifest tool: detect_endings -/

/-- The struct `string_t` of the manifest tool: `len` bytes at `text`. -/
abbrev string_t := List Char

/-- The loop of `detect_endings` over the bytes of the text that are left, with the
bytes `buffer[0 .. len]` written so far: these bytes when the loop is left. -/
def detect_endings_loop : List Char → List Char → List Char
  | [], buffer => buffer
  | c :: rest, buffer =>
    if c = '\r' ∨ c = '\n' then
      match buffer with
      | [] =>
        -- first \r or \n
        detect_endings_loop rest [c]
      | b0 :: _ =>
        if b0 = c then
          -- \r\r or \n\n
          buffer
        else
          -- mixed case, \r\n or \n\r
          buffer ++ [c]
    else if buffer.length ≠ 0 then
      -- single-character case, \r or \n
      buffer
    else detect_endings_loop rest buffer

/-- Function `detect_endings`: the line ending that the text uses, as the string
`buffer[0 .. len]`; a text without a line ending gives the one byte NUL. -/
def detect_endings (text : string_t) : string_t :=
  let buffer := detect_endings_loop text []
  if buffer.length ≠ 0 then buffer
  else
    -- we read the whole string and found no line endings
    [Char.ofNat 0]

end Manifest


namespace Findglob

theorem isAny_iff (s : section_t) : s.isAny = true ↔ s = .SECTION_ANY := by
  cases s <;> simp [section_t.isAny]

theorem getElem?_some_of_lt {α : Type} (l : List α) (k : Nat) (h : k < l.length) :
    ∃ x, l[k]? = some x := ⟨l[k], List.getElem?_eq_getElem h⟩

theorem section_matches_any (name : string_t) :
    section_matches .SECTION_ANY name = true := rfl

/-- The flags of `match_text` are those of the decision procedure, at every
index inside the pattern and for every class value. -/
theorem match_text_flags (p : pattern_t) (k : Nat) (name : string_t) (c : class_e)
    (hk : k < p.len) :
    match_text ⟨p, k⟩ name c = some (flags_of (match_text_spec p k name c)) := by
  unfold pattern_t.len at hk
  obtain ⟨sec, hsec⟩ := getElem?_some_of_lt p.sects k hk
  simp only [match_text, match_text_spec, class_mem, pattern_t.len, hsec]
  generalize ((c &&& p.cls) != 0) = cm
  generalize (c == CLASS_DIR) = isdir
  by_cases hm : section_matches sec name = true
  · by_cases hany : sec = .SECTION_ANY
    · subst hany
      by_cases hr1 : p.sects.length - k = 1
      · cases cm <;>
          simp [hr1, sect_accepts, section_t.isAny, section_matches_any,
            flags_of, terminal_iff, action.bit, MATCH_0, MATCH_TERMINAL]
      · obtain ⟨nx, hnx⟩ := getElem?_some_of_lt p.sects (k + 1) (by omega)
        by_cases hm1 : section_matches nx name = true
        · by_cases hr2 : p.sects.length - k = 2
          · cases cm <;>
              simp [hr1, hr2, hnx, hm1, sect_accepts, section_t.isAny, section_matches_any,
                flags_of, terminal_iff, action.bit, MATCH_0, MATCH_TERMINAL]
          · obtain ⟨nn, hnn⟩ := getElem?_some_of_lt p.sects (k + 2) (by omega)
            by_cases hnnany : nn = .SECTION_ANY
            · subst hnnany
              by_cases hr3 : p.sects.length - k = 3
              · cases cm <;> cases isdir <;>
                  simp [hr1, hr2, hr3, hnx, hnn, hm1, sect_accepts, section_t.isAny,
                    section_matches_any, flags_of, terminal_iff, action.bit, MATCH_2, MATCH_TERMINAL]
              · simp [hr1, hr2, hr3, hnx, hnn, hm1, sect_accepts, section_t.isAny,
                    section_matches_any, flags_of, terminal_iff, action.bit, MATCH_2, MATCH_TERMINAL]
            · have hnn2 : nn.isAny = false := by
                cases nn <;> simp_all [section_t.isAny]
              simp [hr1, hr2, hnx, hnn, hm1, hnn2, hnnany, sect_accepts, section_t.isAny,
                    section_matches_any, flags_of, terminal_iff, action.bit, MATCH_0, MATCH_2]
        · simp [hr1, hnx, hm1, sect_accepts, section_t.isAny, section_matches_any,
            flags_of, terminal_iff, action.bit, MATCH_0, MATCH_TERMINAL]
    · have hany2 : sec.isAny = false := by
        cases sec <;> simp_all [section_t.isAny]
      by_cases hr1 : p.sects.length - k = 1
      · cases cm <;>
          simp [hr1, hm, hany, hany2, sect_accepts, flags_of, terminal_iff, action.bit,
            MATCH_TERMINAL]
      · obtain ⟨nx, hnx⟩ := getElem?_some_of_lt p.sects (k + 1) (by omega)
        by_cases hr2 : p.sects.length - k = 2
        · by_cases hnxany : nx = .SECTION_ANY
          · subst hnxany
            cases cm <;> cases isdir <;>
              simp [hr1, hr2, hm, hany, hany2, hnx, sect_accepts, flags_of, terminal_iff,
                action.bit, section_t.isAny, MATCH_1, MATCH_TERMINAL]
          · have hnx2 : nx.isAny = false := by
              cases nx <;> simp_all [section_t.isAny]
            simp [hr1, hr2, hm, hany, hany2, hnx, hnx2, hnxany, sect_accepts, flags_of,
              terminal_iff, action.bit, MATCH_1]
        · simp [hr1, hr2, hm, hany, hany2, hnx, sect_accepts, flags_of,
              terminal_iff, action.bit, MATCH_1]
  · simp [hm, sect_accepts, flags_of, MATCH_NONE]

theorem nat_or_eq_zero (u v : Nat) : (u ||| v) = 0 ↔ u = 0 ∧ v = 0 := by
  constructor
  · intro h
    constructor <;> apply Nat.eq_of_testBit_eq <;> intro i <;>
      have := congrArg (fun n => Nat.testBit n i) h <;>
      simp [Nat.testBit_or] at this <;> simp [this]
  · rintro ⟨rfl, rfl⟩; rfl

theorem has_flag_or (x y : Nat) (a : action) :
    has_flag (x ||| y) a = (has_flag x a || has_flag y a) := by
  unfold has_flag
  rw [Nat.and_comm, Nat.and_or_distrib_left, Nat.and_comm, Nat.and_comm a.bit y]
  generalize x &&& a.bit = u
  generalize y &&& a.bit = v
  rw [Bool.eq_iff_iff]
  simp only [bne_iff_ne, ne_eq, Bool.or_eq_true, nat_or_eq_zero]
  tauto

theorem has_flag_bit (a b : action) : has_flag b.bit a = decide (a = b) := by
  cases a <;> cases b <;> decide

theorem has_flag_flags_of (l : List action) (a : action) :
    has_flag (flags_of l) a = true ↔ a ∈ l := by
  induction l with
  | nil => simp [flags_of, has_flag]
  | cons b l ih =>
    have : flags_of (b :: l) = b.bit ||| flags_of l := rfl
    rw [this, has_flag_or, Bool.or_eq_true, ih, has_flag_bit]
    simp


/-- C1: for every pattern, every `k < len(pattern)`, every name and every class
`c` (in particular `FILE` and `DIR`), `match_text((pattern, k), name, c)` returns
exactly the flag set that the decision procedure of the specification gives. -/
theorem match_text_eq_spec (p : pattern_t) (k : Nat) (name : string_t) (c : class_e)
    (hk : k < p.len) :
    match_text ⟨p, k⟩ name c = some (flags_of (match_text_spec p k name c))
      ∧ ∀ a : action, a ∈ match_text_spec p k name c
          ↔ has_flag (flags_of (match_text_spec p k name c)) a = true :=
  ⟨match_text_flags p k name c hk, fun a => (has_flag_flags_of _ a).symm⟩

theorem match_text_eq_spec_witness :
    (0 < ({ sects := [.SECTION_ANY, .SECTION_CONSTANT ['a'], .SECTION_ANY],
            cls := CLASS_ANY } : pattern_t).len)
      ∧ match_text ⟨{ sects := [.SECTION_ANY, .SECTION_CONSTANT ['a'], .SECTION_ANY],
                      cls := CLASS_ANY }, 0⟩ ['a'] CLASS_DIR
          = some (MATCH_2 ||| MATCH_TERMINAL) :=
  ⟨by decide,
    (match_text_eq_spec { sects := [.SECTION_ANY, .SECTION_CONSTANT ['a'], .SECTION_ANY],
                          cls := CLASS_ANY } 0 ['a'] CLASS_DIR (by decide)).1.trans (by decide)⟩

end Findglob


namespace Findglob

/-! ## The state machine accepts exactly the paths that satisfy the pattern -/

theorem match_text_spec_drop (p : pattern_t) (k : Nat) (name : string_t) (c : class_e) :
    match_text_spec p k name c
      = match_text_spec { p with sects := p.sects.drop k } 0 name c := by
  simp [match_text_spec, List.getElem?_drop]

theorem no_consecutive_any_drop {s : List section_t} (h : no_consecutive_any s) (k : Nat) :
    no_consecutive_any (s.drop k) := by
  intro i hi
  rw [List.getElem?_drop] at hi ⊢
  exact h (k + i) hi

theorem no_consecutive_any_tail {x : section_t} {s : List section_t}
    (h : no_consecutive_any (x :: s)) : no_consecutive_any s :=
  no_consecutive_any_drop h 1

theorem no_consecutive_any_head {x : section_t} {s : List section_t}
    (h : no_consecutive_any (.SECTION_ANY :: x :: s)) : x ≠ .SECTION_ANY := by
  intro hx
  exact h 0 rfl (by simp [hx])

theorem aligns_nil_iff (d : Prop) (s : List section_t) (h : no_consecutive_any s) :
    aligns d s [] ↔ s = [] ∨ (s = [.SECTION_ANY] ∧ d) := by
  cases s with
  | nil => simp [aligns]
  | cons x rest =>
    cases x with
    | SECTION_ANY =>
      cases rest with
      | nil => simp [aligns]
      | cons y t =>
        have hy := no_consecutive_any_head h
        cases y <;> simp_all [aligns]
    | SECTION_CONSTANT c => simp [aligns]
    | SECTION_GLOB g => simp [aligns]

end Findglob


namespace Findglob

theorem mem_terminal_iff (b : Bool) (a : action) :
    a ∈ terminal_iff b ↔ (a = action.TERMINAL ∧ b = true) := by
  cases b <;> simp [terminal_iff]

theorem aligns_any_nil (d : Prop) (comps : List string_t) :
    aligns d [.SECTION_ANY] comps ↔ comps ≠ [] ∨ d := by
  simp [aligns]

theorem aligns_any_cons (d : Prop) (y : section_t) (t : List section_t) (comps : List string_t) :
    aligns d (.SECTION_ANY :: y :: t) comps
      ↔ ∃ n, aligns d (y :: t) (comps.drop n) := by
  simp [aligns]

theorem aligns_other (d : Prop) (x : section_t) (rest : List section_t) (comps : List string_t)
    (hx : x ≠ .SECTION_ANY) :
    aligns d (x :: rest) comps
      ↔ ∃ c tl, comps = c :: tl ∧ section_matches x c = true ∧ aligns d rest tl := by
  cases x <;> simp_all [aligns]

theorem aligns_other_cons (d : Prop) (x : section_t) (rest : List section_t) (c : string_t)
    (tl : List string_t) (hx : x ≠ .SECTION_ANY) :
    aligns d (x :: rest) (c :: tl) ↔ section_matches x c = true ∧ aligns d rest tl := by
  rw [aligns_other d x rest _ hx]
  constructor
  · rintro ⟨c', tl', h, hm, ha⟩
    cases h
    exact ⟨hm, ha⟩
  · rintro ⟨hm, ha⟩
    exact ⟨c, tl, rfl, hm, ha⟩

theorem aligns_other_nil (d : Prop) (x : section_t) (rest : List section_t)
    (hx : x ≠ .SECTION_ANY) : ¬ aligns d (x :: rest) [] := by
  rw [aligns_other d x rest _ hx]
  rintro ⟨c', tl', h, _⟩
  cases h

theorem spec_terminal (q : pattern_t) (last : string_t) (cls : class_e)
    (h : no_consecutive_any q.sects) :
    action.TERMINAL ∈ match_text_spec q 0 last cls
      ↔ class_mem cls q.cls = true ∧ aligns (cls = CLASS_DIR) q.sects [last] := by
  rcases q with ⟨s, anti, pc, st, pst, ord⟩
  simp only at h ⊢
  rcases s with _ | ⟨x, rest⟩
  · simp [match_text_spec, sect_accepts, aligns]
  · by_cases hx : x = .SECTION_ANY
    · subst hx
      rcases rest with _ | ⟨y, t⟩
      · simp [match_text_spec, sect_accepts, aligns_any_nil, mem_terminal_iff, section_matches_any]
      · have hy := no_consecutive_any_head h
        have ht := no_consecutive_any_tail (no_consecutive_any_tail h)
        have key : aligns (cls = CLASS_DIR) (.SECTION_ANY :: y :: t) [last]
            ↔ section_matches y last = true ∧ (t = [] ∨ (t = [.SECTION_ANY] ∧ cls = CLASS_DIR)) := by
          rw [aligns_any_cons]
          constructor
          · rintro ⟨n, ha⟩
            rcases n with _ | n
            · rw [List.drop_zero, aligns_other_cons _ _ _ _ _ hy, aligns_nil_iff _ _ ht] at ha
              exact ha
            · rw [List.drop_succ_cons, List.drop_nil] at ha
              exact absurd ha (aligns_other_nil _ _ _ hy)
          · intro hh
            refine ⟨0, ?_⟩
            rw [List.drop_zero, aligns_other_cons _ _ _ _ _ hy, aligns_nil_iff _ _ ht]
            exact hh
        rw [key]
        cases hm : section_matches y last
        · simp [match_text_spec, sect_accepts, hm, section_matches_any]
        · rcases t with _ | ⟨z, u⟩
          · simp [match_text_spec, sect_accepts, hm, section_matches_any, mem_terminal_iff]
          · by_cases hz : z = .SECTION_ANY
            · subst hz
              rcases u with _ | ⟨w, u'⟩
              · simp [match_text_spec, sect_accepts, hm, section_matches_any, mem_terminal_iff]
              · simp [match_text_spec, sect_accepts, hm, section_matches_any, mem_terminal_iff]
            · simp [match_text_spec, sect_accepts, hm, section_matches_any, mem_terminal_iff, hz]
    · have key : aligns (cls = CLASS_DIR) (x :: rest) [last]
            ↔ section_matches x last = true
              ∧ (rest = [] ∨ (rest = [.SECTION_ANY] ∧ cls = CLASS_DIR)) := by
        rw [aligns_other_cons _ _ _ _ _ hx, aligns_nil_iff _ _ (no_consecutive_any_tail h)]
      rw [key]
      cases hm : section_matches x last
      · simp [match_text_spec, sect_accepts, hm]
      · rcases rest with _ | ⟨y, t⟩
        · simp [match_text_spec, sect_accepts, hm, hx, mem_terminal_iff]
        · by_cases hy : y = .SECTION_ANY
          · subst hy
            rcases t with _ | ⟨z, u⟩
            · simp [match_text_spec, sect_accepts, hm, hx, mem_terminal_iff]
            · simp [match_text_spec, sect_accepts, hm, hx, mem_terminal_iff]
          · simp [match_text_spec, sect_accepts, hm, hx, hy, mem_terminal_iff]

theorem exists_match_n (l : List action) (P : Nat → Prop) :
    (∃ n, n ≤ 2 ∧ match_n n ∈ l ∧ P n)
      ↔ (action.MATCH_0 ∈ l ∧ P 0) ∨ (action.MATCH_1 ∈ l ∧ P 1) ∨ (action.MATCH_2 ∈ l ∧ P 2) := by
  constructor
  · rintro ⟨n, hn, hl, hp⟩
    interval_cases n
    · exact Or.inl ⟨hl, hp⟩
    · exact Or.inr (Or.inl ⟨hl, hp⟩)
    · exact Or.inr (Or.inr ⟨hl, hp⟩)
  · rintro (⟨hl, hp⟩ | ⟨hl, hp⟩ | ⟨hl, hp⟩)
    · exact ⟨0, by omega, hl, hp⟩
    · exact ⟨1, by omega, hl, hp⟩
    · exact ⟨2, by omega, hl, hp⟩

theorem aligns_any_mono (d : Prop) (u : List section_t) (comps : List string_t) (m : Nat)
    (hne : comps ≠ []) (ha : aligns d (.SECTION_ANY :: u) (comps.drop m)) :
    aligns d (.SECTION_ANY :: u) comps := by
  rcases u with _ | ⟨w, u'⟩
  · rw [aligns_any_nil]
    exact Or.inl hne
  · rw [aligns_any_cons] at ha ⊢
    obtain ⟨n, hn⟩ := ha
    rw [List.drop_drop] at hn
    exact ⟨_, hn⟩

theorem aligns_any_step (d : Prop) (y : section_t) (t : List section_t) (c : string_t)
    (comps : List string_t) (hy : y ≠ .SECTION_ANY) :
    aligns d (.SECTION_ANY :: y :: t) (c :: comps)
      ↔ (section_matches y c = true ∧ aligns d t comps)
        ∨ aligns d (.SECTION_ANY :: y :: t) comps := by
  rw [aligns_any_cons, aligns_any_cons]
  constructor
  · rintro ⟨n, ha⟩
    rcases n with _ | n
    · rw [List.drop_zero, aligns_other_cons _ _ _ _ _ hy] at ha
      exact Or.inl ha
    · rw [List.drop_succ_cons] at ha
      exact Or.inr ⟨n, ha⟩
  · rintro (ha | ⟨n, ha⟩)
    · refine ⟨0, ?_⟩
      rw [List.drop_zero, aligns_other_cons _ _ _ _ _ hy]
      exact ha
    · exact ⟨n + 1, by rw [List.drop_succ_cons]; exact ha⟩

theorem aligns_any_absorb (d : Prop) (y : section_t) (u : List section_t)
    (comps : List string_t) (hy : y ≠ .SECTION_ANY) (hne : comps ≠ [])
    (ha : aligns d (.SECTION_ANY :: y :: .SECTION_ANY :: u) comps) :
    aligns d (.SECTION_ANY :: u) comps := by
  rw [aligns_any_cons] at ha
  obtain ⟨n, hn⟩ := ha
  rw [aligns_other _ _ _ _ hy] at hn
  obtain ⟨c', tl, hc, _, htl⟩ := hn
  have htl' : tl = comps.drop (n + 1) := by
    rw [← List.drop_drop, hc]
    rfl
  rw [htl'] at htl
  exact aligns_any_mono d u comps (n + 1) hne htl

end Findglob


namespace Findglob

theorem not_match_n_terminal (n : Nat) (b : Bool) : match_n n ∉ terminal_iff b := by
  rw [mem_terminal_iff]
  rintro ⟨h, _⟩
  rcases n with _ | _ | n <;> simp [match_n] at h

theorem spec_step (q : pattern_t) (c : string_t) (comps : List string_t) (d : Prop)
    (cls : class_e) (h : no_consecutive_any q.sects) (hne : comps ≠ []) :
    (∃ n, n ≤ 2 ∧ match_n n ∈ match_text_spec q 0 c cls ∧ aligns d (q.sects.drop n) comps)
      ↔ aligns d q.sects (c :: comps) := by
  rcases q with ⟨s, anti, pc, st, pst, ord⟩
  simp only at h ⊢
  rw [exists_match_n]
  rcases s with _ | ⟨x, rest⟩
  · simp [match_text_spec, sect_accepts, aligns]
  · by_cases hx : x = .SECTION_ANY
    · subst hx
      rcases rest with _ | ⟨y, t⟩
      · simp [match_text_spec, sect_accepts, aligns_any_nil, mem_terminal_iff,
          section_matches_any, hne]
      · have hy := no_consecutive_any_head h
        rw [aligns_any_step _ _ _ _ _ hy]
        cases hm : section_matches y c
        · simp [match_text_spec, sect_accepts, hm, section_matches_any]
        · rcases t with _ | ⟨z, u⟩
          · simp [match_text_spec, sect_accepts, hm, section_matches_any, mem_terminal_iff,
              aligns, hne]
          · by_cases hz : z = .SECTION_ANY
            · subst hz
              have habs := aligns_any_absorb d y u comps hy hne
              rcases u with _ | ⟨w, u'⟩
              · simp [match_text_spec, sect_accepts, hm, section_matches_any, mem_terminal_iff]
                simp [aligns_any_nil, hne]
              · simp [match_text_spec, sect_accepts, hm, section_matches_any, mem_terminal_iff]
                exact habs
            · simp [match_text_spec, sect_accepts, hm, section_matches_any, mem_terminal_iff, hz]
              tauto
    · rw [aligns_other_cons _ _ _ _ _ hx]
      cases hm : section_matches x c
      · simp [match_text_spec, sect_accepts, hm]
      · rcases rest with _ | ⟨y, t⟩
        · simp [match_text_spec, sect_accepts, hm, hx, mem_terminal_iff, aligns, hne]
        · by_cases hy : y = .SECTION_ANY
          · subst hy
            rcases t with _ | ⟨z, u⟩
            · simp [match_text_spec, sect_accepts, hm, hx, mem_terminal_iff]
            · simp [match_text_spec, sect_accepts, hm, hx, mem_terminal_iff]
          · simp [match_text_spec, sect_accepts, hm, hx, hy, mem_terminal_iff]

end Findglob


namespace Findglob

theorem covers_any (piece : List string_t) : covers .SECTION_ANY piece := trivial

theorem covers_other (x : section_t) (piece : List string_t) (hx : x ≠ .SECTION_ANY) :
    covers x piece ↔ ∃ c, piece = [c] ∧ section_matches x c = true := by
  cases x <;> simp_all [covers]

theorem alignment_iff_aligns (d : Prop) (s : List section_t) :
    ∀ comps : List string_t,
      (∃ pieces : List (List string_t),
        List.Forall₂ covers s pieces ∧ pieces.flatten = comps ∧
        (s.getLast? = some .SECTION_ANY → pieces.getLast? = some [] → d))
      ↔ aligns d s comps := by
  induction s with
  | nil =>
    intro comps
    simp [aligns, eq_comm]
  | cons x rest ih =>
    intro comps
    rcases rest with _ | ⟨y, t⟩
    · by_cases hx : x = .SECTION_ANY
      · subst hx
        rw [aligns_any_nil]
        constructor
        · rintro ⟨pieces, hf, hj, hz⟩
          rw [List.forall₂_cons_left_iff] at hf
          obtain ⟨piece, u, _, hu, rfl⟩ := hf
          rw [List.forall₂_nil_left_iff] at hu
          subst hu
          simp at hj hz
          subst hj
          by_cases hp : piece = []
          · exact Or.inr (hz hp)
          · exact Or.inl hp
        · intro h
          refine ⟨[comps], ?_, by simp, ?_⟩
          · exact List.Forall₂.cons (covers_any _) List.Forall₂.nil
          · intro _ hp
            simp at hp
            rcases h with h | h
            · exact absurd hp h
            · exact h
      · rw [aligns_other _ _ _ _ hx]
        constructor
        · rintro ⟨pieces, hf, hj, -⟩
          rw [List.forall₂_cons_left_iff] at hf
          obtain ⟨piece, u, hc, hu, rfl⟩ := hf
          rw [List.forall₂_nil_left_iff] at hu
          subst hu
          rw [covers_other _ _ hx] at hc
          obtain ⟨c, rfl, hm⟩ := hc
          simp at hj
          exact ⟨c, [], hj.symm, hm, by simp [aligns]⟩
        · rintro ⟨c, tl, rfl, hm, ha⟩
          simp [aligns] at ha
          subst ha
          refine ⟨[[c]], ?_, by simp, ?_⟩
          · exact List.Forall₂.cons ((covers_other _ _ hx).2 ⟨c, rfl, hm⟩) List.Forall₂.nil
          · intro h1
            simp at h1
            exact absurd h1 hx
    · have hlast : ∀ (piece : List string_t) (u : List (List string_t)),
          List.Forall₂ covers (y :: t) u →
          ((x :: y :: t).getLast? = (y :: t).getLast? ∧ (piece :: u).getLast? = u.getLast?) := by
        intro piece u hu
        rw [List.forall₂_cons_left_iff] at hu
        obtain ⟨b, u', _, _, rfl⟩ := hu
        simp [List.getLast?_cons_cons]
      by_cases hx : x = .SECTION_ANY
      · subst hx
        rw [aligns_any_cons]
        constructor
        · rintro ⟨pieces, hf, hj, hz⟩
          rw [List.forall₂_cons_left_iff] at hf
          obtain ⟨piece, u, _, hu, rfl⟩ := hf
          obtain ⟨h1, h2⟩ := hlast piece u hu
          rw [h1, h2] at hz
          refine ⟨piece.length, (ih _).1 ⟨u, hu, ?_, hz⟩⟩
          rw [← hj]
          simp
        · rintro ⟨n, hn⟩
          obtain ⟨u, hu, hj, hz⟩ := (ih _).2 hn
          obtain ⟨h1, h2⟩ := hlast (comps.take n) u hu
          refine ⟨comps.take n :: u, List.Forall₂.cons (covers_any _) hu, ?_, ?_⟩
          · simp [hj]
          · rw [h1, h2]
            exact hz
      · rw [aligns_other _ _ _ _ hx]
        constructor
        · rintro ⟨pieces, hf, hj, hz⟩
          rw [List.forall₂_cons_left_iff] at hf
          obtain ⟨piece, u, hc, hu, rfl⟩ := hf
          obtain ⟨h1, h2⟩ := hlast piece u hu
          rw [h1, h2] at hz
          rw [covers_other _ _ hx] at hc
          obtain ⟨c, rfl, hm⟩ := hc
          exact ⟨c, u.flatten, by rw [← hj]; simp, hm, (ih _).1 ⟨u, hu, rfl, hz⟩⟩
        · rintro ⟨c, tl, rfl, hm, ha⟩
          obtain ⟨u, hu, hj, hz⟩ := (ih _).2 ha
          obtain ⟨h1, h2⟩ := hlast [c] u hu
          refine ⟨[c] :: u, List.Forall₂.cons ((covers_other _ _ hx).2 ⟨c, rfl, hm⟩) hu, ?_, ?_⟩
          · simp [hj]
          · rw [h1, h2]
            exact hz

theorem fully_satisfies_iff (p : pattern_t) (comps : List string_t) (cls : class_e) :
    fully_satisfies p comps cls
      ↔ class_mem cls p.cls = true ∧ aligns (cls = CLASS_DIR) p.sects comps := by
  rw [← alignment_iff_aligns]
  unfold fully_satisfies
  constructor
  · rintro ⟨pieces, h1, h2, h3, h4⟩
    exact ⟨h3, pieces, h1, h2, h4⟩
  · rintro ⟨h3, pieces, h1, h2, h4⟩
    exact ⟨pieces, h1, h2, h3, h4⟩

end Findglob


namespace Findglob

theorem match_text_none (p : pattern_t) (k : Nat) (name : string_t) (c : class_e)
    (hk : p.len ≤ k) : match_text ⟨p, k⟩ name c = none := by
  have : p.sects[k]? = none := List.getElem?_eq_none hk
  simp [match_text, this]

theorem mem_step_targets (flags : match_flags_e) (k k' : Nat) :
    k' ∈ step_targets flags k
      ↔ ∃ n, n ≤ 2 ∧ has_flag flags (match_n n) = true ∧ k' = k + n := by
  unfold step_targets
  constructor
  · intro h
    simp only [List.mem_append] at h
    rcases h with (h | h) | h
    · split at h
      · simp at h; exact ⟨0, by omega, by simpa [match_n], by simpa using h⟩
      · simp at h
    · split at h
      · simp at h; exact ⟨1, by omega, by simpa [match_n], by simpa using h⟩
      · simp at h
    · split at h
      · simp at h; exact ⟨2, by omega, by simpa [match_n], by simpa using h⟩
      · simp at h
  · rintro ⟨n, hn, hf, rfl⟩
    interval_cases n <;> simp [match_n] at hf <;> simp [hf]

/-- The flags of one state, read through the decision procedure on the
sections that are still to be matched. -/
theorem state_terminal (p : pattern_t) (h : no_consecutive_any p.sects) (k : Nat)
    (last : string_t) (cls : class_e) :
    (∃ flags, match_text ⟨p, k⟩ last cls = some flags ∧ has_flag flags .TERMINAL = true)
      ↔ class_mem cls p.cls = true ∧ aligns (cls = CLASS_DIR) (p.sects.drop k) [last] := by
  by_cases hk : k < p.len
  · rw [match_text_flags p k last cls hk]
    simp only [Option.some.injEq, exists_eq_left']
    rw [has_flag_flags_of, match_text_spec_drop,
      spec_terminal _ _ _ (no_consecutive_any_drop h k)]
  · have hk' : p.len ≤ k := Nat.le_of_not_lt hk
    rw [match_text_none p k last cls hk']
    have : p.sects.drop k = [] := List.drop_eq_nil_of_le hk'
    simp [this, aligns]

theorem state_step (p : pattern_t) (h : no_consecutive_any p.sects) (k : Nat)
    (c : string_t) (comps : List string_t) (d : Prop) (hne : comps ≠ []) :
    (∃ k', k' ∈ state_succ p c k ∧ aligns d (p.sects.drop k') comps)
      ↔ aligns d (p.sects.drop k) (c :: comps) := by
  unfold state_succ
  by_cases hk : k < p.len
  · rw [match_text_flags p k c CLASS_DIR hk]
    simp only
    rw [← spec_step { p with sects := p.sects.drop k } c comps d CLASS_DIR
      (no_consecutive_any_drop h k) hne, ← match_text_spec_drop]
    constructor
    · rintro ⟨k', hk', ha⟩
      rw [mem_step_targets] at hk'
      obtain ⟨n, hn, hf, rfl⟩ := hk'
      rw [has_flag_flags_of] at hf
      refine ⟨n, hn, hf, ?_⟩
      simp only [List.drop_drop]
      exact ha
    · rintro ⟨n, hn, hf, ha⟩
      refine ⟨k + n, ?_, ?_⟩
      · rw [mem_step_targets]
        exact ⟨n, hn, (has_flag_flags_of _ _).2 hf, rfl⟩
      · simp only [List.drop_drop] at ha
        exact ha
  · have hk' : p.len ≤ k := Nat.le_of_not_lt hk
    rw [match_text_none p k c CLASS_DIR hk']
    have : p.sects.drop k = [] := List.drop_eq_nil_of_le hk'
    simp [this, aligns]

theorem live_accepts (p : pattern_t) (h : no_consecutive_any p.sects)
    (last : string_t) (cls : class_e) (dirs : List string_t) :
    ∀ ks : List Nat,
      some_terminal p (dirs.foldl (live_step p) ks) last cls
        ↔ ∃ k ∈ ks, class_mem cls p.cls = true
            ∧ aligns (cls = CLASS_DIR) (p.sects.drop k) (dirs ++ [last]) := by
  induction dirs with
  | nil =>
    intro ks
    simp only [List.foldl_nil, List.nil_append, some_terminal]
    constructor
    · rintro ⟨k, hk, hf⟩
      exact ⟨k, hk, (state_terminal p h k last cls).1 hf⟩
    · rintro ⟨k, hk, hf⟩
      exact ⟨k, hk, (state_terminal p h k last cls).2 hf⟩
  | cons c dirs ih =>
    intro ks
    rw [List.foldl_cons, ih]
    have hne : dirs ++ [last] ≠ [] := by simp
    constructor
    · rintro ⟨k', hk', hcm, ha⟩
      simp only [live_step, List.mem_flatMap] at hk'
      obtain ⟨k, hk, hmem⟩ := hk'
      exact ⟨k, hk, hcm, (state_step p h k c _ _ hne).1 ⟨k', hmem, ha⟩⟩
    · rintro ⟨k, hk, hcm, ha⟩
      obtain ⟨k', hmem, ha'⟩ := (state_step p h k c _ _ hne).2 ha
      refine ⟨k', ?_, hcm, ha'⟩
      simp only [live_step, List.mem_flatMap]
      exact ⟨k, hk, hmem⟩

end Findglob


namespace Findglob

theorem spec_match_n_lt (q : pattern_t) (name : string_t) (cls : class_e) (n : Nat)
    (hn : n ≤ 2) (h : match_n n ∈ match_text_spec q 0 name cls) : n < q.sects.length := by
  rcases q with ⟨s, anti, pc, st, pst, ord⟩
  simp only at h ⊢
  rcases s with _ | ⟨x, _ | ⟨y, _ | ⟨z, u⟩⟩⟩
  · simp [match_text_spec, sect_accepts] at h
  · interval_cases n
    · simp
    · exfalso
      by_cases hx : x = .SECTION_ANY <;> cases hm : section_matches x name <;>
        simp_all [match_text_spec, sect_accepts, match_n, mem_terminal_iff, section_matches_any]
    · exfalso
      by_cases hx : x = .SECTION_ANY <;> cases hm : section_matches x name <;>
        simp_all [match_text_spec, sect_accepts, match_n, mem_terminal_iff, section_matches_any]
  · interval_cases n
    · simp
    · simp
    · exfalso
      by_cases hx : x = .SECTION_ANY <;> by_cases hy : y = .SECTION_ANY <;>
        cases hm : section_matches x name <;> cases hm' : section_matches y name <;>
        simp_all [match_text_spec, sect_accepts, match_n, mem_terminal_iff, section_matches_any]
  · simp
    omega

theorem match_n_lt (p : pattern_t) (k : Nat) (name : string_t) (cls : class_e) (n : Nat)
    (hn : n ≤ 2) (h : match_n n ∈ match_text_spec p k name cls) : k + n < p.len := by
  rw [match_text_spec_drop] at h
  have := spec_match_n_lt _ name cls n hn h
  simp only [List.length_drop] at this
  unfold pattern_t.len
  omega

end Findglob


namespace Findglob

/-- What one member of the match array adds to the output of `process_dir`,
when its pattern is not an anti-pattern and its transitions stay in range. -/
theorem process_dir_member {α : Type} (p : pattern_t) (k : Nat) (flags : match_flags_e)
    (out : process_dir_out) (f : process_dir_out → Option α) (hanti : p.anti = false)
    (hlt : ∀ n, n ≤ 2 → has_flag flags (match_n n) = true → k + n < p.len) :
    (do
      let out1 ← process_dir_add ⟨p, k⟩ flags MATCH_0 0 out
      let out2 ← process_dir_add ⟨p, k⟩ flags MATCH_1 1 out1
      let out3 ← process_dir_add ⟨p, k⟩ flags MATCH_2 2 out2
      f out3)
      = f { out with
          newmatches := out.newmatches ++ (step_targets flags k).map (fun k' => ⟨p, k'⟩),
          isintermediate := out.isintermediate || decide (step_targets flags k ≠ []) } := by
  have h0 := hlt 0 (by omega)
  have h1 := hlt 1 (by omega)
  have h2 := hlt 2 (by omega)
  simp only [match_n, has_flag, action.bit] at h0 h1 h2
  have g0 := fun h => Nat.not_le_of_gt (h0 h)
  have g1 := fun h => Nat.not_le_of_gt (h1 h)
  have g2 := fun h => Nat.not_le_of_gt (h2 h)
  clear h0 h1 h2 hlt
  simp only [process_dir_add, step_targets, has_flag, action.bit, match_minus, hanti]
  by_cases hb0 : ((flags &&& MATCH_0) != 0) = true <;>
    by_cases hb1 : ((flags &&& MATCH_1) != 0) = true <;>
    by_cases hb2 : ((flags &&& MATCH_2) != 0) = true <;>
    simp only [hb0, hb1, hb2, true_implies, Nat.add_zero] at g0 g1 g2 <;>
    simp [hb0, hb1, hb2, g0, g1, g2]

theorem live_step_cons (p : pattern_t) (k : Nat) (ks : List Nat) (name : string_t) :
    live_step p (k :: ks) name
      = state_succ p name k ++ live_step p ks name := by
  simp [live_step]

/-- The loop of `process_dir` over the states of one pattern that is not an
anti-pattern: no exit, the new states are those of `live_step`, and
`isintermediate` says whether there is one. -/
theorem process_dir_loop_single (p : pattern_t) (hanti : p.anti = false) (name : string_t) :
    ∀ (ks : List Nat) (out : process_dir_out), (∀ k ∈ ks, k < p.len) →
      ∃ t, process_dir_loop name (ks.map (fun k => ⟨p, k⟩)) out
        = some { newmatches := out.newmatches ++ (live_step p ks name).map (fun k' => ⟨p, k'⟩),
                 isintermediate := out.isintermediate || decide (live_step p ks name ≠ []),
                 isterminal := t } := by
  intro ks
  induction ks with
  | nil =>
    intro out _
    exact ⟨out.isterminal, by simp [process_dir_loop, live_step]⟩
  | cons k ks ih =>
    intro out hks
    have hk : k < p.len := hks k (List.mem_cons_self _ _)
    have hks' : ∀ k' ∈ ks, k' < p.len := fun k' h => hks k' (List.mem_cons_of_mem _ h)
    have hflags := match_text_flags p k name CLASS_DIR hk
    have hlt : ∀ n, n ≤ 2 →
        has_flag (flags_of (match_text_spec p k name CLASS_DIR)) (match_n n) = true →
        k + n < p.len := by
      intro n hn hf
      exact match_n_lt p k name CLASS_DIR n hn ((has_flag_flags_of _ _).1 hf)
    rw [live_step_cons, state_succ, hflags]
    simp only [List.map_cons, process_dir_loop, hflags, hanti, Bool.and_false,
      Option.bind_eq_bind, Option.some_bind]
    simp only [Bool.false_eq_true, if_false]
    have := process_dir_member p k (flags_of (match_text_spec p k name CLASS_DIR))
      (if (flags_of (match_text_spec p k name CLASS_DIR) &&& MATCH_TERMINAL != 0) = true
        then { out with isterminal := true } else out)
      (process_dir_loop name (ks.map (fun k => ⟨p, k⟩))) hanti hlt
    simp only [bind, Option.bind_eq_bind] at this
    rw [this]
    obtain ⟨t, ht⟩ := ih _ hks'
    refine ⟨t, ?_⟩
    rw [ht]
    split <;> simp [List.append_assoc, Bool.or_assoc]

end Findglob


namespace Findglob

theorem state_succ_lt (p : pattern_t) (name : string_t) (k k' : Nat)
    (h : k' ∈ state_succ p name k) : k' < p.len := by
  unfold state_succ at h
  by_cases hk : k < p.len
  · rw [match_text_flags p k name CLASS_DIR hk] at h
    simp only at h
    rw [mem_step_targets] at h
    obtain ⟨n, hn, hf, rfl⟩ := h
    exact match_n_lt p k name CLASS_DIR n hn ((has_flag_flags_of _ _).1 hf)
  · rw [match_text_none p k name CLASS_DIR (Nat.le_of_not_lt hk)] at h
    simp at h

theorem live_step_lt (p : pattern_t) (ks : List Nat) (name : string_t) :
    ∀ k' ∈ live_step p ks name, k' < p.len := by
  intro k' h
  simp only [live_step, List.mem_flatMap] at h
  obtain ⟨k, _, hk⟩ := h
  exact state_succ_lt p name k k' hk

/-- Repeated `process_dir` on the states of one pattern that is not an
anti-pattern follows `live_step`. -/
theorem descend_from_single (p : pattern_t) (hanti : p.anti = false) (dirs : List string_t) :
    ∀ (ks : List Nat) (out : process_dir_out), (∀ k ∈ ks, k < p.len) →
      out.newmatches = ks.map (fun k => ⟨p, k⟩) →
      ∃ out', descend_from out dirs = some out'
        ∧ out'.newmatches = (dirs.foldl (live_step p) ks).map (fun k => ⟨p, k⟩)
        ∧ (dirs ≠ [] → out'.isintermediate = decide (dirs.foldl (live_step p) ks ≠ [])) := by
  induction dirs with
  | nil =>
    intro ks out _ hout
    exact ⟨out, rfl, hout, fun h => absurd rfl h⟩
  | cons d rest ih =>
    intro ks out hks hout
    obtain ⟨t, ht⟩ := process_dir_loop_single p hanti d ks
      { newmatches := [], isintermediate := false, isterminal := false } hks
    simp only [List.nil_append, Bool.false_or] at ht
    obtain ⟨out', h1, h2, h3⟩ := ih (live_step p ks d)
      { newmatches := (live_step p ks d).map (fun k' => ⟨p, k'⟩),
        isintermediate := decide (live_step p ks d ≠ []), isterminal := t }
      (live_step_lt p ks d) rfl
    refine ⟨out', ?_, ?_, ?_⟩
    · simp only [descend_from, process_dir, hout, ht, Option.bind_eq_bind, Option.some_bind]
      exact h1
    · rw [List.foldl_cons]
      exact h2
    · intro _
      rw [List.foldl_cons]
      by_cases hrest : rest = []
      · subst hrest
        simp only [descend_from, Option.some.injEq] at h1
        rw [← h1]
        simp
      · exact h3 hrest

/-- A state from which the rest of the path is accepted stays live along the path. -/
theorem live_reaches (p : pattern_t) (h : no_consecutive_any p.sects) (d : Prop)
    (rest : List string_t) (hrest : rest ≠ []) (dirs : List string_t) :
    ∀ ks : List Nat,
      (∃ k ∈ ks, aligns d (p.sects.drop k) (dirs ++ rest)) →
      ∃ k ∈ dirs.foldl (live_step p) ks, aligns d (p.sects.drop k) rest := by
  induction dirs with
  | nil =>
    intro ks hks
    simpa using hks
  | cons c dirs ih =>
    intro ks hks
    rw [List.foldl_cons]
    apply ih
    obtain ⟨k, hk, ha⟩ := hks
    have hne : dirs ++ rest ≠ [] := by simp [hrest]
    obtain ⟨k', hmem, ha'⟩ := (state_step p h k c _ d hne).2 ha
    refine ⟨k', ?_, ha'⟩
    simp only [live_step, List.mem_flatMap]
    exact ⟨k, hk, hmem⟩

end Findglob


namespace Findglob

theorem no_consecutive_any_cons_iff (x : section_t) (s : List section_t) :
    no_consecutive_any (x :: s)
      ↔ (x = .SECTION_ANY → s.head? ≠ some .SECTION_ANY) ∧ no_consecutive_any s := by
  constructor
  · intro h
    refine ⟨fun hx => ?_, no_consecutive_any_tail h⟩
    have := h 0 (by simp [hx])
    cases s <;> simp_all
  · rintro ⟨h1, h2⟩ i hi
    rcases i with _ | i
    · simp at hi
      cases s <;> simp_all
    · simp at hi ⊢
      exact h2 i hi

theorem no_consecutive_any_nil : no_consecutive_any [] := by
  intro i hi
  simp at hi

/-- C2: for a pattern with no two consecutive `ANY` sections and a non-empty
component sequence `dirs ++ [last]` whose last entry has class `cls`, some live
state (stepping `match_text` from `k = 0` through the directories `dirs`)
yields `TERMINAL` on `(last, cls)` iff the sequence fully satisfies the pattern. -/
theorem terminal_iff_fully_satisfies (p : pattern_t) (h : no_consecutive_any p.sects)
    (dirs : List string_t) (last : string_t) (cls : class_e) :
    some_terminal p (live_states p dirs) last cls
      ↔ fully_satisfies p (dirs ++ [last]) cls := by
  unfold live_states
  rw [live_accepts p h last cls dirs [0], fully_satisfies_iff]
  simp

theorem terminal_iff_fully_satisfies_witness :
    no_consecutive_any
        ({ sects := [.SECTION_ANY, .SECTION_CONSTANT ['a']], cls := CLASS_ANY } : pattern_t).sects
      ∧ (some_terminal { sects := [.SECTION_ANY, .SECTION_CONSTANT ['a']], cls := CLASS_ANY }
            (live_states { sects := [.SECTION_ANY, .SECTION_CONSTANT ['a']], cls := CLASS_ANY }
              [['x']]) ['a'] CLASS_FILE
          ↔ fully_satisfies { sects := [.SECTION_ANY, .SECTION_CONSTANT ['a']], cls := CLASS_ANY }
              ([['x']] ++ [['a']]) CLASS_FILE) := by
  have h : no_consecutive_any
      ({ sects := [.SECTION_ANY, .SECTION_CONSTANT ['a']], cls := CLASS_ANY } : pattern_t).sects := by
    simp [no_consecutive_any_cons_iff, no_consecutive_any_nil]
  exact ⟨h, terminal_iff_fully_satisfies _ h _ _ _⟩

/-- C3: for a pattern that is not an anti-pattern and has no two consecutive
`ANY` sections, and a component sequence `dirs ++ rest` that fully satisfies
it, at the proper prefix `dirs` the repeated `process_dir` from `k = 0` does
not exit, its match set is the set of live states and is not empty, and the
last call reports `isintermediate = true`. -/
theorem prefix_stays_live (p : pattern_t) (hanti : p.anti = false)
    (h : no_consecutive_any p.sects) (dirs rest : List string_t) (cls : class_e)
    (hrest : rest ≠ []) (hX : fully_satisfies p (dirs ++ rest) cls) :
    ∃ out, descend p dirs = some out
      ∧ out.newmatches = (live_states p dirs).map (fun k => ⟨p, k⟩)
      ∧ out.newmatches ≠ []
      ∧ (dirs ≠ [] → out.isintermediate = true) := by
  rw [fully_satisfies_iff] at hX
  obtain ⟨_, ha⟩ := hX
  have hlen : 0 < p.len := by
    unfold pattern_t.len
    rcases hs : p.sects with _ | ⟨x, s⟩
    · rw [hs] at ha
      simp [aligns, hrest] at ha
    · simp
  obtain ⟨k, hk, _⟩ := live_reaches p h (cls = CLASS_DIR) rest hrest dirs [0]
    ⟨0, by simp, by simpa using ha⟩
  have hne : dirs.foldl (live_step p) [0] ≠ [] := List.ne_nil_of_mem hk
  obtain ⟨out, h1, h2, h3⟩ := descend_from_single p hanti dirs [0]
    { newmatches := [⟨p, 0⟩], isintermediate := false, isterminal := false }
    (by simpa using hlen) rfl
  refine ⟨out, h1, h2, ?_, ?_⟩
  · rw [h2]
    simpa using hne
  · intro hd
    rw [h3 hd]
    simpa using hne

theorem prefix_stays_live_witness :
    ∃ out, descend { sects := [.SECTION_ANY, .SECTION_CONSTANT ['a']], cls := CLASS_ANY } [['x']]
        = some out
      ∧ out.newmatches
        = (live_states { sects := [.SECTION_ANY, .SECTION_CONSTANT ['a']], cls := CLASS_ANY }
            [['x']]).map
            (fun k => ⟨{ sects := [.SECTION_ANY, .SECTION_CONSTANT ['a']], cls := CLASS_ANY }, k⟩)
      ∧ out.newmatches ≠ []
      ∧ ([['x']] ≠ ([] : List string_t) → out.isintermediate = true) :=
  prefix_stays_live { sects := [.SECTION_ANY, .SECTION_CONSTANT ['a']], cls := CLASS_ANY } rfl
    (by simp [no_consecutive_any_cons_iff, no_consecutive_any_nil])
    [['x']] [['a']] CLASS_FILE (by simp)
    ⟨[[['x']], [['a']]],
      List.Forall₂.cons trivial (List.Forall₂.cons ⟨['a'], rfl, by decide⟩ List.Forall₂.nil),
      rfl, by decide, by simp⟩

end Findglob


namespace Findglob

/-! ## glob_match decides the meaning of a glob -/

theorem glob_split_iff_gsplit (glob : string_t) :
    ∀ (lit : List Bool) (name : string_t), lit.length = glob.length →
      (glob_split glob lit name ↔ gsplit glob lit name) := by
  induction glob with
  | nil =>
    intro lit name _
    simp [glob_split, gsplit, eq_comm]
  | cons g gs ih =>
    intro lit name hlen
    rcases lit with _ | ⟨l, ls⟩
    · simp at hlen
    · have hlen' : ls.length = gs.length := by simpa using hlen
      have ih' := fun nm => ih ls nm hlen'
      unfold glob_split at ih' ⊢
      simp only [List.zip_cons_cons, List.forall₂_cons_left_iff, gsplit]
      constructor
      · rintro ⟨pieces, ⟨piece, u, hp, hu, rfl⟩, hj⟩
        have hrest := (ih' u.flatten).1 ⟨u, hu, rfl⟩
        simp only [List.flatten_cons] at hj
        subst hj
        unfold piece_ok at hp
        by_cases hl : l = true
        · simp only [hl, if_true] at hp ⊢
          subst hp
          exact ⟨_, rfl, hrest⟩
        · simp only [hl, if_false, Bool.false_eq_true] at hp ⊢
          by_cases hq : g = '?'
          · simp only [hq, if_true] at hp ⊢
            obtain ⟨b, rfl⟩ := hp
            exact ⟨b, _, rfl, hrest⟩
          · simp only [hq, if_false] at hp ⊢
            simp only [hp, if_true]
            exact ⟨piece.length, by simpa using hrest⟩
      · intro h
        by_cases hl : l = true
        · simp only [hl, if_true] at h
          obtain ⟨tl, rfl, hr⟩ := h
          obtain ⟨u, hu, hj⟩ := (ih' tl).2 hr
          exact ⟨[g] :: u, ⟨[g], u, by simp [piece_ok, hl], hu, rfl⟩, by simp [hj]⟩
        · simp only [hl, if_false, Bool.false_eq_true] at h
          by_cases hq : g = '?'
          · simp only [hq, if_true] at h
            obtain ⟨b, tl, rfl, hr⟩ := h
            obtain ⟨u, hu, hj⟩ := (ih' tl).2 hr
            exact ⟨[b] :: u, ⟨[b], u, by simp [piece_ok, hl, hq], hu, rfl⟩, by simp [hj]⟩
          · simp only [hq, if_false] at h
            by_cases hs : g = '*'
            · simp only [hs, if_true] at h
              obtain ⟨n, hr⟩ := h
              obtain ⟨u, hu, hj⟩ := (ih' _).2 hr
              exact ⟨name.take n :: u, ⟨name.take n, u, by simp [piece_ok, hl, hs], hu, rfl⟩,
                by simp [hj]⟩
            · simp [hs] at h

end Findglob


namespace Findglob

theorem char_eq_of_toNat_eq {x y : Char} (h : x.toNat = y.toNat) : x = y := by
  rw [← Char.ofNat_toNat x, ← Char.ofNat_toNat y, h]

theorem nul_free_tail {x : Char} {a : string_t} (h : nul_free (x :: a)) : nul_free a :=
  fun c hc => h c (List.mem_cons_of_mem _ hc)

theorem strncmp_eq_zero_iff (a b : string_t) (hab : nul_free a ∨ nul_free b) :
    ∀ n, n ≤ a.length → n ≤ b.length → (strncmp a b n = 0 ↔ a.take n = b.take n) := by
  induction a generalizing b with
  | nil =>
    intro n hn _
    have : n = 0 := by simpa using hn
    subst this
    simp [strncmp]
  | cons x a ih =>
    intro n hn hn'
    rcases n with _ | n
    · simp [strncmp]
    · rcases b with _ | ⟨y, b⟩
      · simp at hn'
      · simp only [strncmp, List.take_succ_cons, List.cons.injEq]
        by_cases hxy : x = y
        · subst hxy
          have hx : x.toNat ≠ 0 := by
            rcases hab with h | h <;> exact h x (List.mem_cons_self _ _)
          have hab' : nul_free a ∨ nul_free b := by
            rcases hab with h | h
            · exact Or.inl (nul_free_tail h)
            · exact Or.inr (nul_free_tail h)
          simp only [ne_eq, not_true_eq_false, if_false, hx, true_and]
          exact ih b hab' n (by simpa using hn) (by simpa using hn')
        · simp only [ne_eq, hxy, not_false_eq_true, if_true, false_and, iff_false]
          intro h
          apply hxy
          apply char_eq_of_toNat_eq
          omega

/-- On strings of which one has no NUL byte, `string_eq` is equality. -/
theorem string_eq_iff (a b : string_t) (hab : nul_free a ∨ nul_free b) :
    string_eq a b = true ↔ a = b := by
  unfold string_eq
  constructor
  · intro h
    simp only [Bool.and_eq_true, beq_iff_eq, decide_eq_true_eq] at h
    obtain ⟨hlen, hcmp⟩ := h
    have := (strncmp_eq_zero_iff a b hab a.length (Nat.le_refl _) (by omega)).1 hcmp
    rw [List.take_length, hlen, List.take_length] at this
    exact this
  · rintro rfl
    simp only [Bool.and_eq_true, beq_iff_eq, decide_eq_true_eq, true_and]
    exact (strncmp_eq_zero_iff a a hab a.length (Nat.le_refl _) (Nat.le_refl _)).2 rfl

theorem nul_free_star : nul_free STAR := by
  intro c hc
  simp [STAR] at hc
  subst hc
  decide

theorem glob_wf_tail {g : Char} {gs : string_t} {l : Bool} {ls : List Bool}
    (h : glob_wf (g :: gs) (l :: ls)) : glob_wf gs ls := by
  obtain ⟨h1, h2, h3⟩ := h
  refine ⟨by simpa using h1, ?_, ?_⟩
  · intro i c hg hl
    exact h2 (i + 1) c (by simpa using hg) (by simpa using hl)
  · intro i hi
    apply h3 (i + 1)
    simpa [wild_star] using hi

theorem glob_wf_head {g : Char} {gs : string_t} {ls : List Bool}
    (h : glob_wf (g :: gs) (false :: ls)) : g = '*' ∨ g = '?' :=
  h.2.1 0 g (by simp) (by simp)

theorem glob_wf_no_star_star {gs : string_t} {ls : List Bool}
    (h : glob_wf ('*' :: gs) (false :: ls)) : ¬ (gs.head? = some '*' ∧ ls.head? = some false) := by
  intro hh
  apply h.2.2 0
  constructor
  · exact ⟨by simp, by simp⟩
  · rcases gs with _ | ⟨g', gs'⟩
    · simp at hh
    · rcases ls with _ | ⟨l', ls'⟩
      · simp at hh
      · simp at hh
        simp [wild_star, hh]

/-- The empty name is accepted only by the empty glob and by a single wildcard `*`. -/
theorem gsplit_nil_iff (glob : string_t) (lit : List Bool) (h : glob_wf glob lit) :
    gsplit glob lit [] ↔ glob = [] ∨ (glob = ['*'] ∧ lit = [false]) := by
  rcases glob with _ | ⟨g, gs⟩
  · simp [gsplit]
  · rcases lit with _ | ⟨l, ls⟩
    · simp [gsplit]
    · cases l
      · rcases glob_wf_head h with rfl | rfl
        · have hns := glob_wf_no_star_star h
          have hlen : ls.length = gs.length := by simpa using h.1
          rcases gs with _ | ⟨g', gs'⟩
          · rcases ls with _ | ⟨l', ls'⟩
            · simp [gsplit]
            · simp at hlen
          · rcases ls with _ | ⟨l', ls'⟩
            · simp at hlen
            · have ht := glob_wf_tail h
              simp only [gsplit, Bool.false_eq_true, if_false, List.drop_nil, exists_const]
              simp only [Char.reduceEq, if_false, if_true] 
              cases l'
              · rcases glob_wf_head ht with rfl | rfl
                · simp at hns
                · simp [gsplit]
              · simp [gsplit]
        · simp [gsplit]
      · simp [gsplit]

end Findglob


namespace Findglob

/-- The end checks of the loop of `glob_match` after a position and a byte were
consumed, followed by the rest of the loop. -/
theorem glob_consume (gs : string_t) (ls : List Bool) (ts : string_t) (hwf : glob_wf gs ls)
    (ih : gs ≠ [] → ts ≠ [] → (glob_match_loop gs ls ts = true ↔ gsplit gs ls ts)) :
    ((if gs.length = 0 then ts.length == 0
      else if ts.length = 0 then
        gs.length == 1 && gs.head? == some '*' && (ls.head? == some false)
      else glob_match_loop gs ls ts) = true) ↔ gsplit gs ls ts := by
  have hlen : ls.length = gs.length := hwf.1
  rcases gs with _ | ⟨g', gs'⟩
  · simp [gsplit]
  · rcases ts with _ | ⟨t', ts'⟩
    · rw [gsplit_nil_iff _ _ hwf]
      rcases ls with _ | ⟨l', ls'⟩
      · simp at hlen
      · rcases gs' with _ | ⟨g'', gs''⟩
        · rcases ls' with _ | ⟨l'', ls''⟩
          · simp
          · simp at hlen
        · simp
    · simp only [List.length_cons, Nat.add_one_ne_zero, if_false]
      exact ih (by simp) (by simp)

theorem glob_match_correct_aux :
    ∀ (n : Nat) (glob : string_t) (lit : List Bool) (text : string_t),
      glob.length + text.length = n → glob_wf glob lit →
      (glob_match glob lit text = true ↔ gsplit glob lit text)
        ∧ (glob ≠ [] → text ≠ [] → (glob_match_loop glob lit text = true ↔ gsplit glob lit text)) := by
  intro n
  induction n using Nat.strong_induction_on with
  | _ n ih =>
    intro glob lit text hn hwf
    have hloop : glob ≠ [] → text ≠ [] →
        (glob_match_loop glob lit text = true ↔ gsplit glob lit text) := by
      intro hg ht
      have hlen : lit.length = glob.length := hwf.1
      rcases glob with _ | ⟨g, gs⟩
      · exact absurd rfl hg
      rcases text with _ | ⟨t, ts⟩
      · exact absurd rfl ht
      rcases lit with _ | ⟨l, ls⟩
      · simp at hlen
      have hwf' := glob_wf_tail hwf
      have hcons := glob_consume gs ls ts hwf'
        (ih (gs.length + ts.length) (by simp at hn; omega) gs ls ts rfl hwf').2
      rw [glob_match_loop]
      cases l
      · rcases glob_wf_head hwf with rfl | rfl
        · -- a wildcard '*'
          have hns := glob_wf_no_star_star hwf
          simp only [Bool.false_or, Char.reduceBEq, Bool.false_eq_true, if_false]
          simp only [gsplit, Bool.false_eq_true, if_false, Char.reduceEq, if_true]
          rcases gs with _ | ⟨g', gs'⟩
          · simp only [List.length_nil, if_true, true_iff]
            exact ⟨ts.length + 1, by simp [gsplit]⟩
          · simp only [List.length_cons, Nat.add_one_ne_zero, if_false]
            have hrec := (ih ((g' :: gs').length + (t :: ts).length)
              (by simp at hn ⊢; omega) (g' :: gs') ls (t :: ts) rfl hwf').1
            have hsplit : (∃ n, gsplit (g' :: gs') ls ((t :: ts).drop n))
                ↔ gsplit (g' :: gs') ls (t :: ts) ∨ ∃ n, gsplit (g' :: gs') ls (ts.drop n) := by
              constructor
              · rintro ⟨n, h⟩
                rcases n with _ | n
                · exact Or.inl h
                · exact Or.inr ⟨n, h⟩
              · rintro (h | ⟨n, h⟩)
                · exact ⟨0, h⟩
                · exact ⟨n + 1, h⟩
            rw [hsplit, ← hrec]
            by_cases hm : glob_match (g' :: gs') ls (t :: ts) = true
            · simp [hm]
            · have hm' : glob_match (g' :: gs') ls (t :: ts) = false := by simpa using hm
              rw [hm']
              simp only [Bool.false_eq_true, if_false, false_or]
              rcases ts with _ | ⟨t', ts'⟩
              · simp only [List.length_nil, if_true, List.drop_nil, exists_const,
                  Bool.false_eq_true, false_iff]
                rw [gsplit_nil_iff _ _ hwf']
                rintro (h | ⟨h1, h2⟩)
                · simp at h
                · apply hns
                  simp [h1, h2]
              · simp only [List.length_cons, Nat.add_one_ne_zero, if_false]
                have hrec2 := (ih (('*' :: g' :: gs').length + (t' :: ts').length)
                  (by simp at hn ⊢; omega) ('*' :: g' :: gs') (false :: ls) (t' :: ts') rfl hwf).2
                  (by simp) (by simp)
                rw [hrec2]
                simp only [gsplit, Bool.false_eq_true, if_false, Char.reduceEq, if_true]
        · -- a wildcard '?'
          simp only [Bool.false_or, beq_self_eq_true, if_true, Bool.and_false,
            Bool.false_eq_true, if_false]
          rw [hcons]
          simp only [gsplit, Bool.false_eq_true, if_false, if_true, List.cons.injEq]
          constructor
          · intro h
            exact ⟨t, ts, ⟨rfl, rfl⟩, h⟩
          · rintro ⟨b, tl, ⟨rfl, rfl⟩, h⟩
            exact h
      · -- a literal
        simp only [Bool.true_or, if_true, Bool.and_true]
        by_cases hgt : g = t
        · subst hgt
          simp only [bne_self_eq_false, Bool.false_eq_true, if_false]
          rw [hcons]
          simp [gsplit]
        · have : (g != t) = true := by simpa using hgt
          simp only [this, if_true, Bool.false_eq_true, false_iff]
          simp [gsplit, eq_comm, hgt]
    refine ⟨?_, hloop⟩
    rw [glob_match]
    rcases glob with _ | ⟨g, gs⟩
    · simp [gsplit]
    · rcases text with _ | ⟨t, ts⟩
      · simp only [List.length_cons, Nat.add_one_ne_zero, if_false, List.length_nil, if_true]
        rw [gsplit_nil_iff _ _ hwf, Bool.and_eq_true, string_eq_iff _ _ (Or.inr nul_free_star)]
        have hlen : lit.length = (g :: gs).length := hwf.1
        rcases lit with _ | ⟨l, ls⟩
        · simp at hlen
        · simp only [STAR, List.cons.injEq, List.head?_cons, beq_iff_eq, Option.some.injEq,
            reduceCtorEq, false_or]
          constructor
          · rintro ⟨⟨rfl, rfl⟩, rfl⟩
            have : ls = [] := by simpa using hlen
            subst this
            exact ⟨⟨rfl, rfl⟩, rfl, rfl⟩
          · rintro ⟨⟨rfl, rfl⟩, h⟩
            exact ⟨⟨rfl, rfl⟩, h.1⟩
      · simp only [List.length_cons, Nat.add_one_ne_zero, if_false]
        exact hloop (by simp) (by simp)

end Findglob


namespace Findglob

theorem glob_match_iff_gsplit (glob : string_t) (lit : List Bool) (name : string_t)
    (h : glob_wf glob lit) : glob_match glob lit name = true ↔ gsplit glob lit name :=
  (glob_match_correct_aux _ glob lit name rfl h).1

/-- C4: for every glob `(text, lit)` in which each non-literal position holds
`*` or `?` and no two adjacent positions are both a non-literal `*`, and for
every name, `glob_match(text, lit, name)` is true iff the name splits into
consecutive pieces, one per glob position: exactly the byte of a literal
position, exactly one byte for a non-literal `?`, any run (possibly empty) for
a non-literal `*`. -/
theorem glob_match_iff_split (glob : string_t) (lit : List Bool) (name : string_t)
    (h : glob_wf glob lit) : glob_match glob lit name = true ↔ glob_split glob lit name := by
  rw [glob_match_iff_gsplit glob lit name h, glob_split_iff_gsplit glob lit name h.1]

theorem glob_match_iff_split_witness :
    glob_wf ['a', '*', 'b', '?'] [true, false, true, false]
      ∧ (glob_match ['a', '*', 'b', '?'] [true, false, true, false] ['a', 'x', 'y', 'b', 'z'] = true
          ↔ glob_split ['a', '*', 'b', '?'] [true, false, true, false]
              ['a', 'x', 'y', 'b', 'z']) := by
  have h : glob_wf ['a', '*', 'b', '?'] [true, false, true, false] := by
    refine ⟨rfl, ?_, ?_⟩
    · intro i g hg hl
      rcases i with _ | _ | _ | _ | i <;> simp at hg hl <;> subst hg <;> simp
    · intro i
      rcases i with _ | _ | _ | _ | i <;> simp [wild_star]
  exact ⟨h, glob_match_iff_split _ _ _ h⟩

end Findglob


namespace Findglob

/-! ## The parser loop against the grammar -/

theorem tokenize_plain (c : Char) (rest : string_t) (hc : c ≠ '\\') :
    tokenize (c :: rest) = .plain c :: tokenize rest := by
  rw [tokenize.eq_def]
  simp [hc]

theorem tokenize_esc (x : Char) (rest : string_t) :
    tokenize ('\\' :: x :: rest) = .esc x :: tokenize rest := by
  rw [tokenize]
  simp

theorem tokenize_dangling : tokenize ['\\'] = [.dangling] := by
  rw [tokenize]
  simp

theorem unescape_tokens_cons (t : token) (ts : List token) :
    unescape_tokens (t :: ts)
      = match t.unescape with
        | some x => (unescape_tokens ts).map (fun ul => x :: ul)
        | none => none := by
  rw [unescape_tokens]
  cases t.unescape <;> cases unescape_tokens ts <;> rfl

theorem unescape_nil : unescape [] = some [] := rfl

theorem unescape_plain (c : Char) (rest : string_t) (hc : c ≠ '\\') :
    unescape (c :: rest)
      = (unescape rest).map (fun ul => (c, !(c == '*' || c == '?')) :: ul) := by
  simp only [unescape, tokenize_plain c rest hc, unescape_tokens_cons, token.unescape]

theorem unescape_backslash_nil : unescape ['\\'] = none := by
  simp only [unescape, tokenize_dangling, unescape_tokens_cons, token.unescape]

theorem unescape_backslash_cons (x : Char) (rest : string_t) :
    unescape ('\\' :: x :: rest)
      = if x = '\\' ∨ x = '*' ∨ x = '?' then (unescape rest).map (fun ul => (x, true) :: ul)
        else none := by
  simp only [unescape, tokenize_esc, unescape_tokens_cons, token.unescape]
  by_cases hx : x = '\\' ∨ x = '*' ∨ x = '?'
  · simp only [hx, if_true]
  · simp only [hx, if_false]

end Findglob


namespace Findglob

theorem unescape_tokens_length (ts : List token) (ul : List (Char × Bool))
    (h : unescape_tokens ts = some ul) : ul.length = ts.length := by
  induction ts generalizing ul with
  | nil =>
    simp [unescape_tokens] at h
    subst h
    rfl
  | cons t ts ih =>
    rw [unescape_tokens_cons] at h
    cases ht : t.unescape with
    | none => simp [ht] at h
    | some x =>
      simp only [ht] at h
      cases hts : unescape_tokens ts with
      | none => simp [hts] at h
      | some ul' =>
        simp only [hts, Option.map_some', Option.some.injEq] at h
        subst h
        simp [ih ul' hts]

theorem tokenize_ne_nil (c : Char) (rest : string_t) : tokenize (c :: rest) ≠ [] := by
  rw [tokenize.eq_def]
  simp only
  split
  · split <;> simp
  · simp

theorem unescape_cons_ne_nil (c : Char) (rest : string_t) (ul : List (Char × Bool))
    (h : unescape (c :: rest) = some ul) : ul ≠ [] := by
  have := unescape_tokens_length _ _ h
  intro hul
  subst hul
  have hne := tokenize_ne_nil c rest
  simp at this
  exact hne (List.length_eq_zero.1 this.symm)

/-- One byte written by the loop, then the rest of the loop. -/
theorem loop_step (PM : Nat) (rest : string_t) (st0 st' : parse_state) (x : Char × Bool)
    (ih : ∀ st st' : parse_state, st.escaped = false →
      ((section_parse_loop PM rest st = some st' ∧ st'.escaped = false)
        ↔ ∃ ul, unescape rest = some ul ∧ loop_accepts PM st ul ∧ st' = st.extend ul)) :
    (st0.len ≠ PM ∧ ¬ star_clash st0 x
        ∧ section_parse_loop PM rest (st0.push x) = some st' ∧ st'.escaped = false)
      ↔ ∃ ul, (unescape rest).map (fun ul => x :: ul) = some ul
          ∧ loop_accepts PM st0 ul ∧ st' = st0.extend ul := by
  constructor
  · rintro ⟨h1, h2, h3⟩
    obtain ⟨ul, hu1, hu2, hu3⟩ := (ih (st0.push x) st' rfl).1 h3
    exact ⟨x :: ul, by simp [hu1], ⟨h1, h2, hu2⟩, hu3⟩
  · rintro ⟨ul, hu1, hu2, hu3⟩
    cases hr : unescape rest with
    | none => simp [hr] at hu1
    | some ul' =>
      simp only [hr, Option.map_some', Option.some.injEq] at hu1
      subst hu1
      obtain ⟨a1, a2, a3⟩ := hu2
      exact ⟨a1, a2, (ih (st0.push x) st' rfl).2 ⟨ul', hr, a3, hu3⟩⟩

theorem loop_cons_plain (PM : Nat) (c : Char) (rest : string_t) (st : parse_state)
    (hesc : st.escaped = false) (hc : c ≠ '\\') :
    section_parse_loop PM (c :: rest) st
      = if st.len = PM ∨ star_clash st (c, !(c == '*' || c == '?')) then none
        else section_parse_loop PM rest (st.push (c, !(c == '*' || c == '?'))) := by
  rcases st with ⟨buf, lit, escaped, nstar, star1, star2, nquestion⟩
  simp only at hesc
  subst hesc
  rw [section_parse_loop]
  by_cases hlen : parse_state.len ⟨buf, lit, false, nstar, star1, star2, nquestion⟩ = PM
  · simp [hlen]
  · simp only [hlen, if_false, hc, false_or]
    by_cases hs : c = '*'
    · subst hs
      simp only [star_clash, parse_state.push, parse_state.len, Bool.not_false, Bool.true_and,
        bne_iff_ne, ne_eq, List.length_eq_zero, beq_iff_eq, Bool.and_eq_true, Bool.not_eq_true',
        decide_eq_true_eq, decide_not, Bool.decide_and, true_and, Nat.add_left_eq_self,
        Nat.reduceEqDiff, and_true, Char.reduceBEq, Bool.or_false, Bool.or_true,
        Bool.true_eq_false, if_true, beq_self_eq_true, Bool.not_true]
      have hb : (¬buf = [] ∧ buf.getLast? = some '*') ↔ buf.getLast? = some '*' :=
        ⟨fun h => h.2, fun h => ⟨by rintro rfl; simp at h, h⟩⟩
      simp [hb]
    · by_cases hq : c = '?'
      · subst hq
        simp [star_clash, parse_state.push, parse_state.len]
      · have h1 : (c == '*') = false := by simpa using hs
        have h2 : (c == '?') = false := by simpa using hq
        simp [star_clash, parse_state.push, parse_state.len, hs, hq, h1, h2]

theorem loop_cons_escaped (PM : Nat) (c : Char) (rest : string_t) (st : parse_state)
    (hesc : st.escaped = true) :
    section_parse_loop PM (c :: rest) st
      = if st.len = PM then none
        else if c = '\\' ∨ c = '*' ∨ c = '?' then
          section_parse_loop PM rest (({ st with escaped := false } : parse_state).push (c, true))
        else none := by
  rcases st with ⟨buf, lit, escaped, nstar, star1, star2, nquestion⟩
  simp only at hesc
  subst hesc
  rw [section_parse_loop]
  by_cases hlen : parse_state.len ⟨buf, lit, true, nstar, star1, star2, nquestion⟩ = PM
  · simp [hlen]
  · simp only [hlen, if_false]
    by_cases hb : c = '\\'
    · subst hb
      simp [parse_state.push, parse_state.len]
    · by_cases hs : c = '*'
      · subst hs
        simp [parse_state.push, parse_state.len]
      · by_cases hq : c = '?'
        · subst hq
          simp [parse_state.push, parse_state.len]
        · simp [hb, hs, hq]

theorem star_clash_literal (st : parse_state) (c : Char) : ¬ star_clash st (c, true) := by
  simp [star_clash]

theorem parser_restore_escaped (st : parse_state) (h : st.escaped = false) :
    ({ st with escaped := false } : parse_state) = st := by
  cases st
  simp_all

/-- The loop of `section_parse` accepts exactly the strings that the grammar
unescapes, with room in the buffer and no two consecutive unescaped `*`, and
ends in the state that the unescaped bytes give. -/
theorem loop_spec (PM : Nat) (rest : string_t) :
    ∀ st st' : parse_state,
      (st.escaped = false →
        ((section_parse_loop PM rest st = some st' ∧ st'.escaped = false)
          ↔ ∃ ul, unescape rest = some ul ∧ loop_accepts PM st ul ∧ st' = st.extend ul))
      ∧ (st.escaped = true →
        ((section_parse_loop PM rest st = some st' ∧ st'.escaped = false)
          ↔ ∃ ul, unescape ('\\' :: rest) = some ul
              ∧ loop_accepts PM { st with escaped := false } ul
              ∧ st' = ({ st with escaped := false } : parse_state).extend ul)) := by
  induction rest with
  | nil =>
    intro st st'
    constructor
    · intro hesc
      simp only [section_parse_loop, unescape_nil, Option.some.injEq]
      constructor
      · rintro ⟨rfl, _⟩
        exact ⟨[], rfl, trivial, rfl⟩
      · rintro ⟨ul, rfl, _, rfl⟩
        exact ⟨rfl, hesc⟩
    · intro hesc
      simp only [section_parse_loop, unescape_backslash_nil, Option.some.injEq]
      constructor
      · rintro ⟨rfl, h⟩
        rw [hesc] at h
        cases h
      · rintro ⟨ul, h, _⟩
        cases h
  | cons c rest ih =>
    intro st st'
    have ihf : ∀ s s' : parse_state, s.escaped = false →
        ((section_parse_loop PM rest s = some s' ∧ s'.escaped = false)
          ↔ ∃ ul, unescape rest = some ul ∧ loop_accepts PM s ul ∧ s' = s.extend ul) :=
      fun s s' h => (ih s s').1 h
    constructor
    · intro hesc
      by_cases hc : c = '\\'
      · subst hc
        have iht := (ih { st with escaped := true } st').2 rfl
        simp only [parser_restore_escaped st hesc] at iht
        rw [← iht, section_parse_loop]
        by_cases hlen : st.len = PM
        · simp only [hlen, if_true]
          constructor
          · rintro ⟨h, _⟩
            cases h
          · intro h1
            exfalso
            obtain ⟨ul, hu, hacc, _⟩ := iht.1 h1
            have hne := unescape_cons_ne_nil _ _ _ hu
            rcases ul with _ | ⟨x, ul⟩
            · exact hne rfl
            · exact hacc.1 hlen
        · simp [hlen, hesc]
      · rw [loop_cons_plain PM c rest st hesc hc, unescape_plain c rest hc,
          ← loop_step PM rest st st' _ ihf]
        by_cases h : st.len = PM ∨ star_clash st (c, !(c == '*' || c == '?'))
        · simp only [h, if_true]
          constructor
          · rintro ⟨h', _⟩
            cases h'
          · rintro ⟨h1, h2, _⟩
            exfalso
            rcases h with h | h
            · exact h1 h
            · exact h2 h
        · simp only [h, if_false]
          rw [not_or] at h
          constructor
          · intro hh
            exact ⟨h.1, h.2, hh⟩
          · rintro ⟨_, _, hh⟩
            exact hh
    · intro hesc
      rw [loop_cons_escaped PM c rest st hesc, unescape_backslash_cons]
      by_cases hlen : st.len = PM
      · simp only [hlen, if_true]
        constructor
        · rintro ⟨h', _⟩
          cases h'
        rintro ⟨ul, hu, hacc, _⟩
        exfalso
        split at hu
        · cases hr : unescape rest with
          | none => simp [hr] at hu
          | some ul' =>
            simp only [hr, Option.map_some', Option.some.injEq] at hu
            subst hu
            exact hacc.1 hlen
        · cases hu
      · simp only [hlen, if_false]
        by_cases hx : c = '\\' ∨ c = '*' ∨ c = '?'
        · simp only [hx, if_true]
          rw [← loop_step PM rest { st with escaped := false } st' _ ihf]
          have hlen' : ({ st with escaped := false } : parse_state).len ≠ PM := hlen
          constructor
          · intro hh
            exact ⟨hlen', star_clash_literal _ _, hh⟩
          · rintro ⟨_, _, hh⟩
            exact hh
        · simp [hx]

end Findglob


namespace Findglob

theorem extend_snoc (st : parse_state) (ul : List (Char × Bool)) (x : Char × Bool) :
    st.extend (ul ++ [x]) = (st.extend ul).push x := by
  simp [parse_state.extend, List.foldl_append]

theorem extend_cons (st : parse_state) (ul : List (Char × Bool)) (x : Char × Bool) :
    st.extend (x :: ul) = (st.push x).extend ul := rfl

theorem wild_stars_snoc (ul : List (Char × Bool)) (x : Char × Bool) :
    wild_stars (ul ++ [x])
      = wild_stars ul ++ (if x = ('*', false) then [ul.length] else []) := by
  unfold wild_stars
  rw [List.length_append, List.length_singleton, List.range_succ, List.filter_append]
  congr 1
  · apply List.filter_congr
    intro i hi
    rw [List.mem_range] at hi
    rw [List.getElem?_append_left hi]
  · by_cases hx : x = ('*', false)
    · simp [hx]
    · simp [hx]

theorem wild_questions_snoc (ul : List (Char × Bool)) (x : Char × Bool) :
    wild_questions (ul ++ [x])
      = wild_questions ul + (if x = ('?', false) then 1 else 0) := by
  unfold wild_questions
  rw [List.count_append]
  by_cases hx : x = ('?', false)
  · simp [hx]
  · have : ¬ (x == ('?', false)) = true := by simpa using hx
    simp [hx, List.count_cons, this]

/-- The buffers and counters of the loop after a run of unescaped bytes, from
the initial state. -/
theorem extend_init (ul : List (Char × Bool)) :
    let s := ({} : parse_state).extend ul
    s.buf = ul.map Prod.fst ∧ s.lit = ul.map Prod.snd ∧ s.escaped = false
      ∧ s.nstar = (wild_stars ul).length ∧ s.nquestion = wild_questions ul
      ∧ s.star1 = (wild_stars ul)[0]?.getD 0 ∧ s.star2 = (wild_stars ul)[1]?.getD 0 := by
  induction ul using List.reverseRecOn with
  | nil => simp [parse_state.extend, wild_stars, wild_questions]
  | append_singleton ul x ih =>
    simp only at ih ⊢
    obtain ⟨h1, h2, h3, h4, h5, h6, h7⟩ := ih
    rw [extend_snoc, wild_stars_snoc, wild_questions_snoc]
    have hlen : (({} : parse_state).extend ul).len = ul.length := by
      simp [parse_state.len, h1]
    simp only [parse_state.push, h1, h2, h4, h5, h6, h7, hlen, List.map_append, List.map_cons,
      List.map_nil, true_and]
    by_cases hx : x = ('*', false)
    · have hq : x ≠ ('?', false) := by rw [hx]; decide
      simp only [hx, if_true, hq, if_false, Nat.add_zero, List.length_append,
        List.length_singleton, true_and]
      rcases hw : wild_stars ul with _ | ⟨a, _ | ⟨b, t⟩⟩ <;> simp
    · simp only [hx, if_false, List.append_nil, false_and, true_and]
      by_cases hq : x = ('?', false)
      · simp [hq]
      · simp [hq]

end Findglob


namespace Findglob

theorem star_clash_iff (ul0 : List (Char × Bool)) (x : Char × Bool) :
    star_clash (({} : parse_state).extend ul0) x
      ↔ x = ('*', false) ∧ ul0.getLast? = some ('*', false) := by
  obtain ⟨h1, h2, -⟩ := extend_init ul0
  simp only [star_clash, h1, h2, List.getLast?_map]
  cases hl : ul0.getLast? with
  | none => simp
  | some p =>
    rcases p with ⟨a, b⟩
    simp

theorem chain_snoc_iff (ul0 : List (Char × Bool)) (x : Char × Bool) :
    List.Chain' not_both_stars (ul0 ++ [x])
      ↔ List.Chain' not_both_stars ul0
          ∧ ¬ (x = ('*', false) ∧ ul0.getLast? = some ('*', false)) := by
  rw [List.chain'_append]
  simp only [List.chain'_singleton, true_and, List.head?_cons, Option.mem_def,
    Option.some.injEq, forall_eq', not_both_stars]
  constructor
  · rintro ⟨h1, h2⟩
    refine ⟨h1, ?_⟩
    rintro ⟨hx, hl⟩
    exact h2 _ hl ⟨rfl, hx⟩
  · rintro ⟨h1, h2⟩
    refine ⟨h1, ?_⟩
    rintro y hy ⟨rfl, hx⟩
    exact h2 ⟨hx, hy⟩

/-- The loop accepts a run of unescaped bytes iff it fits in the buffer and no
two neighbours are both an unescaped `*`. -/
theorem loop_accepts_iff (PM : Nat) (ul : List (Char × Bool)) :
    ∀ ul0 : List (Char × Bool), ul0.length ≤ PM → List.Chain' not_both_stars ul0 →
      (loop_accepts PM (({} : parse_state).extend ul0) ul
        ↔ ul0.length + ul.length ≤ PM ∧ List.Chain' not_both_stars (ul0 ++ ul)) := by
  induction ul with
  | nil =>
    intro ul0 h1 h2
    simp [loop_accepts, h1, h2]
  | cons x ul ih =>
    intro ul0 h1 h2
    have hlen : (({} : parse_state).extend ul0).len = ul0.length := by
      simp [parse_state.len, (extend_init ul0).1]
    simp only [loop_accepts, hlen, ← extend_snoc, star_clash_iff]
    have happ : ul0 ++ x :: ul = (ul0 ++ [x]) ++ ul := by simp
    constructor
    · rintro ⟨a1, a2, a3⟩
      have hc : List.Chain' not_both_stars (ul0 ++ [x]) := (chain_snoc_iff ul0 x).2 ⟨h2, a2⟩
      have := (ih (ul0 ++ [x]) (by simp; omega) hc).1 a3
      simp only [List.length_append, List.length_singleton] at this
      rw [happ]
      exact ⟨by simp; omega, this.2⟩
    · rintro ⟨b1, b2⟩
      rw [happ] at b2
      have hc : List.Chain' not_both_stars (ul0 ++ [x]) := b2.left_of_append
      simp only [List.length_cons] at b1
      refine ⟨by omega, ((chain_snoc_iff ul0 x).1 hc).2, ?_⟩
      exact (ih (ul0 ++ [x]) (by simp; omega) hc).2 ⟨by simp; omega, b2⟩

theorem loop_accepts_init (PM : Nat) (ul : List (Char × Bool)) :
    loop_accepts PM {} ul ↔ ul.length ≤ PM ∧ List.Chain' not_both_stars ul := by
  have := loop_accepts_iff PM ul [] (Nat.zero_le _) List.chain'_nil
  simpa [parse_state.extend] using this

theorem nul_free_doublestar : nul_free DOUBLESTAR := by
  intro c hc
  simp [DOUBLESTAR] at hc
  subst hc
  decide

/-- The sections that `section_parse` returns. -/
theorem section_parse_some_iff (PM : Nat) (s : string_t) (sect : section_t) :
    section_parse PM s = some sect
      ↔ s ≠ [] ∧
        ((s = DOUBLESTAR ∧ sect = .SECTION_ANY)
          ∨ (s ≠ DOUBLESTAR ∧ ∃ ul, unescape s = some ul ∧ ul.length ≤ PM
              ∧ List.Chain' not_both_stars ul
              ∧ sect = section_classify (({} : parse_state).extend ul))) := by
  unfold section_parse
  by_cases hs : s = []
  · simp [hs]
  · have hlen : s.length ≠ 0 := by simpa using hs
    simp only [hlen, if_false, hs, ne_eq, not_false_eq_true, true_and]
    by_cases hd : s = DOUBLESTAR
    · have : string_eq s DOUBLESTAR = true := (string_eq_iff _ _ (Or.inr nul_free_doublestar)).2 hd
      rw [if_pos this]
      simp only [Option.some.injEq, hd, true_and, not_true_eq_false, false_and, or_false]
      exact eq_comm
    · have : ¬ string_eq s DOUBLESTAR = true :=
        fun h => hd ((string_eq_iff _ _ (Or.inr nul_free_doublestar)).1 h)
      rw [if_neg this]
      simp only [hd, false_and, not_false_eq_true, true_and, false_or]
      have hspec := fun st' => ((loop_spec PM s {} st').1 rfl)
      simp only [loop_accepts_init] at hspec
      constructor
      · intro h
        cases hl : section_parse_loop PM s {} with
        | none => simp [hl] at h
        | some st' =>
          simp only [hl] at h
          by_cases he : st'.escaped = true
          · simp [he] at h
          · have he' : st'.escaped = false := by simpa using he
            simp only [he', Bool.false_eq_true, if_false, Option.some.injEq] at h
            obtain ⟨ul, hu, ⟨hl1, hl2⟩, rfl⟩ := (hspec st').1 ⟨hl, he'⟩
            exact ⟨ul, hu, hl1, hl2, h.symm⟩
      · rintro ⟨ul, hu, hl1, hl2, rfl⟩
        obtain ⟨h1, h2⟩ := (hspec _).2 ⟨ul, hu, ⟨hl1, hl2⟩, rfl⟩
        simp [h1, h2]

end Findglob


namespace Findglob

theorem wild_stars_single (x : Char × Bool) :
    wild_stars [x] = if x = ('*', false) then [0] else [] := by
  have := wild_stars_snoc [] x
  simpa [wild_stars] using this

theorem bare_star_iff (ul : List (Char × Bool)) :
    (ul.length = 1 ∧ (wild_stars ul).length = 1) ↔ ul = [('*', false)] := by
  constructor
  · rintro ⟨h1, h2⟩
    rcases ul with _ | ⟨x, _ | ⟨y, t⟩⟩
    · simp at h1
    · rw [wild_stars_single] at h2
      by_cases hx : x = ('*', false)
      · rw [hx]
      · simp [hx] at h2
    · simp at h1
  · rintro rfl
    exact ⟨rfl, by rw [wild_stars_single]; simp⟩

/-- The classification that `section_parse` makes of its buffers is the one the
specification lists. -/
theorem section_classify_eq_spec (s : string_t) (ul : List (Char × Bool))
    (hs : s ≠ ['*', '*']) :
    section_classify (({} : parse_state).extend ul) = classify_spec s ul := by
  obtain ⟨h1, h2, h3, h4, h5, h6, h7⟩ := extend_init ul
  have hbare := bare_star_iff ul
  unfold section_classify classify_spec
  simp only [parse_state.len, h1, h2, h4, h5, h6, h7, List.length_map, hs, if_false]
  by_cases hb : ul = [('*', false)]
  · rw [if_pos (hbare.2 hb), if_pos hb]
  · have hb' : ¬ (ul.length = 1 ∧ (wild_stars ul).length = 1) := fun h => hb (hbare.1 h)
    rw [if_neg hb', if_neg hb]
    by_cases hq : wild_questions ul = 0
    · simp only [hq, true_and, if_true]
      rcases hW : wild_stars ul with _ | ⟨i, _ | ⟨j, _ | ⟨k, t⟩⟩⟩
      · simp
      · simp only [List.length_singleton, List.getElem?_cons_zero, Option.getD_some,
          Nat.reduceEqDiff, if_false, Nat.succ_ne_zero, true_and, false_and, one_ne_zero]
        by_cases hi : i = 0
        · simp [hi, List.take_of_length_le]
        · simp only [hi, if_false]
          by_cases hi' : i = ul.length - 1
          · simp [hi', List.dropLast_eq_take]
          · simp only [hi', if_false, List.length_nil, Nat.zero_add, if_true, and_self]
            have htk : List.take (ul.length - i - 1) (List.drop (i + 1) (List.map Prod.fst ul))
                = List.drop (i + 1) (List.map Prod.fst ul) :=
              List.take_of_length_le (by simp; omega)
            rw [htk]
      · simp only [List.length_cons, List.length_nil, Nat.zero_add, Nat.reduceAdd,
          Nat.reduceEqDiff, if_false, false_and, OfNat.ofNat_ne_zero, OfNat.ofNat_ne_one,
          List.getElem?_cons_zero, Option.getD_some, true_and, List.getElem?_cons_succ]
        have htk : List.take ul.length (List.map Prod.snd ul) = List.map Prod.snd ul :=
          List.take_of_length_le (by simp)
        have htk2 : List.take (ul.length - 2) (List.drop 1 (List.map Prod.fst ul))
            = (List.drop 1 (List.map Prod.fst ul)).dropLast := by
          rw [List.dropLast_eq_take]
          congr 1
          simp
          omega
        by_cases hij : i = 0 ∧ j = ul.length - 1
        · rw [if_pos hij, if_pos hij, htk2]
        · rw [if_neg hij, if_neg hij, htk]
      · have htk : List.take ul.length (List.map Prod.snd ul) = List.map Prod.snd ul :=
          List.take_of_length_le (by simp)
        simp [htk]
    · have htk : List.take ul.length (List.map Prod.snd ul) = List.map Prod.snd ul :=
        List.take_of_length_le (by simp)
      simp only [hq, false_and, if_false, htk]

end Findglob


namespace Findglob

theorem chain_iff_getElem? (l : List (Char × Bool)) :
    List.Chain' not_both_stars l
      ↔ ∀ i : Nat, ¬ (l[i]? = some ('*', false) ∧ l[i + 1]? = some ('*', false)) := by
  induction l with
  | nil => simp
  | cons a l ih =>
    rw [List.chain'_cons', ih]
    constructor
    · rintro ⟨h1, h2⟩ i ⟨hi1, hi2⟩
      rcases i with _ | i
      · simp only [List.getElem?_cons_zero, Option.some.injEq, Nat.zero_add,
          List.getElem?_cons_succ] at hi1 hi2
        have hh : l.head? = some ('*', false) := by
          rw [← hi2]
          cases l <;> simp
        exact h1 _ hh ⟨hi1, rfl⟩
      · simp only [List.getElem?_cons_succ] at hi1 hi2
        exact h2 i ⟨hi1, hi2⟩
    · intro h
      constructor
      · rintro y hy ⟨ha, hb⟩
        apply h 0
        constructor
        · simp [ha]
        · subst hb
          cases l with
          | nil => simp at hy
          | cons b t =>
            simp at hy
            simp [hy]
      · intro i hi
        apply h (i + 1)
        simpa using hi

theorem unescape_tokens_getElem? (ts : List token) (ul : List (Char × Bool))
    (h : unescape_tokens ts = some ul) (i : Nat) :
    ul[i]? = (ts[i]?).bind token.unescape := by
  induction ts generalizing ul i with
  | nil =>
    simp [unescape_tokens] at h
    subst h
    simp
  | cons t ts ih =>
    rw [unescape_tokens_cons] at h
    cases ht : t.unescape with
    | none => simp [ht] at h
    | some x =>
      simp only [ht] at h
      cases hts : unescape_tokens ts with
      | none => simp [hts] at h
      | some ul' =>
        simp only [hts, Option.map_some', Option.some.injEq] at h
        subst h
        rcases i with _ | i
        · simp [ht]
        · simp [ih ul' hts i]

theorem token_unescape_star (t : token) :
    t.unescape = some ('*', false) ↔ t = .plain '*' := by
  cases t with
  | esc c =>
    simp only [token.unescape, reduceCtorEq, iff_false]
    split <;> simp
  | plain c =>
    simp only [token.unescape, Option.some.injEq, Prod.mk.injEq, token.plain.injEq]
    constructor
    · rintro ⟨h, _⟩
      exact h
    · rintro rfl
      exact ⟨rfl, by decide⟩
  | dangling => simp [token.unescape]

theorem token_unescape_wild (t : token) (c : Char) (h : t.unescape = some (c, false)) :
    c = '*' ∨ c = '?' := by
  cases t with
  | esc x =>
    simp only [token.unescape] at h
    split at h <;> simp at h
  | plain x =>
    simp only [token.unescape, Option.some.injEq, Prod.mk.injEq] at h
    obtain ⟨rfl, h2⟩ := h
    simp only [Bool.not_eq_false', Bool.or_eq_true, beq_iff_eq] at h2
    exact h2
  | dangling => simp [token.unescape] at h

theorem token_unescape_none (t : token) :
    t.unescape = none
      ↔ t = .dangling ∨ ∃ x, t = .esc x ∧ x ≠ '\\' ∧ x ≠ '*' ∧ x ≠ '?' := by
  cases t with
  | esc c =>
    simp only [token.unescape, reduceCtorEq, false_or, token.esc.injEq, exists_eq_left']
    split
    · rename_i h
      simp only [reduceCtorEq, false_iff, not_and]
      tauto
    · rename_i h
      simp only [true_iff]
      tauto
  | plain c => simp [token.unescape]
  | dangling => simp [token.unescape]

theorem unescape_tokens_none (ts : List token) :
    unescape_tokens ts = none ↔ ∃ t ∈ ts, t.unescape = none := by
  induction ts with
  | nil => simp [unescape_tokens]
  | cons t ts ih =>
    rw [unescape_tokens_cons]
    cases ht : t.unescape with
    | none => simp [ht]
    | some x =>
      simp only [Option.map_eq_none', ih, List.mem_cons, exists_eq_or_imp, ht, reduceCtorEq,
        false_or]

theorem unescape_none_iff (s : string_t) :
    unescape s = none ↔ trailing_backslash s ∨ illegal_escape s := by
  unfold unescape trailing_backslash illegal_escape
  rw [unescape_tokens_none]
  constructor
  · rintro ⟨t, ht, hn⟩
    rcases (token_unescape_none t).1 hn with rfl | ⟨x, rfl, hx⟩
    · exact Or.inl ht
    · exact Or.inr ⟨x, ht, hx⟩
  · rintro (h | ⟨x, hx, h⟩)
    · exact ⟨_, h, (token_unescape_none _).2 (Or.inl rfl)⟩
    · exact ⟨_, hx, (token_unescape_none _).2 (Or.inr ⟨x, rfl, h⟩)⟩

theorem consecutive_stars_iff (s : string_t) (ul : List (Char × Bool))
    (h : unescape s = some ul) :
    consecutive_stars s ↔ ¬ List.Chain' not_both_stars ul := by
  rw [chain_iff_getElem?]
  simp only [not_forall, not_not]
  unfold consecutive_stars
  have key : ∀ i : Nat, ul[i]? = some ('*', false) ↔ (tokenize s)[i]? = some (.plain '*') := by
    intro i
    rw [unescape_tokens_getElem? _ _ h i]
    cases hi : (tokenize s)[i]? with
    | none => simp
    | some t =>
      simp only [Option.some_bind, Option.some.injEq]
      exact token_unescape_star t
  constructor
  · rintro ⟨i, h1, h2⟩
    exact ⟨i, (key i).2 h1, (key (i + 1)).2 h2⟩
  · rintro ⟨i, h1, h2⟩
    exact ⟨i, (key i).1 h1, (key (i + 1)).1 h2⟩

end Findglob


namespace Findglob

theorem unescape_doublestar : unescape ['*', '*'] = some [('*', false), ('*', false)] := by
  decide

theorem section_parse_spec (PM : Nat) (s : string_t) (sect : section_t)
    (h : section_parse PM s = some sect) :
    ∃ ul, unescape s = some ul ∧ sect = classify_spec s ul := by
  rcases (section_parse_some_iff PM s sect).1 h with ⟨_, ⟨hs, rfl⟩ | ⟨hs, ul, hu, _, _, rfl⟩⟩
  · refine ⟨_, by rw [hs]; exact unescape_doublestar, ?_⟩
    simp [classify_spec, hs, DOUBLESTAR]
  · exact ⟨ul, hu, section_classify_eq_spec s ul hs⟩

/-- C6: for every section string that `section_parse` accepts, with `ul` its
unescaped text (each byte with the flag that says it is a literal), the section
returned is the one the specification lists: `**` gives `ANY`, a single unescaped
`*` gives `GLOB/ANY`, no wildcard gives `CONSTANT`, one unescaped `*` and no `?`
gives `SUFFIX`, `PREFIX` or `BOOKENDS` by its position, two unescaped `*` at both
ends and no `?` give `CONTAINS`, everything else `GLOB/NONE` with the literal
bitmap. -/
theorem section_parse_classifies (PATH_MAX : Nat) (s : string_t) (sect : section_t)
    (h : section_parse PATH_MAX s = some sect) :
    ∃ ul, unescape s = some ul ∧ sect = classify_spec s ul :=
  section_parse_spec PATH_MAX s sect h

theorem section_parse_classifies_witness :
    section_parse 4096 ['a', 'b', '*', 'c', '\\', '*']
        = some (.SECTION_GLOB { opt := .OPT_BOOKENDS, text := ['a', 'b'], text2 := ['c', '*'] })
      ∧ ∃ ul, unescape ['a', 'b', '*', 'c', '\\', '*'] = some ul
          ∧ section_t.SECTION_GLOB { opt := .OPT_BOOKENDS, text := ['a', 'b'], text2 := ['c', '*'] }
              = classify_spec ['a', 'b', '*', 'c', '\\', '*'] ul :=
  ⟨by decide, section_parse_classifies 4096 _ _ (by decide)⟩

theorem section_parse_fails_iff (PM : Nat) (hPM : 2 ≤ PM) (s : string_t) :
    section_parse PM s = none
      ↔ s = [] ∨ trailing_backslash s ∨ illegal_escape s
          ∨ (consecutive_stars s ∧ s ≠ ['*', '*']) ∨ PM < unescaped_length s := by
  by_cases hs : s = []
  · subst hs
    simp [section_parse]
  by_cases hd : s = DOUBLESTAR
  · subst hd
    have h1 : section_parse PM DOUBLESTAR = some .SECTION_ANY :=
      (section_parse_some_iff PM _ _).2 ⟨hs, Or.inl ⟨rfl, rfl⟩⟩
    have ht : tokenize DOUBLESTAR = [.plain '*', .plain '*'] := by decide
    have h2 : ¬ trailing_backslash DOUBLESTAR := by simp [trailing_backslash, ht]
    have h3 : ¬ illegal_escape DOUBLESTAR := by simp [illegal_escape, ht]
    have h4 : unescaped_length DOUBLESTAR = 2 := by decide
    simp only [h1, reduceCtorEq, hs, h2, h3, h4, false_or, false_iff, not_or, not_and, not_lt]
    exact ⟨fun _ h => h rfl, hPM⟩
  · have hd' : s ≠ ['*', '*'] := hd
    have hU := unescape_none_iff s
    have hrhs : (s = [] ∨ trailing_backslash s ∨ illegal_escape s
          ∨ (consecutive_stars s ∧ s ≠ ['*', '*']) ∨ PM < unescaped_length s)
        ↔ (unescape s = none ∨ consecutive_stars s ∨ PM < unescaped_length s) := by
      rw [hU]
      constructor
      · rintro (h | h | h | ⟨h, _⟩ | h)
        · exact absurd h hs
        · exact Or.inl (Or.inl h)
        · exact Or.inl (Or.inr h)
        · exact Or.inr (Or.inl h)
        · exact Or.inr (Or.inr h)
      · rintro ((h | h) | h | h)
        · exact Or.inr (Or.inl h)
        · exact Or.inr (Or.inr (Or.inl h))
        · exact Or.inr (Or.inr (Or.inr (Or.inl ⟨h, hd'⟩)))
        · exact Or.inr (Or.inr (Or.inr (Or.inr h)))
    rw [hrhs, Option.eq_none_iff_forall_not_mem]
    simp only [Option.mem_def, section_parse_some_iff, ne_eq, hs, not_false_eq_true, hd,
      false_and, true_and, false_or, not_exists, not_and]
    cases hu : unescape s with
    | none => simp
    | some ul =>
      have hlen : unescaped_length s = ul.length := (unescape_tokens_length _ _ hu).symm
      rw [consecutive_stars_iff s ul hu, hlen]
      simp only [Option.some.injEq, reduceCtorEq, false_or]
      constructor
      · intro h
        by_cases hl : ul.length ≤ PM
        · left
          intro hc
          exact h _ ul rfl hl hc rfl
        · right
          omega
      · rintro (h | h) sect ul' rfl hl hc
        · exact absurd hc h
        · omega

/-- C7: `section_parse` fails exactly when the input is empty, or ends in an
unescaped backslash, or holds an escape other than `\\`, `\*`, `\?`, or holds two
consecutive unescaped `*` without being the whole section `**`, or its
unescaped text is longer than `PATH_MAX`; in every other case it succeeds. -/
theorem section_parse_none_iff (PATH_MAX : Nat) (hPM : 2 ≤ PATH_MAX) (s : string_t) :
    section_parse PATH_MAX s = none
      ↔ s = [] ∨ trailing_backslash s ∨ illegal_escape s
          ∨ (consecutive_stars s ∧ s ≠ ['*', '*']) ∨ PATH_MAX < unescaped_length s :=
  section_parse_fails_iff PATH_MAX hPM s

theorem section_parse_none_iff_witness :
    (2 ≤ 4096)
      ∧ section_parse 4096 ['a', '*', '*'] = none
      ∧ section_parse 4096 ['*', '*', 'a'] = none
      ∧ section_parse 4096 ['*', '\\', '*', '\\', '*', '*']
          = some (.SECTION_GLOB { opt := .OPT_CONTAINS, text := ['*', '*'] })
      ∧ (section_parse 4096 ['a', '*', '*'] = none
          ↔ ['a', '*', '*'] = [] ∨ trailing_backslash ['a', '*', '*']
              ∨ illegal_escape ['a', '*', '*']
              ∨ (consecutive_stars ['a', '*', '*'] ∧ ['a', '*', '*'] ≠ ['*', '*'])
              ∨ 4096 < unescaped_length ['a', '*', '*']) :=
  ⟨by decide, by decide, by decide, by decide, section_parse_none_iff 4096 (by decide) _⟩

end Findglob


namespace Findglob

/-! ## The optimized matchers against the full matcher -/

theorem memcmp_eq_iff (a b : string_t) (n : Nat) :
    memcmp_eq a b n = true ↔ a.take n = b.take n := by
  simp [memcmp_eq]

theorem string_startswith_iff (s tgt : string_t) :
    string_startswith s tgt = true ↔ ∃ tl, s = tgt ++ tl := by
  unfold string_startswith
  simp only [ge_iff_le, Bool.and_eq_true, decide_eq_true_eq, memcmp_eq_iff, List.take_length]
  constructor
  · rintro ⟨_, h⟩
    refine ⟨s.drop tgt.length, ?_⟩
    have := List.take_append_drop tgt.length s
    rw [h] at this
    exact this.symm
  · rintro ⟨tl, rfl⟩
    simp

theorem string_endswith_iff (s tgt : string_t) :
    string_endswith s tgt = true ↔ ∃ n, s.drop n = tgt := by
  unfold string_endswith
  simp only [ge_iff_le, Bool.and_eq_true, decide_eq_true_eq, memcmp_eq_iff, List.take_length]
  constructor
  · rintro ⟨hlen, h⟩
    refine ⟨s.length - tgt.length, ?_⟩
    have hl : (s.drop (s.length - tgt.length)).length ≤ tgt.length := by
      rw [List.length_drop]
      omega
    rw [List.take_of_length_le hl] at h
    exact h
  · rintro ⟨n, rfl⟩
    have hl : (s.drop n).length = s.length - n := List.length_drop n s
    refine ⟨by omega, ?_⟩
    by_cases hn : n ≤ s.length
    · have : s.length - (s.length - n) = n := by omega
      rw [hl, this]
      exact List.take_of_length_le (by rw [hl])
    · have h0 : s.drop n = [] := List.drop_eq_nil_of_le (by omega)
      simp [h0]

theorem string_contains_nil (tgt : string_t) :
    string_contains [] tgt = decide (tgt = []) := by
  rw [string_contains]
  rcases tgt with _ | ⟨t, ts⟩
  · simp [memcmp_eq]
  · simp

theorem string_contains_cons (c : Char) (s tgt : string_t) :
    string_contains (c :: s) tgt
      = if tgt.length ≤ (c :: s).length then
          (if memcmp_eq (c :: s) tgt tgt.length then true else string_contains s tgt)
        else false := by
  rw [string_contains]

theorem string_contains_iff (s tgt : string_t) :
    string_contains s tgt = true ↔ ∃ n tl, s.drop n = tgt ++ tl := by
  induction s with
  | nil =>
    rw [string_contains_nil]
    simp only [decide_eq_true_eq, List.drop_nil, List.nil_eq, List.append_eq_nil, exists_and_left,
      exists_const, exists_eq, and_true]
  | cons c s ih =>
    rw [string_contains_cons]
    by_cases ht : tgt.length ≤ (c :: s).length
    · rw [if_pos ht]
      by_cases hm : memcmp_eq (c :: s) tgt tgt.length = true
      · rw [if_pos hm]
        simp only [true_iff]
        rw [memcmp_eq_iff, List.take_length] at hm
        refine ⟨0, (c :: s).drop tgt.length, ?_⟩
        have := List.take_append_drop tgt.length (c :: s)
        rw [hm] at this
        exact this.symm
      · rw [if_neg hm, ih]
        constructor
        · rintro ⟨n, tl, h⟩
          exact ⟨n + 1, tl, h⟩
        · rintro ⟨n, tl, h⟩
          rcases n with _ | n
          · exfalso
            apply hm
            rw [memcmp_eq_iff, List.take_length]
            rw [List.drop_zero] at h
            rw [h]
            simp
          · exact ⟨n, tl, h⟩
    · rw [if_neg ht]
      simp only [Bool.false_eq_true, false_iff]
      rintro ⟨n, tl, h⟩
      apply ht
      have := congrArg List.length h
      simp only [List.length_drop, List.length_append] at this
      omega

end Findglob


namespace Findglob

theorem wild_stars_nil : wild_stars [] = [] := rfl

theorem wild_stars_cons (x : Char × Bool) (ul : List (Char × Bool)) :
    wild_stars (x :: ul)
      = (if x = ('*', false) then [0] else []) ++ (wild_stars ul).map (· + 1) := by
  unfold wild_stars
  rw [List.length_cons, List.range_succ_eq_map, List.filter_cons, List.filter_map]
  have hmap : List.map Nat.succ
        (List.filter ((fun i => (x :: ul)[i]? == some ('*', false)) ∘ Nat.succ)
          (List.range ul.length))
      = List.map (· + 1) (List.filter (fun i => ul[i]? == some ('*', false))
          (List.range ul.length)) := by
    congr 1
    apply List.filter_congr
    intro i _
    simp
  rw [hmap]
  by_cases hx : x = ('*', false)
  · simp [hx]
  · simp [hx]

theorem wild_stars_eq_nil_iff (ul : List (Char × Bool)) :
    wild_stars ul = [] ↔ ('*', false) ∉ ul := by
  induction ul with
  | nil => simp [wild_stars_nil]
  | cons x ul ih =>
    rw [wild_stars_cons]
    by_cases hx : x = ('*', false)
    · simp [hx]
    · simp only [hx, if_false, List.nil_append, List.map_eq_nil_iff, ih, List.mem_cons, not_or]
      constructor
      · intro h
        exact ⟨fun h' => hx h'.symm, h⟩
      · intro h
        exact h.2

/-- Every byte of the run is a literal. -/
theorem all_literal_of (A : List (Char × Bool))
    (hwild : ∀ x ∈ A, x.2 = false → x.1 = '*' ∨ x.1 = '?')
    (hq : ('?', false) ∉ A) (hs : wild_stars A = []) :
    ∀ x ∈ A, x.2 = true := by
  intro x hx
  rw [wild_stars_eq_nil_iff] at hs
  rcases x with ⟨c, l⟩
  cases l with
  | true => rfl
  | false =>
    exfalso
    rcases hwild _ hx rfl with h | h
    · simp only at h
      subst h
      exact hs hx
    · simp only at h
      subst h
      exact hq hx

theorem wild_stars_one (ul : List (Char × Bool)) :
    ∀ i, wild_stars ul = [i] →
      ∃ A B, ul = A ++ ('*', false) :: B ∧ A.length = i
        ∧ wild_stars A = [] ∧ wild_stars B = [] := by
  induction ul with
  | nil =>
    intro i h
    simp [wild_stars_nil] at h
  | cons x ul ih =>
    intro i h
    rw [wild_stars_cons] at h
    by_cases hx : x = ('*', false)
    · simp only [hx, if_true, List.singleton_append, List.cons.injEq, List.map_eq_nil_iff] at h
      exact ⟨[], ul, by simp [hx], h.1, wild_stars_nil, h.2⟩
    · simp only [hx, if_false, List.nil_append] at h
      rcases hw : wild_stars ul with _ | ⟨i', _ | ⟨j', t⟩⟩
      · simp [hw] at h
      · simp only [hw, List.map_cons, List.map_nil, List.cons.injEq, and_true] at h
        obtain ⟨A, B, rfl, hA, hA', hB⟩ := ih i' hw
        refine ⟨x :: A, B, by simp, by simp [hA, h], ?_, hB⟩
        rw [wild_stars_cons, hA']
        simp [hx]
      · simp [hw] at h

theorem wild_stars_two (ul : List (Char × Bool)) :
    ∀ i j, wild_stars ul = [i, j] →
      ∃ A M B, ul = A ++ ('*', false) :: (M ++ ('*', false) :: B) ∧ A.length = i
        ∧ A.length + 1 + M.length = j
        ∧ wild_stars A = [] ∧ wild_stars M = [] ∧ wild_stars B = [] := by
  induction ul with
  | nil =>
    intro i j h
    simp [wild_stars_nil] at h
  | cons x ul ih =>
    intro i j h
    rw [wild_stars_cons] at h
    by_cases hx : x = ('*', false)
    · simp only [hx, if_true, List.singleton_append, List.cons.injEq] at h
      obtain ⟨hi, hmap⟩ := h
      rcases hw : wild_stars ul with _ | ⟨j', _ | ⟨k', t⟩⟩
      · simp [hw] at hmap
      · simp only [hw, List.map_cons, List.map_nil, List.cons.injEq, and_true] at hmap
        obtain ⟨M, B, rfl, hM, hM', hB⟩ := wild_stars_one ul j' hw
        exact ⟨[], M, B, by simp [hx], hi, by simp; omega, wild_stars_nil, hM', hB⟩
      · simp [hw] at hmap
    · simp only [hx, if_false, List.nil_append] at h
      rcases hw : wild_stars ul with _ | ⟨i', _ | ⟨j', _ | ⟨k', t⟩⟩⟩
      · simp [hw] at h
      · simp [hw] at h
      · simp only [hw, List.map_cons, List.map_nil, List.cons.injEq, and_true] at h
        obtain ⟨A, M, B, rfl, hA, hj, hA', hM, hB⟩ := ih i' j' hw
        refine ⟨x :: A, M, B, by simp, by simp [hA, h.1], by simp; omega, ?_, hM, hB⟩
        rw [wild_stars_cons, hA']
        simp [hx]
      · simp [hw] at h

end Findglob


namespace Findglob

theorem gsplit_nil_glob (l : List Bool) (name : string_t) : gsplit [] l name ↔ name = [] := by
  simp [gsplit]

theorem gsplit_star (g : string_t) (l : List Bool) (name : string_t) :
    gsplit ('*' :: g) (false :: l) name ↔ ∃ n, gsplit g l (name.drop n) := by
  simp [gsplit]

theorem gsplit_literal_append (A : List (Char × Bool)) (hA : ∀ x ∈ A, x.2 = true)
    (g : string_t) (l : List Bool) :
    ∀ name : string_t,
      gsplit (A.map Prod.fst ++ g) (A.map Prod.snd ++ l) name
        ↔ ∃ tl, name = A.map Prod.fst ++ tl ∧ gsplit g l tl := by
  induction A with
  | nil =>
    intro name
    simp
  | cons x A ih =>
    intro name
    have hx : x.2 = true := hA x (List.mem_cons_self _ _)
    have hA' : ∀ y ∈ A, y.2 = true := fun y hy => hA y (List.mem_cons_of_mem _ hy)
    simp only [List.map_cons, List.cons_append, gsplit, hx, if_true]
    constructor
    · rintro ⟨tl, rfl, h⟩
      obtain ⟨tl', rfl, h'⟩ := (ih hA' tl).1 h
      exact ⟨tl', rfl, h'⟩
    · rintro ⟨tl, rfl, h⟩
      exact ⟨_, rfl, (ih hA' _).2 ⟨tl, rfl, h⟩⟩

theorem gsplit_literal (A : List (Char × Bool)) (hA : ∀ x ∈ A, x.2 = true) (name : string_t) :
    gsplit (A.map Prod.fst) (A.map Prod.snd) name ↔ name = A.map Prod.fst := by
  have := gsplit_literal_append A hA [] [] name
  simp only [List.append_nil] at this
  rw [this]
  constructor
  · rintro ⟨tl, rfl, h⟩
    rw [gsplit_nil_glob] at h
    simp [h]
  · intro h
    exact ⟨[], by simp [h], by simp [gsplit]⟩

/-- The unescaped text of an accepted section string is a glob the matcher is
meant for. -/
theorem glob_wf_of (ul : List (Char × Bool))
    (hwild : ∀ x ∈ ul, x.2 = false → x.1 = '*' ∨ x.1 = '?')
    (hc : List.Chain' not_both_stars ul) :
    glob_wf (ul.map Prod.fst) (ul.map Prod.snd) := by
  have hget : ∀ (i : Nat) (g : Char) (l : Bool),
      (ul.map Prod.fst)[i]? = some g → (ul.map Prod.snd)[i]? = some l → ul[i]? = some (g, l) := by
    intro i g l h1 h2
    simp only [List.getElem?_map, Option.map_eq_some'] at h1 h2
    obtain ⟨a, ha, rfl⟩ := h1
    obtain ⟨b, hb, rfl⟩ := h2
    rw [ha] at hb
    cases hb
    exact ha
  refine ⟨by simp, ?_, ?_⟩
  · intro i g h1 h2
    have := hget i g false h1 h2
    exact hwild _ (List.getElem?_mem this) rfl
  · rintro i ⟨⟨a1, a2⟩, ⟨b1, b2⟩⟩
    exact (chain_iff_getElem? ul).1 hc i ⟨hget i _ _ a1 a2, hget (i + 1) _ _ b1 b2⟩

theorem unescape_tokens_wild (ts : List token) (ul : List (Char × Bool))
    (h : unescape_tokens ts = some ul) :
    ∀ x ∈ ul, x.2 = false → x.1 = '*' ∨ x.1 = '?' := by
  intro x hx hl
  obtain ⟨i, hi⟩ := List.getElem?_of_mem hx
  rw [unescape_tokens_getElem? ts ul h i] at hi
  cases ht : ts[i]? with
  | none => simp [ht] at hi
  | some t =>
    simp only [ht, Option.some_bind] at hi
    rcases x with ⟨c, l⟩
    simp only at hl
    subst hl
    exact token_unescape_wild t c hi

end Findglob


namespace Findglob

theorem drop_eq_suffix (s t : string_t) (n : Nat) (h : s.drop n = t) :
    s.drop (s.length - t.length) = t ∧ t.length ≤ s.length := by
  subst h
  rw [List.length_drop]
  by_cases hn : n ≤ s.length
  · have : s.length - (s.length - n) = n := by omega
    rw [this]
    exact ⟨rfl, by omega⟩
  · have h0 : s.drop n = [] := List.drop_eq_nil_of_le (by omega)
    have h1 : s.length - n = 0 := by omega
    rw [h1, Nat.sub_zero, h0]
    exact ⟨List.drop_length s, by omega⟩

theorem bookends_iff (name A B : string_t) :
    (decide (name.length ≥ A.length + B.length) && string_startswith name A
        && string_endswith name B) = true
      ↔ ∃ tl, name = A ++ tl ∧ ∃ n, tl.drop n = B := by
  simp only [ge_iff_le, Bool.and_eq_true, decide_eq_true_eq, string_startswith_iff,
    string_endswith_iff]
  constructor
  · rintro ⟨⟨hlen, tl, rfl⟩, n, hn⟩
    refine ⟨tl, rfl, (A ++ tl).length - B.length - A.length, ?_⟩
    obtain ⟨h1, _⟩ := drop_eq_suffix _ _ _ hn
    have hle : A.length ≤ (A ++ tl).length - B.length := by omega
    rw [List.drop_append_eq_append_drop, List.drop_eq_nil_of_le hle, List.nil_append] at h1
    exact h1
  · rintro ⟨tl, rfl, n, hn⟩
    obtain ⟨_, h2⟩ := drop_eq_suffix _ _ _ hn
    refine ⟨⟨by simp; omega, tl, rfl⟩, A.length + n, ?_⟩
    rw [List.drop_append, hn]

end Findglob


namespace Findglob

theorem exists_drop_nil (tl : string_t) : ∃ n, tl.drop n = [] := ⟨tl.length, List.drop_length tl⟩

/-- Each optimization matches the names that the full matcher matches on the
same unescaped text. -/
theorem classify_matches (s : string_t) (ul : List (Char × Bool)) (name : string_t)
    (hs : s ≠ ['*', '*'])
    (hwild : ∀ x ∈ ul, x.2 = false → x.1 = '*' ∨ x.1 = '?')
    (hc : List.Chain' not_both_stars ul)
    (hnul : nul_free (ul.map Prod.fst) ∨ nul_free name) :
    section_matches (classify_spec s ul) name
      = glob_match (ul.map Prod.fst) (ul.map Prod.snd) name := by
  have hwf := glob_wf_of ul hwild hc
  have hnone : section_matches
      (.SECTION_GLOB { opt := .OPT_NONE, text := ul.map Prod.fst, lit := ul.map Prod.snd }) name
      = glob_match (ul.map Prod.fst) (ul.map Prod.snd) name := rfl
  unfold classify_spec
  simp only
  rw [if_neg hs]
  by_cases hb : ul = [('*', false)]
  · rw [if_pos hb, Bool.eq_iff_iff, glob_match_iff_gsplit _ _ _ hwf]
    subst hb
    simp only [section_matches, List.map_cons, List.map_nil, gsplit_star, gsplit_nil_glob,
      true_iff]
    exact exists_drop_nil name
  rw [if_neg hb]
  by_cases hq : wild_questions ul = 0
  · rw [if_pos hq]
    have hq' : ('?', false) ∉ ul := List.count_eq_zero.1 hq
    rcases hW : wild_stars ul with _ | ⟨i, _ | ⟨j, _ | ⟨k, t⟩⟩⟩
    · -- CONSTANT
      simp only
      rw [Bool.eq_iff_iff, glob_match_iff_gsplit _ _ _ hwf,
        gsplit_literal ul (all_literal_of ul hwild hq' hW)]
      simp only [section_matches]
      rw [string_eq_iff _ _ hnul]
      exact eq_comm
    · -- one wildcard
      simp only
      obtain ⟨A, B, rfl, hA, hA', hB⟩ := wild_stars_one ul i hW
      have hAl : ∀ x ∈ A, x.2 = true :=
        all_literal_of A (fun x hx => hwild x (by simp [hx]))
          (fun h => hq' (by simp [h])) hA'
      have hBl : ∀ x ∈ B, x.2 = true :=
        all_literal_of B (fun x hx => hwild x (by simp [hx]))
          (fun h => hq' (by simp [h])) hB
      have hsplit : gsplit ((A ++ ('*', false) :: B).map Prod.fst)
            ((A ++ ('*', false) :: B).map Prod.snd) name
          ↔ ∃ tl, name = A.map Prod.fst ++ tl ∧ ∃ n, tl.drop n = B.map Prod.fst := by
        simp only [List.map_append, List.map_cons]
        rw [gsplit_literal_append A hAl]
        simp only [gsplit_star, gsplit_literal B hBl]
      rw [Bool.eq_iff_iff, glob_match_iff_gsplit _ _ _ hwf, hsplit]
      by_cases hi : i = 0
      · rw [if_pos hi]
        have : A = [] := List.length_eq_zero.1 (hA.trans hi)
        subst this
        simp only [section_matches, List.nil_append, List.map_cons, List.drop_succ_cons,
          List.drop_zero, List.map_nil, exists_eq_left', string_endswith_iff]
      · rw [if_neg hi]
        by_cases hi' : i = ((A ++ ('*', false) :: B).map Prod.fst).length - 1
        · rw [if_pos hi']
          have hBnil : B = [] := by
            apply List.length_eq_zero.1
            simp at hi'
            omega
          subst hBnil
          simp only [section_matches, List.map_append, List.map_cons, List.map_nil,
            List.dropLast_concat, string_startswith_iff]
          constructor
          · rintro ⟨tl, rfl⟩
            exact ⟨tl, rfl, exists_drop_nil tl⟩
          · rintro ⟨tl, rfl, _⟩
            exact ⟨tl, rfl⟩
        · rw [if_neg hi']
          have ht1 : ((A ++ ('*', false) :: B).map Prod.fst).take i = A.map Prod.fst := by
            rw [List.map_append, ← hA]
            simp [List.take_append_eq_append_take]
          have ht2 : ((A ++ ('*', false) :: B).map Prod.fst).drop (i + 1) = B.map Prod.fst := by
            rw [List.map_append, ← hA]
            simp [List.drop_append_eq_append_drop]
          simp only [section_matches, ht1, ht2]
          exact bookends_iff name _ _
    · -- two wildcards
      simp only
      by_cases hij : i = 0 ∧ j = (ul.map Prod.fst).length - 1
      · rw [if_pos hij]
        obtain ⟨A, M, B, rfl, hA, hj, hA', hM, hB⟩ := wild_stars_two ul i j hW
        have hAnil : A = [] := List.length_eq_zero.1 (hA.trans hij.1)
        subst hAnil
        have hBnil : B = [] := by
          apply List.length_eq_zero.1
          have := hij.2
          simp at this hj
          omega
        subst hBnil
        have hMl : ∀ x ∈ M, x.2 = true :=
          all_literal_of M (fun x hx => hwild x (by simp [hx]))
            (fun h => hq' (by simp [h])) hM
        rw [Bool.eq_iff_iff, glob_match_iff_gsplit _ _ _ hwf]
        simp only [List.nil_append, List.map_cons, List.map_append, List.map_nil, gsplit_star,
          List.drop_succ_cons, List.drop_zero, List.dropLast_concat, section_matches,
          string_contains_iff]
        have hM' := gsplit_literal_append M hMl ['*'] [false]
        simp only [hM', gsplit_star, gsplit_nil_glob]
        constructor
        · rintro ⟨n, tl, h⟩
          exact ⟨n, tl, h, exists_drop_nil tl⟩
        · rintro ⟨n, tl, h, _⟩
          exact ⟨n, tl, h⟩
      · rw [if_neg hij]
        exact hnone
    · simp only
      exact hnone
  · rw [if_neg hq]
    exact hnone

end Findglob


namespace Findglob

theorem token_unescape_char (t : token) (c : Char) (l : Bool) (h : t.unescape = some (c, l)) :
    t = .esc c ∨ t = .plain c := by
  cases t with
  | esc x =>
    simp only [token.unescape] at h
    split at h
    · simp only [Option.some.injEq, Prod.mk.injEq] at h
      exact Or.inl (by rw [h.1])
    · cases h
  | plain x =>
    simp only [token.unescape, Option.some.injEq, Prod.mk.injEq] at h
    exact Or.inr (by rw [h.1])
  | dangling => simp [token.unescape] at h

theorem tokenize_char_mem (n : Nat) :
    ∀ s : string_t, s.length ≤ n → ∀ t ∈ tokenize s, ∀ c, (t = .esc c ∨ t = .plain c) → c ∈ s := by
  induction n with
  | zero =>
    intro s hs t ht
    have : s = [] := List.length_eq_zero.1 (Nat.le_zero.1 hs)
    subst this
    simp [tokenize] at ht
  | succ n ih =>
    intro s hs t ht c hc
    rcases s with _ | ⟨a, rest⟩
    · simp [tokenize] at ht
    · by_cases ha : a = '\\'
      · subst ha
        rcases rest with _ | ⟨x, rest'⟩
        · rw [tokenize_dangling] at ht
          simp only [List.mem_singleton] at ht
          subst ht
          rcases hc with hc | hc <;> cases hc
        · rw [tokenize_esc] at ht
          rcases List.mem_cons.1 ht with rfl | ht'
          · rcases hc with hc | hc
            · cases hc
              simp
            · cases hc
          · have := ih rest' (by simp at hs; omega) t ht' c hc
            simp [this]
      · rw [tokenize_plain a rest ha] at ht
        rcases List.mem_cons.1 ht with rfl | ht'
        · rcases hc with hc | hc
          · cases hc
          · cases hc
            simp
        · have := ih rest (by simp at hs; omega) t ht' c hc
          simp [this]

theorem unescape_char_mem (s : string_t) (ul : List (Char × Bool)) (h : unescape s = some ul) :
    ∀ x ∈ ul, x.1 ∈ s := by
  intro x hx
  obtain ⟨i, hi⟩ := List.getElem?_of_mem hx
  rw [unescape_tokens_getElem? _ ul h i] at hi
  cases ht : (tokenize s)[i]? with
  | none => simp [ht] at hi
  | some t =>
    simp only [ht, Option.some_bind] at hi
    exact tokenize_char_mem s.length s (Nat.le_refl _) t (List.getElem?_mem ht) x.1
      (token_unescape_char t x.1 x.2 hi)

theorem unescape_nul_free (s : string_t) (ul : List (Char × Bool)) (h : unescape s = some ul)
    (hs : nul_free s) : nul_free (ul.map Prod.fst) := by
  intro c hc
  simp only [List.mem_map] at hc
  obtain ⟨x, hx, rfl⟩ := hc
  exact hs _ (unescape_char_mem s ul h x hx)

theorem section_matches_refines (PM : Nat) (s name : string_t) (sect : section_t)
    (hs : s ≠ DOUBLESTAR) (hp : section_parse PM s = some sect)
    (hnul : nul_free s ∨ nul_free name) :
    ∃ st, section_parse_loop PM s {} = some st ∧ st.escaped = false
      ∧ section_matches sect name = glob_match st.buf st.lit name := by
  rcases (section_parse_some_iff PM s sect).1 hp with ⟨_, ⟨h, _⟩ | ⟨_, ul, hu, hl, hc, rfl⟩⟩
  · exact absurd h hs
  · obtain ⟨h1, h2⟩ := ((loop_spec PM s {} _).1 rfl).2
      ⟨ul, hu, (loop_accepts_init PM ul).2 ⟨hl, hc⟩, rfl⟩
    refine ⟨_, h1, h2, ?_⟩
    obtain ⟨b1, b2, -⟩ := extend_init ul
    rw [section_classify_eq_spec s ul hs, b1, b2]
    apply classify_matches s ul name hs (unescape_tokens_wild _ ul hu) hc
    rcases hnul with h | h
    · exact Or.inl (unescape_nul_free s ul hu h)
    · exact Or.inr h

/-- C5: the optimizations do not change meaning.  For every section string `s`
other than `**` that `section_parse` accepts, with `(u, lit)` the unescaped text
and literal bitmap that the parser computes for `s` (the buffers of its loop),
and for every name, `section_matches(section_parse(s), name)` equals
`glob_match(u, lit, name)`.  Strings are C strings: `s` or the name has no NUL
byte. -/
theorem section_matches_eq_glob_match (PATH_MAX : Nat) (s name : string_t) (sect : section_t)
    (hs : s ≠ DOUBLESTAR) (hp : section_parse PATH_MAX s = some sect)
    (hnul : nul_free s ∨ nul_free name) :
    ∃ st, section_parse_loop PATH_MAX s {} = some st ∧ st.escaped = false
      ∧ section_matches sect name = glob_match st.buf st.lit name :=
  section_matches_refines PATH_MAX s name sect hs hp hnul

theorem section_matches_eq_glob_match_witness :
    ∃ st, section_parse_loop 4096 ['a', '*', '.', 'c'] {} = some st ∧ st.escaped = false
      ∧ section_matches
          (.SECTION_GLOB { opt := .OPT_BOOKENDS, text := ['a'], text2 := ['.', 'c'] })
          ['a', 'b', '.', 'c']
        = glob_match st.buf st.lit ['a', 'b', '.', 'c'] :=
  section_matches_eq_glob_match 4096 ['a', '*', '.', 'c'] ['a', 'b', '.', 'c'] _
    (by decide) (by decide) (Or.inr (by unfold nul_free; decide))

end Findglob


namespace Findglob

/-! ## pattern_parse -/

theorem path_iter_collect_ok (sub : string_t) (it : path_iter_t) (h : it.ok = true) :
    path_iter_collect sub it
      = (sub, it.isvol) :: path_iter_collect (path_next it).1 (path_next it).2 := by
  rw [path_iter_collect]
  simp [h]

theorem path_iter_collect_done (sub : string_t) (it : path_iter_t) (h : ¬ it.ok = true) :
    path_iter_collect sub it = [] := by
  rw [path_iter_collect]
  simp [h]

theorem pattern_parse_sections_vol (PM : Nat) (sub : string_t) (it : path_iter_t)
    (acc : List section_t) (hok : it.ok = true) (hvol : it.isvol = true) :
    pattern_parse_sections PM sub it acc
      = pattern_parse_sections PM (path_next it).1 (path_next it).2
          (acc ++ [.SECTION_CONSTANT sub]) := by
  rw [pattern_parse_sections]
  simp [hok, hvol]

theorem pattern_parse_sections_fail (PM : Nat) (sub : string_t) (it : path_iter_t)
    (acc : List section_t) (hok : it.ok = true) (hvol : ¬ it.isvol = true)
    (hnone : section_parse PM sub = none) :
    pattern_parse_sections PM sub it acc = none := by
  rw [pattern_parse_sections]
  simp [hok, hvol, hnone]

theorem pattern_parse_sections_sect (PM : Nat) (sub : string_t) (it : path_iter_t)
    (acc : List section_t) (sect : section_t) (hok : it.ok = true) (hvol : ¬ it.isvol = true)
    (hsome : section_parse PM sub = some sect) :
    pattern_parse_sections PM sub it acc
      = pattern_parse_sections PM (path_next it).1 (path_next it).2 (acc ++ [sect]) := by
  rw [pattern_parse_sections]
  simp [hok, hvol, hsome]

theorem pattern_parse_sections_done (PM : Nat) (sub : string_t) (it : path_iter_t)
    (acc : List section_t) (hok : ¬ it.ok = true) :
    pattern_parse_sections PM sub it acc = some acc := by
  rw [pattern_parse_sections]
  simp [hok]

/-- The section loop of `pattern_parse` returns the sections of the segments
that the iterator yields, in order, and fails when `section_parse` fails on one. -/
theorem pattern_parse_sections_iff (PM : Nat) (sub : string_t) (it : path_iter_t)
    (acc : List section_t) :
    ∀ sects, pattern_parse_sections PM sub it acc = some sects
      ↔ ∃ new, List.Forall₂ (segment_section PM) (path_iter_collect sub it) new
          ∧ sects = acc ++ new := by
  induction sub, it, acc using pattern_parse_sections.induct PM with
  | case1 sub it acc hok hvol ih =>
    intro sects
    rw [pattern_parse_sections_vol PM sub it acc hok hvol, path_iter_collect_ok sub it hok, ih]
    simp only [List.forall₂_cons_left_iff]
    constructor
    · rintro ⟨new, hf, rfl⟩
      refine ⟨.SECTION_CONSTANT sub :: new, ⟨.SECTION_CONSTANT sub, new, ?_, hf, rfl⟩, by simp⟩
      simp [segment_section, hvol]
    · rintro ⟨new, ⟨b, u, hb, hu, rfl⟩, rfl⟩
      simp only [segment_section, hvol, if_true] at hb
      subst hb
      exact ⟨u, hu, by simp⟩
  | case2 sub it acc hok hvol hnone =>
    intro sects
    rw [pattern_parse_sections_fail PM sub it acc hok hvol hnone, path_iter_collect_ok sub it hok]
    simp only [List.forall₂_cons_left_iff, reduceCtorEq, false_iff, not_exists, not_and]
    rintro new ⟨b, u, hb, _⟩
    simp [segment_section, hvol, hnone] at hb
  | case3 sub it acc hok hvol sect hsome ih =>
    intro sects
    rw [pattern_parse_sections_sect PM sub it acc sect hok hvol hsome,
      path_iter_collect_ok sub it hok]
    simp only [ih, List.forall₂_cons_left_iff]
    constructor
    · rintro ⟨new, hf, rfl⟩
      refine ⟨sect :: new, ⟨sect, new, ?_, hf, rfl⟩, by simp⟩
      simp [segment_section, hvol, hsome]
    · rintro ⟨new, ⟨b, u, hb, hu, rfl⟩, rfl⟩
      simp only [segment_section, hvol, if_false, hsome, Option.some.injEq,
        Bool.false_eq_true] at hb
      subst hb
      exact ⟨u, hu, by simp⟩
  | case4 sub it acc hok =>
    intro sects
    rw [pattern_parse_sections_done PM sub it acc hok, path_iter_collect_done sub it hok]
    simp only [Option.some.injEq, List.forall₂_nil_left_iff, exists_eq_left, List.append_nil]
    exact eq_comm

theorem consecutive_any_loop_iff (sects : List section_t) :
    ∀ was : Bool, consecutive_any_loop sects was = false
      ↔ (was = true → sects.head? ≠ some .SECTION_ANY) ∧ no_consecutive_any sects := by
  induction sects with
  | nil =>
    intro was
    simp [consecutive_any_loop, no_consecutive_any_nil]
  | cons x s ih =>
    intro was
    rw [no_consecutive_any_cons_iff]
    simp only [consecutive_any_loop, List.head?_cons, ne_eq, Option.some.injEq]
    by_cases hx : x = .SECTION_ANY
    · subst hx
      cases was
      · simp [section_t.isAny, ih]
      · simp [section_t.isAny]
    · have hx' : x.isAny = false := by
        cases x <;> simp_all [section_t.isAny]
      simp [hx', hx, ih]

/-- What `pattern_parse` returns, phase by phase. -/
theorem pattern_parse_some_iff (PM : Nat) (text : string_t) (p : pattern_t) :
    pattern_parse PM text = some p
      ↔ ∃ path anti cls sects start,
          pattern_parse_header text = some (path, anti, cls)
          ∧ List.Forall₂ (segment_section PM) (path_segments path) sects
          ∧ no_consecutive_any sects
          ∧ pattern_start_loop PM sects [] = some start
          ∧ p = { sects := sects, anti := anti, cls := cls, start := start,
                  printstart := start, order := 0 } := by
  unfold pattern_parse
  cases hh : pattern_parse_header text with
  | none => simp
  | some hdr =>
    rcases hdr with ⟨path, anti, cls⟩
    simp only [Option.some.injEq, Prod.mk.injEq]
    have hsec := pattern_parse_sections_iff PM (path_iter path).1 (path_iter path).2 []
    cases hs : pattern_parse_sections PM (path_iter path).1 (path_iter path).2 [] with
    | none =>
      simp only [reduceCtorEq, false_iff, not_exists, not_and]
      rintro path' anti' cls' sects start ⟨rfl, rfl, rfl⟩ hf
      have := (hsec sects).2 ⟨sects, hf, by simp⟩
      rw [hs] at this
      cases this
    | some sects =>
      obtain ⟨new, hf, hnew⟩ := (hsec sects).1 hs
      simp only [List.nil_append] at hnew
      subst hnew
      have hcons := consecutive_any_loop_iff sects false
      simp only [Bool.false_eq_true, false_implies, true_and] at hcons
      have huniq : ∀ sects', List.Forall₂ (segment_section PM) (path_segments path) sects' →
          sects' = sects := by
        intro sects' hf'
        have := (hsec sects').2 ⟨sects', hf', by simp⟩
        rw [hs] at this
        cases this
        rfl
      by_cases hc : consecutive_any_loop sects false = true
      · simp only [hc, if_true, reduceCtorEq, false_iff, not_exists, not_and]
        rintro path' anti' cls' sects' start ⟨rfl, rfl, rfl⟩ hf' hno
        rw [huniq sects' hf'] at hno
        have := hcons.2 hno
        rw [hc] at this
        cases this
      · have hc' : consecutive_any_loop sects false = false := by simpa using hc
        simp only [hc', Bool.false_eq_true, if_false]
        cases hst : pattern_start_loop PM sects [] with
        | none =>
          simp only [reduceCtorEq, false_iff, not_exists, not_and]
          rintro path' anti' cls' sects' start ⟨rfl, rfl, rfl⟩ hf' _ hst'
          rw [huniq sects' hf', hst] at hst'
          cases hst'
        | some start =>
          simp only [Option.some.injEq]
          constructor
          · intro h
            exact ⟨path, anti, cls, sects, start, ⟨rfl, rfl, rfl⟩, hf, hcons.1 hc', hst, h.symm⟩
          · rintro ⟨path', anti', cls', sects', start', ⟨rfl, rfl, rfl⟩, hf', _, hst', rfl⟩
            have := huniq sects' hf'
            subst this
            rw [hst] at hst'
            cases hst'
            rfl

end Findglob


namespace Findglob

theorem string_sub_eq (s : string_t) (a b : Nat) (ha : a ≤ b) (hb : b ≤ s.length) :
    string_sub s a b = (s.drop a).take (b - a) := by
  unfold string_sub
  have h1 : min s.length a = a := by omega
  have h2 : min s.length b = b := by omega
  simp only [h1, h2]
  have h3 : max a b = b := by omega
  rw [h3]

theorem string_sub_to_end (s : string_t) (a : Nat) :
    string_sub s a s.length = s.drop a := by
  unfold string_sub
  by_cases ha : a ≤ s.length
  · have h1 : min s.length a = a := by omega
    simp only [h1, Nat.min_self]
    have h3 : max a s.length = s.length := by omega
    rw [h3]
    exact List.take_of_length_le (by simp)
  · have h1 : min s.length a = s.length := by omega
    simp only [h1, Nat.min_self, Nat.max_self, Nat.sub_self, List.take_zero]
    exact (List.drop_eq_nil_of_le (by omega)).symm

theorem leading_nonsep_loop_spec (l : List Char) :
    ∀ out : Nat, out ≤ _get_leading_nonsep_loop l out
      ∧ _get_leading_nonsep_loop l out - out ≤ l.length
      ∧ ∀ c ∈ l.take (_get_leading_nonsep_loop l out - out), _is_sep c = false := by
  induction l with
  | nil =>
    intro out
    simp [_get_leading_nonsep_loop]
  | cons x l ih =>
    intro out
    simp only [_get_leading_nonsep_loop]
    by_cases hx : _is_sep x = true
    · simp [hx]
    · simp only [hx, if_false, Bool.false_eq_true]
      obtain ⟨h1, h2, h3⟩ := ih (out + 1)
      refine ⟨by omega, by simp; omega, ?_⟩
      have : _get_leading_nonsep_loop l (out + 1) - out
          = (_get_leading_nonsep_loop l (out + 1) - (out + 1)) + 1 := by omega
      rw [this, List.take_succ_cons]
      intro c hc
      rcases List.mem_cons.1 hc with rfl | hc'
      · simpa using hx
      · exact h3 c hc'

theorem get_volume_spec (base : string_t) (h : _get_volume base ≠ 0) :
    _get_volume base = 1 ∧ string_sub base 0 1 = ['/'] := by
  rcases base with _ | ⟨c, rest⟩
  · simp [_get_volume] at h
  · simp only [_get_volume] at h ⊢
    by_cases hc : _is_sep c = true
    · have : c = '/' := by simpa [_is_sep] using hc
      subst this
      refine ⟨by simp [_is_sep], ?_⟩
      rw [string_sub_eq _ 0 1 (by omega) (by simp)]
      simp
    · simp [hc] at h

/-- The four outcomes of `path_next` on an iterator that is `ok`. -/
theorem path_next_eq (it : path_iter_t) (hok : it.ok = true) :
    path_next it =
      if it.nskip ≥ it.base.length then
        ([], { it with isvol := false, ok := false,
                       i := if it.nskip != 0 then it.i + 1 else it.i })
      else if it.nskip = 0 ∧ _get_volume it.base ≠ 0 then
        (string_sub it.base 0 (_get_volume it.base),
          { it with isvol := true, nskip := _get_volume it.base,
                    i := if it.nskip != 0 then it.i + 1 else it.i })
      else if _get_leading_nonsep it.base (it.nskip + _get_leading_sep it.base it.nskip) = 0 then
        ([], { it with isvol := false, nskip := it.base.length, ok := false,
                       i := if it.nskip != 0 then it.i + 1 else it.i })
      else
        (string_sub it.base (it.nskip + _get_leading_sep it.base it.nskip)
            (it.nskip + _get_leading_sep it.base it.nskip
              + _get_leading_nonsep it.base (it.nskip + _get_leading_sep it.base it.nskip)),
          { it with isvol := false,
                    nskip := it.nskip + _get_leading_sep it.base it.nskip
                      + _get_leading_nonsep it.base (it.nskip + _get_leading_sep it.base it.nskip),
                    i := if it.nskip != 0 then it.i + 1 else it.i }) := by
  unfold path_next
  simp only [hok, Bool.not_true, Bool.false_eq_true, if_false]
  by_cases h0 : it.nskip = 0
  · simp [h0]
  · simp [h0]

/-- What `path_next` returns while the iteration goes on: a volume `/` (only on
the first call) or a non-empty run without `/`; and the iterator has moved. -/
theorem path_next_spec (it : path_iter_t) (hok : it.ok = true)
    (hok' : (path_next it).2.ok = true) :
    good_segment ((path_next it).1, (path_next it).2.isvol)
      ∧ (path_next it).2.nskip ≠ 0
      ∧ ((path_next it).2.isvol = true → it.nskip = 0) := by
  rw [path_next_eq it hok] at hok' ⊢
  by_cases h1 : it.nskip ≥ it.base.length
  · rw [if_pos h1] at hok'
    simp at hok'
  rw [if_neg h1] at hok' ⊢
  by_cases h2 : it.nskip = 0 ∧ _get_volume it.base ≠ 0
  · rw [if_pos h2]
    obtain ⟨hv1, hv2⟩ := get_volume_spec _ h2.2
    refine ⟨?_, ?_, fun _ => h2.1⟩
    · simp only [good_segment, if_true]
      rw [hv1]
      exact hv2
    · simp only [hv1]
      omega
  rw [if_neg h2] at hok' ⊢
  by_cases h3 : _get_leading_nonsep it.base (it.nskip + _get_leading_sep it.base it.nskip) = 0
  · rw [if_pos h3] at hok'
    simp at hok'
  rw [if_neg h3]
  refine ⟨?_, ?_, ?_⟩
  · simp only [good_segment, Bool.false_eq_true, if_false]
    obtain ⟨-, b2, b3⟩ := leading_nonsep_loop_spec
      (it.base.drop (it.nskip + _get_leading_sep it.base it.nskip)) 0
    simp only [Nat.sub_zero] at b2 b3
    have hn : _get_leading_nonsep it.base (it.nskip + _get_leading_sep it.base it.nskip)
        = _get_leading_nonsep_loop
            (it.base.drop (it.nskip + _get_leading_sep it.base it.nskip)) 0 := rfl
    rw [hn] at h3 ⊢
    rw [List.length_drop] at b2
    rw [string_sub_eq _ _ _ (by omega) (by omega)]
    have hsub : it.nskip + _get_leading_sep it.base it.nskip
          + _get_leading_nonsep_loop
            (it.base.drop (it.nskip + _get_leading_sep it.base it.nskip)) 0
          - (it.nskip + _get_leading_sep it.base it.nskip)
        = _get_leading_nonsep_loop
            (it.base.drop (it.nskip + _get_leading_sep it.base it.nskip)) 0 := by omega
    rw [hsub]
    constructor
    · intro hnil
      have := congrArg List.length hnil
      simp only [List.length_take, List.length_drop, List.length_nil] at this
      omega
    · intro hmem
      have := b3 '/' hmem
      simp [_is_sep] at this
  · simp only
    omega
  · simp

end Findglob


namespace Findglob

theorem collect_good (sub : string_t) (it : path_iter_t) :
    (it.ok = true → good_segment (sub, it.isvol)) →
      ∀ seg ∈ path_iter_collect sub it, good_segment seg := by
  induction sub, it using path_iter_collect.induct with
  | case1 sub it hok ih =>
    intro hg seg hseg
    rw [path_iter_collect_ok sub it hok] at hseg
    rcases List.mem_cons.1 hseg with rfl | hseg'
    · exact hg hok
    · exact ih (fun hok' => (path_next_spec it hok hok').1) seg hseg'
  | case2 sub it hok =>
    intro _ seg hseg
    rw [path_iter_collect_done sub it hok] at hseg
    cases hseg

theorem collect_novol (sub : string_t) (it : path_iter_t) :
    (it.ok = true → it.nskip ≠ 0 ∧ it.isvol = false) →
      ∀ seg ∈ path_iter_collect sub it, seg.2 = false := by
  induction sub, it using path_iter_collect.induct with
  | case1 sub it hok ih =>
    intro hg seg hseg
    rw [path_iter_collect_ok sub it hok] at hseg
    rcases List.mem_cons.1 hseg with rfl | hseg'
    · exact (hg hok).2
    · apply ih _ seg hseg'
      intro hok'
      obtain ⟨_, h2, h3⟩ := path_next_spec it hok hok'
      refine ⟨h2, ?_⟩
      by_cases hv : (path_next it).2.isvol = true
      · exact absurd (h3 hv) (hg hok).1
      · simpa using hv
  | case2 sub it hok =>
    intro _ seg hseg
    rw [path_iter_collect_done sub it hok] at hseg
    cases hseg

/-- The segments of a path: each is a volume `/` or a non-empty run without
`/`, and only the first can be a volume. -/
theorem path_segments_spec (path : string_t) :
    (∀ seg ∈ path_segments path, good_segment seg)
      ∧ (∀ seg ∈ (path_segments path).tail, seg.2 = false) := by
  unfold path_segments path_iter
  have hok0 : ({ base := path, nskip := 0, ok := true, i := 0 } : path_iter_t).ok = true := rfl
  constructor
  · exact collect_good _ _ (fun hok' => (path_next_spec _ hok0 hok').1)
  · by_cases hok1 : (path_next { base := path, nskip := 0, ok := true, i := 0 }).2.ok = true
    · rw [path_iter_collect_ok _ _ hok1, List.tail_cons]
      apply collect_novol
      intro hok2
      obtain ⟨_, h2, _⟩ := path_next_spec _ hok0 hok1
      obtain ⟨_, k2, k3⟩ := path_next_spec _ hok1 hok2
      refine ⟨k2, ?_⟩
      by_cases hv : (path_next (path_next { base := path, nskip := 0, ok := true, i := 0 }).2).2.isvol
          = true
      · exact absurd (k3 hv) h2
      · simpa using hv
    · rw [path_iter_collect_done _ _ hok1]
      simp

end Findglob


namespace Findglob

theorem extended_loop_consumed (rest : List Char) :
    ∀ (i : Nat) (anti : Bool) (cls : class_e),
      (extended_syntax_parse_loop rest i anti cls).1 ≠ 0 →
        i + 1 ≤ (extended_syntax_parse_loop rest i anti cls).1
          ∧ rest.drop ((extended_syntax_parse_loop rest i anti cls).1 - i)
              = (rest.dropWhile (fun c => c != ':')).drop 1 := by
  induction rest with
  | nil =>
    intro i anti cls h
    simp [extended_syntax_parse_loop] at h
  | cons c rest ih =>
    intro i anti cls h
    rw [extended_syntax_parse_loop] at h ⊢
    by_cases hc : c = ':'
    · subst hc
      simp
    · have hne : (c != ':') = true := by simpa using hc
      simp only [hc, if_false] at h ⊢
      have hdw : (c :: rest).dropWhile (fun c => c != ':')
          = rest.dropWhile (fun c => c != ':') := by
        simp [List.dropWhile_cons, hc]
      rw [hdw]
      have key : ∀ (a : Bool) (k : class_e),
          (extended_syntax_parse_loop rest (i + 1) a k).1 ≠ 0 →
          i + 1 ≤ (extended_syntax_parse_loop rest (i + 1) a k).1
            ∧ (c :: rest).drop ((extended_syntax_parse_loop rest (i + 1) a k).1 - i)
                = (rest.dropWhile (fun c => c != ':')).drop 1 := by
        intro a k hk
        obtain ⟨h1, h2⟩ := ih (i + 1) a k hk
        refine ⟨by omega, ?_⟩
        have : (extended_syntax_parse_loop rest (i + 1) a k).1 - i
            = ((extended_syntax_parse_loop rest (i + 1) a k).1 - (i + 1)) + 1 := by omega
        rw [this, List.drop_succ_cons]
        exact h2
      split_ifs at h ⊢ <;> first | exact key _ _ h | (exfalso; exact h rfl)

theorem header_cases (text path : string_t) (anti : Bool) (cls : class_e)
    (h : pattern_parse_header text = some (path, anti, cls)) :
    (text.head? = some ':' ∧ (extended_syntax_parse text).1 ≠ 0
        ∧ path = string_sub text (extended_syntax_parse text).1 text.length
        ∧ anti = (extended_syntax_parse text).2.1 ∧ cls = (extended_syntax_parse text).2.2)
      ∨ (text.head? ≠ some ':' ∧ text ≠ [] ∧ text ≠ ['!']
        ∧ anti = decide (text.head? = some '!')
        ∧ path = (if text.head? = some '!' then text.drop 1 else text)
        ∧ cls = (if last_is_sep path then CLASS_DIR else CLASS_ANY)) := by
  unfold pattern_parse_header at h
  simp only at h
  by_cases h1 : text.length = 0 ∨ (text.length = 1 ∧ text.head? = some '!')
  · rw [if_pos h1] at h
    cases h
  rw [if_neg h1] at h
  by_cases h2 : text.head? = some ':'
  · rw [if_pos h2] at h
    by_cases h3 : (extended_syntax_parse text).1 = 0
    · rw [if_pos h3] at h
      cases h
    · rw [if_neg h3] at h
      simp only [Option.some.injEq, Prod.mk.injEq] at h
      exact Or.inl ⟨h2, h3, h.1.symm, h.2.1.symm, h.2.2.symm⟩
  · rw [if_neg h2] at h
    simp only [Option.some.injEq, Prod.mk.injEq] at h
    obtain ⟨hp, ha, hc⟩ := h
    have hpath : path = (if text.head? = some '!' then text.drop 1 else text) := by
      rw [← hp]
      by_cases hb : text.head? = some '!'
      · simp only [hb, decide_True, if_true]
        rw [string_sub_to_end]
      · simp only [hb, decide_False, if_false, Bool.false_eq_true]
    refine Or.inr ⟨h2, ?_, ?_, ha.symm, hpath, ?_⟩
    · rintro rfl
      exact h1 (Or.inl rfl)
    · rintro rfl
      exact h1 (Or.inr ⟨rfl, rfl⟩)
    · rw [← hc, hp]

theorem header_payload (text path : string_t) (anti : Bool) (cls : class_e)
    (h : pattern_parse_header text = some (path, anti, cls)) :
    path = pattern_payload text := by
  unfold pattern_payload
  rcases header_cases text path anti cls h with ⟨h2, h3, hp, _, _⟩ | ⟨h2, _, _, _, hp, _⟩
  · rw [if_pos h2, hp, string_sub_to_end]
    obtain ⟨k1, k2⟩ := extended_loop_consumed (text.drop 1) 1 false 0 h3
    have hd : text.drop (extended_syntax_parse text).1
        = (text.drop 1).drop ((extended_syntax_parse text).1 - 1) := by
      rw [List.drop_drop]
      congr 1
      unfold extended_syntax_parse
      omega
    rw [hd]
    exact k2
  · rw [if_neg h2]
    exact hp

theorem header_shorthand (text path : string_t) (anti : Bool) (cls : class_e)
    (hne : text.head? ≠ some ':')
    (h : pattern_parse_header text = some (path, anti, cls)) :
    anti = decide (text.head? = some '!')
      ∧ cls = (if text.getLast? = some '/' then CLASS_DIR else CLASS_ANY)
      ∧ path = (if text.head? = some '!' then text.drop 1 else text) := by
  rcases header_cases text path anti cls h with ⟨h2, _⟩ | ⟨_, hn1, hn2, ha, hp, hc⟩
  · exact absurd h2 hne
  · refine ⟨ha, ?_, hp⟩
    have hlast : path.getLast? = text.getLast? := by
      rw [hp]
      by_cases hb : text.head? = some '!'
      · rw [if_pos hb]
        rcases text with _ | ⟨c, _ | ⟨d, rest⟩⟩
        · simp at hb
        · simp at hb
          subst hb
          exact absurd rfl hn2
        · simp [List.getLast?_cons_cons]
      · rw [if_neg hb]
    rw [hc]
    unfold last_is_sep
    rw [hlast]
    cases hl : text.getLast? with
    | none => simp
    | some c =>
      by_cases hc' : c = '/'
      · simp [hc', _is_sep]
      · simp [hc', _is_sep]

end Findglob


namespace Findglob

/-- Sections that stand for the segments of a path stand for them position by
position. -/
theorem segment_section_at (PM : Nat) (segs : List (string_t × Bool)) (sects : List section_t)
    (hf : List.Forall₂ (segment_section PM) segs sects) :
    ∀ (i : Nat) (seg : string_t × Bool), segs[i]? = some seg →
      ∃ sect, segment_section PM seg sect ∧ sects[i]? = some sect := by
  induction hf with
  | nil =>
    intro i seg hseg
    simp at hseg
  | @cons seg0 sect0 segs sects hhead _ ih =>
    intro i seg hseg
    cases i with
    | zero =>
      have : seg0 = seg := by simpa using hseg
      exact ⟨sect0, this ▸ hhead, by simp⟩
    | succ j =>
      obtain ⟨sect, hr, hs⟩ := ih j seg (by simpa using hseg)
      exact ⟨sect, hr, by simpa using hs⟩

theorem section_parse_doublestar (PM : Nat) : section_parse PM ['*', '*'] = some .SECTION_ANY :=
  (section_parse_some_iff PM _ _).2 ⟨by simp, Or.inl ⟨rfl, rfl⟩⟩

theorem doublestar_segment_any (PM : Nat) (segs : List (string_t × Bool))
    (sects : List section_t) (hgood : ∀ seg ∈ segs, good_segment seg)
    (hf : List.Forall₂ (segment_section PM) segs sects) (i : Nat)
    (hi : (segs.map Prod.fst)[i]? = some ['*', '*']) :
    sects[i]? = some .SECTION_ANY := by
  simp only [List.getElem?_map, Option.map_eq_some'] at hi
  obtain ⟨seg, hseg, hfst⟩ := hi
  obtain ⟨sect, hr, hsect⟩ := segment_section_at PM segs sects hf i seg hseg
  have hg := hgood seg (List.getElem?_mem hseg)
  rcases seg with ⟨t, v⟩
  simp only at hfst
  subst hfst
  cases v with
  | true => simp [good_segment] at hg
  | false =>
    simp only [segment_section, Bool.false_eq_true, if_false, section_parse_doublestar,
      Option.some.injEq] at hr
    rw [hsect, ← hr]

theorem pattern_parse_consecutive (PM : Nat) (text : string_t) :
    (consecutive_doublestar text → pattern_parse PM text = none)
      ∧ (∀ p, pattern_parse PM text = some p → no_consecutive_any p.sects) := by
  constructor
  · rintro ⟨i, h1, h2⟩
    rw [Option.eq_none_iff_forall_not_mem]
    intro p hp
    obtain ⟨path, anti, cls, sects, start, hh, hf, hno, _, _⟩ :=
      (pattern_parse_some_iff PM text p).1 hp
    rw [header_payload text path anti cls hh] at hf
    have hgood := (path_segments_spec (pattern_payload text)).1
    exact hno i (doublestar_segment_any PM _ _ hgood hf i h1)
      (doublestar_segment_any PM _ _ hgood hf (i + 1) h2)
  · intro p hp
    obtain ⟨path, anti, cls, sects, start, _, _, hno, _, rfl⟩ :=
      (pattern_parse_some_iff PM text p).1 hp
    exact hno

/-- C8: `pattern_parse` rejects every pattern string that has two consecutive
`**` sections, and every pattern that it accepts has no two consecutive `ANY`
sections. -/
theorem pattern_parse_rejects_consecutive_doublestar (PATH_MAX : Nat) (text : string_t) :
    (consecutive_doublestar text → pattern_parse PATH_MAX text = none)
      ∧ (∀ p, pattern_parse PATH_MAX text = some p → no_consecutive_any p.sects) :=
  pattern_parse_consecutive PATH_MAX text

end Findglob


namespace Findglob

theorem pattern_parse_rejects_consecutive_doublestar_witness :
    consecutive_doublestar ['a', '/', '*', '*', '/', '/', '*', '*', '/', 'b']
      ∧ pattern_parse 4096 ['a', '/', '*', '*', '/', '/', '*', '*', '/', 'b'] = none
      ∧ pattern_parse 4096 ['*', '*', '/', '*', '*'] = none := by
  have hseg : path_segments ['a', '/', '*', '*', '/', '/', '*', '*', '/', 'b']
      = [(['a'], false), (['*', '*'], false), (['*', '*'], false), (['b'], false)] := by
    simp [path_segments, path_iter, path_iter_collect, path_next, _get_volume, _get_leading_sep,
      _get_leading_sep_loop, _get_leading_nonsep, _get_leading_nonsep_loop, _is_sep, string_sub]
  have hseg2 : path_segments ['*', '*', '/', '*', '*']
      = [(['*', '*'], false), (['*', '*'], false)] := by
    simp [path_segments, path_iter, path_iter_collect, path_next, _get_volume, _get_leading_sep,
      _get_leading_sep_loop, _get_leading_nonsep, _get_leading_nonsep_loop, _is_sep, string_sub]
  have h1 : consecutive_doublestar ['a', '/', '*', '*', '/', '/', '*', '*', '/', 'b'] := by
    refine ⟨1, ?_, ?_⟩ <;> simp [pattern_payload, hseg]
  have h2 : consecutive_doublestar ['*', '*', '/', '*', '*'] := by
    refine ⟨0, ?_, ?_⟩ <;> simp [pattern_payload, hseg2]
  exact ⟨h1, (pattern_parse_rejects_consecutive_doublestar 4096 _).1 h1,
    (pattern_parse_rejects_consecutive_doublestar 4096 _).1 h2⟩

end Findglob


namespace Findglob

theorem classify_spec_constant (s : string_t) (ul : List (Char × Bool)) (u : string_t)
    (h : classify_spec s ul = .SECTION_CONSTANT u) : u = ul.map Prod.fst := by
  unfold classify_spec at h
  simp only at h
  split_ifs at h
  split at h
  · simp only [section_t.SECTION_CONSTANT.injEq] at h
    exact h.symm
  · split_ifs at h
  · split_ifs at h
  · cases h

/-- A `CONSTANT` section parsed from a run without `/` is not empty and has no `/`. -/
theorem section_parse_constant (PM : Nat) (s u : string_t) (hs : '/' ∉ s)
    (h : section_parse PM s = some (.SECTION_CONSTANT u)) : u ≠ [] ∧ '/' ∉ u := by
  have hne : s ≠ [] := ((section_parse_some_iff PM s _).1 h).1
  obtain ⟨ul, hu, hc⟩ := section_parse_spec PM s _ h
  have hu' := classify_spec_constant s ul u hc.symm
  subst hu'
  constructor
  · intro hnil
    have hlen := unescape_tokens_length _ _ hu
    have hul : ul = [] := by simpa using hnil
    subst hul
    rcases s with _ | ⟨c, rest⟩
    · exact hne rfl
    · exact tokenize_ne_nil c rest (List.length_eq_zero.1 hlen.symm)
  · intro hmem
    simp only [List.mem_map] at hmem
    obtain ⟨x, hx, hx'⟩ := hmem
    have := unescape_char_mem s ul hu x hx
    rw [hx'] at this
    exact hs this

theorem path_extend_ok (base text : string_t) (cap : Nat)
    (h : (path_extend base text cap).1 = 0) :
    (path_extend base text cap).2
      = (if (base.length != 0 && !last_is_sep base) = true then base ++ ['/'] else base)
          ++ text := by
  unfold path_extend at h ⊢
  by_cases hc : base.length + (base.length != 0 && !last_is_sep base).toNat + text.length + 1
      > cap
  · rw [if_pos hc] at h
    simp at h
  · rw [if_neg hc]

theorem path_extend_empty (text : string_t) (cap : Nat)
    (h : (path_extend [] text cap).1 = 0) : (path_extend [] text cap).2 = text := by
  rw [path_extend_ok _ _ _ h]
  simp

theorem path_extend_root (text : string_t) (cap : Nat)
    (h : (path_extend ['/'] text cap).1 = 0) : (path_extend ['/'] text cap).2 = '/' :: text := by
  rw [path_extend_ok _ _ _ h]
  have hl : last_is_sep ['/'] = true := by decide
  simp [hl]

theorem path_extend_sep (base text : string_t) (cap : Nat) (hb : base ≠ [])
    (hl : last_is_sep base = false)
    (h : (path_extend base text cap).1 = 0) :
    (path_extend base text cap).2 = base ++ '/' :: text := by
  rw [path_extend_ok _ _ _ h]
  simp [hl, hb]

theorem last_is_sep_append (base text : string_t) (ht : text ≠ []) (hs : '/' ∉ text) :
    last_is_sep (base ++ text) = false := by
  unfold last_is_sep
  rw [List.getLast?_append_of_ne_nil _ ht]
  cases hl : text.getLast? with
  | none => rfl
  | some c =>
    have hc : c ∈ text := List.mem_of_getLast?_eq_some hl
    have : c ≠ '/' := fun h => hs (h ▸ hc)
    simp [_is_sep, this]

end Findglob


namespace Findglob

theorem mem_leading_constants (sects : List section_t) (u : string_t)
    (h : u ∈ leading_constants sects) : .SECTION_CONSTANT u ∈ sects := by
  induction sects with
  | nil => simp [leading_constants] at h
  | cons sect rest ih =>
    cases sect with
    | SECTION_ANY => simp [leading_constants] at h
    | SECTION_GLOB g => simp [leading_constants] at h
    | SECTION_CONSTANT c =>
      simp only [leading_constants, List.mem_cons] at h
      rcases h with h | h
      · subst h
        exact List.mem_cons_self _ _
      · exact List.mem_cons_of_mem _ (ih h)

/-- The `CONSTANT` sections of segments that are not volumes are non-empty and
free of `/`. -/
theorem segment_constants_plain (PM : Nat) (segs : List (string_t × Bool))
    (sects : List section_t) (h : List.Forall₂ (segment_section PM) segs sects)
    (hgood : ∀ seg ∈ segs, good_segment seg) (hnv : ∀ seg ∈ segs, seg.2 = false)
    (u : string_t) (hu : .SECTION_CONSTANT u ∈ sects) : u ≠ [] ∧ '/' ∉ u := by
  induction h with
  | nil => simp at hu
  | @cons seg sect segs sects hhead _ ih =>
    have hg := hgood seg (List.mem_cons_self _ _)
    have hv := hnv seg (List.mem_cons_self _ _)
    rcases List.mem_cons.1 hu with hu | hu
    · subst hu
      unfold segment_section at hhead
      unfold good_segment at hg
      rw [hv] at hhead hg
      simp only [Bool.false_eq_true, if_false] at hhead hg
      exact section_parse_constant PM seg.1 u hg.2 hhead
    · exact ih (fun s hs => hgood s (List.mem_cons_of_mem _ hs))
        (fun s hs => hnv s (List.mem_cons_of_mem _ hs)) hu

/-- Function `pattern_start_loop` from a base that does not end in `/`: every
leading constant is appended after a `/`. -/
theorem start_loop_sep (PM : Nat) (sects : List section_t) (b start : string_t)
    (hplain : ∀ u ∈ leading_constants sects, u ≠ [] ∧ '/' ∉ u)
    (hb : b ≠ []) (hl : last_is_sep b = false)
    (h : pattern_start_loop PM sects b = some start) :
    start = b ++ ((leading_constants sects).map (fun u => '/' :: u)).flatten := by
  induction sects generalizing b with
  | nil =>
    simp only [pattern_start_loop, Option.some.injEq] at h
    simp [leading_constants, h]
  | cons sect rest ih =>
    cases sect with
    | SECTION_ANY =>
      simp only [pattern_start_loop, Option.some.injEq] at h
      simp [leading_constants, h]
    | SECTION_GLOB g =>
      simp only [pattern_start_loop, Option.some.injEq] at h
      simp [leading_constants, h]
    | SECTION_CONSTANT c =>
      simp only [pattern_start_loop] at h
      by_cases hz : (path_extend b c PM).1 = 0
      · rw [if_neg (not_not.2 hz), path_extend_sep b c PM hb hl hz] at h
        have hc := hplain c (by simp [leading_constants])
        have hl2 : last_is_sep (b ++ '/' :: c) = false := by
          have := last_is_sep_append (b ++ ['/']) c hc.1 hc.2
          simpa using this
        have := ih (b ++ '/' :: c)
          (fun u hu => hplain u (by simp [leading_constants, hu])) (by simp) hl2 h
        rw [this]
        simp [leading_constants]
      · rw [if_pos hz] at h
        cases h

theorem intercalate_cons (sep c : string_t) (rest : List string_t) :
    sep.intercalate (c :: rest) = c ++ (rest.map (fun u => sep ++ u)).flatten := by
  induction rest generalizing c with
  | nil => simp [List.intercalate]
  | cons d rest ih =>
    have := ih d
    simp only [List.intercalate, List.intersperse_cons_cons, List.flatten_cons,
      List.map_cons] at this ⊢
    rw [this]
    simp

/-- Function `pattern_start_loop` from the empty start, when no section is a
volume: the leading constants joined with `/`. -/
theorem start_loop_relative (PM : Nat) (sects : List section_t) (start : string_t)
    (hplain : ∀ u ∈ leading_constants sects, u ≠ [] ∧ '/' ∉ u)
    (h : pattern_start_loop PM sects [] = some start) :
    start = ['/'].intercalate (leading_constants sects) := by
  cases sects with
  | nil =>
    simp only [pattern_start_loop, Option.some.injEq] at h
    simp [leading_constants, h.symm, List.intercalate]
  | cons sect rest =>
    cases sect with
    | SECTION_ANY =>
      simp only [pattern_start_loop, Option.some.injEq] at h
      simp [leading_constants, h.symm, List.intercalate]
    | SECTION_GLOB g =>
      simp only [pattern_start_loop, Option.some.injEq] at h
      simp [leading_constants, h.symm, List.intercalate]
    | SECTION_CONSTANT c =>
      simp only [pattern_start_loop] at h
      by_cases hz : (path_extend [] c PM).1 = 0
      · rw [if_neg (not_not.2 hz), path_extend_empty c PM hz] at h
        have hc := hplain c (by simp [leading_constants])
        have hl2 : last_is_sep c = false := by
          have := last_is_sep_append [] c hc.1 hc.2
          simpa using this
        have := start_loop_sep PM rest c start
          (fun u hu => hplain u (by simp [leading_constants, hu])) hc.1 hl2 h
        rw [this]
        simp only [leading_constants]
        rw [intercalate_cons]
        rfl
      · rw [if_pos hz] at h
        cases h

/-- Function `pattern_start_loop` from the empty start, when the first section
is the volume `/`: no `/` is added after the volume. -/
theorem start_loop_absolute (PM : Nat) (rest : List section_t) (start : string_t)
    (hplain : ∀ u ∈ leading_constants rest, u ≠ [] ∧ '/' ∉ u)
    (h : pattern_start_loop PM (.SECTION_CONSTANT ['/'] :: rest) [] = some start) :
    start = '/' :: ['/'].intercalate (leading_constants rest) := by
  simp only [pattern_start_loop] at h
  by_cases hz : (path_extend [] ['/'] PM).1 = 0
  · rw [if_neg (not_not.2 hz), path_extend_empty _ PM hz] at h
    cases rest with
    | nil =>
      simp only [pattern_start_loop, Option.some.injEq] at h
      simp [leading_constants, h.symm, List.intercalate]
    | cons sect rest =>
      cases sect with
      | SECTION_ANY =>
        simp only [pattern_start_loop, Option.some.injEq] at h
        simp [leading_constants, h.symm, List.intercalate]
      | SECTION_GLOB g =>
        simp only [pattern_start_loop, Option.some.injEq] at h
        simp [leading_constants, h.symm, List.intercalate]
      | SECTION_CONSTANT c =>
        simp only [pattern_start_loop] at h
        by_cases hz2 : (path_extend ['/'] c PM).1 = 0
        · rw [if_neg (not_not.2 hz2), path_extend_root c PM hz2] at h
          have hc := hplain c (by simp [leading_constants])
          have hl2 : last_is_sep ('/' :: c) = false := by
            have := last_is_sep_append ['/'] c hc.1 hc.2
            simpa using this
          have := start_loop_sep PM rest ('/' :: c) start
            (fun u hu => hplain u (by simp [leading_constants, hu])) (by simp) hl2 h
          rw [this]
          simp only [leading_constants]
          rw [intercalate_cons]
          rfl
        · rw [if_pos hz2] at h
          cases h
  · rw [if_pos hz] at h
    cases h

end Findglob


namespace Findglob

theorem leading_constants_nil (sects : List section_t)
    (h : ∀ u, sects.head? ≠ some (.SECTION_CONSTANT u)) : leading_constants sects = [] := by
  cases sects with
  | nil => rfl
  | cons sect rest =>
    cases sect with
    | SECTION_ANY => rfl
    | SECTION_GLOB g => rfl
    | SECTION_CONSTANT c => exact absurd rfl (h c)

theorem start_spec_plain (consts : List string_t) (h : ∀ u ∈ consts, u ≠ [] ∧ '/' ∉ u) :
    start_spec consts = ['/'].intercalate consts := by
  unfold start_spec
  split
  · exact absurd (List.mem_singleton_self '/') (h ['/'] (List.mem_cons_self _ _)).2
  · rfl

/-- The `start` that `pattern_start_loop` builds for the sections of the segments
of a path. -/
theorem segments_start (PM : Nat) (segs : List (string_t × Bool)) (sects : List section_t)
    (start : string_t) (hgood : ∀ seg ∈ segs, good_segment seg)
    (htail : ∀ seg ∈ segs.tail, seg.2 = false)
    (hsect : List.Forall₂ (segment_section PM) segs sects)
    (h : pattern_start_loop PM sects [] = some start) :
    start = start_spec (leading_constants sects) := by
  cases hsect with
  | nil =>
    simp only [pattern_start_loop, Option.some.injEq] at h
    rw [← h]
    rfl
  | @cons seg sect segs sects hhead hrest =>
    have hg := hgood seg (List.mem_cons_self _ _)
    have hplain : ∀ u, .SECTION_CONSTANT u ∈ sects → u ≠ [] ∧ '/' ∉ u :=
      segment_constants_plain PM segs sects hrest
        (fun s hs => hgood s (List.mem_cons_of_mem _ hs)) htail
    cases hv : seg.2 with
    | true =>
      unfold segment_section at hhead
      unfold good_segment at hg
      rw [hv] at hhead hg
      simp only [if_true] at hhead hg
      rw [hg] at hhead
      subst hhead
      rw [start_loop_absolute PM sects start
        (fun u hu => hplain u (mem_leading_constants _ _ hu)) h]
      rfl
    | false =>
      have hall : ∀ u, .SECTION_CONSTANT u ∈ sect :: sects → u ≠ [] ∧ '/' ∉ u :=
        segment_constants_plain PM (seg :: segs) (sect :: sects)
          (List.Forall₂.cons hhead hrest) hgood
          (fun s hs => by
            rcases List.mem_cons.1 hs with hs | hs
            · rw [hs]; exact hv
            · exact htail s hs)
      have hlead : ∀ u ∈ leading_constants (sect :: sects), u ≠ [] ∧ '/' ∉ u :=
        fun u hu => hall u (mem_leading_constants _ _ hu)
      rw [start_loop_relative PM (sect :: sects) start hlead h, start_spec_plain _ hlead]

/-- What `pattern_parse` leaves in `start` and `printstart`. -/
theorem pattern_parse_start_spec (PM : Nat) (text : string_t) (p : pattern_t)
    (h : pattern_parse PM text = some p) :
    p.start = start_spec (leading_constants p.sects)
      ∧ ((∀ u, p.sects.head? ≠ some (.SECTION_CONSTANT u)) → p.start = [])
      ∧ p.printstart = p.start := by
  obtain ⟨path, anti, cls, sects, start, _, hsect, _, hstart, hp⟩ :=
    (pattern_parse_some_iff PM text p).1 h
  subst hp
  have hspec := path_segments_spec path
  have h1 : start = start_spec (leading_constants sects) :=
    segments_start PM _ sects start hspec.1 hspec.2 hsect hstart
  refine ⟨h1, ?_, rfl⟩
  intro hfirst
  show start = []
  rw [h1, leading_constants_nil sects hfirst]
  rfl

/-- What `pattern_parse` does with a pattern in the shorthand form. -/
theorem pattern_parse_shorthand_spec (PM : Nat) (text : string_t) (p : pattern_t)
    (hne : text.head? ≠ some ':') (h : pattern_parse PM text = some p) :
    (p.anti = true ↔ text.head? = some '!')
      ∧ (p.cls = CLASS_DIR ↔ text.getLast? = some '/')
      ∧ (text.getLast? ≠ some '/' → p.cls = CLASS_FILE ||| CLASS_DIR)
      ∧ List.Forall₂ (segment_section PM)
          (path_segments (if text.head? = some '!' then text.drop 1 else text)) p.sects := by
  obtain ⟨path, anti, cls, sects, start, hhead, hsect, _, _, hp⟩ :=
    (pattern_parse_some_iff PM text p).1 h
  subst hp
  obtain ⟨ha, hc, hpath⟩ := header_shorthand text path anti cls hne hhead
  subst hpath
  refine ⟨?_, ?_, ?_, hsect⟩
  · show anti = true ↔ _
    rw [ha]
    simp
  · show cls = CLASS_DIR ↔ _
    rw [hc]
    by_cases hl : text.getLast? = some '/'
    · simp [hl]
    · simp only [if_neg hl, hl, iff_false]
      decide
  · intro hl
    show cls = _
    rw [hc, if_neg hl]
    rfl

end Findglob


namespace Findglob

/-- Claim C9: for every pattern string that `pattern_parse` accepts, `start` is the
texts of the leading `CONSTANT` sections, up to the first section that is not one,
joined with a single `/` and without one more `/` after a leading volume `/`; it is
empty when the first section is not a `CONSTANT`; and `printstart` is the same
string as `start`. -/
theorem pattern_parse_start (PATH_MAX : Nat) (text : string_t) (p : pattern_t)
    (h : pattern_parse PATH_MAX text = some p) :
    p.start = start_spec (leading_constants p.sects)
      ∧ ((∀ u, p.sects.head? ≠ some (.SECTION_CONSTANT u)) → p.start = [])
      ∧ p.printstart = p.start :=
  pattern_parse_start_spec PATH_MAX text p h

theorem pattern_parse_start_witness :
    pattern_parse 4096 ['/', 'a', 's', 'd', 'f', '/', '*', '*', '/', 'z', 'x', 'c', 'v']
        = some { sects := [.SECTION_CONSTANT ['/'], .SECTION_CONSTANT ['a', 's', 'd', 'f'],
                   .SECTION_ANY, .SECTION_CONSTANT ['z', 'x', 'c', 'v']],
                 anti := false, cls := 3, start := ['/', 'a', 's', 'd', 'f'],
                 printstart := ['/', 'a', 's', 'd', 'f'], order := 0 }
      ∧ ['/', 'a', 's', 'd', 'f']
          = start_spec (leading_constants [.SECTION_CONSTANT ['/'],
              .SECTION_CONSTANT ['a', 's', 'd', 'f'], .SECTION_ANY,
              .SECTION_CONSTANT ['z', 'x', 'c', 'v']]) := by
  have hp : pattern_parse 4096
      ['/', 'a', 's', 'd', 'f', '/', '*', '*', '/', 'z', 'x', 'c', 'v']
        = some { sects := [.SECTION_CONSTANT ['/'], .SECTION_CONSTANT ['a', 's', 'd', 'f'],
                   .SECTION_ANY, .SECTION_CONSTANT ['z', 'x', 'c', 'v']],
                 anti := false, cls := 3, start := ['/', 'a', 's', 'd', 'f'],
                 printstart := ['/', 'a', 's', 'd', 'f'], order := 0 } := by
    simp [pattern_parse, pattern_parse_header, extended_syntax_parse, string_sub,
      pattern_parse_sections, path_iter, path_next, _get_volume, _get_leading_sep,
      _get_leading_sep_loop, _get_leading_nonsep, _get_leading_nonsep_loop, _is_sep,
      section_parse, string_eq, strncmp, DOUBLESTAR, section_parse_loop, section_classify,
      parse_state.len, consecutive_any_loop, section_t.isAny, pattern_start_loop, path_extend,
      last_is_sep, CLASS_ANY, CLASS_DIR]
  exact ⟨hp, (pattern_parse_start 4096 _ _ hp).1⟩

/-- Claim C10: for every pattern string that does not start with `:` and that
`pattern_parse` accepts, `anti` is true iff the string starts with `!`; the class is
`DIR` iff the string ends with `/`, and `FILE|DIR` otherwise; and the sections are,
in order, what `section_parse` gives on each `path_iter` segment of the string after
the optional `!`, a leading volume segment being taken verbatim as a `CONSTANT`. -/
theorem pattern_parse_shorthand (PATH_MAX : Nat) (text : string_t) (p : pattern_t)
    (hne : text.head? ≠ some ':') (h : pattern_parse PATH_MAX text = some p) :
    (p.anti = true ↔ text.head? = some '!')
      ∧ (p.cls = CLASS_DIR ↔ text.getLast? = some '/')
      ∧ (text.getLast? ≠ some '/' → p.cls = CLASS_FILE ||| CLASS_DIR)
      ∧ List.Forall₂ (segment_section PATH_MAX)
          (path_segments (if text.head? = some '!' then text.drop 1 else text)) p.sects :=
  pattern_parse_shorthand_spec PATH_MAX text p hne h

theorem pattern_parse_shorthand_witness :
    pattern_parse 4096 ['!', '/', 'a', '/', '*', '*', '/', 'b', '/']
        = some { sects := [.SECTION_CONSTANT ['/'], .SECTION_CONSTANT ['a'], .SECTION_ANY,
                   .SECTION_CONSTANT ['b']],
                 anti := true, cls := 2, start := ['/', 'a'], printstart := ['/', 'a'],
                 order := 0 }
      ∧ List.Forall₂ (segment_section 4096)
          (path_segments ['/', 'a', '/', '*', '*', '/', 'b', '/'])
          [.SECTION_CONSTANT ['/'], .SECTION_CONSTANT ['a'], .SECTION_ANY,
            .SECTION_CONSTANT ['b']] := by
  have hp : pattern_parse 4096 ['!', '/', 'a', '/', '*', '*', '/', 'b', '/']
        = some { sects := [.SECTION_CONSTANT ['/'], .SECTION_CONSTANT ['a'], .SECTION_ANY,
                   .SECTION_CONSTANT ['b']],
                 anti := true, cls := 2, start := ['/', 'a'], printstart := ['/', 'a'],
                 order := 0 } := by
    simp [pattern_parse, pattern_parse_header, extended_syntax_parse, string_sub,
      pattern_parse_sections, path_iter, path_next, _get_volume, _get_leading_sep,
      _get_leading_sep_loop, _get_leading_nonsep, _get_leading_nonsep_loop, _is_sep,
      section_parse, string_eq, strncmp, DOUBLESTAR, section_parse_loop, section_classify,
      parse_state.len, consecutive_any_loop, section_t.isAny, pattern_start_loop, path_extend,
      last_is_sep, CLASS_ANY, CLASS_DIR]
  exact ⟨hp, (pattern_parse_shorthand 4096 _ _ (by decide) hp).2.2.2⟩

end Findglob


namespace Findglob

theorem ext_flags_cons (c : Char) (rest : string_t) (hc : c ≠ ':') :
    ext_flags (c :: rest) = c :: ext_flags rest := by
  simp [ext_flags, List.takeWhile_cons, hc]

theorem ext_flags_colon (rest : string_t) : ext_flags (':' :: rest) = [] := by
  simp [ext_flags, List.takeWhile_cons]

theorem ext_bits_file_test (seen : string_t) :
    ((ext_bits seen &&& CLASS_FILE) != 0) = decide ('f' ∈ seen) := by
  unfold ext_bits
  by_cases hf : 'f' ∈ seen <;> by_cases hd : 'd' ∈ seen <;> simp [hf, hd] <;> decide

theorem ext_bits_dir_test (seen : string_t) :
    ((ext_bits seen &&& CLASS_DIR) != 0) = decide ('d' ∈ seen) := by
  unfold ext_bits
  by_cases hf : 'f' ∈ seen <;> by_cases hd : 'd' ∈ seen <;> simp [hf, hd] <;> decide

theorem ext_bits_add_file (seen : string_t) :
    ext_bits seen ||| CLASS_FILE = ext_bits (seen ++ ['f']) := by
  unfold ext_bits
  by_cases hf : 'f' ∈ seen <;> by_cases hd : 'd' ∈ seen <;> simp [hf, hd] <;> decide

theorem ext_bits_add_dir (seen : string_t) :
    ext_bits seen ||| CLASS_DIR = ext_bits (seen ++ ['d']) := by
  unfold ext_bits
  by_cases hf : 'f' ∈ seen <;> by_cases hd : 'd' ∈ seen <;> simp [hf, hd] <;> decide

theorem ext_bits_bang (seen : string_t) : ext_bits (seen ++ ['!']) = ext_bits seen := by
  unfold ext_bits
  simp

theorem ext_class_eq (seen : string_t) :
    (if ext_bits seen = 0 then CLASS_ANY else ext_bits seen) = ext_class seen := by
  unfold ext_class ext_bits
  by_cases hf : 'f' ∈ seen <;> by_cases hd : 'd' ∈ seen <;> simp [hf, hd] <;> decide

theorem ext_legal_from_step (c : Char) (rest seen : string_t) (hc : c ≠ ':')
    (hok : c = '!' ∨ c = 'f' ∨ c = 'd') (hns : c ∉ seen) :
    ext_legal_from seen (c :: rest) ↔ ext_legal_from (seen ++ [c]) rest := by
  unfold ext_legal_from
  rw [ext_flags_cons c rest hc]
  simp only [List.mem_cons, List.nodup_cons, List.mem_append, List.not_mem_nil, or_false,
    not_or]
  constructor
  · rintro ⟨h1, h2, h3, h4⟩
    refine ⟨?_, ?_, h4⟩
    · rcases h1 with h1 | h1
      · exact absurd h1.symm hc
      · exact h1
    · intro x hx
      refine ⟨(h2 x (Or.inr hx)).1, (h2 x (Or.inr hx)).2, ?_⟩
      intro hxc
      exact h3 (hxc ▸ hx)
  · rintro ⟨h1, h2, h4⟩
    refine ⟨Or.inr h1, ?_, ?_, h4⟩
    · intro x hx
      rcases hx with hx | hx
      · subst hx
        exact ⟨hok, hns⟩
      · exact ⟨(h2 x hx).1, (h2 x hx).2.1⟩
    · intro hmem
      exact (h2 c hmem).2.2 rfl

theorem ext_legal_from_seen (c : Char) (rest seen : string_t) (hc : c ≠ ':') (hs : c ∈ seen) :
    ¬ ext_legal_from seen (c :: rest) := by
  unfold ext_legal_from
  rw [ext_flags_cons c rest hc]
  rintro ⟨_, h2, _⟩
  exact (h2 c (List.mem_cons_self _ _)).2 hs

theorem ext_legal_from_unknown (c : Char) (rest seen : string_t) (hc : c ≠ ':')
    (hok : ¬ (c = '!' ∨ c = 'f' ∨ c = 'd')) : ¬ ext_legal_from seen (c :: rest) := by
  unfold ext_legal_from
  rw [ext_flags_cons c rest hc]
  rintro ⟨_, h2, _⟩
  exact hok (h2 c (List.mem_cons_self _ _)).1

theorem ext_legal_from_colon (rest seen : string_t) : ext_legal_from seen (':' :: rest) := by
  unfold ext_legal_from
  rw [ext_flags_colon]
  simp

theorem ext_legal_iff (rest : string_t) : ext_legal rest ↔ ext_legal_from [] rest := by
  unfold ext_legal ext_legal_from
  simp

end Findglob


namespace Findglob

/-- The loop of `extended_syntax_parse` after the flags `seen`: it succeeds
exactly on legal flags, with the values the specification gives. -/
theorem ext_loop_spec (rest seen : string_t) (i : Nat) :
    (ext_legal_from seen rest
        ∧ extended_syntax_parse_loop rest i (decide ('!' ∈ seen)) (ext_bits seen)
            = (i + (ext_flags rest).length + 1, decide ('!' ∈ seen ++ ext_flags rest),
                ext_class (seen ++ ext_flags rest)))
      ∨ (¬ ext_legal_from seen rest
          ∧ (extended_syntax_parse_loop rest i (decide ('!' ∈ seen)) (ext_bits seen)).1 = 0) := by
  induction rest generalizing seen i with
  | nil =>
    right
    exact ⟨fun h => by simp [ext_legal_from] at h, rfl⟩
  | cons c rest ih =>
    unfold extended_syntax_parse_loop
    by_cases hcolon : c = ':'
    · subst hcolon
      left
      refine ⟨ext_legal_from_colon rest seen, ?_⟩
      rw [if_pos rfl, ext_flags_colon, ext_class_eq]
      simp
    rw [if_neg hcolon]
    by_cases hbang : c = '!'
    · subst hbang
      rw [if_pos rfl]
      by_cases hs : '!' ∈ seen
      · right
        refine ⟨ext_legal_from_seen _ rest seen hcolon hs, ?_⟩
        simp [hs]
      · have hstep := ext_legal_from_step '!' rest seen hcolon (Or.inl rfl) hs
        have hih := ih (seen ++ ['!']) (i + 1)
        rw [ext_bits_bang] at hih
        have hd : decide ('!' ∈ seen ++ ['!']) = true := by simp
        rw [hd] at hih
        have hd2 : decide ('!' ∈ seen) = false := by simp [hs]
        rw [hd2, ext_flags_cons _ _ hcolon]
        simp only [Bool.false_eq_true, if_false]
        rcases hih with ⟨h1, h2⟩ | ⟨h1, h2⟩
        · left
          refine ⟨hstep.2 h1, ?_⟩
          rw [h2]
          simp [Nat.add_assoc, Nat.add_comm, Nat.add_left_comm]
        · right
          exact ⟨fun h => h1 (hstep.1 h), h2⟩
    rw [if_neg hbang]
    by_cases hdir : c = 'd'
    · subst hdir
      rw [if_pos rfl, ext_bits_dir_test]
      by_cases hs : 'd' ∈ seen
      · right
        refine ⟨ext_legal_from_seen _ rest seen hcolon hs, ?_⟩
        simp [hs]
      · have hstep := ext_legal_from_step 'd' rest seen hcolon (Or.inr (Or.inr rfl)) hs
        have hih := ih (seen ++ ['d']) (i + 1)
        rw [← ext_bits_add_dir] at hih
        have hd : decide ('!' ∈ seen ++ ['d']) = decide ('!' ∈ seen) := by simp
        rw [hd] at hih
        have hd2 : decide ('d' ∈ seen) = false := by simp [hs]
        rw [hd2, ext_flags_cons _ _ hcolon]
        simp only [Bool.false_eq_true, if_false]
        rcases hih with ⟨h1, h2⟩ | ⟨h1, h2⟩
        · left
          refine ⟨hstep.2 h1, ?_⟩
          rw [h2]
          simp [Nat.add_assoc, Nat.add_comm, Nat.add_left_comm]
        · right
          exact ⟨fun h => h1 (hstep.1 h), h2⟩
    rw [if_neg hdir]
    by_cases hfile : c = 'f'
    · subst hfile
      rw [if_pos rfl, ext_bits_file_test]
      by_cases hs : 'f' ∈ seen
      · right
        refine ⟨ext_legal_from_seen _ rest seen hcolon hs, ?_⟩
        simp [hs]
      · have hstep := ext_legal_from_step 'f' rest seen hcolon (Or.inr (Or.inl rfl)) hs
        have hih := ih (seen ++ ['f']) (i + 1)
        rw [← ext_bits_add_file] at hih
        have hd : decide ('!' ∈ seen ++ ['f']) = decide ('!' ∈ seen) := by simp
        rw [hd] at hih
        have hd2 : decide ('f' ∈ seen) = false := by simp [hs]
        rw [hd2, ext_flags_cons _ _ hcolon]
        simp only [Bool.false_eq_true, if_false]
        rcases hih with ⟨h1, h2⟩ | ⟨h1, h2⟩
        · left
          refine ⟨hstep.2 h1, ?_⟩
          rw [h2]
          simp [Nat.add_assoc, Nat.add_comm, Nat.add_left_comm]
        · right
          exact ⟨fun h => h1 (hstep.1 h), h2⟩
    rw [if_neg hfile]
    right
    refine ⟨ext_legal_from_unknown c rest seen hcolon ?_, rfl⟩
    rintro (h | h | h)
    · exact hbang h
    · exact hfile h
    · exact hdir h

/-- Function `extended_syntax_parse` on a string that begins with `:`. -/
theorem extended_syntax_parse_cases (rest : string_t) :
    (ext_legal rest
        ∧ extended_syntax_parse (':' :: rest)
            = ((ext_flags rest).length + 2, decide ('!' ∈ ext_flags rest),
                ext_class (ext_flags rest)))
      ∨ (¬ ext_legal rest ∧ (extended_syntax_parse (':' :: rest)).1 = 0) := by
  have h := ext_loop_spec rest [] 1
  have hb : ext_bits [] = 0 := by decide
  have hd : decide ('!' ∈ ([] : string_t)) = false := by simp
  rw [hb, hd] at h
  unfold extended_syntax_parse
  rw [ext_legal_iff]
  simp only [List.drop_succ_cons, List.drop_zero, List.nil_append] at h ⊢
  rcases h with ⟨h1, h2⟩ | ⟨h1, h2⟩
  · left
    refine ⟨h1, ?_⟩
    rw [h2]
    simp [Nat.add_comm, Nat.add_left_comm]
  · right
    exact ⟨h1, h2⟩

end Findglob


namespace Findglob

theorem ext_flags_closing (rest : string_t) (h : ':' ∈ rest) :
    rest[(ext_flags rest).length]? = some ':' := by
  induction rest with
  | nil => simp at h
  | cons c rest ih =>
    by_cases hc : c = ':'
    · subst hc
      rw [ext_flags_colon]
      simp
    · rw [ext_flags_cons c rest hc]
      rcases List.mem_cons.1 h with h | h
      · exact absurd h.symm hc
      · simpa using ih h

/-- Claim C11: for every string that begins with `:`, `extended_syntax_parse`
succeeds (returns a non-zero length) iff a closing `:` exists and the characters
between the first `:` and the next one are drawn from `!`, `f` and `d` with none
repeated; on success it returns the index just past the closing `:`, `anti` is true
iff `!` is among the flags, and the class is the union of `FILE` for `f` and `DIR`
for `d`, or `FILE|DIR` when neither appears; on a duplicate flag, an unknown flag
or a missing closing `:` it returns 0. -/
theorem extended_syntax_parse_flags (rest : string_t) :
    ((extended_syntax_parse (':' :: rest)).1 ≠ 0 ↔ ext_legal rest)
      ∧ (ext_legal rest →
          extended_syntax_parse (':' :: rest)
              = ((ext_flags rest).length + 2, decide ('!' ∈ ext_flags rest),
                  ext_class (ext_flags rest))
            ∧ (':' :: rest)[(ext_flags rest).length + 1]? = some ':')
      ∧ (¬ ext_legal rest → (extended_syntax_parse (':' :: rest)).1 = 0) := by
  rcases extended_syntax_parse_cases rest with ⟨h1, h2⟩ | ⟨h1, h2⟩
  · refine ⟨⟨fun _ => h1, fun _ => by rw [h2]; simp⟩, fun _ => ⟨h2, ?_⟩, fun h => absurd h1 h⟩
    simpa using ext_flags_closing rest h1.1
  · exact ⟨⟨fun h => absurd h2 h, fun h => absurd h h1⟩, fun h => absurd h h1, fun _ => h2⟩

theorem extended_syntax_parse_flags_witness :
    ext_legal ['f', '!', ':', 'a', '/', '*']
      ∧ extended_syntax_parse [':', 'f', '!', ':', 'a', '/', '*'] = (4, true, CLASS_FILE)
      ∧ ¬ ext_legal ['f', 'f', ':', 'a']
      ∧ (extended_syntax_parse [':', 'f', 'f', ':', 'a']).1 = 0
      ∧ ¬ ext_legal ['d', 'x', ':', 'a']
      ∧ ¬ ext_legal ['d', 'f']
      ∧ (extended_syntax_parse [':', 'd', 'f']).1 = 0 := by
  have hl : ext_legal ['f', '!', ':', 'a', '/', '*'] := by
    simp [ext_legal, ext_flags, List.takeWhile_cons]
  have hn1 : ¬ ext_legal ['f', 'f', ':', 'a'] := by
    simp [ext_legal, ext_flags, List.takeWhile_cons]
  have hn2 : ¬ ext_legal ['d', 'x', ':', 'a'] := by
    simp [ext_legal, ext_flags, List.takeWhile_cons]
  have hn3 : ¬ ext_legal ['d', 'f'] := by
    simp [ext_legal]
  exact ⟨hl, ((extended_syntax_parse_flags _).2.1 hl).1.trans (by decide), hn1,
    (extended_syntax_parse_flags _).2.2 hn1, hn2, hn3, (extended_syntax_parse_flags _).2.2 hn3⟩

end Findglob


namespace Findglob

theorem leading_sep_loop_eq (l : List Char) (out : Nat) :
    _get_leading_sep_loop l out = out + (l.takeWhile _is_sep).length := by
  induction l generalizing out with
  | nil => simp [_get_leading_sep_loop]
  | cons c rest ih =>
    simp only [_get_leading_sep_loop, List.takeWhile_cons]
    by_cases hc : _is_sep c = true
    · simp only [hc, Bool.not_true, Bool.false_eq_true, if_false, if_true, List.length_cons, ih]
      omega
    · simp [hc]

theorem leading_nonsep_loop_eq (l : List Char) (out : Nat) :
    _get_leading_nonsep_loop l out = out + (l.takeWhile (fun c => !_is_sep c)).length := by
  induction l generalizing out with
  | nil => simp [_get_leading_nonsep_loop]
  | cons c rest ih =>
    simp only [_get_leading_nonsep_loop, List.takeWhile_cons]
    by_cases hc : _is_sep c = true
    · simp [hc]
    · have hc' : _is_sep c = false := by simpa using hc
      simp only [hc', Bool.false_eq_true, if_false, Bool.not_false, if_true, List.length_cons,
        ih]
      omega

theorem take_length_takeWhile (f : Char → Bool) (l : List Char) :
    l.take (l.takeWhile f).length = l.takeWhile f := by
  induction l with
  | nil => rfl
  | cons c rest ih =>
    simp only [List.takeWhile_cons]
    by_cases hc : f c = true
    · simp [hc, ih]
    · simp [hc]

theorem drop_length_takeWhile (f : Char → Bool) (l : List Char) :
    l.drop (l.takeWhile f).length = l.dropWhile f := by
  induction l with
  | nil => rfl
  | cons c rest ih =>
    simp only [List.takeWhile_cons, List.dropWhile_cons]
    by_cases hc : f c = true
    · simp [hc, ih]
    · simp [hc]

theorem nonsep_runs_nil : nonsep_runs [] = [] := by
  decide

theorem nonsep_runs_sep (l : string_t) : nonsep_runs ('/' :: l) = nonsep_runs l := by
  unfold nonsep_runs List.splitOn
  rw [List.splitOnP_cons]
  simp

theorem nonsep_runs_dropWhile (l : string_t) :
    nonsep_runs (l.dropWhile _is_sep) = nonsep_runs l := by
  induction l with
  | nil => rfl
  | cons c rest ih =>
    rw [List.dropWhile_cons]
    by_cases hc : _is_sep c = true
    · have : c = '/' := by simpa [_is_sep] using hc
      subst this
      rw [if_pos hc, ih, nonsep_runs_sep]
    · rw [if_neg hc]

/-- The runs of a string that begins with a byte other than `/`: its longest
prefix without `/`, then the runs of what follows. -/
theorem nonsep_runs_run (l : string_t) (hne : l.takeWhile (fun c => !_is_sep c) ≠ []) :
    nonsep_runs l
      = l.takeWhile (fun c => !_is_sep c) :: nonsep_runs (l.dropWhile (fun c => !_is_sep c)) := by
  have hsplit := List.takeWhile_append_dropWhile (fun c => !_is_sep c) l
  have hrun : ∀ x ∈ l.takeWhile (fun c => !_is_sep c), ¬ (x == '/') = true := by
    intro x hx
    have := List.mem_takeWhile_imp hx
    simpa [_is_sep] using this
  cases hd : l.dropWhile (fun c => !_is_sep c) with
  | nil =>
    rw [hd, List.append_nil] at hsplit
    rw [hsplit, nonsep_runs_nil]
    rw [hsplit] at hrun hne
    unfold nonsep_runs List.splitOn
    rw [List.splitOnP_eq_single _ _ hrun]
    simp [hne]
  | cons c rest =>
    have hc : _is_sep c = true := by
      have := List.head_dropWhile_not (fun c => !_is_sep c) l (by rw [hd]; simp)
      simp only [hd, List.head_cons] at this
      simpa using this
    have hc' : c = '/' := by simpa [_is_sep] using hc
    subst hc'
    rw [nonsep_runs_sep]
    conv_lhs => rw [← hsplit, hd]
    unfold nonsep_runs List.splitOn
    rw [List.splitOnP_first _ _ hrun '/' (by simp)]
    simp [hne]

end Findglob


namespace Findglob

theorem leading_sep_eq (base : string_t) (n : Nat) :
    _get_leading_sep base n = ((base.drop n).takeWhile _is_sep).length := by
  unfold _get_leading_sep
  rw [leading_sep_loop_eq]
  omega

theorem leading_nonsep_eq (base : string_t) (n : Nat) :
    _get_leading_nonsep base n = ((base.drop n).takeWhile (fun c => !_is_sep c)).length := by
  unfold _get_leading_nonsep
  rw [leading_nonsep_loop_eq]
  omega

theorem leading_sep_le (base : string_t) (n : Nat) :
    _get_leading_sep base n ≤ base.length - n := by
  rw [leading_sep_eq, ← List.length_drop]
  exact (List.takeWhile_prefix _).length_le

theorem leading_nonsep_le (base : string_t) (n : Nat) :
    _get_leading_nonsep base n ≤ base.length - n := by
  rw [leading_nonsep_eq, ← List.length_drop]
  exact (List.takeWhile_prefix _).length_le

theorem nonsep_runs_only_sep (l : string_t)
    (h : (l.dropWhile _is_sep).takeWhile (fun c => !_is_sep c) = []) : nonsep_runs l = [] := by
  rw [← nonsep_runs_dropWhile]
  cases hd : l.dropWhile _is_sep with
  | nil => exact nonsep_runs_nil
  | cons c rest =>
    have hc := List.head_dropWhile_not _is_sep l (by rw [hd]; simp)
    simp only [hd, List.head_cons] at hc
    rw [hd, List.takeWhile_cons] at h
    simp [hc] at h

/-- The segments that the iterator yields after its first call, or from the
start of a path without a volume: the runs of what is left of the path. -/
theorem collect_runs (n : Nat) :
    ∀ it : path_iter_t, it.base.length - it.nskip = n → it.ok = true →
      (it.nskip ≠ 0 ∨ _get_volume it.base = 0) →
      path_iter_collect (path_next it).1 (path_next it).2
        = (nonsep_runs (it.base.drop it.nskip)).map (fun r => (r, false)) := by
  induction n using Nat.strong_induction_on with
  | _ n ih =>
    intro it hn hok hnv
    rw [path_next_eq it hok]
    by_cases h1 : it.nskip ≥ it.base.length
    · rw [if_pos h1, path_iter_collect_done _ _ (by simp),
        List.drop_eq_nil_of_le h1, nonsep_runs_nil]
      rfl
    rw [if_neg h1]
    have h2 : ¬ (it.nskip = 0 ∧ _get_volume it.base ≠ 0) := by
      rintro ⟨a, b⟩
      rcases hnv with c | c
      · exact c a
      · exact b c
    rw [if_neg h2]
    have hsep := leading_sep_eq it.base it.nskip
    have hdrop : it.base.drop (it.nskip + _get_leading_sep it.base it.nskip)
        = (it.base.drop it.nskip).dropWhile _is_sep := by
      rw [hsep, ← List.drop_drop, drop_length_takeWhile]
    have hnon := leading_nonsep_eq it.base (it.nskip + _get_leading_sep it.base it.nskip)
    rw [hdrop] at hnon
    by_cases h3 : _get_leading_nonsep it.base (it.nskip + _get_leading_sep it.base it.nskip) = 0
    · rw [if_pos h3, path_iter_collect_done _ _ (by simp)]
      rw [h3] at hnon
      rw [nonsep_runs_only_sep _ (List.length_eq_zero.1 hnon.symm)]
      rfl
    rw [if_neg h3]
    have hne : ((it.base.drop it.nskip).dropWhile _is_sep).takeWhile (fun c => !_is_sep c) ≠ [] := by
      intro h
      rw [h] at hnon
      exact h3 hnon
    have hlen1 := leading_sep_le it.base it.nskip
    have hlen2 := leading_nonsep_le it.base (it.nskip + _get_leading_sep it.base it.nskip)
    have hpos : 0 < _get_leading_nonsep it.base
        (it.nskip + _get_leading_sep it.base it.nskip) := Nat.pos_of_ne_zero h3
    have hsub : string_sub it.base (it.nskip + _get_leading_sep it.base it.nskip)
          (it.nskip + _get_leading_sep it.base it.nskip
            + _get_leading_nonsep it.base (it.nskip + _get_leading_sep it.base it.nskip))
        = ((it.base.drop it.nskip).dropWhile _is_sep).takeWhile (fun c => !_is_sep c) := by
      rw [string_sub_eq _ _ _ (by omega) (by omega), hdrop, Nat.add_sub_cancel_left, hnon,
        take_length_takeWhile]
    rw [hsub, path_iter_collect_ok _ _ (by simpa using hok)]
    have hih := ih
      (it.base.length - (it.nskip + _get_leading_sep it.base it.nskip
        + _get_leading_nonsep it.base (it.nskip + _get_leading_sep it.base it.nskip)))
      (by omega)
      { it with isvol := false,
                nskip := it.nskip + _get_leading_sep it.base it.nskip
                  + _get_leading_nonsep it.base (it.nskip + _get_leading_sep it.base it.nskip),
                i := if it.nskip != 0 then it.i + 1 else it.i }
      rfl (by simpa using hok) (Or.inl (by simp only; omega))
    rw [hih]
    simp only
    rw [← nonsep_runs_dropWhile (it.base.drop it.nskip), nonsep_runs_run _ hne]
    have hdrop2 : it.base.drop (it.nskip + _get_leading_sep it.base it.nskip
          + _get_leading_nonsep it.base (it.nskip + _get_leading_sep it.base it.nskip))
        = ((it.base.drop it.nskip).dropWhile _is_sep).dropWhile (fun c => !_is_sep c) := by
      rw [← List.drop_drop, hdrop, hnon, drop_length_takeWhile]
    rw [hdrop2]
    rfl

end Findglob


namespace Findglob

/-- The segments of a path are the specified ones. -/
theorem path_segments_eq (p : string_t) : path_segments p = segments_spec p := by
  unfold path_segments path_iter segments_spec
  have hok0 : ({ base := p, nskip := 0, ok := true, i := 0 } : path_iter_t).ok = true := rfl
  rcases p with _ | ⟨c, rest⟩
  · rw [path_next_eq _ hok0, if_pos (by simp), path_iter_collect_done _ _ (by simp)]
    rfl
  · by_cases hc : c = '/'
    · subst hc
      have hv : _get_volume ('/' :: rest) = 1 := by simp [_get_volume, _is_sep]
      rw [path_next_eq _ hok0, if_neg (by simp), if_pos ⟨rfl, by rw [hv]; omega⟩, hv,
        path_iter_collect_ok _ _ rfl]
      have h := collect_runs (('/' :: rest).length - 1)
        { base := '/' :: rest, nskip := 1, ok := true, isvol := true,
          i := if ((0 : Nat) != 0) = true then 0 + 1 else 0 } rfl rfl (Or.inl (by simp))
      rw [h, nonsep_runs_sep]
      have hs : string_sub ('/' :: rest) 0 1 = ['/'] := by
        rw [string_sub_eq _ 0 1 (by omega) (by simp)]
        simp
      rw [hs]
      simp
    · have hv : _get_volume (c :: rest) = 0 := by simp [_get_volume, _is_sep, hc]
      have h := collect_runs (c :: rest).length
        { base := c :: rest, nskip := 0, ok := true, i := 0 } rfl rfl (Or.inr hv)
      rw [h]
      simp [hc]

theorem segments_nonempty (p : string_t) (seg : string_t × Bool) (h : seg ∈ path_segments p) :
    seg.1 ≠ [] := by
  have hg := (path_segments_spec p).1 seg h
  unfold good_segment at hg
  by_cases hv : seg.2 = true
  · rw [if_pos hv] at hg
    rw [hg]
    simp
  · rw [if_neg hv] at hg
    exact hg.1

/-- Claim C15: on the Unix build, for every path `p`, the segments that `path_iter`
and repeated `path_next` yield until `ok` is false are the one-byte volume `/` first
iff `p` begins with `/`, then exactly the maximal non-empty runs of bytes other than
`/` of `p`, from left to right; no segment is empty (runs of separators and trailing
separators give none), and the empty path yields no segment. -/
theorem path_iter_segments (p : string_t) :
    path_segments p = segments_spec p
      ∧ (∀ seg ∈ path_segments p, seg.1 ≠ [])
      ∧ path_segments [] = [] :=
  ⟨path_segments_eq p, segments_nonempty p, (path_segments_eq []).trans (by decide)⟩

end Findglob


namespace Findglob

theorem segments_spec_eq_nil_iff (p : string_t) : segments_spec p = [] ↔ p = [] := by
  constructor
  · intro h
    rcases p with _ | ⟨c, rest⟩
    · rfl
    · exfalso
      unfold segments_spec at h
      by_cases hc : c = '/'
      · subst hc
        simp at h
      · have hne : (c :: rest).takeWhile (fun c => !_is_sep c) ≠ [] := by
          simp [List.takeWhile_cons, _is_sep, hc]
        rw [nonsep_runs_run _ hne] at h
        simp at h
  · rintro rfl
    decide

/-- An accepted pattern has no section exactly when the text that is split into
sections is empty, which only the extended form allows. -/
theorem pattern_sects_nil_iff (PM : Nat) (text : string_t) (p : pattern_t)
    (h : pattern_parse PM text = some p) :
    (p.sects = [] ↔ pattern_payload text = [])
      ∧ (text.head? ≠ some ':' → p.sects ≠ []) := by
  obtain ⟨path, anti, cls, sects, start, hhead, hsect, _, _, hp⟩ :=
    (pattern_parse_some_iff PM text p).1 h
  subst hp
  have hpay := header_payload text path anti cls hhead
  have hiff : sects = [] ↔ path = [] := by
    rw [← segments_spec_eq_nil_iff, ← path_segments_eq]
    constructor
    · rintro rfl
      exact List.forall₂_nil_right_iff.1 hsect
    · intro hnil
      rw [hnil] at hsect
      exact List.forall₂_nil_left_iff.1 hsect
  refine ⟨by rw [← hpay]; exact hiff, ?_⟩
  intro hne
  show sects ≠ []
  rw [Ne, hiff]
  rcases header_cases text path anti cls hhead with ⟨h2, _⟩ | ⟨_, hn1, hn2, _, hpath, _⟩
  · exact absurd h2 hne
  · rw [hpath]
    rcases text with _ | ⟨c, _ | ⟨d, rest⟩⟩
    · exact absurd rfl hn1
    · by_cases hc : c = '!'
      · subst hc
        exact absurd rfl hn2
      · simp [hc]
    · by_cases hc : c = '!'
      · simp [hc]
      · simp [hc]

end Findglob


namespace Findglob

/-- Claim C12, evaluated on the code: `pattern_parse` fails on the empty string and
on `!`, but it accepts the extended patterns `::` and `:f:`, whose payload is empty,
and returns a pattern with no section at all; a match at `k = 0` of such a pattern
has no section to inspect, and `match_text` reads outside the section array. -/
theorem pattern_parse_empty_payload (PATH_MAX : Nat) :
    pattern_parse PATH_MAX [] = none
      ∧ pattern_parse PATH_MAX ['!'] = none
      ∧ pattern_parse PATH_MAX [':', ':']
          = some { sects := [], anti := false, cls := CLASS_ANY, start := [], printstart := [],
                   order := 0 }
      ∧ pattern_parse PATH_MAX [':', 'f', ':']
          = some { sects := [], anti := false, cls := CLASS_FILE, start := [], printstart := [],
                   order := 0 }
      ∧ (∀ (name : string_t) (c : class_e),
          match_text ⟨{ sects := [], anti := false, cls := CLASS_ANY, start := [],
                        printstart := [], order := 0 }, 0⟩ name c = none) := by
  have hseg : pattern_parse_sections PATH_MAX (path_iter []).1 (path_iter []).2 [] = some [] := by
    rw [pattern_parse_sections]
    simp [path_iter, path_next]
  refine ⟨by simp [pattern_parse, pattern_parse_header],
    by simp [pattern_parse, pattern_parse_header], ?_, ?_, ?_⟩
  · have hh : pattern_parse_header [':', ':'] = some ([], false, CLASS_ANY) := by decide
    simp [pattern_parse, hh, hseg, consecutive_any_loop, pattern_start_loop]
  · have hh : pattern_parse_header [':', 'f', ':'] = some ([], false, CLASS_FILE) := by decide
    simp [pattern_parse, hh, hseg, consecutive_any_loop, pattern_start_loop]
  · intro name c
    simp [match_text]

end Findglob


namespace Findglob

theorem last_is_sep_iff (s : string_t) : last_is_sep s = true ↔ s.getLast? = some '/' := by
  unfold last_is_sep
  cases s.getLast? with
  | none => simp
  | some c => simp [_is_sep]

theorem byte_is_sep_iff (s : string_t) (i : Nat) :
    byte_is_sep s i = true ↔ s[i]? = some '/' := by
  unfold byte_is_sep
  cases s[i]? with
  | none => simp
  | some c => simp [_is_sep]

/-- Function `path_startswith`, in the words of its specification. -/
theorem path_startswith_spec (a b : string_t) :
    path_startswith a b = true
      ↔ b <+: a ∧ ((b ≠ [] ∧ b.getLast? = some '/') ∨ a.length = b.length
          ∨ a[b.length]? = some '/') := by
  unfold path_startswith
  have hpre : string_startswith a b = true ↔ b <+: a := by
    rw [string_startswith_iff]
    constructor
    · rintro ⟨tl, h⟩
      exact ⟨tl, h.symm⟩
    · rintro ⟨tl, h⟩
      exact ⟨tl, h.symm⟩
  by_cases hs : string_startswith a b = true
  · simp only [hs, Bool.not_true, Bool.false_eq_true, if_false, Bool.or_eq_true,
      Bool.and_eq_true, bne_iff_ne, ne_eq, List.length_eq_zero, beq_iff_eq, last_is_sep_iff,
      byte_is_sep_iff]
    constructor
    · intro h
      refine ⟨hpre.1 hs, ?_⟩
      rcases h with (h | h) | h
      · exact Or.inl h
      · exact Or.inr (Or.inl h)
      · exact Or.inr (Or.inr h)
    · rintro ⟨_, h | h | h⟩
      · exact Or.inl (Or.inl h)
      · exact Or.inl (Or.inr h)
      · exact Or.inr h
  · have hs' : string_startswith a b = false := by simpa using hs
    simp only [hs', Bool.not_false, if_true, Bool.false_eq_true, false_iff]
    rintro ⟨h, _⟩
    exact hs (hpre.2 h)

/-- Claim C13: for all strings `a` and `b`, `path_startswith(a, b)` is true iff `b` is a
byte prefix of `a` and `b` is non-empty and ends in `/`, or `a` and `b` have equal
length, or the byte of `a` at index `len(b)` is `/`; in particular it is true of
`a/b/c` with `a/b` and of `/a` with `/`, and false of `a/bb` with `a/b`. -/
theorem path_startswith_iff (a b : string_t) :
    (path_startswith a b = true
      ↔ b <+: a ∧ ((b ≠ [] ∧ b.getLast? = some '/') ∨ a.length = b.length
          ∨ a[b.length]? = some '/'))
      ∧ path_startswith ['a', '/', 'b', '/', 'c'] ['a', '/', 'b'] = true
      ∧ path_startswith ['/', 'a'] ['/'] = true
      ∧ path_startswith ['a', '/', 'b', 'b'] ['a', '/', 'b'] = false :=
  ⟨path_startswith_spec a b, by decide, by decide, by decide⟩

end Findglob


namespace Findglob

theorem needsep_eq (base : string_t) :
    (base.length != 0 && !last_is_sep base) = decide (join_count base = 1)
      ∧ (base.length != 0 && !last_is_sep base).toNat = join_count base := by
  unfold join_count
  by_cases hb : base = []
  · subst hb
    simp
  · by_cases hl : base.getLast? = some '/'
    · have : last_is_sep base = true := (last_is_sep_iff base).2 hl
      simp [hb, hl, this]
    · have : last_is_sep base = false := by
        cases h : last_is_sep base
        · rfl
        · exact absurd ((last_is_sep_iff base).1 h) hl
      simp [hb, hl, this]

/-- Function `path_extend`, in the words of its specification. -/
theorem path_extend_spec (base text : string_t) (cap : Nat) :
    (base.length + join_count base + text.length + 1 > cap
        → path_extend base text cap = (-1, base))
      ∧ (¬ base.length + join_count base + text.length + 1 > cap
        → path_extend base text cap
            = (0, base ++ List.replicate (join_count base) '/' ++ text)) := by
  obtain ⟨h1, h2⟩ := needsep_eq base
  unfold path_extend
  simp only [h2]
  constructor
  · intro h
    rw [if_pos h]
  · intro h
    rw [if_neg h, h1]
    by_cases hj : join_count base = 1
    · simp [hj]
    · have : join_count base = 0 := by
        unfold join_count at hj ⊢
        split_ifs at hj ⊢ <;> simp_all
      simp [this]

/-- Claim C14: for every `base`, `text` and `cap`, with `j = 1` if `base` is non-empty
and does not end in `/` and `j = 0` otherwise, `path_extend` fails (returns non-zero)
exactly when `len(base) + j + len(text) + 1 > cap`, and then leaves `base`
unmodified; otherwise it returns 0 and `base` becomes the old `base`, followed by
a single `/` iff `j = 1`, followed by `text`. -/
theorem path_extend_contract (base text : string_t) (cap : Nat) :
    ((path_extend base text cap).1 ≠ 0 ↔ base.length + join_count base + text.length + 1 > cap)
      ∧ ((path_extend base text cap).1 ≠ 0 → (path_extend base text cap).2 = base)
      ∧ ((path_extend base text cap).1 = 0 →
          (path_extend base text cap).2
            = base ++ List.replicate (join_count base) '/' ++ text)
      ∧ (join_count base = 1 ↔ base ≠ [] ∧ base.getLast? ≠ some '/')
      ∧ (join_count base = 0 ∨ join_count base = 1) := by
  obtain ⟨h1, h2⟩ := path_extend_spec base text cap
  have hj : (join_count base = 1 ↔ base ≠ [] ∧ base.getLast? ≠ some '/')
      ∧ (join_count base = 0 ∨ join_count base = 1) := by
    unfold join_count
    split_ifs with h
    · exact ⟨⟨fun _ => h, fun _ => rfl⟩, Or.inr rfl⟩
    · exact ⟨⟨fun h0 => absurd h0 (by decide), fun h0 => absurd h0 h⟩, Or.inl rfl⟩
  by_cases hc : base.length + join_count base + text.length + 1 > cap
  · rw [h1 hc]
    have hm : ¬ ((-1 : Int) = 0) := by decide
    exact ⟨⟨fun _ => hc, fun _ => hm⟩, fun _ => rfl, fun h => absurd h hm, hj⟩
  · rw [h2 hc]
    exact ⟨⟨fun h => absurd rfl h, fun h => absurd h hc⟩, fun h => absurd rfl h, fun _ => rfl, hj⟩

theorem path_extend_contract_witness :
    path_extend ['/', 'a'] ['b'] 5 = (0, ['/', 'a', '/', 'b'])
      ∧ path_extend ['/', 'a'] ['b'] 4 = (-1, ['/', 'a'])
      ∧ path_extend ['/'] ['b'] 3 = (0, ['/', 'b'])
      ∧ (path_extend ['/', 'a'] ['b'] 4).2 = ['/', 'a'] :=
  ⟨by decide, by decide, by decide,
    (path_extend_contract ['/', 'a'] ['b'] 4).2.1 (by decide)⟩

end Findglob


namespace Findglob

theorem path_startswith_eq_of_length (a b : string_t) (h : path_startswith a b = true)
    (hl : a.length = b.length) : a = b := by
  have hp := ((path_startswith_spec a b).1 h).1
  exact (hp.eq_of_length hl.symm).symm

/-- The break test of the inner loop of `roots_next` is the negation of `root_ok`. -/
theorem root_ok_eq (a : string_t) (i j : Nat) (pj : pattern_t) (hij : i ≠ j)
    (hanti : pj.anti = false) :
    root_ok a i (j, pj)
      = !(path_startswith a pj.start && (a.length != pj.start.length || decide (i > j))) := by
  unfold root_ok
  have hji : (j == i) = false := by simpa using fun h => hij h.symm
  simp only [hji, hanti, Bool.false_or]
  cases hs : path_startswith a pj.start with
  | false => simp
  | true =>
    by_cases hl : a.length = pj.start.length
    · have hab := path_startswith_eq_of_length a pj.start hs hl
      have h1 : (a == pj.start) = true := by simpa using hab
      have h2 : (a.length != pj.start.length) = false := by simpa using hl
      simp only [h1, h2, Bool.not_true, Bool.false_or, Bool.true_and, Bool.false_or]
      by_cases hlt : i < j
      · have : ¬ i > j := by omega
        simp [hlt, this]
      · have : i > j := by omega
        simp [hlt, this]
    · have h1 : (a == pj.start) = false := by
        simp only [beq_eq_false_iff_ne, ne_eq]
        intro hab
        exact hl (by rw [hab])
      have h2 : (a.length != pj.start.length) = true := by simpa using hl
      simp [h1, h2]

theorem members_add_ok (members : List Nat) (j : Nat) (h : members.length < MAX_PATTERNS) :
    members_add members j = some (members ++ [j]) := by
  unfold members_add
  rw [if_neg (by omega)]

end Findglob


namespace Findglob

/-- The inner loop of `roots_next`, when `members` has room for every pattern
that is still to come: `isroot` says that no pattern keeps the candidate from
being a root, and then the members are those of the specification. -/
theorem inner_spec (a : string_t) (i : Nat) :
    ∀ (rest : List pattern_t) (j : Nat) (members : List Nat),
      members.length + rest.length
          ≤ MAX_PATTERNS + (if j ≤ i ∧ i < j + rest.length then 1 else 0) →
      ∃ m, roots_next_inner a i rest j members
            = some ((rest.enumFrom j).all (root_ok a i), m)
        ∧ ((rest.enumFrom j).all (root_ok a i) = true →
            m = members ++ ((rest.enumFrom j).filter (member_ok a i)).map Prod.fst) := by
  intro rest
  induction rest with
  | nil =>
    intro j members _
    exact ⟨members, rfl, fun _ => by simp⟩
  | cons pj rest ih =>
    intro j members hcap
    simp only [List.length_cons] at hcap
    simp only [List.enumFrom_cons, List.all_cons, List.filter_cons]
    unfold roots_next_inner
    by_cases hij : i = j
    · subst hij
      have hr : root_ok a i (i, pj) = true := by simp [root_ok]
      have hm : member_ok a i (i, pj) = false := by simp [member_ok]
      rw [if_pos rfl, hr, hm]
      simp only [Bool.true_and, Bool.false_eq_true, if_false]
      apply ih
      have : ¬ (i + 1 ≤ i ∧ i < i + 1 + rest.length) := by omega
      rw [if_neg this]
      rw [if_pos (by omega)] at hcap
      omega
    rw [if_neg hij]
    have hji : (j != i) = true := by simpa using fun h => hij h.symm
    have hcap' : members.length + 1 + rest.length
        ≤ MAX_PATTERNS + (if j + 1 ≤ i ∧ i < j + 1 + rest.length then 1 else 0)
        ∧ members.length < MAX_PATTERNS := by
      by_cases hc : j ≤ i ∧ i < j + (rest.length + 1)
      · rw [if_pos hc] at hcap
        rw [if_pos (by omega)]
        omega
      · rw [if_neg hc] at hcap
        rw [if_neg (by omega)]
        omega
    have hcap'' : members.length + rest.length
        ≤ MAX_PATTERNS + (if j + 1 ≤ i ∧ i < j + 1 + rest.length then 1 else 0) := by
      omega
    by_cases hanti : pj.anti = true
    · have hr : root_ok a i (j, pj) = true := by simp [root_ok, hanti]
      have hm : member_ok a i (j, pj) = true := by simp [member_ok, hanti, hji]
      rw [if_pos hanti, members_add_ok members j hcap'.2, hr, hm]
      simp only [Bool.true_and, if_true, List.map_cons]
      obtain ⟨m, h1, h2⟩ := ih (j + 1) (members ++ [j]) (by simpa using hcap'.1)
      exact ⟨m, h1, fun h => by rw [h2 h]; simp⟩
    have hanti' : pj.anti = false := by simpa using hanti
    rw [if_neg hanti, root_ok_eq a i j pj hij hanti']
    by_cases hbreak : (path_startswith a pj.start
        && (a.length != pj.start.length || decide (i > j))) = true
    · rw [if_pos hbreak, hbreak]
      exact ⟨members, by simp, fun h => by simp at h⟩
    rw [if_neg hbreak]
    have hb : (path_startswith a pj.start
        && (a.length != pj.start.length || decide (i > j))) = false := by simpa using hbreak
    rw [hb]
    simp only [Bool.not_false, Bool.true_and]
    by_cases hchild : path_startswith pj.start a = true
    · have hm : member_ok a i (j, pj) = true := by simp [member_ok, hchild, hji]
      rw [if_pos hchild, members_add_ok members j hcap'.2, hm]
      simp only [if_true, List.map_cons]
      obtain ⟨m, h1, h2⟩ := ih (j + 1) (members ++ [j]) (by simpa using hcap'.1)
      exact ⟨m, h1, fun h => by rw [h2 h]; simp⟩
    · have hm : member_ok a i (j, pj) = false := by simp [member_ok, hchild, hanti']
      rw [if_neg hchild, hm]
      simp only [Bool.false_eq_true, if_false]
      exact ih (j + 1) members hcap''

end Findglob


namespace Findglob

theorem drop_cons_getElem? (ps : List pattern_t) (i : Nat) (p : pattern_t)
    (rest : List pattern_t) (h : ps.drop i = p :: rest) :
    ps[i]? = some p ∧ ps.drop (i + 1) = rest := by
  constructor
  · have := List.getElem?_drop (L := ps) (i := i) (j := 0)
    rw [h] at this
    simpa using this.symm
  · have : ps.drop (i + 1) = (ps.drop i).drop 1 := by
      rw [List.drop_drop]
    rw [this, h]
    rfl

theorem root_spec_lt (ps : List pattern_t) (k : Nat) (h : root_spec ps k = true) :
    k < ps.length := by
  unfold root_spec at h
  cases hk : ps[k]? with
  | none =>
    rw [hk] at h
    cases h
  | some p => exact (List.getElem?_eq_some_iff.1 hk).1

/-- The inner loop of `roots_next` on a whole pattern list that fits `members`. -/
theorem inner_whole (ps : List pattern_t) (i : Nat) (p : pattern_t)
    (hlen : ps.length ≤ MAX_PATTERNS) (hp : ps[i]? = some p) (hanti : p.anti = false) :
    ∃ m, roots_next_inner p.start i ps 0 [i] = some (root_spec ps i, m)
      ∧ (root_spec ps i = true → m = group_spec ps i) := by
  have hi : i < ps.length := (List.getElem?_eq_some_iff.1 hp).1
  obtain ⟨m, h1, h2⟩ := inner_spec p.start i ps 0 [i] (by
    rw [if_pos (by omega)]
    simp only [List.length_singleton]
    omega)
  have hr : root_spec ps i = (ps.enumFrom 0).all (root_ok p.start i) := by
    unfold root_spec
    rw [hp]
    simp [hanti, List.enum]
  refine ⟨m, by rw [hr]; exact h1, ?_⟩
  intro h
  rw [hr] at h
  rw [h2 h]
  unfold group_spec
  rw [hp]
  rfl

end Findglob


namespace Findglob

/-- The outer loop of `roots_next` on a pattern list that fits `members`: it stops
at the first root from index `i` on, with the group of that root, or it finds
no root and returns false. -/
theorem outer_spec (ps : List pattern_t) (hlen : ps.length ≤ MAX_PATTERNS) :
    ∀ (rest : List pattern_t) (i : Nat) (it : roots_iter_t),
      it.patterns = ps → ps.drop i = rest →
      (∃ r, i ≤ r ∧ root_spec ps r = true ∧ (∀ k, i ≤ k → k < r → root_spec ps k = false)
          ∧ roots_next_outer rest i it
              = some (true, { patterns := ps, members := group_spec ps r, i := r + 1 }))
        ∨ ((∀ k, i ≤ k → root_spec ps k = false)
            ∧ ∃ it', roots_next_outer rest i it = some (false, it')) := by
  intro rest
  induction rest with
  | nil =>
    intro i it _ hdrop
    right
    refine ⟨?_, it, rfl⟩
    intro k hk
    have hle : ps.length ≤ i := List.drop_eq_nil_iff.1 hdrop
    cases h : root_spec ps k
    · rfl
    · have := root_spec_lt ps k h
      omega
  | cons p rest ih =>
    intro i it hit hdrop
    obtain ⟨hp, hdrop'⟩ := drop_cons_getElem? ps i p rest hdrop
    have hstep : ∀ it1 : roots_iter_t, it1.patterns = ps → root_spec ps i = false →
        (∃ r, i ≤ r ∧ root_spec ps r = true
            ∧ (∀ k, i ≤ k → k < r → root_spec ps k = false)
            ∧ roots_next_outer rest (i + 1) it1
                = some (true, { patterns := ps, members := group_spec ps r, i := r + 1 }))
          ∨ ((∀ k, i ≤ k → root_spec ps k = false)
              ∧ ∃ it', roots_next_outer rest (i + 1) it1 = some (false, it')) := by
      intro it1 hit1 hnot
      rcases ih (i + 1) it1 hit1 hdrop' with ⟨r, h1, h2, h3, h4⟩ | ⟨h1, h2⟩
      · left
        refine ⟨r, by omega, h2, ?_, h4⟩
        intro k hk hkr
        by_cases hki : k = i
        · rw [hki]
          exact hnot
        · exact h3 k (by omega) hkr
      · right
        refine ⟨?_, h2⟩
        intro k hk
        by_cases hki : k = i
        · rw [hki]
          exact hnot
        · exact h1 k (by omega)
    unfold roots_next_outer
    by_cases hanti : p.anti = true
    · rw [if_pos hanti]
      apply hstep it hit
      unfold root_spec
      rw [hp]
      simp [hanti]
    rw [if_neg hanti]
    have hanti' : p.anti = false := by simpa using hanti
    obtain ⟨m, h1, h2⟩ := inner_whole ps i p hlen hp hanti'
    rw [hit, h1]
    simp only
    cases hroot : root_spec ps i with
    | false =>
      simp only [Bool.not_false, if_true]
      exact hstep _ rfl hroot
    | true =>
      left
      refine ⟨i, Nat.le_refl i, hroot, fun k h1 h2 => absurd h2 (by omega), ?_⟩
      simp only [Bool.not_true, Bool.false_eq_true, if_false]
      rw [h2 hroot, ← hit]

theorem filter_first (f : Nat → Bool) :
    ∀ (n i r : Nat), i ≤ r → r < i + n → f r = true →
      (∀ k, i ≤ k → k < r → f k = false) →
      (List.range' i n).filter f = r :: (List.range' (r + 1) (i + n - (r + 1))).filter f := by
  intro n
  induction n with
  | zero =>
    intro i r h1 h2
    omega
  | succ n ih =>
    intro i r h1 h2 hr hk
    rw [List.range'_succ]
    by_cases hir : i = r
    · subst hir
      rw [List.filter_cons_of_pos hr]
      have : i + (n + 1) - (i + 1) = n := by omega
      rw [this]
    · have hfi : f i = false := hk i (Nat.le_refl i) (by omega)
      rw [List.filter_cons_of_neg (by simp [hfi]),
        ih (i + 1) r (by omega) (by omega) hr (fun k a b => hk k (by omega) b)]
      have : i + 1 + n - (r + 1) = i + (n + 1) - (r + 1) := by omega
      rw [this]

theorem filter_none (f : Nat → Bool) (n i : Nat) (h : ∀ k, i ≤ k → f k = false) :
    (List.range' i n).filter f = [] := by
  rw [List.filter_eq_nil_iff]
  intro k hk
  have := (List.mem_range'_1.1 hk).1
  simp [h k this]

end Findglob


namespace Findglob

/-- The loop over the groups, on a pattern list that fits `members`: from an
iterator at index `i` it visits the groups of the roots from `i` on. -/
theorem roots_loop_spec (ps : List pattern_t) (hlen : ps.length ≤ MAX_PATTERNS) (n : Nat) :
    ∀ (it : roots_iter_t) (fuel : Nat), ps.length - it.i = n → it.patterns = ps →
      ps.length - it.i + 1 ≤ fuel →
      roots_loop fuel (roots_next it)
        = some (((List.range' it.i (ps.length - it.i)).filter (root_spec ps)).map
            (group_spec ps)) := by
  induction n using Nat.strong_induction_on with
  | _ n ih =>
    intro it fuel hn hit hfuel
    obtain ⟨fuel, rfl⟩ : ∃ f, fuel = f + 1 := ⟨fuel - 1, by omega⟩
    unfold roots_next
    rw [hit]
    rcases outer_spec ps hlen (ps.drop it.i) it.i it hit rfl with
      ⟨r, h1, h2, h3, h4⟩ | ⟨h1, it', h2⟩
    · have hr := root_spec_lt ps r h2
      rw [h4]
      simp only [roots_loop, Bool.not_true, Bool.false_eq_true, if_false]
      have hih := ih (ps.length - (r + 1)) (by omega)
        { patterns := ps, members := group_spec ps r, i := r + 1 } fuel rfl rfl
        (by simp only; omega)
      rw [hih, filter_first (root_spec ps) (ps.length - it.i) it.i r h1 (by omega) h2 h3]
      simp only [List.map_cons]
      have : it.i + (ps.length - it.i) - (r + 1) = ps.length - (r + 1) := by omega
      rw [this]
    · rw [h2, filter_none (root_spec ps) _ _ h1]
      simp [roots_loop]

/-- The groups that the roots iterator enumerates for a pattern list that fits
`members`: the groups of the roots, by increasing root index. -/
theorem roots_groups_eq (ps : List pattern_t) (hlen : ps.length ≤ MAX_PATTERNS) :
    roots_groups ps = some ((roots_spec ps).map (group_spec ps)) := by
  unfold roots_groups roots_iter roots_spec
  rw [roots_loop_spec ps hlen ps.length { patterns := ps, members := [], i := 0 }
    (ps.length + 1) rfl rfl (by simp), List.range_eq_range']
  rfl

end Findglob


namespace Findglob

/-- Function `root_spec` over indices: what the specification says of a root. -/
theorem root_spec_iff (ps : List pattern_t) (i : Nat) :
    root_spec ps i = true
      ↔ ∃ p, ps[i]? = some p ∧ p.anti = false
          ∧ ∀ j pj, ps[j]? = some pj → j ≠ i → pj.anti = false →
              path_startswith p.start pj.start = false ∨ (p.start = pj.start ∧ i < j) := by
  unfold root_spec
  cases hp : ps[i]? with
  | none => simp
  | some p =>
    simp only [Bool.and_eq_true, Bool.not_eq_true', List.all_eq_true, Option.some.injEq,
      exists_eq_left']
    constructor
    · rintro ⟨h1, h2⟩
      refine ⟨h1, ?_⟩
      intro j pj hj hji hanti
      have := h2 (j, pj) (List.mk_mem_enum_iff_getElem?.2 hj)
      simp only [root_ok, Bool.or_eq_true, beq_iff_eq, Bool.not_eq_true', Bool.and_eq_true,
        decide_eq_true_eq, hanti, Bool.false_eq_true, or_false] at this
      rcases this with (h | h) | h
      · exact absurd h hji
      · exact Or.inl h
      · exact Or.inr h
    · rintro ⟨h1, h2⟩
      refine ⟨h1, ?_⟩
      rintro ⟨j, pj⟩ hmem
      have hj := List.mk_mem_enum_iff_getElem?.1 hmem
      simp only [root_ok, Bool.or_eq_true, beq_iff_eq, Bool.not_eq_true', Bool.and_eq_true,
        decide_eq_true_eq]
      by_cases hji : j = i
      · exact Or.inl (Or.inl (Or.inl hji))
      · cases hanti : pj.anti with
        | true => exact Or.inl (Or.inl (Or.inr rfl))
        | false =>
          rcases h2 j pj hj hji hanti with h | h
          · exact Or.inl (Or.inr h)
          · exact Or.inr h

/-- The members of the group of `i`: `i`, every anti-pattern, and every other
pattern whose start `path_startswith` the start of `i`. -/
theorem mem_group_spec (ps : List pattern_t) (i : Nat) (p : pattern_t) (hp : ps[i]? = some p)
    (j : Nat) :
    j ∈ group_spec ps i
      ↔ j = i ∨ (j ≠ i ∧ ∃ pj, ps[j]? = some pj
          ∧ (pj.anti = true ∨ path_startswith pj.start p.start = true)) := by
  unfold group_spec
  rw [hp]
  simp only [List.mem_cons, List.mem_map, List.mem_filter, Prod.exists, exists_and_right,
    exists_eq_right, member_ok, Bool.and_eq_true, bne_iff_ne, ne_eq, Bool.or_eq_true]
  constructor
  · rintro (h | ⟨pj, hmem, h1, h2⟩)
    · exact Or.inl h
    · exact Or.inr ⟨h1, pj, List.mk_mem_enum_iff_getElem?.1 hmem, h2⟩
  · rintro (h | ⟨h1, pj, hj, h2⟩)
    · exact Or.inl h
    · exact Or.inr ⟨pj, List.mk_mem_enum_iff_getElem?.2 hj, h1, h2⟩

theorem mem_roots_spec (ps : List pattern_t) (r : Nat) :
    r ∈ roots_spec ps ↔ root_spec ps r = true := by
  unfold roots_spec
  rw [List.mem_filter, List.mem_range]
  exact ⟨fun h => h.2, fun h => ⟨root_spec_lt ps r h, h⟩⟩

theorem roots_spec_sorted (ps : List pattern_t) :
    (roots_spec ps).Pairwise (fun x y => x < y) :=
  (List.pairwise_lt_range ps.length).sublist (List.filter_sublist _)

end Findglob


namespace Findglob

theorem path_startswith_refl (a : string_t) : path_startswith a a = true :=
  (path_startswith_spec a a).2 ⟨List.prefix_refl a, Or.inr (Or.inl rfl)⟩

theorem prefix_getElem? (b a : string_t) (h : b <+: a) (n : Nat) (hn : n < b.length) :
    a[n]? = b[n]? := by
  obtain ⟨t, rfl⟩ := h
  rw [List.getElem?_append_left hn]

/-- If `a` starts with `r` and `r` with `b`, as paths, then `a` starts with `b`. -/
theorem path_startswith_trans (a r b : string_t) (h1 : path_startswith a r = true)
    (h2 : path_startswith r b = true) : path_startswith a b = true := by
  obtain ⟨p1, _⟩ := (path_startswith_spec a r).1 h1
  obtain ⟨p2, c2⟩ := (path_startswith_spec r b).1 h2
  refine (path_startswith_spec a b).2 ⟨p2.trans p1, ?_⟩
  rcases c2 with c | c | c
  · exact Or.inl c
  · have : r = b := (p2.eq_of_length c.symm).symm
    subst this
    exact ((path_startswith_spec a r).1 h1).2
  · right
    right
    have hlt : b.length < r.length := by
      by_contra hge
      rw [List.getElem?_eq_none (by omega)] at c
      cases c
    rw [prefix_getElem? r a p1 b.length hlt]
    exact c

/-- Two paths that a third one starts with are comparable. -/
theorem path_startswith_chain (a r1 r2 : string_t) (h1 : path_startswith a r1 = true)
    (h2 : path_startswith a r2 = true) (hle : r1.length ≤ r2.length) :
    path_startswith r2 r1 = true := by
  obtain ⟨p1, c1⟩ := (path_startswith_spec a r1).1 h1
  obtain ⟨p2, _⟩ := (path_startswith_spec a r2).1 h2
  have hpre : r1 <+: r2 := List.prefix_of_prefix_length_le p1 p2 hle
  refine (path_startswith_spec r2 r1).2 ⟨hpre, ?_⟩
  rcases c1 with c | c | c
  · exact Or.inl c
  · right
    left
    have := p2.length_le
    omega
  · by_cases heq : r1.length = r2.length
    · exact Or.inr (Or.inl heq.symm)
    · right
      right
      rw [← prefix_getElem? r2 a p2 r1.length (by omega)]
      exact c

theorem path_startswith_length_le (a b : string_t) (h : path_startswith a b = true) :
    b.length ≤ a.length :=
  ((path_startswith_spec a b).1 h).1.length_le

end Findglob


namespace Findglob

/-- A pattern that is not an anti-pattern and not a root has a smaller pattern
that its start starts with: a shorter start, or the same start at a lower index. -/
theorem not_root_blocker (ps : List pattern_t) (j : Nat) (pj : pattern_t)
    (hj : ps[j]? = some pj) (hanti : pj.anti = false) (hroot : root_spec ps j = false) :
    ∃ k pk, ps[k]? = some pk ∧ pk.anti = false ∧ path_startswith pj.start pk.start = true
      ∧ (pk.start.length < pj.start.length ∨ (pk.start.length = pj.start.length ∧ k < j)) := by
  by_contra hno
  have : root_spec ps j = true := by
    rw [root_spec_iff]
    refine ⟨pj, hj, hanti, ?_⟩
    intro k pk hk hkj hkanti
    cases hs : path_startswith pj.start pk.start with
    | false => exact Or.inl rfl
    | true =>
      right
      have hle := path_startswith_length_le _ _ hs
      have hnot : ¬ (pk.start.length < pj.start.length
          ∨ (pk.start.length = pj.start.length ∧ k < j)) :=
        fun h => hno ⟨k, pk, hk, hkanti, hs, h⟩
      have hlen : pj.start.length = pk.start.length := by omega
      refine ⟨path_startswith_eq_of_length _ _ hs hlen, ?_⟩
      have : ¬ k < j := fun h => hnot (Or.inr ⟨hlen.symm, h⟩)
      omega
  rw [hroot] at this
  cases this

/-- Every pattern that is not an anti-pattern starts with the start of a root. -/
theorem exists_root (ps : List pattern_t) (L : Nat) :
    ∀ (j : Nat) (pj : pattern_t), ps[j]? = some pj → pj.anti = false → pj.start.length = L →
      ∃ r pr, ps[r]? = some pr ∧ root_spec ps r = true
        ∧ path_startswith pj.start pr.start = true := by
  induction L using Nat.strong_induction_on with
  | _ L ihL =>
    intro j
    induction j using Nat.strong_induction_on with
    | _ j ihj =>
      intro pj hj hanti hlen
      cases hroot : root_spec ps j with
      | true => exact ⟨j, pj, hj, hroot, path_startswith_refl _⟩
      | false =>
        obtain ⟨k, pk, hk, hkanti, hs, hlt⟩ := not_root_blocker ps j pj hj hanti hroot
        have hrec : ∃ r pr, ps[r]? = some pr ∧ root_spec ps r = true
            ∧ path_startswith pk.start pr.start = true := by
          rcases hlt with h | ⟨h1, h2⟩
          · exact ihL pk.start.length (by omega) k pk hk hkanti rfl
          · exact ihj k h2 pk hk hkanti (by omega)
        obtain ⟨r, pr, hr, hrr, hsr⟩ := hrec
        exact ⟨r, pr, hr, hrr, path_startswith_trans _ _ _ hs hsr⟩

/-- Two roots whose starts a common start starts with are the same root. -/
theorem root_unique (ps : List pattern_t) (a : string_t) (r1 r2 : Nat) (p1 p2 : pattern_t)
    (h1 : ps[r1]? = some p1) (h2 : ps[r2]? = some p2)
    (hr1 : root_spec ps r1 = true) (hr2 : root_spec ps r2 = true)
    (hs1 : path_startswith a p1.start = true) (hs2 : path_startswith a p2.start = true) :
    r1 = r2 := by
  by_contra hne
  obtain ⟨q1, hq1, ha1, hall1⟩ := (root_spec_iff ps r1).1 hr1
  obtain ⟨q2, hq2, ha2, hall2⟩ := (root_spec_iff ps r2).1 hr2
  rw [h1] at hq1
  rw [h2] at hq2
  cases hq1
  cases hq2
  have k1 := hall1 r2 p2 h2 (fun h => hne h.symm) ha2
  have k2 := hall2 r1 p1 h1 hne ha1
  have hcomp : path_startswith p2.start p1.start = true
      ∨ path_startswith p1.start p2.start = true := by
    by_cases hle : p1.start.length ≤ p2.start.length
    · exact Or.inl (path_startswith_chain a _ _ hs1 hs2 hle)
    · exact Or.inr (path_startswith_chain a _ _ hs2 hs1 (by omega))
  rcases hcomp with hc | hc
  · rcases k2 with k | ⟨ke, kl⟩
    · rw [hc] at k
      cases k
    · rcases k1 with k | ⟨_, kl'⟩
      · rw [ke, path_startswith_refl] at k
        cases k
      · omega
  · rcases k1 with k | ⟨ke, kl⟩
    · rw [hc] at k
      cases k
    · rcases k2 with k | ⟨_, kl'⟩
      · rw [ke, path_startswith_refl] at k
        cases k
      · omega

/-- A pattern that is not an anti-pattern is a member of the group of a root
exactly when its start starts with the start of the root. -/
theorem mem_group_iff (ps : List pattern_t) (r j : Nat) (pr pj : pattern_t)
    (hr : ps[r]? = some pr) (hj : ps[j]? = some pj) (hanti : pj.anti = false) :
    j ∈ group_spec ps r ↔ path_startswith pj.start pr.start = true := by
  rw [mem_group_spec ps r pr hr j]
  constructor
  · rintro (h | ⟨_, q, hq, h⟩)
    · subst h
      rw [hr] at hj
      cases hj
      exact path_startswith_refl _
    · rw [hj] at hq
      cases hq
      rcases h with h | h
      · rw [hanti] at h
        cases h
      · exact h
  · intro h
    by_cases hjr : j = r
    · exact Or.inl hjr
    · exact Or.inr ⟨hjr, pj, hj, Or.inr h⟩

end Findglob


namespace Findglob

theorem roots_spec_index_inj (ps : List pattern_t) (n m r : Nat)
    (hn : (roots_spec ps)[n]? = some r) (hm : (roots_spec ps)[m]? = some r) : n = m := by
  obtain ⟨h1, e1⟩ := List.getElem?_eq_some_iff.1 hn
  obtain ⟨h2, e2⟩ := List.getElem?_eq_some_iff.1 hm
  have hnd : (roots_spec ps).Nodup := (roots_spec_sorted ps).imp (fun h => Nat.ne_of_lt h)
  exact (hnd.getElem_inj_iff).1 (e1.trans e2.symm)

/-- The groups of the roots partition the patterns that are not anti-patterns,
and every such member of a group starts with the start of the root. -/
theorem groups_partition (ps : List pattern_t) :
    (∀ (j : Nat) (pj : pattern_t), ps[j]? = some pj → pj.anti = false →
        ∃! n : Nat, ∃ g : List Nat, ((roots_spec ps).map (group_spec ps))[n]? = some g ∧ j ∈ g)
      ∧ (∀ g ∈ (roots_spec ps).map (group_spec ps),
          ∃ (r : Nat) (pr : pattern_t), g.head? = some r ∧ ps[r]? = some pr ∧ pr.anti = false
            ∧ ∀ (j : Nat) (pj : pattern_t), j ∈ g → ps[j]? = some pj → pj.anti = false →
                path_startswith pj.start pr.start = true) := by
  constructor
  · intro j pj hj hanti
    obtain ⟨r, pr, hr, hroot, hs⟩ := exists_root ps _ j pj hj hanti rfl
    obtain ⟨n, hn⟩ := List.mem_iff_getElem?.1 ((mem_roots_spec ps r).2 hroot)
    refine ⟨n, ⟨group_spec ps r, by rw [List.getElem?_map, hn]; rfl,
      (mem_group_iff ps r j pr pj hr hj hanti).2 hs⟩, ?_⟩
    rintro m ⟨g, hg, hjg⟩
    rw [List.getElem?_map] at hg
    cases hm : (roots_spec ps)[m]? with
    | none =>
      rw [hm] at hg
      cases hg
    | some r' =>
      rw [hm] at hg
      simp only [Option.map_some', Option.some.injEq] at hg
      subst hg
      have hroot' := (mem_roots_spec ps r').1 (List.getElem?_mem hm)
      obtain ⟨pr', hr', _, _⟩ := (root_spec_iff ps r').1 hroot'
      have hs' := (mem_group_iff ps r' j pr' pj hr' hj hanti).1 hjg
      have := root_unique ps pj.start r r' pr pr' hr hr' hroot hroot' hs hs'
      subst this
      exact roots_spec_index_inj ps m n r hm hn
  · intro g hg
    obtain ⟨r, hr, rfl⟩ := List.mem_map.1 hg
    have hroot := (mem_roots_spec ps r).1 hr
    obtain ⟨pr, hpr, hanti, _⟩ := (root_spec_iff ps r).1 hroot
    refine ⟨r, pr, ?_, hpr, hanti, ?_⟩
    · unfold group_spec
      rw [hpr]
      rfl
    · intro j pj hjg hj hjanti
      exact (mem_group_iff ps r j pr pj hpr hj hjanti).1 hjg

end Findglob


namespace Findglob

theorem members_add_some (members : List Nat) (j : Nat) (m : List Nat)
    (h : members_add members j = some m) : m = members ++ [j] := by
  unfold members_add at h
  split_ifs at h
  exact (Option.some.inj h).symm

/-- The inner loop of `roots_next`, whenever it stays inside `members`. -/
theorem inner_sound (a : string_t) (i : Nat) :
    ∀ (rest : List pattern_t) (j : Nat) (members : List Nat) (res : Bool × List Nat),
      roots_next_inner a i rest j members = some res →
      res.1 = (rest.enumFrom j).all (root_ok a i)
        ∧ (res.1 = true →
            res.2 = members ++ ((rest.enumFrom j).filter (member_ok a i)).map Prod.fst) := by
  intro rest
  induction rest with
  | nil =>
    intro j members res h
    simp only [roots_next_inner, Option.some.injEq] at h
    subst h
    simp
  | cons pj rest ih =>
    intro j members res h
    simp only [List.enumFrom_cons, List.all_cons, List.filter_cons]
    unfold roots_next_inner at h
    by_cases hij : i = j
    · subst hij
      have hr : root_ok a i (i, pj) = true := by simp [root_ok]
      have hm : member_ok a i (i, pj) = false := by simp [member_ok]
      rw [if_pos rfl] at h
      rw [hr, hm]
      simp only [Bool.true_and, Bool.false_eq_true, if_false]
      exact ih _ _ _ h
    rw [if_neg hij] at h
    have hji : (j != i) = true := by simpa using fun h => hij h.symm
    by_cases hanti : pj.anti = true
    · have hr : root_ok a i (j, pj) = true := by simp [root_ok, hanti]
      have hm : member_ok a i (j, pj) = true := by simp [member_ok, hanti, hji]
      rw [if_pos hanti] at h
      rw [hr, hm]
      simp only [Bool.true_and, if_true, List.map_cons]
      cases hadd : members_add members j with
      | none =>
        rw [hadd] at h
        cases h
      | some m =>
        rw [hadd] at h
        have hm' := members_add_some _ _ _ hadd
        subst hm'
        obtain ⟨h1, h2⟩ := ih _ _ _ h
        exact ⟨h1, fun hh => by rw [h2 hh]; simp⟩
    have hanti' : pj.anti = false := by simpa using hanti
    rw [if_neg hanti] at h
    rw [root_ok_eq a i j pj hij hanti']
    by_cases hbreak : (path_startswith a pj.start
        && (a.length != pj.start.length || decide (i > j))) = true
    · rw [if_pos hbreak] at h
      rw [hbreak]
      simp only [Option.some.injEq] at h
      subst h
      simp
    rw [if_neg hbreak] at h
    have hb : (path_startswith a pj.start
        && (a.length != pj.start.length || decide (i > j))) = false := by simpa using hbreak
    rw [hb]
    simp only [Bool.not_false, Bool.true_and]
    by_cases hchild : path_startswith pj.start a = true
    · have hm : member_ok a i (j, pj) = true := by simp [member_ok, hchild, hji]
      rw [if_pos hchild] at h
      rw [hm]
      simp only [if_true, List.map_cons]
      cases hadd : members_add members j with
      | none =>
        rw [hadd] at h
        cases h
      | some m =>
        rw [hadd] at h
        have hm' := members_add_some _ _ _ hadd
        subst hm'
        obtain ⟨h1, h2⟩ := ih _ _ _ h
        exact ⟨h1, fun hh => by rw [h2 hh]; simp⟩
    · have hm : member_ok a i (j, pj) = false := by simp [member_ok, hchild, hanti']
      rw [if_neg hchild] at h
      rw [hm]
      simp only [Bool.false_eq_true, if_false]
      exact ih _ _ _ h

end Findglob


namespace Findglob

theorem inner_whole_sound (ps : List pattern_t) (i : Nat) (p : pattern_t)
    (hp : ps[i]? = some p) (hanti : p.anti = false) (res : Bool × List Nat)
    (h : roots_next_inner p.start i ps 0 [i] = some res) :
    res.1 = root_spec ps i ∧ (res.1 = true → res.2 = group_spec ps i) := by
  obtain ⟨h1, h2⟩ := inner_sound p.start i ps 0 [i] res h
  have hr : root_spec ps i = (ps.enumFrom 0).all (root_ok p.start i) := by
    unfold root_spec
    rw [hp]
    simp [hanti, List.enum]
  refine ⟨by rw [hr]; exact h1, ?_⟩
  intro hh
  rw [h2 hh]
  unfold group_spec
  rw [hp]
  rfl

/-- The outer loop of `roots_next`, whenever it stays inside `members`: a return
of true is at the first root from index `i` on, with the group of that root, and a
return of false means that there is no root from `i` on. -/
theorem outer_sound (ps : List pattern_t) :
    ∀ (rest : List pattern_t) (i : Nat) (it : roots_iter_t) (b : Bool) (it' : roots_iter_t),
      it.patterns = ps → ps.drop i = rest → roots_next_outer rest i it = some (b, it') →
      (b = true → ∃ r, i ≤ r ∧ root_spec ps r = true
          ∧ (∀ k, i ≤ k → k < r → root_spec ps k = false)
          ∧ it' = { patterns := ps, members := group_spec ps r, i := r + 1 })
        ∧ (b = false → ∀ k, i ≤ k → root_spec ps k = false) := by
  intro rest
  induction rest with
  | nil =>
    intro i it b it' _ hdrop h
    simp only [roots_next_outer, Option.some.injEq, Prod.mk.injEq] at h
    obtain ⟨hb, _⟩ := h
    subst hb
    refine ⟨fun hh => absurd hh (by decide), fun _ k hk => ?_⟩
    have hle : ps.length ≤ i := List.drop_eq_nil_iff.1 hdrop
    cases hr : root_spec ps k
    · rfl
    · have := root_spec_lt ps k hr
      omega
  | cons p rest ih =>
    intro i it b it' hit hdrop h
    obtain ⟨hp, hdrop'⟩ := drop_cons_getElem? ps i p rest hdrop
    have hstep : ∀ it1 : roots_iter_t, it1.patterns = ps → root_spec ps i = false →
        roots_next_outer rest (i + 1) it1 = some (b, it') →
        (b = true → ∃ r, i ≤ r ∧ root_spec ps r = true
            ∧ (∀ k, i ≤ k → k < r → root_spec ps k = false)
            ∧ it' = { patterns := ps, members := group_spec ps r, i := r + 1 })
          ∧ (b = false → ∀ k, i ≤ k → root_spec ps k = false) := by
      intro it1 hit1 hnot h1
      obtain ⟨k1, k2⟩ := ih (i + 1) it1 b it' hit1 hdrop' h1
      constructor
      · intro hb
        obtain ⟨r, a1, a2, a3, a4⟩ := k1 hb
        refine ⟨r, by omega, a2, ?_, a4⟩
        intro k hk hkr
        by_cases hki : k = i
        · rw [hki]
          exact hnot
        · exact a3 k (by omega) hkr
      · intro hb k hk
        by_cases hki : k = i
        · rw [hki]
          exact hnot
        · exact k2 hb k (by omega)
    unfold roots_next_outer at h
    by_cases hanti : p.anti = true
    · rw [if_pos hanti] at h
      apply hstep it hit _ h
      unfold root_spec
      rw [hp]
      simp [hanti]
    rw [if_neg hanti] at h
    have hanti' : p.anti = false := by simpa using hanti
    rw [hit] at h
    cases hin : roots_next_inner p.start i ps 0 [i] with
    | none =>
      rw [hin] at h
      cases h
    | some res =>
      rw [hin] at h
      obtain ⟨e1, e2⟩ := inner_whole_sound ps i p hp hanti' res hin
      rcases res with ⟨isroot, m⟩
      simp only at h e1 e2
      cases hroot : root_spec ps i with
      | false =>
        rw [hroot] at e1
        subst e1
        simp only [Bool.not_false, if_true] at h
        exact hstep _ rfl hroot h
      | true =>
        rw [hroot] at e1
        subst e1
        simp only [Bool.not_true, Bool.false_eq_true, if_false, Option.some.injEq,
          Prod.mk.injEq] at h
        obtain ⟨hb, hit'⟩ := h
        subst hb
        refine ⟨fun _ => ⟨i, Nat.le_refl i, hroot, fun k a b => absurd b (by omega), ?_⟩,
          fun hh => by cases hh⟩
        rw [← hit', e2 rfl]

end Findglob


namespace Findglob

/-- One call of `roots_next` that stays inside `members`: a return of true is at the
first root from `it.i` on, and leaves the group of that root in `members` and the
next index in `i`; a return of false means that no root is left. -/
theorem roots_next_sound (it : roots_iter_t) (b : Bool) (it' : roots_iter_t)
    (h : roots_next it = some (b, it')) :
    (b = true → ∃ r, it.i ≤ r ∧ root_spec it.patterns r = true
        ∧ (∀ k, it.i ≤ k → k < r → root_spec it.patterns k = false)
        ∧ it' = { patterns := it.patterns, members := group_spec it.patterns r, i := r + 1 })
      ∧ (b = false → ∀ k, it.i ≤ k → root_spec it.patterns k = false) :=
  outer_sound it.patterns _ it.i it b it' rfl rfl h

/-- The loop over the groups, whenever it stays inside `members`. -/
theorem roots_loop_sound (ps : List pattern_t) (fuel : Nat) :
    ∀ (it : roots_iter_t) (gs : List (List Nat)), it.patterns = ps →
      roots_loop fuel (roots_next it) = some gs →
      gs = ((List.range' it.i (ps.length - it.i)).filter (root_spec ps)).map
            (group_spec ps) := by
  induction fuel with
  | zero =>
    intro it gs _ h
    cases hn : roots_next it with
    | none =>
      rw [hn] at h
      cases h
    | some res =>
      rw [hn] at h
      cases h
  | succ fuel ih =>
    intro it gs hit h
    cases hn : roots_next it with
    | none =>
      rw [hn] at h
      cases h
    | some res =>
      rcases res with ⟨b, it'⟩
      rw [hn] at h
      obtain ⟨k1, k2⟩ := roots_next_sound it b it' hn
      rw [hit] at k1 k2
      cases b with
      | false =>
        simp only [roots_loop, Bool.not_false, if_true, Option.some.injEq] at h
        rw [← h, filter_none (root_spec ps) _ _ (k2 rfl)]
        rfl
      | true =>
        obtain ⟨r, a1, a2, a3, a4⟩ := k1 rfl
        have hr := root_spec_lt ps r a2
        simp only [roots_loop, Bool.not_true, Bool.false_eq_true, if_false] at h
        cases hrec : roots_loop fuel (roots_next it') with
        | none =>
          rw [hrec] at h
          cases h
        | some gs' =>
          rw [hrec] at h
          simp only [Option.some.injEq] at h
          have hgs' := ih it' gs' (by rw [a4]) hrec
          rw [← h, hgs', a4,
            filter_first (root_spec ps) (ps.length - it.i) it.i r a1 (by omega) a2 a3]
          simp only [List.map_cons]
          have : it.i + (ps.length - it.i) - (r + 1) = ps.length - (r + 1) := by omega
          rw [this]

/-- The groups that the roots iterator enumerates, whenever it stays inside
`members`: the groups of the roots, by increasing root index. -/
theorem roots_groups_sound (ps : List pattern_t) (gs : List (List Nat))
    (h : roots_groups ps = some gs) : gs = (roots_spec ps).map (group_spec ps) := by
  unfold roots_groups roots_iter at h
  have := roots_loop_sound ps _ _ gs rfl h
  rw [this]
  unfold roots_spec
  rw [List.range_eq_range']
  rfl

end Findglob


namespace Findglob

/-- The inner loop of `roots_next` over anti-patterns only: each is added, and the
write that follows the last free place of `members` is outside the array. -/
theorem inner_all_anti (a : string_t) (i : Nat) (p : pattern_t) (hp : p.anti = true) :
    ∀ (n j : Nat) (members : List Nat), i < j → members.length ≤ MAX_PATTERNS →
      MAX_PATTERNS < members.length + n →
      roots_next_inner a i (List.replicate n p) j members = none := by
  intro n
  induction n with
  | zero =>
    intro j members _ hle h
    omega
  | succ n ih =>
    intro j members hij hle h
    rw [List.replicate_succ]
    unfold roots_next_inner
    rw [if_neg (by omega), if_pos hp]
    by_cases hm : members.length ≥ MAX_PATTERNS
    · simp [members_add, hm]
    · rw [members_add_ok members j (by omega)]
      have hlen : (members ++ [j]).length = members.length + 1 := by simp
      exact ih (j + 1) (members ++ [j]) (by omega) (by omega) (by omega)

/-- The inner loop of `roots_next` over patterns with the start of the candidate
and a higher index: each is added, until `members` is full. -/
theorem inner_all_same (i : Nat) (p : pattern_t) (hp : p.anti = false) :
    ∀ (n j : Nat) (members : List Nat), i < j → members.length ≤ MAX_PATTERNS →
      MAX_PATTERNS < members.length + n →
      roots_next_inner p.start i (List.replicate n p) j members = none := by
  intro n
  induction n with
  | zero =>
    intro j members _ hle h
    omega
  | succ n ih =>
    intro j members hij hle h
    rw [List.replicate_succ]
    unfold roots_next_inner
    have hnot : ¬ i > j := by omega
    rw [if_neg (by omega), if_neg (by simp [hp])]
    simp only [path_startswith_refl, bne_self_eq_false, hnot, decide_False, Bool.or_self,
      Bool.and_false, Bool.false_eq_true, if_false, if_true]
    by_cases hm : members.length ≥ MAX_PATTERNS
    · simp [members_add, hm]
    · rw [members_add_ok members j (by omega)]
      have hlen : (members ++ [j]).length = members.length + 1 := by simp
      exact ih (j + 1) (members ++ [j]) (by omega) (by omega) (by omega)

end Findglob


namespace Findglob

theorem is_root_iff (ps : List pattern_t) (i : Nat) : is_root ps i ↔ root_spec ps i = true :=
  (root_spec_iff ps i).symm

theorem is_member_iff (ps : List pattern_t) (i j : Nat) (p : pattern_t)
    (hp : ps[i]? = some p) : is_member ps i j ↔ j ∈ group_spec ps i := by
  rw [mem_group_spec ps i p hp j]
  unfold is_member
  constructor
  · rintro (h | ⟨q, pj, hq, hj, h⟩)
    · exact Or.inl h
    · rw [hp] at hq
      cases hq
      by_cases hji : j = i
      · exact Or.inl hji
      · exact Or.inr ⟨hji, pj, hj, h⟩
  · rintro (h | ⟨_, pj, hj, h⟩)
    · exact Or.inl h
    · exact Or.inr ⟨p, pj, hp, hj, h⟩

theorem group_spec_head (ps : List pattern_t) (r : Nat) (h : root_spec ps r = true) :
    (group_spec ps r).head? = some r := by
  obtain ⟨p, hp, _, _⟩ := (root_spec_iff ps r).1 h
  unfold group_spec
  rw [hp]
  rfl

/-- The groups of the roots are those the specification lists. -/
theorem spec_groups_of_roots (ps : List pattern_t) :
    groups_of_roots ps ((roots_spec ps).map (group_spec ps)) := by
  constructor
  · intro i
    rw [is_root_iff]
    constructor
    · rintro ⟨g, hg, hi⟩
      obtain ⟨r, hr, rfl⟩ := List.mem_map.1 hg
      have hroot := (mem_roots_spec ps r).1 hr
      rw [group_spec_head ps r hroot] at hi
      cases hi
      exact hroot
    · intro h
      exact ⟨group_spec ps i, List.mem_map.2 ⟨i, (mem_roots_spec ps i).2 h, rfl⟩,
        group_spec_head ps i h⟩
  · intro g hg i hi j
    obtain ⟨r, hr, rfl⟩ := List.mem_map.1 hg
    have hroot := (mem_roots_spec ps r).1 hr
    rw [group_spec_head ps r hroot] at hi
    cases hi
    obtain ⟨p, hp, _, _⟩ := (root_spec_iff ps _).1 hroot
    exact (is_member_iff ps _ j p hp).symm

theorem roots_iter_one_and_antis : roots_iter patterns_one_and_antis = none := by
  unfold roots_iter roots_next patterns_one_and_antis
  simp only [List.drop_zero]
  unfold roots_next_outer
  have hanti : (one_component_pattern ['a'] false).anti = false := rfl
  rw [if_neg (by simp [hanti])]
  unfold roots_next_inner
  rw [if_pos rfl,
    inner_all_anti _ 0 (one_component_pattern ['b'] true) rfl 256 1 [0] (by omega)
      (by simp [MAX_PATTERNS]) (by simp [MAX_PATTERNS])]

theorem roots_iter_all_same : roots_iter patterns_all_same = none := by
  unfold roots_iter roots_next patterns_all_same
  simp only [List.drop_zero]
  rw [show (257 : Nat) = 256 + 1 from rfl, List.replicate_succ]
  unfold roots_next_outer
  have hanti : (one_component_pattern ['a'] false).anti = false := rfl
  rw [if_neg (by simp [hanti])]
  unfold roots_next_inner
  rw [if_pos rfl,
    inner_all_same 0 (one_component_pattern ['a'] false) rfl 256 1 [0] (by omega)
      (by simp [MAX_PATTERNS]) (by simp [MAX_PATTERNS])]

end Findglob


namespace Findglob

theorem roots_groups_total (ps : List pattern_t) (hlen : ps.length ≤ MAX_PATTERNS) :
    ∃ gs, roots_groups ps = some gs :=
  ⟨_, roots_groups_eq ps hlen⟩

theorem roots_loop_none (fuel : Nat) : roots_loop fuel none = none := by
  cases fuel <;> rfl

theorem is_root_all_same : is_root patterns_all_same 0 := by
  have h0 : patterns_all_same[0]? = some (one_component_pattern ['a'] false) := by
    unfold patterns_all_same
    rw [List.getElem?_replicate]
    simp
  refine ⟨one_component_pattern ['a'] false, h0, rfl, ?_⟩
  intro j pj hj hj0 _
  have hmem : pj ∈ patterns_all_same := List.getElem?_mem hj
  have hpj : pj = one_component_pattern ['a'] false := List.eq_of_mem_replicate hmem
  subst hpj
  exact Or.inr ⟨rfl, by omega⟩

/-- Claim C16, evaluated on the code: whenever the roots iterator stays inside its
array `members`, which it does for every list of at most `MAX_PATTERNS` patterns,
the groups it enumerates partition the patterns that are not anti-patterns, and the
start of every such member `path_startswith` the start of the root of its group; on
the list of the pattern `/a` and 256 anti-patterns `!/b`, `roots_next` writes past
the end of `members`, and no group is enumerated for the pattern `/a`. -/
theorem roots_groups_partition :
    roots_groups patterns_one_and_antis = none
      ∧ patterns_one_and_antis.length = MAX_PATTERNS + 1
      ∧ (∀ (ps : List pattern_t) (gs : List (List Nat)),
          roots_groups ps = some gs → groups_partition_patterns ps gs)
      ∧ (∀ ps : List pattern_t, ps.length ≤ MAX_PATTERNS → ∃ gs, roots_groups ps = some gs) := by
  refine ⟨?_, by rw [patterns_one_and_antis, List.length_cons, List.length_replicate, MAX_PATTERNS], ?_,
    roots_groups_total⟩
  · unfold roots_groups
    rw [roots_iter_one_and_antis, roots_loop_none]
  · intro ps gs h
    rw [roots_groups_sound ps gs h]
    exact groups_partition ps

/-- Claim C17, evaluated on the code: whenever the roots iterator stays inside its
array `members`, which it does for every list of at most `MAX_PATTERNS` patterns,
index `i` is the root of a group iff pattern `i` is not an anti-pattern and for every
other non-anti pattern `j` either the start of `i` does not `path_startswith` the
start of `j` or the starts are equal and `i < j`, and the members of the group of
`i` are `i`, every non-anti `j` whose start `path_startswith` the start of `i`, and
every anti-pattern; on the list of 257 patterns `/a`, index 0 is a root, but
`roots_next` writes past the end of `members` and yields no group. -/
theorem roots_groups_of_roots :
    roots_groups patterns_all_same = none
      ∧ is_root patterns_all_same 0
      ∧ (∀ (ps : List pattern_t) (gs : List (List Nat)),
          roots_groups ps = some gs → groups_of_roots ps gs)
      ∧ (∀ ps : List pattern_t, ps.length ≤ MAX_PATTERNS → ∃ gs, roots_groups ps = some gs) := by
  refine ⟨?_, is_root_all_same, ?_, roots_groups_total⟩
  · unfold roots_groups
    rw [roots_iter_all_same, roots_loop_none]
  · intro ps gs h
    rw [roots_groups_sound ps gs h]
    exact spec_groups_of_roots ps

end Findglob


namespace Findglob

/-- Function `_qsort_pattern_cmp` returns `-1` or `1`, and `-1` exactly when the
first pattern comes before the second. -/
theorem cmp_cases (a b : pattern_t) :
    (_qsort_pattern_cmp a b = -1 ∧ pattern_before a b)
      ∨ (_qsort_pattern_cmp a b = 1 ∧ ¬ pattern_before a b) := by
  unfold _qsort_pattern_cmp pattern_before
  cases ha : a.anti <;> cases hb : b.anti <;> by_cases hlt : a.order < b.order <;>
    simp [hlt]

theorem cmp_le_iff (a b : pattern_t) : _qsort_pattern_cmp a b ≤ 0 ↔ pattern_before a b := by
  rcases cmp_cases a b with ⟨h1, h2⟩ | ⟨h1, h2⟩
  · rw [h1]
    exact ⟨fun _ => h2, fun _ => by decide⟩
  · rw [h1]
    exact ⟨fun h => absurd h (by decide), fun h => absurd h h2⟩

theorem pattern_before_trans (a b c : pattern_t) (h1 : pattern_before a b)
    (h2 : pattern_before b c) : pattern_before a c := by
  unfold pattern_before at *
  rcases h1 with ⟨x1, x2⟩ | ⟨x1, x2⟩ <;> rcases h2 with ⟨y1, y2⟩ | ⟨y1, y2⟩
  · rw [x2] at y1
    cases y1
  · exact Or.inl ⟨x1, by rw [← y1]; exact x2⟩
  · exact Or.inl ⟨by rw [x1]; exact y1, y2⟩
  · exact Or.inr ⟨x1.trans y1, by omega⟩

theorem pattern_before_asymm (a b : pattern_t) (h1 : pattern_before a b)
    (h2 : pattern_before b a) : False := by
  unfold pattern_before at *
  rcases h1 with ⟨x1, x2⟩ | ⟨x1, x2⟩ <;> rcases h2 with ⟨y1, y2⟩ | ⟨y1, y2⟩
  · rw [x1] at y2
    cases y2
  · rw [x1, x2] at y1
    cases y1
  · rw [y1, y2] at x1
    cases x1
  · omega

theorem assign_order_eq (ps : List pattern_t) (i : Nat) :
    assign_order ps i = (ps.enumFrom i).map (fun ip => { ip.2 with order := ip.1 }) := by
  induction ps generalizing i with
  | nil => rfl
  | cons p rest ih =>
    simp only [assign_order, List.enumFrom_cons, List.map_cons, ih]

theorem assign_order_sorted (ps : List pattern_t) (i : Nat) :
    (assign_order ps i).Pairwise (fun a b => a.order < b.order)
      ∧ ∀ p ∈ assign_order ps i, i ≤ p.order := by
  induction ps generalizing i with
  | nil => simp [assign_order]
  | cons p rest ih =>
    obtain ⟨h1, h2⟩ := ih (i + 1)
    simp only [assign_order, List.pairwise_cons, List.mem_cons, forall_eq_or_imp]
    refine ⟨⟨fun q hq => ?_, h1⟩, Nat.le_refl i, fun q hq => ?_⟩
    · have := h2 q hq
      omega
    · have := h2 q hq
      omega

end Findglob


namespace Findglob

theorem anti_first_eq (ps : List pattern_t) :
    anti_first ps = (assign_order ps 0).filter (fun p => p.anti)
      ++ (assign_order ps 0).filter (fun p => !p.anti) := by
  unfold anti_first
  rw [assign_order_eq]
  rfl

theorem anti_first_perm (ps : List pattern_t) : (anti_first ps).Perm (assign_order ps 0) := by
  rw [anti_first_eq]
  exact List.filter_append_perm _ _

theorem anti_first_sorted (ps : List pattern_t) : (anti_first ps).Pairwise pattern_before := by
  rw [anti_first_eq, List.pairwise_append]
  have hs := (assign_order_sorted ps 0).1
  refine ⟨?_, ?_, ?_⟩
  · refine List.Pairwise.imp_of_mem ?_ (hs.filter _)
    intro a b ha hb hab
    have h1 := (List.mem_filter.1 ha).2
    have h2 := (List.mem_filter.1 hb).2
    exact Or.inr ⟨by rw [h1, h2], hab⟩
  · refine List.Pairwise.imp_of_mem ?_ (hs.filter _)
    intro a b ha hb hab
    have h1 := (List.mem_filter.1 ha).2
    have h2 := (List.mem_filter.1 hb).2
    simp only [Bool.not_eq_true'] at h1 h2
    exact Or.inr ⟨by rw [h1, h2], hab⟩
  · intro a ha b hb
    have h1 := (List.mem_filter.1 ha).2
    have h2 := (List.mem_filter.1 hb).2
    simp only [Bool.not_eq_true'] at h2
    exact Or.inl ⟨h1, h2⟩

/-- The arrays that `qsort_patterns` may leave: only the one with the
anti-patterns first and each block in the original order. -/
theorem qsort_patterns_iff (ps out : List pattern_t) :
    qsort_patterns ps out ↔ out = anti_first ps := by
  unfold qsort_patterns qsort_post
  constructor
  · rintro ⟨hperm, hchain⟩
    have hchain' : out.Chain' pattern_before :=
      hchain.imp (fun {a b} h => (cmp_le_iff a b).1 h)
    haveI : IsTrans pattern_t pattern_before := ⟨pattern_before_trans⟩
    haveI : IsAntisymm pattern_t pattern_before :=
      ⟨fun a b h1 h2 => (pattern_before_asymm a b h1 h2).elim⟩
    have hsorted : out.Pairwise pattern_before := List.chain'_iff_pairwise.1 hchain'
    exact List.eq_of_perm_of_sorted (hperm.trans (anti_first_perm ps).symm) hsorted
      (anti_first_sorted ps)
  · rintro rfl
    exact ⟨anti_first_perm ps,
      (anti_first_sorted ps).chain'.imp (fun {a b} h => (cmp_le_iff a b).2 h)⟩

/-- Function `_qsort_pattern_cmp` is a strict total order on patterns with distinct
ordinals. -/
theorem cmp_total_order :
    (∀ a b : pattern_t, _qsort_pattern_cmp a b ≠ 0)
      ∧ (∀ a b : pattern_t, a.order ≠ b.order →
          _qsort_pattern_cmp a b = - _qsort_pattern_cmp b a)
      ∧ (∀ a b c : pattern_t, _qsort_pattern_cmp a b < 0 → _qsort_pattern_cmp b c < 0 →
          _qsort_pattern_cmp a c < 0) := by
  refine ⟨?_, ?_, ?_⟩
  · intro a b
    rcases cmp_cases a b with ⟨h, _⟩ | ⟨h, _⟩ <;> rw [h] <;> decide
  · intro a b hne
    unfold _qsort_pattern_cmp
    cases ha : a.anti <;> cases hb : b.anti <;> by_cases hlt : a.order < b.order <;>
      by_cases hgt : b.order < a.order <;> simp [hlt, hgt] <;> omega
  · intro a b c h1 h2
    have k1 : pattern_before a b := (cmp_le_iff a b).1 (by omega)
    have k2 : pattern_before b c := (cmp_le_iff b c).1 (by omega)
    have k3 := (cmp_le_iff a c).2 (pattern_before_trans a b c k1 k2)
    rcases cmp_cases a c with ⟨h, _⟩ | ⟨h, _⟩
    · rw [h]
      decide
    · rw [h] at k3
      exact absurd k3 (by decide)

end Findglob


namespace Findglob

/-- Claim C19: for every pattern array, `qsort_patterns` leaves a permutation of it
(each pattern with its original ordinal in `order`) in which all anti-patterns
precede all patterns that are not anti-patterns and, within each of the two blocks,
the patterns keep their original relative order; `_qsort_pattern_cmp` is a strict
total order (never 0, antisymmetric for distinct ordinals, transitive), so that this
is the only array a `qsort` can leave, whatever its sorting algorithm. -/
theorem qsort_patterns_stable (patterns out : List pattern_t) :
    (qsort_patterns patterns out ↔ out = anti_first patterns)
      ∧ (anti_first patterns).Perm (assign_order patterns 0)
      ∧ assign_order patterns 0 = patterns.enum.map (fun ip => { ip.2 with order := ip.1 })
      ∧ (∀ a b : pattern_t, _qsort_pattern_cmp a b ≠ 0)
      ∧ (∀ a b : pattern_t, a.order ≠ b.order →
          _qsort_pattern_cmp a b = - _qsort_pattern_cmp b a)
      ∧ (∀ a b c : pattern_t, _qsort_pattern_cmp a b < 0 → _qsort_pattern_cmp b c < 0 →
          _qsort_pattern_cmp a c < 0) :=
  ⟨qsort_patterns_iff patterns out, anti_first_perm patterns, assign_order_eq patterns 0,
    cmp_total_order⟩

theorem qsort_patterns_stable_witness :
    anti_first [{ start := ['a'] }, { start := ['b'], anti := true }, { start := ['c'] },
        { start := ['d'], anti := true }]
        = [{ start := ['b'], anti := true, order := 1 }, { start := ['d'], anti := true, order := 3 },
            { start := ['a'], order := 0 }, { start := ['c'], order := 2 }]
      ∧ qsort_patterns [{ start := ['a'] }, { start := ['b'], anti := true }, { start := ['c'] },
          { start := ['d'], anti := true }]
          [{ start := ['b'], anti := true, order := 1 }, { start := ['d'], anti := true, order := 3 },
            { start := ['a'], order := 0 }, { start := ['c'], order := 2 }] :=
  ⟨by decide, (qsort_patterns_stable _ _).1.2 (by decide)⟩

end Findglob


namespace Findglob

/-- What one member of the match array adds to the output of `process_dir`,
when its transitions stay in range. -/
theorem process_dir_member_any {α : Type} (p : pattern_t) (k : Nat) (flags : match_flags_e)
    (out : process_dir_out) (f : process_dir_out → Option α)
    (hlt : ∀ n, n ≤ 2 → has_flag flags (match_n n) = true → k + n < p.len) :
    (do
      let out1 ← process_dir_add ⟨p, k⟩ flags MATCH_0 0 out
      let out2 ← process_dir_add ⟨p, k⟩ flags MATCH_1 1 out1
      let out3 ← process_dir_add ⟨p, k⟩ flags MATCH_2 2 out2
      f out3)
      = f { out with
          newmatches := out.newmatches ++ (step_targets flags k).map (fun k' => ⟨p, k'⟩),
          isintermediate := out.isintermediate
            || (!p.anti && (has_flag flags .MATCH_0 || has_flag flags .MATCH_1
                  || has_flag flags .MATCH_2)) } := by
  have h0 := hlt 0 (by omega)
  have h1 := hlt 1 (by omega)
  have h2 := hlt 2 (by omega)
  simp only [match_n, has_flag, action.bit] at h0 h1 h2
  have g0 := fun h => Nat.not_le_of_gt (h0 h)
  have g1 := fun h => Nat.not_le_of_gt (h1 h)
  have g2 := fun h => Nat.not_le_of_gt (h2 h)
  clear h0 h1 h2 hlt
  simp only [process_dir_add, step_targets, has_flag, action.bit, match_minus]
  cases hanti : p.anti <;>
    by_cases hb0 : ((flags &&& MATCH_0) != 0) = true <;>
    by_cases hb1 : ((flags &&& MATCH_1) != 0) = true <;>
    by_cases hb2 : ((flags &&& MATCH_2) != 0) = true <;>
    simp only [hb0, hb1, hb2, true_implies, Nat.add_zero] at g0 g1 g2 <;>
    simp [hb0, hb1, hb2, g0, g1, g2]

theorem member_flags_eq (name : string_t) (m : match_t) (hk : m.matched < m.pattern.len) :
    match_text m name CLASS_DIR = some (member_flags name m)
      ∧ ∀ n, n ≤ 2 → has_flag (member_flags name m) (match_n n) = true →
          m.matched + n < m.pattern.len := by
  have hflags := match_text_flags m.pattern m.matched name CLASS_DIR hk
  have hm : (⟨m.pattern, m.matched⟩ : match_t) = m := rfl
  rw [hm] at hflags
  have hmf : member_flags name m
      = flags_of (match_text_spec m.pattern m.matched name CLASS_DIR) := by
    unfold member_flags
    rw [hflags]
    rfl
  refine ⟨by rw [hmf]; exact hflags, ?_⟩
  intro n hn hf
  rw [hmf] at hf
  exact match_n_lt m.pattern m.matched name CLASS_DIR n hn ((has_flag_flags_of _ _).1 hf)

end Findglob


namespace Findglob

/-- The loop of `process_dir` over members inside their patterns, when no
anti-pattern member yields `TERMINAL`. -/
theorem process_dir_loop_spec (name : string_t) :
    ∀ (parent : List match_t) (out : process_dir_out),
      (∀ m ∈ parent, m.matched < m.pattern.len) →
      (∀ m ∈ parent, m.pattern.anti = true →
          has_flag (member_flags name m) .TERMINAL = false) →
      process_dir_loop name parent out
        = some { newmatches := out.newmatches ++ parent.flatMap (member_entries name),
                 isintermediate := out.isintermediate || parent.any (fun m =>
                   !m.pattern.anti && (has_flag (member_flags name m) .MATCH_0
                     || has_flag (member_flags name m) .MATCH_1
                     || has_flag (member_flags name m) .MATCH_2)),
                 isterminal := out.isterminal || parent.any (fun m =>
                   !m.pattern.anti && has_flag (member_flags name m) .TERMINAL) } := by
  intro parent
  induction parent with
  | nil =>
    intro out _ _
    simp [process_dir_loop]
  | cons m rest ih =>
    intro out hk hanti
    obtain ⟨hflags, hlt⟩ := member_flags_eq name m (hk m (List.mem_cons_self _ _))
    have hterm : ((member_flags name m &&& MATCH_TERMINAL) != 0)
        = has_flag (member_flags name m) .TERMINAL := rfl
    have hcond : ((member_flags name m &&& MATCH_TERMINAL) != 0 && m.pattern.anti) = false := by
      cases ha : m.pattern.anti with
      | false => simp
      | true =>
        rw [hterm, hanti m (List.mem_cons_self _ _) ha]
        rfl
    simp only [process_dir_loop, hflags, Option.bind_eq_bind, Option.some_bind, hcond,
      Bool.false_eq_true, if_false]
    have hm : (⟨m.pattern, m.matched⟩ : match_t) = m := rfl
    have := process_dir_member_any m.pattern m.matched (member_flags name m)
      (if ((member_flags name m &&& MATCH_TERMINAL) != 0) = true
        then { out with isterminal := true } else out)
      (process_dir_loop name rest) hlt
    rw [hm] at this
    simp only [bind, Option.bind_eq_bind] at this
    rw [this, ih _ (fun x hx => hk x (List.mem_cons_of_mem _ hx))
      (fun x hx => hanti x (List.mem_cons_of_mem _ hx))]
    rw [hterm]
    cases ha : m.pattern.anti with
    | false =>
      cases ht : has_flag (member_flags name m) action.TERMINAL <;>
        simp [member_entries, ha, ht, List.append_assoc, Bool.or_assoc]
    | true =>
      have ht := hanti m (List.mem_cons_self _ _) ha
      simp [member_entries, ha, ht, List.append_assoc]

/-- Claim C20: for every input match array, of members inside their patterns, in which
no anti-pattern member yields `TERMINAL` on `(name, DIR)`, `process_dir` sets
`isterminal` iff the `match_text` result of some member that is not an anti-pattern
contains `TERMINAL`, sets `isintermediate` iff the result of some such member contains
`MATCH_0`, `MATCH_1` or `MATCH_2`, and appends to the output array, for each input
member in order (anti-pattern members included), the entries `(pattern, k + 0)` if
`MATCH_0`, then `(pattern, k + 1)` if `MATCH_1`, then `(pattern, k + 2)` if `MATCH_2`. -/
theorem process_dir_eq_spec (name : string_t) (parent_matches newmatches : List match_t)
    (hk : ∀ m ∈ parent_matches, m.matched < m.pattern.len)
    (hanti : ∀ m ∈ parent_matches, m.pattern.anti = true →
      has_flag (member_flags name m) .TERMINAL = false) :
    process_dir name parent_matches newmatches
        = some (process_dir_spec name parent_matches newmatches)
      ∧ ∀ m ∈ parent_matches, match_text m name CLASS_DIR = some (member_flags name m) := by
  refine ⟨?_, fun m hm => (member_flags_eq name m (hk m hm)).1⟩
  unfold process_dir process_dir_spec
  rw [process_dir_loop_spec name parent_matches _ hk hanti]
  simp

end Findglob


namespace Findglob

theorem process_dir_eq_spec_witness :
    process_dir ['a']
        [⟨{ sects := [.SECTION_ANY, .SECTION_CONSTANT ['a']], cls := CLASS_ANY }, 0⟩,
          ⟨{ sects := [.SECTION_CONSTANT ['x'], .SECTION_ANY], anti := true, cls := CLASS_ANY }, 0⟩,
          ⟨{ sects := [.SECTION_CONSTANT ['a'], .SECTION_CONSTANT ['b']], cls := CLASS_ANY }, 0⟩]
        []
      = some { newmatches :=
                [⟨{ sects := [.SECTION_ANY, .SECTION_CONSTANT ['a']], cls := CLASS_ANY }, 0⟩,
                  ⟨{ sects := [.SECTION_CONSTANT ['a'], .SECTION_CONSTANT ['b']],
                     cls := CLASS_ANY }, 1⟩],
               isintermediate := true, isterminal := true } :=
  (process_dir_eq_spec ['a'] _ [] (by decide) (by decide)).1.trans (by decide)

end Findglob


namespace Findglob

theorem string_eq_dot (name : string_t) :
    (string_eq name DOT = true ↔ name = ['.'])
      ∧ (string_eq name DOTDOT = true ↔ name = ['.', '.']) := by
  have h1 : nul_free DOT := by
    intro c hc
    simp only [DOT, List.mem_singleton] at hc
    subst hc
    decide
  have h2 : nul_free DOTDOT := by
    intro c hc
    simp only [DOTDOT, List.mem_cons, List.mem_singleton, List.not_mem_nil, or_false,
      or_self] at hc
    subst hc
    decide
  exact ⟨string_eq_iff name DOT (Or.inr h1), string_eq_iff name DOTDOT (Or.inr h2)⟩

/-- The loop of `keep_dir` over members inside their patterns. -/
theorem keep_dir_loop_spec (name : string_t) :
    ∀ ms : List match_t, (∀ m ∈ ms, m.matched < m.pattern.len) →
      keep_dir_loop name ms
        = some (ms.any (fun m => !m.pattern.anti && current_section_matches name m)) := by
  intro ms
  induction ms with
  | nil =>
    intro _
    rfl
  | cons m rest ih =>
    intro hk
    have hm : m.matched < m.pattern.sects.length := hk m (List.mem_cons_self _ _)
    have hrest := ih (fun x hx => hk x (List.mem_cons_of_mem _ hx))
    have hget : m.pattern.sects[m.matched]? = some (m.pattern.sects[m.matched]) :=
      List.getElem?_eq_getElem hm
    have hcur : current_section_matches name m
        = section_matches (m.pattern.sects[m.matched]) name := by
      unfold current_section_matches
      rw [hget]
    unfold keep_dir_loop
    rw [hget]
    simp only [List.any_cons, hcur]
    cases ha : m.pattern.anti with
    | true => simpa using hrest
    | false =>
      cases hs : section_matches (m.pattern.sects[m.matched]) name with
      | true => simp
      | false => simpa using hrest

/-- Function `keep_dir` on members inside their patterns, as a Boolean. -/
theorem keep_dir_spec (ms : List match_t) (name : string_t)
    (hk : ∀ m ∈ ms, m.matched < m.pattern.len) :
    keep_dir ms name
      = some (decide (name ≠ ['.']) && decide (name ≠ ['.', '.'])
          && ms.any (fun m => !m.pattern.anti && current_section_matches name m)) := by
  obtain ⟨h1, h2⟩ := string_eq_dot name
  unfold keep_dir
  by_cases hd : name = ['.']
  · rw [if_pos (h1.2 hd)]
    simp [hd]
  · rw [if_neg (fun h => hd (h1.1 h))]
    by_cases hdd : name = ['.', '.']
    · rw [if_pos (h2.2 hdd)]
      simp [hdd]
    · rw [if_neg (fun h => hdd (h2.1 h)), keep_dir_loop_spec name ms hk]
      simp [hd, hdd]

/-- Claim C23: for every match array (of members inside their patterns) and every
name, `keep_dir(matches, name)` is true iff `name` is neither `.` nor `..` and the
current section `sections[matched]` of some member that is not an anti-pattern
matches `name` via `section_matches`; anti-pattern members never cause a directory
to be kept. -/
theorem keep_dir_iff (ms : List match_t) (name : string_t)
    (hk : ∀ m ∈ ms, m.matched < m.pattern.len) :
    (∃ b, keep_dir ms name = some b)
      ∧ (keep_dir ms name = some true
          ↔ name ≠ ['.'] ∧ name ≠ ['.', '.']
            ∧ ∃ m ∈ ms, m.pattern.anti = false
                ∧ ∃ sect, m.pattern.sects[m.matched]? = some sect
                    ∧ section_matches sect name = true)
      ∧ ((∀ m ∈ ms, m.pattern.anti = true) → keep_dir ms name = some false) := by
  rw [keep_dir_spec ms name hk]
  refine ⟨⟨_, rfl⟩, ?_, ?_⟩
  · simp only [Option.some.injEq, Bool.and_eq_true, decide_eq_true_eq, List.any_eq_true,
      Bool.not_eq_true', and_assoc]
    constructor
    · rintro ⟨h1, h2, m, hm, ha, hc⟩
      refine ⟨h1, h2, m, hm, ha, ?_⟩
      unfold current_section_matches at hc
      cases hs : m.pattern.sects[m.matched]? with
      | none =>
        rw [hs] at hc
        cases hc
      | some sect =>
        rw [hs] at hc
        exact ⟨sect, rfl, hc⟩
    · rintro ⟨h1, h2, m, hm, ha, sect, hs, hc⟩
      refine ⟨h1, h2, m, hm, ha, ?_⟩
      unfold current_section_matches
      rw [hs]
      exact hc
  · intro hall
    have : ms.any (fun m => !m.pattern.anti && current_section_matches name m) = false := by
      rw [List.any_eq_false]
      intro m hm
      simp [hall m hm]
    rw [this]
    simp

theorem keep_dir_iff_witness :
    keep_dir [⟨{ sects := [.SECTION_CONSTANT ['a']], anti := true, cls := CLASS_ANY }, 0⟩,
        ⟨{ sects := [.SECTION_GLOB { opt := .OPT_ANY }, .SECTION_ANY], cls := CLASS_ANY }, 0⟩] ['a']
        = some true
      ∧ keep_dir [⟨{ sects := [.SECTION_GLOB { opt := .OPT_ANY }, .SECTION_ANY],
                     cls := CLASS_ANY }, 0⟩] ['.', '.'] = some false
      ∧ keep_dir [⟨{ sects := [.SECTION_CONSTANT ['a']], anti := true, cls := CLASS_ANY }, 0⟩] ['a']
        = some false :=
  ⟨by decide, by decide,
    (keep_dir_iff [⟨{ sects := [.SECTION_CONSTANT ['a']], anti := true, cls := CLASS_ANY }, 0⟩]
      ['a'] (by decide)).2.2 (by decide)⟩

end Findglob


namespace Findglob

theorem match_text_some (name : string_t) (cls : class_e) (m : match_t)
    (hk : m.matched < m.pattern.len) : ∃ flags, match_text m name cls = some flags := by
  have hflags := match_text_flags m.pattern m.matched name cls hk
  have hm : (⟨m.pattern, m.matched⟩ : match_t) = m := rfl
  rw [hm] at hflags
  exact ⟨_, hflags⟩

theorem yields_terminal_eq (name : string_t) (cls : class_e) (m : match_t)
    (flags : match_flags_e) (h : match_text m name cls = some flags) :
    yields_terminal name cls m = !((flags &&& MATCH_TERMINAL) == 0) := by
  unfold yields_terminal
  rw [h]
  simp [has_flag, action.bit, bne]

/-- Function `keep_file` returns true only for a `TERMINAL` member that is not an
anti-pattern. -/
theorem keep_file_true (name : string_t) :
    ∀ ms : List match_t, keep_file ms name = some true →
      ∃ m ∈ ms, m.pattern.anti = false ∧ yields_terminal name CLASS_FILE m = true := by
  intro ms
  induction ms with
  | nil =>
    intro h
    simp [keep_file] at h
  | cons m rest ih =>
    intro h
    unfold keep_file at h
    cases hf : match_text m name CLASS_FILE with
    | none =>
      rw [hf] at h
      cases h
    | some flags =>
      rw [hf] at h
      simp only at h
      have hy := yields_terminal_eq name CLASS_FILE m flags hf
      by_cases hz : ((flags &&& MATCH_TERMINAL) == 0) = true
      · rw [if_pos hz] at h
        obtain ⟨x, hx, h1, h2⟩ := ih h
        exact ⟨x, List.mem_cons_of_mem _ hx, h1, h2⟩
      · rw [if_neg hz] at h
        refine ⟨m, List.mem_cons_self _ _, ?_, ?_⟩
        · simpa using h
        · rw [hy]
          simpa using hz

/-- Function `keep_file` on a match array with the anti-patterns first. -/
theorem keep_file_spec (name : string_t) :
    ∀ ms : List match_t, (∀ m ∈ ms, m.matched < m.pattern.len) → antis_first ms →
      keep_file ms name
        = some (ms.any (fun m => !m.pattern.anti && yields_terminal name CLASS_FILE m)
            && !ms.any (fun m => m.pattern.anti && yields_terminal name CLASS_FILE m)) := by
  intro ms
  induction ms with
  | nil =>
    intro _ _
    rfl
  | cons m rest ih =>
    intro hk hs
    obtain ⟨hhead, hs'⟩ := List.pairwise_cons.1 hs
    have hrest := ih (fun x hx => hk x (List.mem_cons_of_mem _ hx)) hs'
    obtain ⟨flags, hf⟩ := match_text_some name CLASS_FILE m (hk m (List.mem_cons_self _ _))
    have hy := yields_terminal_eq name CLASS_FILE m flags hf
    unfold keep_file
    rw [hf]
    simp only [List.any_cons]
    by_cases hz : ((flags &&& MATCH_TERMINAL) == 0) = true
    · rw [if_pos hz, hrest]
      rw [hz] at hy
      simp [hy]
    · rw [if_neg hz]
      have hz' : ((flags &&& MATCH_TERMINAL) == 0) = false := by simpa using hz
      rw [hz'] at hy
      cases ha : m.pattern.anti with
      | true => simp [hy]
      | false =>
        have hnone : rest.any (fun m => m.pattern.anti && yields_terminal name CLASS_FILE m)
            = false := by
          rw [List.any_eq_false]
          intro x hx
          have : x.pattern.anti = false := by
            cases hxa : x.pattern.anti
            · rfl
            · have := hhead x hx hxa
              rw [ha] at this
              cases this
          simp [this]
        simp [hy, ha, hnone]

/-- Claim C24: for every match array and file name, `keep_file` returns true only if
some member that is not an anti-pattern yields `TERMINAL` on `(name, FILE)`; and when
the anti-pattern members precede the others (and the members are inside their
patterns), it returns true iff some member that is not an anti-pattern yields
`TERMINAL` on `(name, FILE)` and no anti-pattern member does. -/
theorem keep_file_iff (ms : List match_t) (name : string_t) :
    (keep_file ms name = some true →
        ∃ m ∈ ms, m.pattern.anti = false ∧ yields_terminal name CLASS_FILE m = true)
      ∧ ((∀ m ∈ ms, m.matched < m.pattern.len) → antis_first ms →
          (∃ b, keep_file ms name = some b)
            ∧ (keep_file ms name = some true
              ↔ (∃ m ∈ ms, m.pattern.anti = false ∧ yields_terminal name CLASS_FILE m = true)
                ∧ ¬ ∃ m ∈ ms, m.pattern.anti = true
                    ∧ yields_terminal name CLASS_FILE m = true)) := by
  refine ⟨keep_file_true name ms, ?_⟩
  intro hk hs
  rw [keep_file_spec name ms hk hs]
  refine ⟨⟨_, rfl⟩, ?_⟩
  simp only [Option.some.injEq, Bool.and_eq_true, Bool.not_eq_true', List.any_eq_true,
    List.any_eq_false, not_exists, not_and]

theorem keep_file_iff_witness :
    antis_first [⟨{ sects := [.SECTION_CONSTANT ['x']], anti := true, cls := CLASS_ANY }, 0⟩,
        ⟨{ sects := [.SECTION_GLOB { opt := .OPT_ANY }], cls := CLASS_ANY }, 0⟩]
      ∧ keep_file [⟨{ sects := [.SECTION_CONSTANT ['x']], anti := true, cls := CLASS_ANY }, 0⟩,
          ⟨{ sects := [.SECTION_GLOB { opt := .OPT_ANY }], cls := CLASS_ANY }, 0⟩] ['a']
          = some true
      ∧ keep_file [⟨{ sects := [.SECTION_CONSTANT ['x']], anti := true, cls := CLASS_ANY }, 0⟩,
          ⟨{ sects := [.SECTION_GLOB { opt := .OPT_ANY }], cls := CLASS_ANY }, 0⟩] ['x']
          = some false := by
  have hs : antis_first
      [⟨{ sects := [.SECTION_CONSTANT ['x']], anti := true, cls := CLASS_ANY }, 0⟩,
        ⟨{ sects := [.SECTION_GLOB { opt := .OPT_ANY }], cls := CLASS_ANY }, 0⟩] := by
    unfold antis_first
    simp
  refine ⟨hs, ?_, by decide⟩
  exact ((keep_file_iff _ ['a']).2 (by decide) hs).2.2
    ⟨⟨_, List.mem_cons_of_mem _ (List.mem_cons_self _ _), rfl, by decide⟩, by decide⟩

end Findglob



namespace Findglob

theorem yields_terminal_dir (name : string_t) (m : match_t) (hk : m.matched < m.pattern.len) :
    yields_terminal name CLASS_DIR m = has_flag (member_flags name m) .TERMINAL := by
  obtain ⟨hf, _⟩ := member_flags_eq name m hk
  unfold yields_terminal
  rw [hf]

theorem first_split {α : Type} (p : α → Bool) :
    ∀ l : List α, (∃ x ∈ l, p x = true) →
      ∃ pre m post, l = pre ++ m :: post ∧ p m = true ∧ ∀ x ∈ pre, p x = false := by
  intro l
  induction l with
  | nil =>
    rintro ⟨x, hx, _⟩
    cases hx
  | cons a rest ih =>
    rintro ⟨x, hx, hpx⟩
    cases hpa : p a with
    | true => exact ⟨[], a, rest, rfl, hpa, fun y hy => by cases hy⟩
    | false =>
      rcases List.mem_cons.1 hx with rfl | hx'
      · rw [hpa] at hpx
        cases hpx
      · obtain ⟨pre, m, post, h1, h2, h3⟩ := ih ⟨x, hx', hpx⟩
        refine ⟨a :: pre, m, post, by rw [h1]; rfl, h2, ?_⟩
        intro y hy
        rcases List.mem_cons.1 hy with rfl | hy'
        · exact hpa
        · exact h3 y hy'

/-- The loop of `process_dir` up to an anti-pattern member that yields `TERMINAL`,
over anti-pattern members that do not: it returns at that member, with the entries
of the members before it in the output array and the flags as they were. -/
theorem process_dir_loop_short (name : string_t) (m : match_t) (post : List match_t)
    (hm : m.matched < m.pattern.len) (hma : m.pattern.anti = true)
    (hmt : yields_terminal name CLASS_DIR m = true) :
    ∀ (pre : List match_t) (out : process_dir_out),
      (∀ x ∈ pre, x.matched < x.pattern.len) →
      (∀ x ∈ pre, x.pattern.anti = true ∧ yields_terminal name CLASS_DIR x = false) →
      process_dir_loop name (pre ++ m :: post) out
        = some { out with
            newmatches := out.newmatches ++ pre.flatMap (member_entries name) } := by
  intro pre
  induction pre with
  | nil =>
    intro out _ _
    obtain ⟨hflags, _⟩ := member_flags_eq name m hm
    rw [yields_terminal_dir name m hm] at hmt
    have hterm : ((member_flags name m &&& MATCH_TERMINAL) != 0)
        = has_flag (member_flags name m) .TERMINAL := rfl
    simp only [List.nil_append, process_dir_loop, hflags, Option.bind_eq_bind,
      Option.some_bind, hterm, hmt, hma, Bool.and_self, if_true, List.flatMap_nil,
      List.append_nil]
  | cons x rest ih =>
    intro out hk hpre
    have hxk := hk x (List.mem_cons_self _ _)
    obtain ⟨hxa, hxt⟩ := hpre x (List.mem_cons_self _ _)
    obtain ⟨hflags, hlt⟩ := member_flags_eq name x hxk
    rw [yields_terminal_dir name x hxk] at hxt
    have hterm : ((member_flags name x &&& MATCH_TERMINAL) != 0)
        = has_flag (member_flags name x) .TERMINAL := rfl
    have hcond : ((member_flags name x &&& MATCH_TERMINAL) != 0 && x.pattern.anti) = false := by
      rw [hterm, hxt]
      rfl
    simp only [List.cons_append, process_dir_loop, hflags, Option.bind_eq_bind,
      Option.some_bind, hcond, Bool.false_eq_true, if_false, List.append_eq]
    have hx : (⟨x.pattern, x.matched⟩ : match_t) = x := rfl
    have := process_dir_member_any x.pattern x.matched (member_flags name x)
      (if ((member_flags name x &&& MATCH_TERMINAL) != 0) = true
        then { out with isterminal := true } else out)
      (process_dir_loop name (rest ++ m :: post)) hlt
    rw [hx] at this
    simp only [bind, Option.bind_eq_bind] at this
    rw [this, ih _ (fun y hy => hk y (List.mem_cons_of_mem _ hy))
      (fun y hy => hpre y (List.mem_cons_of_mem _ hy))]
    rw [hterm, hxt]
    simp [member_entries, hxa, List.append_assoc]

end Findglob


namespace Findglob

/-- Function `process_dir` on a match array with the anti-patterns first, one of
which yields `TERMINAL`: it returns at the first such member, with both flags false
and the entries of the members before it in the output array. -/
theorem process_dir_short (name : string_t) (parent newmatches : List match_t)
    (hk : ∀ m ∈ parent, m.matched < m.pattern.len) (hs : antis_first parent)
    (hex : ∃ m ∈ parent, m.pattern.anti = true ∧ yields_terminal name CLASS_DIR m = true) :
    ∃ pre m post, parent = pre ++ m :: post
      ∧ (∀ x ∈ pre, x.pattern.anti = true ∧ yields_terminal name CLASS_DIR x = false)
      ∧ m.pattern.anti = true ∧ yields_terminal name CLASS_DIR m = true
      ∧ process_dir name parent newmatches
          = some { newmatches := newmatches ++ pre.flatMap (member_entries name),
                   isintermediate := false, isterminal := false } := by
  obtain ⟨pre, m, post, h1, h2, h3⟩ :=
    first_split (fun x => x.pattern.anti && yields_terminal name CLASS_DIR x) parent (by
      obtain ⟨m, hm, ha, ht⟩ := hex
      exact ⟨m, hm, by simp [ha, ht]⟩)
  simp only [Bool.and_eq_true] at h2
  subst h1
  have hpre : ∀ x ∈ pre, x.pattern.anti = true ∧ yields_terminal name CLASS_DIR x = false := by
    intro x hx
    have hxa : x.pattern.anti = true :=
      (List.pairwise_append.1 hs).2.2 x hx m (List.mem_cons_self _ _) h2.1
    have := h3 x hx
    rw [hxa] at this
    exact ⟨hxa, by simpa using this⟩
  refine ⟨pre, m, post, rfl, hpre, h2.1, h2.2, ?_⟩
  unfold process_dir
  rw [process_dir_loop_short name m post
    (hk m (List.mem_append_right _ (List.mem_cons_self _ _))) h2.1 h2.2 pre _
    (fun x hx => hk x (List.mem_append_left _ hx)) hpre]

/-- Claim C21, amended: for every input match array (of members inside their
patterns) in which the anti-pattern members precede the others, and every directory
name, if some anti-pattern member yields `TERMINAL` on `(name, DIR)`, `process_dir`
short-circuits at the first such member and returns with both `isintermediate` and
`isterminal` false; the output match array is not cleared: it holds the entries that
the anti-pattern members before that one have added, and is empty when they have
none. -/
theorem process_dir_anti_terminal (name : string_t) (parent newmatches : List match_t)
    (hk : ∀ m ∈ parent, m.matched < m.pattern.len) (hs : antis_first parent)
    (hex : ∃ m ∈ parent, m.pattern.anti = true ∧ yields_terminal name CLASS_DIR m = true) :
    ∃ pre m post, parent = pre ++ m :: post
      ∧ (∀ x ∈ pre, x.pattern.anti = true ∧ yields_terminal name CLASS_DIR x = false)
      ∧ m.pattern.anti = true ∧ yields_terminal name CLASS_DIR m = true
      ∧ process_dir name parent newmatches
          = some { newmatches := newmatches ++ pre.flatMap (member_entries name),
                   isintermediate := false, isterminal := false } :=
  process_dir_short name parent newmatches hk hs hex

theorem process_dir_anti_terminal_witness :
    ∃ pre m post,
      [(⟨{ sects := [.SECTION_ANY, .SECTION_CONSTANT ['b']], anti := true, cls := CLASS_ANY }, 0⟩
          : match_t), ⟨{ sects := [.SECTION_ANY], cls := CLASS_ANY }, 0⟩] = pre ++ m :: post
      ∧ (∀ x ∈ pre, x.pattern.anti = true ∧ yields_terminal ['b'] CLASS_DIR x = false)
      ∧ m.pattern.anti = true ∧ yields_terminal ['b'] CLASS_DIR m = true
      ∧ process_dir ['b']
          [⟨{ sects := [.SECTION_ANY, .SECTION_CONSTANT ['b']], anti := true, cls := CLASS_ANY }, 0⟩,
            ⟨{ sects := [.SECTION_ANY], cls := CLASS_ANY }, 0⟩] []
          = some { newmatches := [] ++ pre.flatMap (member_entries ['b']),
                   isintermediate := false, isterminal := false } :=
  process_dir_anti_terminal ['b'] _ [] (by decide) (by unfold antis_first; simp)
    ⟨_, List.mem_cons_self _ _, rfl, by decide⟩

/-- Claim C21 as stated fails: on the directory `a`, with the anti-patterns `!a/b` and
`!a` in the match array, the second member yields `TERMINAL` and `process_dir` returns
with the entry `(!a/b, 1)` of the first member in the output array, which is not
empty. -/
theorem process_dir_output_not_cleared :
    antis_first
        [⟨{ sects := [.SECTION_CONSTANT ['a'], .SECTION_CONSTANT ['b']], anti := true,
            cls := CLASS_ANY, start := ['a', '/', 'b'], printstart := ['a', '/', 'b'] }, 0⟩,
          ⟨{ sects := [.SECTION_CONSTANT ['a']], anti := true, cls := CLASS_ANY,
             start := ['a'], printstart := ['a'] }, 0⟩]
      ∧ yields_terminal ['a'] CLASS_DIR
          ⟨{ sects := [.SECTION_CONSTANT ['a']], anti := true, cls := CLASS_ANY,
             start := ['a'], printstart := ['a'] }, 0⟩ = true
      ∧ process_dir ['a']
          [⟨{ sects := [.SECTION_CONSTANT ['a'], .SECTION_CONSTANT ['b']], anti := true,
              cls := CLASS_ANY, start := ['a', '/', 'b'], printstart := ['a', '/', 'b'] }, 0⟩,
            ⟨{ sects := [.SECTION_CONSTANT ['a']], anti := true, cls := CLASS_ANY,
               start := ['a'], printstart := ['a'] }, 0⟩] []
          = some { newmatches :=
                    [⟨{ sects := [.SECTION_CONSTANT ['a'], .SECTION_CONSTANT ['b']], anti := true,
                        cls := CLASS_ANY, start := ['a', '/', 'b'],
                        printstart := ['a', '/', 'b'] }, 1⟩],
                   isintermediate := false, isterminal := false }
      ∧ ¬ ∃ out, process_dir ['a']
          [⟨{ sects := [.SECTION_CONSTANT ['a'], .SECTION_CONSTANT ['b']], anti := true,
              cls := CLASS_ANY, start := ['a', '/', 'b'], printstart := ['a', '/', 'b'] }, 0⟩,
            ⟨{ sects := [.SECTION_CONSTANT ['a']], anti := true, cls := CLASS_ANY,
               start := ['a'], printstart := ['a'] }, 0⟩] [] = some out
          ∧ out.newmatches = [] := by
  refine ⟨by unfold antis_first; simp, by decide, by decide, ?_⟩
  rintro ⟨out, h1, h2⟩
  have h3 : process_dir ['a']
      [⟨{ sects := [.SECTION_CONSTANT ['a'], .SECTION_CONSTANT ['b']], anti := true,
          cls := CLASS_ANY, start := ['a', '/', 'b'], printstart := ['a', '/', 'b'] }, 0⟩,
        ⟨{ sects := [.SECTION_CONSTANT ['a']], anti := true, cls := CLASS_ANY,
           start := ['a'], printstart := ['a'] }, 0⟩] []
      = some { newmatches :=
                [⟨{ sects := [.SECTION_CONSTANT ['a'], .SECTION_CONSTANT ['b']], anti := true,
                    cls := CLASS_ANY, start := ['a', '/', 'b'],
                    printstart := ['a', '/', 'b'] }, 1⟩],
               isintermediate := false, isterminal := false } := by decide
  rw [h3] at h1
  cases h1
  cases h2

end Findglob


namespace Findglob

/-- Claim C22: anti-patterns dominate: for every match array (of members inside their
patterns) in which the anti-pattern members precede the others, and every entry
name, if an anti-pattern member and a member that is not one both yield `TERMINAL`
for the entry, the entry is not printed: for a file `keep_file` returns false, and
for a directory `process_dir` returns `isterminal = false` and
`isintermediate = false` (no print, no recursion). -/
theorem anti_patterns_dominate (ms : List match_t) (name : string_t)
    (hk : ∀ m ∈ ms, m.matched < m.pattern.len) (hs : antis_first ms) :
    ((∃ m ∈ ms, m.pattern.anti = true ∧ yields_terminal name CLASS_FILE m = true) →
        (∃ m ∈ ms, m.pattern.anti = false ∧ yields_terminal name CLASS_FILE m = true) →
        keep_file ms name = some false)
      ∧ ((∃ m ∈ ms, m.pattern.anti = true ∧ yields_terminal name CLASS_DIR m = true) →
        (∃ m ∈ ms, m.pattern.anti = false ∧ yields_terminal name CLASS_DIR m = true) →
        ∀ newmatches, ∃ out, process_dir name ms newmatches = some out
          ∧ out.isterminal = false ∧ out.isintermediate = false) := by
  constructor
  · rintro ⟨m, hm, ha, ht⟩ _
    rw [keep_file_spec name ms hk hs]
    have : ms.any (fun m => m.pattern.anti && yields_terminal name CLASS_FILE m) = true := by
      rw [List.any_eq_true]
      exact ⟨m, hm, by simp [ha, ht]⟩
    rw [this]
    simp
  · intro hex _ newmatches
    obtain ⟨pre, m, post, _, _, _, _, h⟩ := process_dir_short name ms newmatches hk hs hex
    exact ⟨_, h, rfl, rfl⟩

theorem anti_patterns_dominate_witness :
    keep_file [⟨{ sects := [.SECTION_ANY, .SECTION_CONSTANT ['b']], anti := true,
                  cls := CLASS_ANY }, 0⟩,
        ⟨{ sects := [.SECTION_ANY], cls := CLASS_ANY }, 0⟩] ['b'] = some false
      ∧ ∃ out, process_dir ['b']
          [⟨{ sects := [.SECTION_ANY, .SECTION_CONSTANT ['b']], anti := true, cls := CLASS_ANY }, 0⟩,
            ⟨{ sects := [.SECTION_ANY], cls := CLASS_ANY }, 0⟩] [] = some out
          ∧ out.isterminal = false ∧ out.isintermediate = false :=
  ⟨(anti_patterns_dominate _ ['b'] (by decide) (by unfold antis_first; simp)).1
      ⟨_, List.mem_cons_self _ _, rfl, by decide⟩
      ⟨_, List.mem_cons_of_mem _ (List.mem_cons_self _ _), rfl, by decide⟩,
    (anti_patterns_dominate _ ['b'] (by decide) (by unfold antis_first; simp)).2
      ⟨_, List.mem_cons_self _ _, rfl, by decide⟩
      ⟨_, List.mem_cons_of_mem _ (List.mem_cons_self _ _), rfl, by decide⟩ []⟩

end Findglob


namespace Findglob

theorem glob_wf_abc : glob_wf ['a', '*', 'b', '*', 'c'] [true, false, true, false, true] := by
  refine ⟨rfl, ?_, ?_⟩
  · intro i g hg hl
    rcases i with _ | _ | _ | _ | _ | i <;> simp at hg hl <;> subst hg <;> simp
  · intro i
    rcases i with _ | _ | _ | _ | _ | i <;> simp [wild_star]

/-- The name `a X b Y c` splits along the glob `a*b*c`. -/
theorem glob_split_abc (X Y : string_t) :
    glob_split ['a', '*', 'b', '*', 'c'] [true, false, true, false, true]
      (['a'] ++ X ++ ['b'] ++ Y ++ ['c']) := by
  refine ⟨[['a'], X, ['b'], Y, ['c']], ?_, by simp⟩
  simp [piece_ok]

/-- Claim C30: for all strings `X` and `Y` (including empty ones),
`glob_match("a*b*c", [lit, wild, lit, wild, lit], "a" ++ X ++ "b" ++ Y ++ "c")` is true,
even when `X` or `Y` themselves contain the bytes `a`, `b` or `c`. -/
theorem glob_match_abc (X Y : string_t) :
    glob_match ['a', '*', 'b', '*', 'c'] [true, false, true, false, true]
      (['a'] ++ X ++ ['b'] ++ Y ++ ['c']) = true :=
  (glob_match_iff_gsplit _ _ _ glob_wf_abc).2
    ((glob_split_iff_gsplit _ _ _ rfl).1 (glob_split_abc X Y))

end Findglob


namespace Findglob

theorem rewrite_write_loop_ok (sub : string_t) (it : path_iter_t) (buf : List section_t)
    (h : it.ok = true) (hi : it.i < buf.length) :
    rewrite_write_loop sub it buf
      = rewrite_write_loop (path_next it).1 (path_next it).2
          (buf.set it.i (.SECTION_CONSTANT sub)) := by
  rw [rewrite_write_loop]
  simp [h, hi]

theorem rewrite_write_loop_done (sub : string_t) (it : path_iter_t) (buf : List section_t)
    (h : ¬ it.ok = true) : rewrite_write_loop sub it buf = some buf := by
  rw [rewrite_write_loop]
  simp [h]

theorem path_next_index (it : path_iter_t) (hok : it.ok = true) :
    (path_next it).2.i = if it.nskip != 0 then it.i + 1 else it.i := by
  rw [path_next_eq it hok]
  split_ifs <;> rfl

theorem set_take_drop (buf : List section_t) (k : Nat) (s : section_t) (hk : k < buf.length) :
    buf.set k s = buf.take k ++ s :: buf.drop (k + 1) := by
  induction buf generalizing k with
  | nil => simp at hk
  | cons b rest ih =>
    cases k with
    | zero => simp
    | succ k =>
      simp only [List.length_cons] at hk
      simp [ih k (by omega)]

/-- The write loop of `pattern_rewrite_start`, from the segment with index `k`: the
places from `k` on receive the segments that are left, one `CONSTANT` each. -/
theorem rewrite_write_loop_spec (sub : string_t) (it : path_iter_t) :
    ∀ (buf : List section_t) (k : Nat),
      (it.ok = true → it.i = k ∧ it.nskip ≠ 0) →
      k + (path_iter_collect sub it).length ≤ buf.length →
      rewrite_write_loop sub it buf
        = some (buf.take k
            ++ (path_iter_collect sub it).map (fun seg => section_t.SECTION_CONSTANT seg.1)
            ++ buf.drop (k + (path_iter_collect sub it).length)) := by
  induction sub, it using path_iter_collect.induct with
  | case1 sub it hok ih =>
    intro buf k hik hlen
    obtain ⟨hi, hskip⟩ := hik hok
    rw [path_iter_collect_ok sub it hok] at hlen ⊢
    simp only [List.length_cons] at hlen
    have hlt : it.i < buf.length := by omega
    rw [rewrite_write_loop_ok sub it buf hok hlt]
    have hnext : (path_next it).2.ok = true → (path_next it).2.i = k + 1
        ∧ (path_next it).2.nskip ≠ 0 := by
      intro hok'
      refine ⟨?_, (path_next_spec it hok hok').2.1⟩
      rw [path_next_index it hok]
      have : (it.nskip != 0) = true := by simpa using hskip
      rw [if_pos this, hi]
    rw [ih (buf.set it.i (.SECTION_CONSTANT sub)) (k + 1) hnext (by
      rw [List.length_set]
      omega)]
    rw [hi, set_take_drop buf k _ (by omega)]
    simp only [List.map_cons, List.length_cons]
    have h1 : (buf.take k ++ section_t.SECTION_CONSTANT sub :: buf.drop (k + 1)).take (k + 1)
        = buf.take k ++ [section_t.SECTION_CONSTANT sub] := by
      rw [List.take_append_eq_append_take]
      simp [List.length_take, Nat.min_eq_left (by omega : k ≤ buf.length)]
    have h2 : ∀ n, (buf.take k ++ section_t.SECTION_CONSTANT sub :: buf.drop (k + 1)).drop
        (k + 1 + n) = buf.drop (k + (n + 1)) := by
      intro n
      rw [List.drop_append_eq_append_drop]
      simp only [List.length_take, Nat.min_eq_left (by omega : k ≤ buf.length)]
      have e1 : (buf.take k).drop (k + 1 + n) = [] := by
        apply List.drop_eq_nil_of_le
        simp only [List.length_take]
        omega
      have e2 : k + 1 + n - k = n + 1 := by omega
      rw [e1, e2]
      simp only [List.nil_append, List.drop_succ_cons, List.drop_drop]
      congr 1
      omega
    rw [h1, h2]
    simp [List.append_assoc]
  | case2 sub it hok =>
    intro buf k _ _
    rw [rewrite_write_loop_done sub it buf hok, path_iter_collect_done sub it hok]
    simp

end Findglob


namespace Findglob

/-- The start of the sections of the segments of a path: with a leading volume,
or without one. -/
theorem segments_start_cases (PM : Nat) (segs : List (string_t × Bool))
    (sects : List section_t) (start : string_t) (hgood : ∀ seg ∈ segs, good_segment seg)
    (htail : ∀ seg ∈ segs.tail, seg.2 = false)
    (hsect : List.Forall₂ (segment_section PM) segs sects)
    (h : pattern_start_loop PM sects [] = some start) :
    (∃ rest, sects = .SECTION_CONSTANT ['/'] :: rest
        ∧ (∀ u ∈ leading_constants rest, u ≠ [] ∧ '/' ∉ u)
        ∧ start = '/' :: ['/'].intercalate (leading_constants rest))
      ∨ ((∀ u ∈ leading_constants sects, u ≠ [] ∧ '/' ∉ u)
        ∧ start = ['/'].intercalate (leading_constants sects)) := by
  cases hsect with
  | nil =>
    right
    simp only [pattern_start_loop, Option.some.injEq] at h
    rw [← h]
    exact ⟨fun u hu => by simp [leading_constants] at hu, rfl⟩
  | @cons seg sect segs sects hhead hrest =>
    have hg := hgood seg (List.mem_cons_self _ _)
    have hplain : ∀ u, .SECTION_CONSTANT u ∈ sects → u ≠ [] ∧ '/' ∉ u :=
      segment_constants_plain PM segs sects hrest
        (fun s hs => hgood s (List.mem_cons_of_mem _ hs)) htail
    cases hv : seg.2 with
    | true =>
      left
      unfold segment_section at hhead
      unfold good_segment at hg
      rw [hv] at hhead hg
      simp only [if_true] at hhead hg
      rw [hg] at hhead
      subst hhead
      have hp := fun u hu => hplain u (mem_leading_constants _ _ hu)
      exact ⟨sects, rfl, hp, start_loop_absolute PM sects start hp h⟩
    | false =>
      right
      have hall : ∀ u, .SECTION_CONSTANT u ∈ sect :: sects → u ≠ [] ∧ '/' ∉ u :=
        segment_constants_plain PM (seg :: segs) (sect :: sects)
          (List.Forall₂.cons hhead hrest) hgood
          (fun s hs => by
            rcases List.mem_cons.1 hs with hs | hs
            · rw [hs]; exact hv
            · exact htail s hs)
      have hlead : ∀ u ∈ leading_constants (sect :: sects), u ≠ [] ∧ '/' ∉ u :=
        fun u hu => hall u (mem_leading_constants _ _ hu)
      exact ⟨hlead, start_loop_relative PM (sect :: sects) start hlead h⟩

theorem nonsep_runs_intercalate (consts : List string_t)
    (h : ∀ u ∈ consts, u ≠ [] ∧ '/' ∉ u) :
    nonsep_runs (['/'].intercalate consts) = consts := by
  by_cases hne : consts = []
  · subst hne
    decide
  · unfold nonsep_runs
    rw [List.splitOn_intercalate consts '/' (fun l hl => (h l hl).2) hne]
    rw [List.filter_eq_self]
    intro u hu
    have := (h u hu).1
    cases u with
    | nil => exact absurd rfl this
    | cons c t => rfl

theorem intercalate_head (consts : List string_t) (h : ∀ u ∈ consts, u ≠ [] ∧ '/' ∉ u) :
    (['/'].intercalate consts).head? ≠ some '/' := by
  cases consts with
  | nil => simp [List.intercalate]
  | cons c rest =>
    obtain ⟨h1, h2⟩ := h c (List.mem_cons_self _ _)
    rw [intercalate_cons]
    cases c with
    | nil => exact absurd rfl h1
    | cons x t =>
      simp only [List.cons_append, List.head?_cons, ne_eq, Option.some.injEq]
      intro hx
      exact h2 (hx ▸ List.mem_cons_self _ _)

/-- The segments of a start without a volume are its constants. -/
theorem path_segments_relative (consts : List string_t)
    (h : ∀ u ∈ consts, u ≠ [] ∧ '/' ∉ u) :
    path_segments (['/'].intercalate consts) = consts.map (fun u => (u, false)) := by
  rw [path_segments_eq]
  unfold segments_spec
  rw [if_neg (intercalate_head consts h), nonsep_runs_intercalate consts h]
  rfl

/-- The segments of a start with a volume are the volume and its constants. -/
theorem path_segments_absolute (consts : List string_t)
    (h : ∀ u ∈ consts, u ≠ [] ∧ '/' ∉ u) :
    path_segments ('/' :: ['/'].intercalate consts)
      = (['/'], true) :: consts.map (fun u => (u, false)) := by
  rw [path_segments_eq]
  unfold segments_spec
  rw [if_pos (by simp), nonsep_runs_sep, nonsep_runs_intercalate consts h]
  rfl

/-- The start of an accepted pattern has one segment per leading `CONSTANT` section. -/
theorem parsed_start_count (PM : Nat) (text : string_t) (p : pattern_t)
    (h : pattern_parse PM text = some p) :
    path_count p.start = (leading_constants p.sects).length := by
  obtain ⟨path, anti, cls, sects, start, _, hsect, _, hstart, hp⟩ :=
    (pattern_parse_some_iff PM text p).1 h
  subst hp
  have hspec := path_segments_spec path
  unfold path_count
  show (path_segments start).length = (leading_constants sects).length
  rcases segments_start_cases PM _ sects start hspec.1 hspec.2 hsect hstart with
    ⟨rest, h1, h2, h3⟩ | ⟨h2, h3⟩
  · rw [h3, path_segments_absolute _ h2, h1]
    simp [leading_constants]
  · rw [h3, path_segments_relative _ h2]
    simp

theorem leading_constants_length_le (sects : List section_t) :
    (leading_constants sects).length ≤ sects.length := by
  induction sects with
  | nil => simp [leading_constants]
  | cons s rest ih =>
    cases s <;> simp [leading_constants]
    omega

end Findglob


namespace Findglob

/-- The write loop of `pattern_rewrite_start` from the first segment of a path. -/
theorem rewrite_write_whole (new : string_t) (X E : List section_t)
    (hX : X.length = path_count new) :
    rewrite_write_loop (path_iter new).1 (path_iter new).2 (X ++ E)
      = some ((path_segments new).map (fun seg => section_t.SECTION_CONSTANT seg.1) ++ E) := by
  have hok0 : ({ base := new, nskip := 0, ok := true, i := 0 } : path_iter_t).ok = true := rfl
  have hlen : (path_iter_collect (path_iter new).1 (path_iter new).2).length = X.length := by
    rw [hX]
    rfl
  have h := rewrite_write_loop_spec (path_iter new).1 (path_iter new).2 (X ++ E) 0
    (by
      intro hok
      unfold path_iter at hok ⊢
      refine ⟨?_, (path_next_spec _ hok0 hok).2.1⟩
      rw [path_next_index _ hok0]
      rfl)
    (by
      rw [hlen]
      simp)
  rw [h, hlen]
  simp [path_segments]

/-- The section array before the write loop of `pattern_rewrite_start`: room for
the segments of the new start, then the sections that were not in the old start. -/
theorem rewrite_buffer (sects : List section_t) (nold nnew : Nat) (hle : nold ≤ sects.length) :
    ∃ X : List section_t, X.length = nnew
      ∧ (if nold ≠ nnew then
            memmove_sects (List.replicate nold section_zero ++ sects.drop nold
              ++ List.replicate (nnew - nold) section_dummy) nnew nold (sects.length - nold)
          else List.replicate nold section_zero ++ sects.drop nold
              ++ List.replicate (nnew - nold) section_dummy).take (nnew + (sects.length - nold))
          = X ++ sects.drop nold := by
  by_cases hne : nold = nnew
  · subst hne
    refine ⟨List.replicate nold section_zero, by simp, ?_⟩
    simp only [ne_eq, not_true_eq_false, if_false, Nat.sub_self, List.replicate_zero,
      List.append_nil]
    apply List.take_of_length_le
    simp
  · rw [if_pos hne]
    refine ⟨(List.replicate nold section_zero ++ sects.drop nold
      ++ List.replicate (nnew - nold) section_dummy).take nnew, ?_, ?_⟩
    · rw [List.length_take]
      simp only [List.length_append, List.length_replicate, List.length_drop]
      omega
    · unfold memmove_sects
      have h1 : (List.replicate nold section_zero ++ sects.drop nold
          ++ List.replicate (nnew - nold) section_dummy).drop nold
          = sects.drop nold ++ List.replicate (nnew - nold) section_dummy := by
        rw [List.append_assoc, List.drop_append_eq_append_drop]
        simp
      have h2 : (sects.drop nold ++ List.replicate (nnew - nold) section_dummy).take
          (sects.length - nold) = sects.drop nold := by
        rw [List.take_append_eq_append_take]
        simp
      rw [h1, h2, List.append_assoc, List.take_append_eq_append_take]
      have h3 : ((List.replicate nold section_zero ++ sects.drop nold
          ++ List.replicate (nnew - nold) section_dummy).take nnew).length = nnew := by
        rw [List.length_take]
        simp only [List.length_append, List.length_replicate, List.length_drop]
        omega
      rw [h3, List.take_of_length_le (by rw [h3]; omega)]
      have h4 : nnew + (sects.length - nold) - nnew = sects.length - nold := by omega
      rw [h4, List.take_append_eq_append_take]
      simp

/-- Function `pattern_rewrite_start` on a pattern whose start has no more segments
than the pattern has sections. -/
theorem pattern_rewrite_start_spec (PM : Nat) (pattern : pattern_t) (new : string_t)
    (hle : path_count pattern.start ≤ pattern.len) :
    pattern_rewrite_start PM pattern new
      = some (if new.length + 1 > PM then
          (1, { pattern with
                sects := (path_segments new).map (fun seg => section_t.SECTION_CONSTANT seg.1)
                  ++ pattern.sects.drop (path_count pattern.start) })
        else
          (0, { pattern with
                sects := (path_segments new).map (fun seg => section_t.SECTION_CONSTANT seg.1)
                  ++ pattern.sects.drop (path_count pattern.start),
                start := new })) := by
  unfold pattern_rewrite_start
  simp only
  rw [if_neg (by omega)]
  obtain ⟨X, hX, hbuf⟩ := rewrite_buffer pattern.sects (path_count pattern.start)
    (path_count new) hle
  unfold pattern_t.len
  rw [hbuf, rewrite_write_whole new X _ hX]
  simp only
  split_ifs <;> rfl

end Findglob


namespace Findglob

/-- Claim C25: for every pattern accepted by `pattern_parse` and every new path
shorter than `PATH_MAX`, `pattern_rewrite_start` succeeds, and afterwards `start` is
the new path and the section list is one `CONSTANT` section per `path_iter` segment
of the new path, in order, followed by exactly the original sections that were not
part of the old start (those after the leading `CONSTANT` sections), unchanged and
in order, whether the new start has more, fewer or as many segments as the old. -/
theorem pattern_rewrite_start_splices (PATH_MAX : Nat) (text : string_t) (p : pattern_t)
    (new : string_t) (hp : pattern_parse PATH_MAX text = some p)
    (hnew : new.length < PATH_MAX) :
    pattern_rewrite_start PATH_MAX p new
      = some (0, { p with
          sects := (path_segments new).map (fun seg => section_t.SECTION_CONSTANT seg.1)
            ++ p.sects.drop (leading_constants p.sects).length,
          start := new }) := by
  have hcount := parsed_start_count PATH_MAX text p hp
  have hle : path_count p.start ≤ p.len := by
    rw [hcount]
    exact leading_constants_length_le p.sects
  rw [pattern_rewrite_start_spec PATH_MAX p new hle, if_neg (by omega), hcount]

theorem pattern_rewrite_start_splices_witness :
    pattern_parse 4096 ['b', '/', '*', '*', '/', 'c']
        = some { sects := [.SECTION_CONSTANT ['b'], .SECTION_ANY, .SECTION_CONSTANT ['c']],
                 anti := false, cls := 3, start := ['b'], printstart := ['b'], order := 0 }
      ∧ pattern_rewrite_start 4096
          { sects := [.SECTION_CONSTANT ['b'], .SECTION_ANY, .SECTION_CONSTANT ['c']],
            anti := false, cls := 3, start := ['b'], printstart := ['b'], order := 0 }
          ['/', 'a', '/', 'b']
        = some (0, { sects := [.SECTION_CONSTANT ['/'], .SECTION_CONSTANT ['a'],
                       .SECTION_CONSTANT ['b'], .SECTION_ANY, .SECTION_CONSTANT ['c']],
                     anti := false, cls := 3, start := ['/', 'a', '/', 'b'],
                     printstart := ['b'], order := 0 }) := by
  have hp : pattern_parse 4096 ['b', '/', '*', '*', '/', 'c']
        = some { sects := [.SECTION_CONSTANT ['b'], .SECTION_ANY, .SECTION_CONSTANT ['c']],
                 anti := false, cls := 3, start := ['b'], printstart := ['b'], order := 0 } := by
    simp [pattern_parse, pattern_parse_header, extended_syntax_parse, string_sub,
      pattern_parse_sections, path_iter, path_next, _get_volume, _get_leading_sep,
      _get_leading_sep_loop, _get_leading_nonsep, _get_leading_nonsep_loop, _is_sep,
      section_parse, string_eq, strncmp, DOUBLESTAR, section_parse_loop, section_classify,
      parse_state.len, consecutive_any_loop, section_t.isAny, pattern_start_loop, path_extend,
      last_is_sep, CLASS_ANY, CLASS_DIR]
  have hseg : path_segments ['/', 'a', '/', 'b']
      = [(['/'], true), (['a'], false), (['b'], false)] := by
    rw [path_segments_eq]
    decide
  refine ⟨hp, ?_⟩
  rw [pattern_rewrite_start_splices 4096 _ _ ['/', 'a', '/', 'b'] hp (by decide), hseg]
  rfl

end Findglob


namespace Findglob

/-- Claim C26, evaluated on the code: `pattern_parse` accepts `a\*b` as the single
`CONSTANT` section `a*b`; `sprint_pattern` prints the text of a `CONSTANT` without
escaping it (as it does for an `OPT_NONE` glob), so the serialization is `a*b`, which
parses to a `BOOKENDS` glob: it matches the name `axb`, which the pattern before the
round trip does not. -/
theorem sprint_pattern_round_trip :
    pattern_parse 4096 ['a', '\\', '*', 'b']
        = some { sects := [.SECTION_CONSTANT ['a', '*', 'b']], anti := false, cls := CLASS_ANY,
                 start := ['a', '*', 'b'], printstart := ['a', '*', 'b'], order := 0 }
      ∧ sprint_pattern { sects := [.SECTION_CONSTANT ['a', '*', 'b']], anti := false,
                         cls := CLASS_ANY, start := ['a', '*', 'b'],
                         printstart := ['a', '*', 'b'], order := 0 } 0
          = some ['a', '*', 'b']
      ∧ pattern_parse 4096 ['a', '*', 'b']
          = some { sects := [.SECTION_GLOB { opt := .OPT_BOOKENDS, text := ['a'], text2 := ['b'] }],
                   anti := false, cls := CLASS_ANY, start := [], printstart := [], order := 0 }
      ∧ section_matches (.SECTION_CONSTANT ['a', '*', 'b']) ['a', 'x', 'b'] = false
      ∧ section_matches (.SECTION_GLOB { opt := .OPT_BOOKENDS, text := ['a'], text2 := ['b'] })
          ['a', 'x', 'b'] = true := by
  refine ⟨?_, by decide, ?_, by decide, by decide⟩
  · simp [pattern_parse, pattern_parse_header, extended_syntax_parse, string_sub,
      pattern_parse_sections, path_iter, path_next, _get_volume, _get_leading_sep,
      _get_leading_sep_loop, _get_leading_nonsep, _get_leading_nonsep_loop, _is_sep,
      section_parse, string_eq, strncmp, DOUBLESTAR, section_parse_loop, section_classify,
      parse_state.len, consecutive_any_loop, section_t.isAny, pattern_start_loop, path_extend,
      last_is_sep, CLASS_ANY, CLASS_DIR]
  · simp [pattern_parse, pattern_parse_header, extended_syntax_parse, string_sub,
      pattern_parse_sections, path_iter, path_next, _get_volume, _get_leading_sep,
      _get_leading_sep_loop, _get_leading_nonsep, _get_leading_nonsep_loop, _is_sep,
      section_parse, string_eq, strncmp, DOUBLESTAR, section_parse_loop, section_classify,
      parse_state.len, consecutive_any_loop, section_t.isAny, pattern_start_loop, path_extend,
      last_is_sep, CLASS_ANY, CLASS_DIR, STAR]

/-- The parse loop of `findglob_main` over arguments that all parse to
anti-patterns. -/
theorem main_parse_loop_antis (PM : Nat) :
    ∀ (args : List string_t) (patterns : List pattern_t) (n : Nat),
      (∀ a ∈ args, ∃ p, pattern_parse PM a = some p ∧ p.anti = true) →
      ∃ ps, main_parse_loop PM args patterns n = some (patterns ++ ps, n + args.length)
        ∧ ps.length = args.length := by
  intro args
  induction args with
  | nil =>
    intro patterns n _
    exact ⟨[], by simp [main_parse_loop], rfl⟩
  | cons a rest ih =>
    intro patterns n hall
    obtain ⟨p, hp, hanti⟩ := hall a (List.mem_cons_self _ _)
    obtain ⟨ps, h1, h2⟩ := ih (patterns ++ [p]) (n + 1)
      (fun x hx => hall x (List.mem_cons_of_mem _ hx))
    refine ⟨p :: ps, ?_, by simp [h2]⟩
    unfold main_parse_loop
    rw [hp]
    simp only [hanti, if_true]
    rw [h1]
    simp only [List.append_assoc, List.singleton_append, List.length_cons]
    congr 2
    omega

theorem anti_head (PM : Nat) (text : string_t) (p : pattern_t)
    (h : pattern_parse PM text = some p) (hanti : p.anti = true) :
    text.head? = some ':' ∨ text.head? = some '!' := by
  by_cases hc : text.head? = some ':'
  · exact Or.inl hc
  · exact Or.inr ((pattern_parse_shorthand_spec PM text p hc h).1.1 hanti)

/-- Claim C27: `findglob` requires at least one positive pattern: for every non-empty
argument list in which every argument parses successfully and every parsed pattern is
an anti-pattern, `findglob_main` returns 1, reporting the number of anti-patterns,
without a call of `realpath` (no start is made absolute) and without a call of
`findglob` (no traversal). -/
theorem findglob_main_only_antipatterns (PATH_MAX : Nat)
    (realpath : string_t → Option string_t) (findglob : List pattern_t → Int)
    (prog : string_t) (args : List string_t) (hne : args ≠ [])
    (hall : ∀ a ∈ args, ∃ p, pattern_parse PATH_MAX a = some p ∧ p.anti = true) :
    findglob_main PATH_MAX realpath findglob (prog :: args)
      = some (1, [.only_antipatterns args.length]) := by
  rcases args with _ | ⟨arg1, rest⟩
  · exact absurd rfl hne
  · obtain ⟨p, hp, hanti⟩ := hall arg1 (List.mem_cons_self _ _)
    have hhead := anti_head PATH_MAX arg1 p hp hanti
    have h1 : ¬ (arg1 = ['-', '-', 'h', 'e', 'l', 'p'] ∨ arg1 = ['-', 'h']) := by
      rintro (h | h) <;> subst h <;> simp at hhead
    have h2 : ¬ arg1 = ['-', '-', 'v', 'e', 'r', 's', 'i', 'o', 'n'] := by
      intro h
      subst h
      simp at hhead
    obtain ⟨ps, h3, h4⟩ := main_parse_loop_antis PATH_MAX (arg1 :: rest) [] 0 hall
    unfold findglob_main
    simp only [if_neg h1, if_neg h2, h3, List.nil_append, Nat.zero_add, h4, if_true]

theorem findglob_main_only_antipatterns_witness :
    findglob_main 4096 (fun _ => none) (fun _ => 0)
        [['f', 'i', 'n', 'd', 'g', 'l', 'o', 'b'], ['!', 'a'], ['!', '*', '*']]
      = some (1, [.only_antipatterns 2]) := by
  have h1 : pattern_parse 4096 ['!', 'a']
      = some { sects := [.SECTION_CONSTANT ['a']], anti := true, cls := 3, start := ['a'],
               printstart := ['a'], order := 0 } := by
    simp [pattern_parse, pattern_parse_header, extended_syntax_parse, string_sub,
      pattern_parse_sections, path_iter, path_next, _get_volume, _get_leading_sep,
      _get_leading_sep_loop, _get_leading_nonsep, _get_leading_nonsep_loop, _is_sep,
      section_parse, string_eq, strncmp, DOUBLESTAR, section_parse_loop, section_classify,
      parse_state.len, consecutive_any_loop, section_t.isAny, pattern_start_loop, path_extend,
      last_is_sep, CLASS_ANY, CLASS_DIR]
  have h2 : pattern_parse 4096 ['!', '*', '*']
      = some { sects := [.SECTION_ANY], anti := true, cls := 3, start := [],
               printstart := [], order := 0 } := by
    simp [pattern_parse, pattern_parse_header, extended_syntax_parse, string_sub,
      pattern_parse_sections, path_iter, path_next, _get_volume, _get_leading_sep,
      _get_leading_sep_loop, _get_leading_nonsep, _get_leading_nonsep_loop, _is_sep,
      section_parse, string_eq, strncmp, DOUBLESTAR, section_parse_loop, section_classify,
      parse_state.len, consecutive_any_loop, section_t.isAny, pattern_start_loop, path_extend,
      last_is_sep, CLASS_ANY, CLASS_DIR]
  exact findglob_main_only_antipatterns 4096 _ _ _ [['!', 'a'], ['!', '*', '*']] (by simp)
    (by
      intro a ha
      simp only [List.mem_cons, List.mem_singleton, List.not_mem_nil, or_false] at ha
      rcases ha with rfl | rfl
      · exact ⟨_, h1, rfl⟩
      · exact ⟨_, h2, rfl⟩)

end Findglob


namespace Findglob

/-! ## string_cmp is the byte-lexicographic order -/

theorem toNat_inj (x y : Char) (h : x.toNat = y.toNat) : x = y := by
  apply Char.ext
  apply UInt32.ext
  exact h

theorem byte_lt_order : IsStrictTotalOrder Char (fun x y : Char => x.toNat < y.toNat) where
  trichotomous := by
    intro a b
    rcases Nat.lt_trichotomy a.toNat b.toNat with h | h | h
    · exact Or.inl h
    · exact Or.inr (Or.inl (toNat_inj a b h))
    · exact Or.inr (Or.inr h)
  irrefl := fun a => Nat.lt_irrefl _
  trans := fun _ _ _ => Nat.lt_trans

/-- Function `string_cmp` on two strings that start with the same byte, not NUL. -/
theorem string_cmp_cons (x : Char) (a b : string_t) (hx : x.toNat ≠ 0) :
    string_cmp (x :: a) (x :: b) = string_cmp a b := by
  unfold string_cmp
  simp only [List.length_cons, Nat.add_lt_add_iff_right]
  by_cases h : a.length < b.length
  · simp only [h, if_true, strncmp, ne_eq, not_true_eq_false, if_false, hx]
  · simp only [h, if_false, strncmp, ne_eq, not_true_eq_false, hx]

/-- Function `string_cmp` on two strings that start with different bytes. -/
theorem string_cmp_ne (x y : Char) (a b : string_t) (hxy : x ≠ y) :
    string_cmp (x :: a) (y :: b) = (x.toNat : Int) - (y.toNat : Int) := by
  have hne : (x.toNat : Int) - (y.toNat : Int) ≠ 0 := by
    intro h
    apply hxy
    apply toNat_inj
    omega
  unfold string_cmp
  simp only [List.length_cons, Nat.add_lt_add_iff_right]
  by_cases h : a.length < b.length
  · simp only [h, if_true, strncmp, ne_eq, hxy, not_false_eq_true, hne]
  · simp only [h, if_false, strncmp, ne_eq, hxy, not_false_eq_true, hne, if_true]

/-- Function `string_cmp` on strings without a NUL byte: negative exactly below in
the byte-lexicographic order, zero exactly on equal strings, positive exactly
above. -/
theorem string_cmp_spec : ∀ (a b : string_t), nul_free a → nul_free b →
    (string_cmp a b < 0 ↔ byte_lex a b) ∧ (string_cmp a b = 0 ↔ a = b)
      ∧ (0 < string_cmp a b ↔ byte_lex b a) := by
  intro a
  induction a with
  | nil =>
    intro b _ _
    cases b with
    | nil =>
      refine ⟨?_, ?_, ?_⟩ <;> simp [string_cmp, strncmp, byte_lex]
    | cons y bs =>
      refine ⟨?_, ?_, ?_⟩ <;> simp [string_cmp, strncmp, byte_lex, List.Lex.nil]
  | cons x as ih =>
    intro b ha hb
    cases b with
    | nil =>
      refine ⟨?_, ?_, ?_⟩ <;> simp [string_cmp, strncmp, byte_lex, List.Lex.nil]
    | cons y bs =>
      have hx : x.toNat ≠ 0 := ha x (List.mem_cons_self _ _)
      have has : nul_free as := fun c hc => ha c (List.mem_cons_of_mem _ hc)
      have hbs : nul_free bs := fun c hc => hb c (List.mem_cons_of_mem _ hc)
      by_cases hxy : x = y
      · subst hxy
        rw [string_cmp_cons x as bs hx]
        obtain ⟨h1, h2, h3⟩ := ih bs has hbs
        unfold byte_lex at *
        refine ⟨?_, ?_, ?_⟩
        · rw [@List.Lex.cons_iff _ (fun x y : Char => x.toNat < y.toNat) ⟨fun c => Nat.lt_irrefl _⟩]
          exact h1
        · rw [h2]
          simp
        · rw [@List.Lex.cons_iff _ (fun x y : Char => x.toNat < y.toNat) ⟨fun c => Nat.lt_irrefl _⟩]
          exact h3
      · rw [string_cmp_ne x y as bs hxy]
        have hne : x.toNat ≠ y.toNat := fun h => hxy (toNat_inj x y h)
        unfold byte_lex
        refine ⟨?_, ?_, ?_⟩
        · constructor
          · intro h
            exact List.Lex.rel (by omega)
          · intro h
            cases h with
            | cons h => exact absurd rfl hxy
            | rel h => omega
        · constructor
          · intro h
            exact absurd (by omega) hne
          · intro h
            exact absurd (List.cons.inj h).1 hxy
        · constructor
          · intro h
            exact List.Lex.rel (by omega)
          · intro h
            cases h with
            | cons h => exact absurd rfl hxy
            | rel h => omega

theorem byte_lex_trans (a b c : string_t) (h1 : byte_lex a b) (h2 : byte_lex b c) :
    byte_lex a c :=
  (@List.Lex.isStrictTotalOrder _ (fun x y : Char => x.toNat < y.toNat) byte_lt_order).trans
    a b c h1 h2

theorem byte_lex_asymm (a b : string_t) (h1 : byte_lex a b) (h2 : byte_lex b a) : False :=
  (@List.Lex.isAsymm _ (fun x y : Char => x.toNat < y.toNat)
    ⟨fun _ _ h1 h2 => Nat.lt_asymm h1 h2⟩).asymm a b h1 h2

/-- Function `string_cmp` never puts a string before itself. -/
theorem string_cmp_self : ∀ a : string_t, string_cmp a a = 0 := by
  intro a
  have h : ∀ (s : List Char) (n : Nat), strncmp s s n = 0 := by
    intro s
    induction s with
    | nil =>
      intro n
      cases n <;> simp [strncmp]
    | cons x t ih =>
      intro n
      cases n with
      | zero => simp [strncmp]
      | succ n =>
        simp only [strncmp, ne_eq, not_true_eq_false, if_false]
        split
        · rfl
        · exact ih n
  unfold string_cmp
  simp [h]

theorem string_cmp_lt_trans (a b c : string_t) (ha : nul_free a) (hb : nul_free b)
    (hc : nul_free c) (h1 : string_cmp a b < 0) (h2 : string_cmp b c < 0) :
    string_cmp a c < 0 :=
  (string_cmp_spec a c ha hc).1.2
    (byte_lex_trans a b c ((string_cmp_spec a b ha hb).1.1 h1)
      ((string_cmp_spec b c hb hc).1.1 h2))

theorem string_cmp_asymm (a b : string_t) (ha : nul_free a) (hb : nul_free b)
    (h1 : string_cmp a b < 0) (h2 : string_cmp b a < 0) : False :=
  byte_lex_asymm a b ((string_cmp_spec a b ha hb).1.1 h1) ((string_cmp_spec b a hb ha).1.1 h2)

theorem string_cmp_total (a b : string_t) (ha : nul_free a) (hb : nul_free b) :
    string_cmp a b < 0 ∨ a = b ∨ string_cmp b a < 0 := by
  obtain ⟨h1, h2, h3⟩ := string_cmp_spec a b ha hb
  obtain ⟨g1, _, _⟩ := string_cmp_spec b a hb ha
  rcases Int.lt_trichotomy (string_cmp a b) 0 with h | h | h
  · exact Or.inl h
  · exact Or.inr (Or.inl (h2.1 h))
  · exact Or.inr (Or.inr (g1.2 (h3.1 h)))

theorem string_dup_nul_free (c : List Char) : nul_free (string_dup c) := by
  intro x hx
  have := List.mem_takeWhile_imp hx
  simpa using this

theorem c_str_nul_free (s : string_t) (h : nul_free s) : c_str s = s := by
  unfold c_str
  rw [List.takeWhile_eq_self_iff]
  intro x hx
  simpa using h x hx

end Findglob


namespace Findglob

/-! ## What qsort_files leaves -/

/-- An array in which every element compares at most equal to the next one, of
files with distinct names, is strictly ascending throughout. -/
theorem chain_ascending : ∀ out : List file_t,
    (∀ f ∈ out, nul_free f.name) → (out.map (fun f => f.name)).Nodup →
    out.Chain' (fun x y => _qsort_files_cmp x y ≤ 0) →
    out.Pairwise (fun a b => string_cmp a.name b.name < 0) := by
  intro out
  induction out with
  | nil =>
    intro _ _ _
    exact List.Pairwise.nil
  | cons a rest ih =>
    intro hn hd hc
    have hn' : ∀ f ∈ rest, nul_free f.name := fun f hf => hn f (List.mem_cons_of_mem _ hf)
    have hd' := (List.nodup_cons.1 hd).2
    have hrest := ih hn' hd' (List.Chain'.tail hc)
    refine List.Pairwise.cons ?_ hrest
    cases rest with
    | nil =>
      intro b hb
      cases hb
    | cons b more =>
      have hab : _qsort_files_cmp a b ≤ 0 := (List.chain'_cons.1 hc).1
      have hna := hn a (List.mem_cons_self _ _)
      have hnb := hn' b (List.mem_cons_self _ _)
      have hne : a.name ≠ b.name := by
        intro h
        apply (List.nodup_cons.1 hd).1
        show a.name ∈ List.map (fun f => f.name) (b :: more)
        rw [h]
        exact List.mem_map.2 ⟨b, List.mem_cons_self _ _, rfl⟩
      have hlt : string_cmp a.name b.name < 0 := by
        rcases lt_or_eq_of_le hab with h | h
        · exact h
        · exact absurd ((string_cmp_spec a.name b.name hna hnb).2.1.1 h) hne
      intro c hc'
      rcases List.mem_cons.1 hc' with rfl | hc'
      · exact hlt
      · exact string_cmp_lt_trans a.name b.name c.name hna hnb
          (hn' c (List.mem_cons_of_mem _ hc')) hlt ((List.pairwise_cons.1 hrest).1 c hc')

/-- Function `qsort_files` leaves the files strictly ascending by `string_cmp`. -/
theorem qsort_files_ascending (files out : List file_t)
    (hn : ∀ f ∈ files, nul_free f.name) (hd : (files.map (fun f => f.name)).Nodup)
    (h : qsort_files files out) :
    out.Pairwise (fun a b => string_cmp a.name b.name < 0) := by
  obtain ⟨hperm, hchain⟩ := h
  refine chain_ascending out (fun f hf => hn f (hperm.mem_iff.1 hf)) ?_ hchain
  exact ((hperm.map (fun f => f.name)).nodup_iff).2 hd

/-- Two strictly ascending arrays of the same files are the same array. -/
theorem ascending_unique (l1 l2 : List file_t) (hperm : l1.Perm l2)
    (hn : ∀ f ∈ l1, nul_free f.name)
    (h1 : l1.Pairwise (fun a b => string_cmp a.name b.name < 0))
    (h2 : l2.Pairwise (fun a b => string_cmp a.name b.name < 0)) : l1 = l2 := by
  have hn2 : ∀ f ∈ l2, nul_free f.name := fun f hf => hn f (hperm.mem_iff.2 hf)
  have g1 : l1.Pairwise (fun a b : file_t => byte_lex a.name b.name) :=
    List.Pairwise.imp_of_mem
      (fun {a b} ha hb h => (string_cmp_spec a.name b.name (hn a ha) (hn b hb)).1.1 h) h1
  have g2 : l2.Pairwise (fun a b : file_t => byte_lex a.name b.name) :=
    List.Pairwise.imp_of_mem
      (fun {a b} ha hb h => (string_cmp_spec a.name b.name (hn2 a ha) (hn2 b hb)).1.1 h) h2
  exact @List.eq_of_perm_of_sorted _ (fun a b : file_t => byte_lex a.name b.name)
    ⟨fun a b h1 h2 => (byte_lex_asymm _ _ h1 h2).elim⟩ l1 l2 hperm g1 g2

/-- Function `qsort_files` leaves one array, whatever the order of the files
before it and whatever the algorithm of `qsort`. -/
theorem qsort_files_unique (l1 l2 out1 out2 : List file_t) (hperm : l1.Perm l2)
    (hn : ∀ f ∈ l1, nul_free f.name) (hd : (l1.map (fun f => f.name)).Nodup)
    (h1 : qsort_files l1 out1) (h2 : qsort_files l2 out2) : out1 = out2 := by
  have hn2 : ∀ f ∈ l2, nul_free f.name := fun f hf => hn f (hperm.mem_iff.2 hf)
  have hd2 : (l2.map (fun f => f.name)).Nodup := ((hperm.map (fun f => f.name)).nodup_iff).1 hd
  refine ascending_unique out1 out2 ((h1.1.trans hperm).trans h2.1.symm)
    (fun f hf => hn f (h1.1.mem_iff.1 hf))
    (qsort_files_ascending l1 out1 hn hd h1) (qsort_files_ascending l2 out2 hn2 hd2 h2)

/-- An insertion sort by the byte-lexicographic order of the names is one sort
that `qsort` may be. -/
theorem insertion_sort_qsort (l : List file_t) (hn : ∀ f ∈ l, nul_free f.name) :
    qsort_files l (insertion_qsort l) := by
  unfold insertion_qsort
  have htotal : IsTotal file_t (fun a b : file_t => ¬ byte_lex b.name a.name) :=
    ⟨fun a b => by
      by_cases h : byte_lex b.name a.name
      · exact Or.inr (fun h2 => byte_lex_asymm _ _ h h2)
      · exact Or.inl h⟩
  have hconn : ∀ a b c : string_t, byte_lex a c → byte_lex a b ∨ byte_lex b c := by
    intro a b c h
    have := @List.Lex.isOrderConnected _ (fun x y : Char => x.toNat < y.toNat)
      ⟨fun x y z (h : x.toNat < z.toNat) => by
        by_cases hxy : x.toNat < y.toNat
        · exact Or.inl hxy
        · exact Or.inr (by omega)⟩
      ⟨byte_lt_order.trichotomous⟩
    exact this.conn a b c h
  have htrans : IsTrans file_t (fun a b : file_t => ¬ byte_lex b.name a.name) :=
    ⟨fun a b c h1 h2 h3 => by
      rcases hconn c.name b.name a.name h3 with h | h
      · exact h2 h
      · exact h1 h⟩
  have hsorted := @List.sorted_insertionSort _ (fun a b : file_t => ¬ byte_lex b.name a.name)
    _ htotal htrans l
  have hperm := List.perm_insertionSort (fun a b : file_t => ¬ byte_lex b.name a.name) l
  refine ⟨hperm, ?_⟩
  have hpair : (List.insertionSort (fun a b : file_t => ¬ byte_lex b.name a.name) l).Pairwise
      (fun x y => _qsort_files_cmp x y ≤ 0) := by
    refine List.Pairwise.imp_of_mem ?_ hsorted
    intro a b ha hb h
    have hna := hn a (hperm.mem_iff.1 ha)
    have hnb := hn b (hperm.mem_iff.1 hb)
    unfold _qsort_files_cmp
    by_contra hgt
    exact h ((string_cmp_spec a.name b.name hna hnb).2.2.1 (by omega))
  exact List.Pairwise.chain' hpair

end Findglob


namespace Findglob

/-! ## The walk returns: the filters and process_dir on members inside their patterns -/

theorem step_targets_lt (flags : match_flags_e) (k len : Nat)
    (hlt : ∀ n, n ≤ 2 → has_flag flags (match_n n) = true → k + n < len) :
    ∀ t ∈ step_targets flags k, t < len := by
  intro t ht
  unfold step_targets at ht
  simp only [List.mem_append] at ht
  rcases ht with (ht | ht) | ht
  · split at ht
    · rename_i h
      simp only [List.mem_singleton] at ht
      subst ht
      exact hlt 0 (by omega) h
    · cases ht
  · split at ht
    · rename_i h
      simp only [List.mem_singleton] at ht
      subst ht
      exact hlt 1 (by omega) h
    · cases ht
  · split at ht
    · rename_i h
      simp only [List.mem_singleton] at ht
      subst ht
      exact hlt 2 (by omega) h
    · cases ht

/-- The loop of `process_dir` over members inside their patterns returns, and
leaves an array of members inside their patterns. -/
theorem process_dir_loop_total (name : string_t) :
    ∀ (parent : List match_t) (out : process_dir_out),
      (∀ m ∈ parent, m.matched < m.pattern.len) →
      (∀ m ∈ out.newmatches, m.matched < m.pattern.len) →
      ∃ r, process_dir_loop name parent out = some r
        ∧ ∀ m ∈ r.newmatches, m.matched < m.pattern.len := by
  intro parent
  induction parent with
  | nil =>
    intro out _ ho
    exact ⟨out, by simp [process_dir_loop], ho⟩
  | cons m rest ih =>
    intro out hk ho
    obtain ⟨hflags, hlt⟩ := member_flags_eq name m (hk m (List.mem_cons_self _ _))
    by_cases hcond : ((member_flags name m &&& MATCH_TERMINAL) != 0 && m.pattern.anti) = true
    · refine ⟨out, ?_, ho⟩
      simp only [process_dir_loop, hflags, Option.bind_eq_bind, Option.some_bind, hcond,
        if_true]
    · have hcond : ((member_flags name m &&& MATCH_TERMINAL) != 0 && m.pattern.anti) = false := by
        simpa using hcond
      simp only [process_dir_loop, hflags, Option.bind_eq_bind, Option.some_bind, hcond,
        Bool.false_eq_true, if_false]
      have hm : (⟨m.pattern, m.matched⟩ : match_t) = m := rfl
      have := process_dir_member_any m.pattern m.matched (member_flags name m)
        (if ((member_flags name m &&& MATCH_TERMINAL) != 0) = true
          then { out with isterminal := true } else out)
        (process_dir_loop name rest) hlt
      rw [hm] at this
      simp only [bind, Option.bind_eq_bind] at this
      rw [this]
      apply ih _ (fun x hx => hk x (List.mem_cons_of_mem _ hx))
      intro x hx
      simp only [List.mem_append, List.mem_map] at hx
      rcases hx with hx | ⟨t, ht, rfl⟩
      · apply ho
        split at hx <;> exact hx
      · exact step_targets_lt _ _ _ hlt t ht

/-- Function `process_dir` on members inside their patterns returns, and leaves
members inside their patterns. -/
theorem process_dir_total (name : string_t) (parent : List match_t)
    (hk : ∀ m ∈ parent, m.matched < m.pattern.len) :
    ∃ r, process_dir name parent [] = some r
      ∧ ∀ m ∈ r.newmatches, m.matched < m.pattern.len := by
  unfold process_dir
  exact process_dir_loop_total name parent _ hk (by simp)

/-- Function `keep_file` on members inside their patterns returns. -/
theorem keep_file_total (name : string_t) :
    ∀ ms : List match_t, (∀ m ∈ ms, m.matched < m.pattern.len) →
      ∃ b, keep_file ms name = some b := by
  intro ms
  induction ms with
  | nil =>
    intro _
    exact ⟨false, rfl⟩
  | cons m rest ih =>
    intro hk
    obtain ⟨flags, hf⟩ := match_text_some name CLASS_FILE m (hk m (List.mem_cons_self _ _))
    obtain ⟨b, hb⟩ := ih (fun x hx => hk x (List.mem_cons_of_mem _ hx))
    unfold keep_file
    rw [hf]
    simp only
    split
    · exact ⟨b, hb⟩
    · exact ⟨_, rfl⟩

/-- The filter of the `readdir` loop on members inside their patterns returns. -/
theorem keep_total (ms : List match_t) (hk : ∀ m ∈ ms, m.matched < m.pattern.len)
    (isdir : Bool) (name : string_t) :
    ∃ b, (if isdir then keep_dir ms name else keep_file ms name) = some b := by
  cases isdir with
  | true =>
    rw [if_pos rfl, keep_dir_spec ms name hk]
    exact ⟨_, rfl⟩
  | false =>
    simp only [Bool.false_eq_true, if_false]
    exact keep_file_total name ms hk

end Findglob


namespace Findglob

/-! ## The readdir loop -/

/-- The `readdir` loop when the filter returns on every entry: the kept entries
in the order of the enumeration, and the largest length of a kept name. -/
theorem findglob_scan_some (ms : List match_t) :
    ∀ (entries : List dirent) (files : List file_t) (maxlen : Nat),
      (∀ e ∈ entries, ∃ b, keep_entry ms e = some b) →
      ∃ ml, findglob_scan ms entries files maxlen
          = some (files ++ (entries.filter (fun e => keep_entry ms e == some true)).map
              entry_file, ml)
        ∧ maxlen ≤ ml
        ∧ (∀ e ∈ entries, keep_entry ms e = some true → (string_dup e.d_name).length ≤ ml)
        ∧ (ml = maxlen ∨ ∃ e ∈ entries, keep_entry ms e = some true
            ∧ (string_dup e.d_name).length = ml) := by
  intro entries
  induction entries with
  | nil =>
    intro files maxlen _
    exact ⟨maxlen, by simp [findglob_scan], Nat.le_refl _, by simp, Or.inl rfl⟩
  | cons e rest ih =>
    intro files maxlen hall
    obtain ⟨b, hb⟩ := hall e (List.mem_cons_self _ _)
    have hrest : ∀ x ∈ rest, ∃ b, keep_entry ms x = some b :=
      fun x hx => hall x (List.mem_cons_of_mem _ hx)
    have hb' := hb
    unfold keep_entry at hb'
    cases b with
    | false =>
      obtain ⟨ml, h1, h2, h3, h4⟩ := ih files maxlen hrest
      refine ⟨ml, ?_, h2, ?_, ?_⟩
      · unfold findglob_scan
        simp only [hb']
        rw [h1]
        simp [hb]
      · intro x hx hkx
        rcases List.mem_cons.1 hx with rfl | hx
        · rw [hb] at hkx
          cases hkx
        · exact h3 x hx hkx
      · rcases h4 with h4 | ⟨x, hx, hkx, hlen⟩
        · exact Or.inl h4
        · exact Or.inr ⟨x, List.mem_cons_of_mem _ hx, hkx, hlen⟩
    | true =>
      obtain ⟨ml, h1, h2, h3, h4⟩ := ih (files ++ [entry_file e])
        (if (string_dup e.d_name).length > maxlen then (string_dup e.d_name).length else maxlen)
        hrest
      refine ⟨ml, ?_, ?_, ?_, ?_⟩
      · unfold findglob_scan
        simp only [hb']
        unfold entry_file at h1
        rw [h1]
        simp [hb, entry_file]
      · split at h2 <;> omega
      · intro x hx hkx
        rcases List.mem_cons.1 hx with rfl | hx
        · split at h2 <;> omega
        · exact h3 x hx hkx
      · rcases h4 with h4 | ⟨x, hx, hkx, hlen⟩
        · by_cases hgt : (string_dup e.d_name).length > maxlen
          · rw [if_pos hgt] at h4
            exact Or.inr ⟨e, List.mem_cons_self _ _, hb, h4.symm⟩
          · rw [if_neg hgt] at h4
            exact Or.inl h4
        · exact Or.inr ⟨x, List.mem_cons_of_mem _ hx, hkx, hlen⟩

/-- The `readdir` loop when the filter reads outside an array on some entry. -/
theorem findglob_scan_none (ms : List match_t) :
    ∀ (entries : List dirent) (files : List file_t) (maxlen : Nat),
      (∃ e ∈ entries, keep_entry ms e = none) →
      findglob_scan ms entries files maxlen = none := by
  intro entries
  induction entries with
  | nil =>
    intro files maxlen h
    obtain ⟨e, he, _⟩ := h
    cases he
  | cons e rest ih =>
    intro files maxlen h
    unfold findglob_scan
    cases hk : keep_entry ms e with
    | none =>
      unfold keep_entry at hk
      simp only [hk]
    | some b =>
      have hrest : ∃ x ∈ rest, keep_entry ms x = none := by
        obtain ⟨x, hx, hkx⟩ := h
        rcases List.mem_cons.1 hx with rfl | hx
        · rw [hk] at hkx
          cases hkx
        · exact ⟨x, hx, hkx⟩
      unfold keep_entry at hk
      simp only [hk]
      cases b with
      | false => exact ih _ _ hrest
      | true => exact ih _ _ hrest

/-- The `readdir` loop does not depend on the order of the entries, but for the
order of the files that it keeps. -/
theorem findglob_scan_perm (ms : List match_t) (entries entries2 : List dirent)
    (h : entries2.Perm entries) :
    (findglob_scan ms entries [] 0 = none ∧ findglob_scan ms entries2 [] 0 = none)
      ∨ ∃ kept kept2 ml, findglob_scan ms entries [] 0 = some (kept, ml)
          ∧ findglob_scan ms entries2 [] 0 = some (kept2, ml) ∧ kept2.Perm kept
          ∧ kept = (entries.filter (fun e => keep_entry ms e == some true)).map entry_file := by
  by_cases hall : ∀ e ∈ entries, ∃ b, keep_entry ms e = some b
  · have hall2 : ∀ e ∈ entries2, ∃ b, keep_entry ms e = some b :=
      fun e he => hall e (h.mem_iff.1 he)
    obtain ⟨ml, h1, _, h3, h4⟩ := findglob_scan_some ms entries [] 0 hall
    obtain ⟨ml2, g1, _, g3, g4⟩ := findglob_scan_some ms entries2 [] 0 hall2
    have hml : ml2 = ml := by
      apply Nat.le_antisymm
      · rcases g4 with g4 | ⟨x, hx, hkx, hlen⟩
        · omega
        · rw [← hlen]
          exact h3 x (h.mem_iff.1 hx) hkx
      · rcases h4 with h4 | ⟨x, hx, hkx, hlen⟩
        · omega
        · rw [← hlen]
          exact g3 x (h.mem_iff.2 hx) hkx
    subst hml
    exact Or.inr ⟨_, _, ml2, h1, g1, by
      simp only [List.nil_append]
      exact (h.filter _).map _, by simp⟩
  · have hex : ∃ e ∈ entries, keep_entry ms e = none := by
      by_contra hno
      apply hall
      intro e he
      cases hk : keep_entry ms e with
      | none => exact absurd ⟨e, he, hk⟩ hno
      | some b => exact ⟨b, rfl⟩
    have hex2 : ∃ e ∈ entries2, keep_entry ms e = none := by
      obtain ⟨e, he, hk⟩ := hex
      exact ⟨e, h.mem_iff.2 he, hk⟩
    exact Or.inl ⟨findglob_scan_none ms entries [] 0 hex, findglob_scan_none ms entries2 [] 0 hex2⟩

end Findglob


namespace Findglob

/-! ## The walk does not depend on the order of the enumeration -/

theorem kept_names (ms : List match_t) (entries : List dirent)
    (hd : (entries.map (fun e => string_dup e.d_name)).Nodup) :
    (∀ f ∈ (entries.filter (fun e => keep_entry ms e == some true)).map entry_file,
        nul_free f.name)
      ∧ (((entries.filter (fun e => keep_entry ms e == some true)).map entry_file).map
          (fun f => f.name)).Nodup := by
  constructor
  · intro f hf
    obtain ⟨e, _, rfl⟩ := List.mem_map.1 hf
    exact string_dup_nul_free e.d_name
  · rw [List.map_map]
    exact List.Nodup.sublist (List.Sublist.map _ (List.filter_sublist _)) hd

/-- Function `_findglob` returns the same, and prints the same lines, on two file
systems that differ only in the order of the enumerations, and with any two
sorting algorithms. -/
theorem findglob_order_free (opendir opendir2 : List Char → Option (List dirent))
    (qsort qsort2 : List file_t → List file_t)
    (hsame : same_entries opendir opendir2)
    (hsort : ∀ l, (∀ f ∈ l, nul_free f.name) → qsort_files l (qsort l))
    (hsort2 : ∀ l, (∀ f ∈ l, nul_free f.name) → qsort_files l (qsort2 l))
    (hdir : ∀ p entries, opendir p = some entries → readdir_ok entries) :
    ∀ (fuel : Nat) (path : string_t) (pathcap : Nat) (ms : List match_t),
      _findglob opendir2 qsort2 fuel path pathcap ms
        = _findglob opendir qsort fuel path pathcap ms := by
  intro fuel
  induction fuel with
  | zero =>
    intro path pathcap ms
    rfl
  | succ fuel ih =>
    intro path pathcap ms
    have hrec : _findglob opendir2 qsort2 fuel = _findglob opendir qsort fuel := by
      funext p c m
      exact ih p c m
    unfold _findglob
    by_cases hcap : path.length + 1 > pathcap
    · rw [if_pos hcap, if_pos hcap]
    · rw [if_neg hcap, if_neg hcap]
      have hs := hsame (if path.length ≠ 0 then c_str path else ['.'])
      cases h1 : opendir (if path.length ≠ 0 then c_str path else ['.']) with
      | none =>
        cases h2 : opendir2 (if path.length ≠ 0 then c_str path else ['.']) with
        | none => simp only [h1, h2]
        | some entries2 =>
          rw [h1, h2] at hs
          exact hs.elim
      | some entries =>
        cases h2 : opendir2 (if path.length ≠ 0 then c_str path else ['.']) with
        | none =>
          rw [h1, h2] at hs
          exact hs.elim
        | some entries2 =>
          rw [h1, h2] at hs
          simp only at hs
          rcases findglob_scan_perm ms entries entries2 hs with ⟨g1, g2⟩ | ⟨kept, kept2, ml, g1, g2, hperm, hkept⟩
          · simp only [h1, h2, g1, g2]
          · simp only [h1, h2, g1, g2, hrec]
            obtain ⟨hn, hnd⟩ := kept_names ms entries (hdir _ entries h1).1
            rw [← hkept] at hn hnd
            have hn2 : ∀ f ∈ kept2, nul_free f.name := fun f hf => hn f (hperm.mem_iff.1 hf)
            rw [qsort_files_unique kept kept2 (qsort kept) (qsort2 kept2) hperm.symm hn hnd
              (hsort kept hn) (hsort2 kept2 hn2)]

end Findglob


namespace Findglob

/-! ## The order of the walk on paths -/

theorem path_before_asymm (x y : string_t) (h1 : path_before x y) (h2 : path_before y x) :
    False :=
  (@List.Lex.isAsymm _ (fun m n : Nat => m < n)
    ⟨fun _ _ h1 h2 => Nat.lt_asymm h1 h2⟩).asymm _ _ h1 h2

theorem path_before_irrefl (x : string_t) (h : path_before x x) : False :=
  path_before_asymm x x h h

/-- A common front does not change the order. -/
theorem path_before_append (p x y : string_t) (h : path_before x y) :
    path_before (p ++ x) (p ++ y) := by
  unfold path_before at *
  rw [List.map_append, List.map_append]
  exact List.Lex.append_left _ h _

/-- A path comes before every path that continues it. -/
theorem path_before_below : ∀ (d : string_t) (c : Char) (r : string_t),
    path_before d (d ++ c :: r) := by
  intro d c r
  induction d with
  | nil => exact List.Lex.nil
  | cons x t ih => exact List.Lex.cons ih

/-- Names in byte-lexicographic order, each followed by the rest of a path, give
paths in the order of the walk. -/
theorem path_before_names (a b : string_t) (hab : byte_lex a b) :
    ∀ (ra rb : string_t), '/' ∉ a → '/' ∉ b → nul_free b →
      (ra = [] ∨ ra.head? = some '/') → path_before (a ++ ra) (b ++ rb) := by
  unfold byte_lex at hab
  induction hab with
  | nil =>
    rename_i y bs
    intro ra rb _ hb hnb hra
    have hy : y ≠ '/' := fun h => hb (h ▸ List.mem_cons_self _ _)
    have hy0 : y.toNat ≠ 0 := hnb y (List.mem_cons_self _ _)
    rcases hra with rfl | hra
    · exact List.Lex.nil
    · cases ra with
      | nil => cases hra
      | cons c r =>
        simp only [List.head?_cons, Option.some.injEq] at hra
        subst hra
        unfold path_before
        simp only [List.nil_append, List.map_cons, List.cons_append]
        apply List.Lex.rel
        simp only [path_key, if_true, hy, if_false]
        omega
  | cons h ih =>
    rename_i x as bs
    intro ra rb ha hb hnb hra
    have := ih ra rb (fun h => ha (List.mem_cons_of_mem _ h))
      (fun h => hb (List.mem_cons_of_mem _ h))
      (fun c hc => hnb c (List.mem_cons_of_mem _ hc)) hra
    unfold path_before at *
    simp only [List.cons_append, List.map_cons]
    exact List.Lex.cons this
  | rel h =>
    rename_i x as y bs
    intro ra rb ha hb _ _
    have hx : x ≠ '/' := fun h => ha (h ▸ List.mem_cons_self _ _)
    have hy : y ≠ '/' := fun h => hb (h ▸ List.mem_cons_self _ _)
    unfold path_before
    simp only [List.cons_append, List.map_cons]
    apply List.Lex.rel
    simp only [path_key, hx, hy, if_false]
    exact h

/-- In lines that ascend in the order of the walk, a line that is before another in
the order is printed before it. -/
theorem walk_position (out : List string_t) (hp : out.Pairwise path_before)
    (i j : Nat) (x y : string_t) (hi : out[i]? = some x) (hj : out[j]? = some y)
    (h : path_before x y) : i < j := by
  by_contra hij
  rcases Nat.lt_or_ge j i with hlt | hge
  · obtain ⟨hjl, hjx⟩ := List.getElem?_eq_some.1 hj
    obtain ⟨hil, hix⟩ := List.getElem?_eq_some.1 hi
    have := List.pairwise_iff_getElem.1 hp j i hjl hil hlt
    rw [hjx, hix] at this
    exact path_before_asymm x y h this
  · have : i = j := by omega
    subst this
    rw [hi] at hj
    cases hj
    exact path_before_irrefl x h

/-- In lines that ascend in the order of the walk, a line that is printed before
another is before it in the order. -/
theorem walk_position_before (out : List string_t) (hp : out.Pairwise path_before)
    (i j : Nat) (x y : string_t) (hi : out[i]? = some x) (hj : out[j]? = some y)
    (h : i < j) : path_before x y := by
  obtain ⟨hjl, hjx⟩ := List.getElem?_eq_some.1 hj
  obtain ⟨hil, hix⟩ := List.getElem?_eq_some.1 hi
  have := List.pairwise_iff_getElem.1 hp i j hil hjl h
  rw [hjx, hix] at this
  exact this

theorem nul_free_append (a b : string_t) (ha : nul_free a) (hb : nul_free b) :
    nul_free (a ++ b) := by
  intro c hc
  rcases List.mem_append.1 hc with h | h
  · exact ha c h
  · exact hb c h

theorem nul_free_slash : nul_free ['/'] := by
  intro c hc
  simp only [List.mem_singleton] at hc
  subst hc
  decide

/-- The joining `/` after a path that ends in a name. -/
theorem findglob_join_name (base name : string_t) (hne : name ≠ []) (hs : '/' ∉ name) :
    findglob_join (base ++ name) = base ++ name ++ ['/'] := by
  unfold findglob_join
  have hlast : (base ++ name).getLast? = some (name.getLast hne) := by
    rw [List.getLast?_append_of_ne_nil _ hne, List.getLast?_eq_getLast _ hne]
  rw [hlast]
  have : name.getLast hne ≠ '/' := fun h => hs (h ▸ List.getLast_mem hne)
  simp [_is_sep, this]

theorem findglob_join_nul_free (path : string_t) (h : nul_free path) :
    nul_free (findglob_join path) := by
  unfold findglob_join
  split
  · exact h
  · split
    · exact nul_free_append _ _ h nul_free_slash
    · exact h

theorem findglob_join_length (path : string_t) :
    (findglob_join path).length ≤ path.length + 1 := by
  unfold findglob_join
  split
  · omega
  · split
    · simp
    · omega

end Findglob


namespace Findglob

/-! ## The loop of the walk over the sorted files -/

/-- The lines of one file of the loop, then the lines of the files after it: the
line of the file itself if printed, the lines from below it, and then lines that
start with the names of later files. -/
theorem block_walk (base : string_t) (f : file_t) (rest : List file_t)
    (hbase : nul_free base) (hnf : nul_free f.name) (hsf : '/' ∉ f.name)
    (hrest : ∀ g ∈ rest, nul_free g.name ∧ '/' ∉ g.name ∧ string_cmp f.name g.name < 0)
    (own : Bool) (sub later : List string_t)
    (hsub : sub.Pairwise path_before)
    (hsubl : ∀ l ∈ sub, nul_free l ∧ ∃ t, l = base ++ f.name ++ '/' :: t)
    (hlater : later.Pairwise path_before)
    (hlaterl : ∀ l ∈ later, nul_free l ∧ ∃ g ∈ rest, ∃ r, l = base ++ g.name ++ r
      ∧ (r = [] ∨ r.head? = some '/')) :
    ((if own then [base ++ f.name] else []) ++ sub ++ later).Pairwise path_before
      ∧ ∀ l ∈ (if own then [base ++ f.name] else []) ++ sub ++ later,
          nul_free l ∧ ∃ g ∈ f :: rest, ∃ r, l = base ++ g.name ++ r
            ∧ (r = [] ∨ r.head? = some '/') := by
  have hshape : ∀ l ∈ (if own then [base ++ f.name] else []) ++ sub,
      nul_free l ∧ ∃ r, l = base ++ f.name ++ r ∧ (r = [] ∨ r.head? = some '/') := by
    intro l hl
    rcases List.mem_append.1 hl with hl | hl
    · cases own with
      | false => cases hl
      | true =>
        simp only [if_true, List.mem_singleton] at hl
        subst hl
        exact ⟨nul_free_append _ _ hbase hnf, [], by simp, Or.inl rfl⟩
    · obtain ⟨h1, t, h2⟩ := hsubl l hl
      exact ⟨h1, '/' :: t, h2, Or.inr rfl⟩
  constructor
  · rw [List.pairwise_append]
    refine ⟨?_, hlater, ?_⟩
    · rw [List.pairwise_append]
      refine ⟨?_, hsub, ?_⟩
      · cases own <;> simp
      · intro x hx y hy
        cases own with
        | false => cases hx
        | true =>
          simp only [if_true, List.mem_singleton] at hx
          subst hx
          obtain ⟨_, t, h2⟩ := hsubl y hy
          rw [h2]
          exact path_before_below _ _ _
    · intro x hx y hy
      obtain ⟨_, r, hxe, hr⟩ := hshape x hx
      obtain ⟨_, g, hg, ry, hye, _⟩ := hlaterl y hy
      obtain ⟨hng, hsg, hlt⟩ := hrest g hg
      rw [hxe, hye, List.append_assoc, List.append_assoc]
      apply path_before_append
      exact path_before_names _ _ ((string_cmp_spec f.name g.name hnf hng).1.1 hlt) r ry
        hsf hsg hng hr
  · intro l hl
    rcases List.mem_append.1 hl with hl | hl
    · obtain ⟨h1, r, h2, h3⟩ := hshape l hl
      exact ⟨h1, f, List.mem_cons_self _ _, r, h2, h3⟩
    · obtain ⟨h1, g, hg, r, h2, h3⟩ := hlaterl l hl
      exact ⟨h1, g, List.mem_cons_of_mem _ hg, r, h2, h3⟩

/-- The loop of `_findglob` over files in strictly ascending order returns, when
the recursive call does on the directories among them; its lines ascend in the
order of the walk, and each starts with the path of one of the files. -/
theorem findglob_loop_walk
    (recurse : string_t → Nat → List match_t → Option (Int × Nat × List string_t))
    (P : string_t → List match_t → Prop) (base : string_t) (ms : List match_t)
    (hms : ∀ m ∈ ms, m.matched < m.pattern.len) (hbase : nul_free base)
    (hrec : ∀ (sub : string_t) (cap : Nat) (ms2 : List match_t), P sub ms2 → nul_free sub →
      (∀ m ∈ ms2, m.matched < m.pattern.len) → sub.length + 1 ≤ cap → 256 ≤ cap →
      ∃ ret cap2 out, recurse sub cap ms2 = some (ret, cap2, out) ∧ cap ≤ cap2
        ∧ out.Pairwise path_before
        ∧ ∀ l ∈ out, nul_free l ∧ ∃ t, l = findglob_join sub ++ t) :
    ∀ (files : List file_t) (retval : Int) (cap : Nat) (out : List string_t),
      (∀ f ∈ files, f.name ≠ [] ∧ '/' ∉ f.name ∧ nul_free f.name
        ∧ base.length + f.name.length + 1 ≤ cap
        ∧ (f.isdir = true → ∀ r, process_dir f.name ms [] = some r →
            r.isintermediate = true → P (base ++ f.name) r.newmatches)) →
      256 ≤ cap →
      files.Pairwise (fun a b => string_cmp a.name b.name < 0) →
      ∃ ret cap2 lines,
        findglob_loop recurse base ms files retval cap out = some (ret, cap2, out ++ lines)
          ∧ cap ≤ cap2 ∧ lines.Pairwise path_before
          ∧ ∀ l ∈ lines, nul_free l ∧ ∃ f ∈ files, ∃ r, l = base ++ f.name ++ r
              ∧ (r = [] ∨ r.head? = some '/') := by
  intro files
  induction files with
  | nil =>
    intro retval cap out _ _ _
    exact ⟨retval, cap, [], by simp [findglob_loop], Nat.le_refl _, List.Pairwise.nil,
      by simp⟩
  | cons f rest ih =>
    intro retval cap out hfiles hcap hsorted
    obtain ⟨hne, hsf, hnf, hlen, hP⟩ := hfiles f (List.mem_cons_self _ _)
    obtain ⟨hhead, hsorted'⟩ := List.pairwise_cons.1 hsorted
    have hrest : ∀ g ∈ rest, nul_free g.name ∧ '/' ∉ g.name ∧ string_cmp f.name g.name < 0 := by
      intro g hg
      obtain ⟨_, h2, h3, _, _⟩ := hfiles g (List.mem_cons_of_mem _ hg)
      exact ⟨h3, h2, hhead g hg⟩
    have hline : c_str (base ++ f.name) = base ++ f.name :=
      c_str_nul_free _ (nul_free_append _ _ hbase hnf)
    have hfiles' : ∀ cap2, cap ≤ cap2 → ∀ g ∈ rest, g.name ≠ [] ∧ '/' ∉ g.name
        ∧ nul_free g.name ∧ base.length + g.name.length + 1 ≤ cap2
        ∧ (g.isdir = true → ∀ r, process_dir g.name ms [] = some r →
            r.isintermediate = true → P (base ++ g.name) r.newmatches) := by
      intro cap2 hc g hg
      obtain ⟨h1, h2, h3, h4, h5⟩ := hfiles g (List.mem_cons_of_mem _ hg)
      exact ⟨h1, h2, h3, by omega, h5⟩
    have hfit : ¬ (base.length + f.name.length + 1 > cap) := by omega
    unfold findglob_loop
    rw [if_neg hfit]
    simp only [hline]
    cases hd : f.isdir with
    | false =>
      simp only [Bool.not_false, if_true]
      obtain ⟨ret, cap2, later, h1, h2, h3, h4⟩ :=
        ih retval cap (out ++ [base ++ f.name]) (hfiles' cap (Nat.le_refl _)) hcap hsorted'
      obtain ⟨g1, g2⟩ := block_walk base f rest hbase hnf hsf hrest true [] later
        List.Pairwise.nil (by simp) h3 h4
      refine ⟨ret, cap2, [base ++ f.name] ++ [] ++ later, ?_, h2, g1, g2⟩
      rw [h1]
      simp
    | true =>
      simp only [Bool.not_true, Bool.false_eq_true, if_false]
      obtain ⟨r, hr, hrange⟩ := process_dir_total f.name ms hms
      rw [hr]
      simp only
      cases hi : r.isintermediate with
      | false =>
        simp only [Bool.false_eq_true, if_false]
        obtain ⟨ret, cap2, later, h1, h2, h3, h4⟩ :=
          ih retval cap (if r.isterminal = true then out ++ [base ++ f.name] else out)
            (hfiles' cap (Nat.le_refl _)) hcap hsorted'
        obtain ⟨g1, g2⟩ := block_walk base f rest hbase hnf hsf hrest r.isterminal [] later
          List.Pairwise.nil (by simp) h3 h4
        refine ⟨ret, cap2, (if r.isterminal = true then [base ++ f.name] else []) ++ [] ++ later,
          ?_, h2, g1, g2⟩
        rw [h1]
        cases r.isterminal <;> simp
      | true =>
        simp only [if_true]
        obtain ⟨ret1, cap1, sub, s1, s2, s3, s4⟩ :=
          hrec (base ++ f.name) cap r.newmatches (hP hd r hr hi) (nul_free_append _ _ hbase hnf) hrange
            (by simp only [List.length_append]; omega) hcap
        rw [s1]
        simp only
        obtain ⟨ret, cap2, later, h1, h2, h3, h4⟩ :=
          ih (if ret1 ≠ 0 then ret1 else retval) cap1
            ((if r.isterminal = true then out ++ [base ++ f.name] else out) ++ sub)
            (hfiles' cap1 s2) (by omega) hsorted'
        have hsubl : ∀ l ∈ sub, nul_free l ∧ ∃ t, l = base ++ f.name ++ '/' :: t := by
          intro l hl
          obtain ⟨k1, t, k2⟩ := s4 l hl
          refine ⟨k1, t, ?_⟩
          rw [k2, findglob_join_name base f.name hne hsf]
          simp
        obtain ⟨g1, g2⟩ := block_walk base f rest hbase hnf hsf hrest r.isterminal sub later
          s3 hsubl h3 h4
        refine ⟨ret, cap2, (if r.isterminal = true then [base ++ f.name] else []) ++ sub ++ later,
          ?_, by omega, g1, g2⟩
        rw [h1]
        cases r.isterminal <;> simp

end Findglob


namespace Findglob

/-! ## The walk returns, and its lines ascend -/

/-- A file system whose tree of directories is finitely deep, `.` and `..` not
counted, is one where the directories that the walk opens are as deep at most, with
any matches: `keep_dir` drops `.` and `..`. -/
theorem dirs_within_tree_within (opendir : List Char → Option (List dirent)) :
    ∀ (depth : Nat) (path : string_t) (ms : List match_t),
      dirs_within opendir depth path → tree_within opendir depth path ms := by
  intro depth
  induction depth with
  | zero =>
    intro path ms h
    exact h.elim
  | succ depth ih =>
    intro path ms h
    unfold dirs_within at h
    unfold tree_within
    intro entries h1 e he hisdir hkeep r _ _
    have hname : string_dup e.d_name ≠ ['.'] ∧ string_dup e.d_name ≠ ['.', '.'] := by
      obtain ⟨g1, g2⟩ := string_eq_dot (string_dup e.d_name)
      unfold keep_dir at hkeep
      constructor
      · intro hd
        rw [if_pos (g1.2 hd)] at hkeep
        cases hkeep
      · intro hdd
        rw [if_pos (g2.2 hdd)] at hkeep
        split at hkeep <;> cases hkeep
    exact ih _ _ (h entries h1 e he hisdir hname.1 hname.2)

/-- Function `_findglob` returns when the directories that it opens are finitely
deep, and the lines that it prints ascend strictly in the order of the walk; each is the path
of the directory, joined to a name, and then nothing or what is below the
name. -/
theorem findglob_walk (opendir : List Char → Option (List dirent))
    (qsort : List file_t → List file_t)
    (hsort : ∀ l, (∀ f ∈ l, nul_free f.name) → qsort_files l (qsort l))
    (hdir : ∀ p entries, opendir p = some entries → readdir_ok entries) :
    ∀ (fuel : Nat) (path : string_t) (cap : Nat) (ms : List match_t),
      tree_within opendir fuel path ms → nul_free path →
      (∀ m ∈ ms, m.matched < m.pattern.len) → path.length + 1 ≤ cap → 256 ≤ cap →
      ∃ ret cap2 out, _findglob opendir qsort fuel path cap ms = some (ret, cap2, out)
        ∧ cap ≤ cap2 ∧ out.Pairwise path_before
        ∧ ∀ l ∈ out, nul_free l ∧ ∃ n r, l = findglob_join path ++ n ++ r
            ∧ n ≠ [] ∧ '/' ∉ n ∧ (r = [] ∨ r.head? = some '/') := by
  intro fuel
  induction fuel with
  | zero =>
    intro path cap ms htree
    exact htree.elim
  | succ fuel ih =>
    intro path cap ms htree hnul hms hc1 hc2
    unfold _findglob
    rw [if_neg (by omega)]
    cases h1 : opendir (if path.length ≠ 0 then c_str path else ['.']) with
    | none =>
      simp only [h1]
      exact ⟨1, cap, [], rfl, Nat.le_refl _, List.Pairwise.nil, by simp⟩
    | some entries =>
      obtain ⟨hnd, hnames⟩ := hdir _ entries h1
      have hkeep : ∀ e ∈ entries, ∃ b, keep_entry ms e = some b := by
        intro e _
        unfold keep_entry
        exact keep_total ms hms e.isdir (string_dup e.d_name)
      obtain ⟨ml, g1, _, g3, g4⟩ := findglob_scan_some ms entries [] 0 hkeep
      rw [List.nil_append] at g1
      simp only [h1, g1]
      obtain ⟨hn, hnd2⟩ := kept_names ms entries hnd
      have hq := hsort _ hn
      have hasc := qsort_files_ascending _ _ hn hnd2 hq
      have hml : ml ≤ 255 := by
        rcases g4 with g4 | ⟨e, he, _, hlen⟩
        · omega
        · rw [← hlen]
          exact (hnames e he).2.2
      have hjl := findglob_join_length path
      have hrec : ∀ (sub : string_t) (cap : Nat) (ms2 : List match_t),
          tree_within opendir fuel sub ms2 → nul_free sub →
          (∀ m ∈ ms2, m.matched < m.pattern.len) → sub.length + 1 ≤ cap → 256 ≤ cap →
          ∃ ret cap2 out, _findglob opendir qsort fuel sub cap ms2 = some (ret, cap2, out)
            ∧ cap ≤ cap2 ∧ out.Pairwise path_before
            ∧ ∀ l ∈ out, nul_free l ∧ ∃ t, l = findglob_join sub ++ t := by
        intro sub cap ms2 k1 k2 k3 k4 k5
        obtain ⟨ret, cap2, out, e1, e2, e3, e4⟩ := ih sub cap ms2 k1 k2 k3 k4 k5
        refine ⟨ret, cap2, out, e1, e2, e3, ?_⟩
        intro l hl
        obtain ⟨q1, n, r, q2, _⟩ := e4 l hl
        exact ⟨q1, n ++ r, by rw [q2, List.append_assoc]⟩
      have hfiles : ∀ f ∈ qsort ((entries.filter
            (fun e => keep_entry ms e == some true)).map entry_file),
          f.name ≠ [] ∧ '/' ∉ f.name ∧ nul_free f.name
            ∧ (findglob_join path).length + f.name.length + 1
                ≤ (if path.length + ml + 2 > cap then cap * 2 else cap)
            ∧ (f.isdir = true → ∀ r, process_dir f.name ms [] = some r →
                r.isintermediate = true →
                tree_within opendir fuel (findglob_join path ++ f.name) r.newmatches) := by
        intro f hf
        have hf2 := hq.1.mem_iff.1 hf
        obtain ⟨e, he, rfl⟩ := List.mem_map.1 hf2
        obtain ⟨he1, he2⟩ := List.mem_filter.1 he
        have hk : keep_entry ms e = some true := by simpa using he2
        obtain ⟨n1, n2, n3⟩ := hnames e he1
        have hlen := g3 e he1 hk
        refine ⟨n1, n2, string_dup_nul_free _, ?_, ?_⟩
        · show (findglob_join path).length + (string_dup e.d_name).length + 1 ≤ _
          split <;> omega
        · intro hisdir r hr hi
          have hkd : keep_dir ms (string_dup e.d_name) = some true := by
            have hisdir2 : e.isdir = true := hisdir
            unfold keep_entry at hk
            rw [if_pos hisdir2] at hk
            exact hk
          unfold tree_within at htree
          exact htree entries h1 e he1 hisdir hkd r hr hi
      have hcap2 : 256 ≤ (if path.length + ml + 2 > cap then cap * 2 else cap) := by
        split <;> omega
      obtain ⟨ret, cap3, lines, e1, e2, e3, e4⟩ :=
        findglob_loop_walk (_findglob opendir qsort fuel) (tree_within opendir fuel)
          (findglob_join path) ms hms (findglob_join_nul_free path hnul) hrec _ 0 _ []
          hfiles hcap2 hasc
      refine ⟨ret, cap3, lines, ?_, ?_, e3, ?_⟩
      · rw [e1]
        simp
      · have : cap ≤ (if path.length + ml + 2 > cap then cap * 2 else cap) := by
          split <;> omega
        omega
      · intro l hl
        obtain ⟨q1, f, hf, r, q2, q3⟩ := e4 l hl
        obtain ⟨n1, n2, _⟩ := hfiles f hf
        exact ⟨q1, f.name, r, q2, n1, n2, q3⟩

end Findglob


namespace Findglob

/-! ## Claims on the order of the output -/

theorem nul_free_middle (p a r : string_t) (h : nul_free (p ++ a ++ r)) : nul_free a :=
  fun c hc => h c (List.mem_append_left _ (List.mem_append_right _ hc))

/-- In lines that ascend in the order of the walk, lines at or below two names of one
directory are printed in the order of the names. -/
theorem walk_siblings (out : List string_t) (hp : out.Pairwise path_before)
    (hn : ∀ l ∈ out, nul_free l) (i j : Nat) (q a b ra rb : string_t)
    (hi : out[i]? = some (q ++ a ++ ra)) (hj : out[j]? = some (q ++ b ++ rb))
    (ha : '/' ∉ a) (hb : '/' ∉ b) (hra : ra = [] ∨ ra.head? = some '/')
    (hlt : string_cmp a b < 0) : i < j := by
  have hna : nul_free a := nul_free_middle q a ra (hn _ (List.getElem?_mem hi))
  have hnb : nul_free b := nul_free_middle q b rb (hn _ (List.getElem?_mem hj))
  refine walk_position out hp i j _ _ hi hj ?_
  rw [List.append_assoc, List.append_assoc]
  exact path_before_append q _ _
    (path_before_names a b ((string_cmp_spec a b hna hnb).1.1 hlt) ra rb ha hb hnb hra)

theorem walk_siblings_iff (out : List string_t) (hp : out.Pairwise path_before)
    (hn : ∀ l ∈ out, nul_free l) (i j : Nat) (q a b ra rb : string_t)
    (hi : out[i]? = some (q ++ a ++ ra)) (hj : out[j]? = some (q ++ b ++ rb))
    (ha : '/' ∉ a) (hb : '/' ∉ b) (hra : ra = [] ∨ ra.head? = some '/')
    (hrb : rb = [] ∨ rb.head? = some '/') (hab : a ≠ b) :
    (i < j ↔ string_cmp a b < 0) ∧ (string_cmp a b < 0 ↔ byte_lex a b) := by
  have hna : nul_free a := nul_free_middle q a ra (hn _ (List.getElem?_mem hi))
  have hnb : nul_free b := nul_free_middle q b rb (hn _ (List.getElem?_mem hj))
  refine ⟨⟨?_, walk_siblings out hp hn i j q a b ra rb hi hj ha hb hra⟩,
    (string_cmp_spec a b hna hnb).1⟩
  intro hij
  rcases string_cmp_total a b hna hnb with h | h | h
  · exact h
  · exact absurd h hab
  · have := walk_siblings out hp hn j i q b a rb ra hj hi hb ha hrb h
    omega

/-- Claim C28: sibling output is sorted.  For a directory that `_findglob` scans, over
any enumerations of entries with distinct proper names, `.` and `..` allowed among them,
where the directories that the walk opens are finitely deep (with
members inside their patterns, a path without NUL in a buffer of at least 256 bytes that
holds it, and a sort that meets the contract of `qsort`), the call returns, and the kept
children are visited in ascending order of name by `string_cmp`, which is the
byte-lexicographic order: of two lines at or below two different children `a` and `b` of
the directory, the line of `a` is printed first exactly when `string_cmp a b < 0`.  The
return value and the lines are the same for every order in which the enumerations return
the entries, and for every sorting algorithm. -/
theorem findglob_siblings_sorted (opendir : List Char → Option (List dirent))
    (qsort : List file_t → List file_t)
    (hsort : ∀ l, (∀ f ∈ l, nul_free f.name) → qsort_files l (qsort l))
    (hdir : ∀ p entries, opendir p = some entries → readdir_ok entries)
    (fuel : Nat) (path : string_t) (cap : Nat) (ms : List match_t)
    (htree : tree_within opendir fuel path ms) (hnul : nul_free path)
    (hms : ∀ m ∈ ms, m.matched < m.pattern.len)
    (hc1 : path.length + 1 ≤ cap) (hc2 : 256 ≤ cap) :
    ∃ ret cap2 out, _findglob opendir qsort fuel path cap ms = some (ret, cap2, out)
      ∧ (∀ (i j : Nat) (a b ra rb : string_t),
          out[i]? = some (findglob_join path ++ a ++ ra) →
          out[j]? = some (findglob_join path ++ b ++ rb) →
          '/' ∉ a → '/' ∉ b → (ra = [] ∨ ra.head? = some '/') →
          (rb = [] ∨ rb.head? = some '/') → a ≠ b →
          (i < j ↔ string_cmp a b < 0) ∧ (string_cmp a b < 0 ↔ byte_lex a b))
      ∧ (∀ (opendir2 : List Char → Option (List dirent)) (qsort2 : List file_t → List file_t),
          same_entries opendir opendir2 →
          (∀ l, (∀ f ∈ l, nul_free f.name) → qsort_files l (qsort2 l)) →
          _findglob opendir2 qsort2 fuel path cap ms = some (ret, cap2, out)) := by
  obtain ⟨ret, cap2, out, h1, _, h3, h4⟩ :=
    findglob_walk opendir qsort hsort hdir fuel path cap ms htree hnul hms hc1 hc2
  refine ⟨ret, cap2, out, h1, ?_, ?_⟩
  · intro i j a b ra rb hi hj ha hb hra hrb hab
    exact walk_siblings_iff out h3 (fun l hl => (h4 l hl).1) i j _ a b ra rb hi hj ha hb
      hra hrb hab
  · intro opendir2 qsort2 hsame hsort2
    rw [findglob_order_free opendir opendir2 qsort qsort2 hsame hsort hsort2 hdir]
    exact h1

/-- Claim C29: parents precede children in the output.  A walk by `_findglob` that
opens directories finitely deep (entries with distinct proper names, `.` and `..`
allowed among them, members inside their
patterns, a path without NUL in a buffer of at least 256 bytes that holds it, a sort
that meets the contract of `qsort`) returns, and in its lines every path below a
printed path `d`, that is
`d/...`, comes after the line of `d`; and every line at or below a name `a` of a
directory comes before every line at or below a name `b` of the same directory that
`string_cmp` puts after `a`: the lines of a subtree come before the line of the next
sibling. -/
theorem findglob_parents_first (opendir : List Char → Option (List dirent))
    (qsort : List file_t → List file_t)
    (hsort : ∀ l, (∀ f ∈ l, nul_free f.name) → qsort_files l (qsort l))
    (hdir : ∀ p entries, opendir p = some entries → readdir_ok entries)
    (fuel : Nat) (path : string_t) (cap : Nat) (ms : List match_t)
    (htree : tree_within opendir fuel path ms) (hnul : nul_free path)
    (hms : ∀ m ∈ ms, m.matched < m.pattern.len)
    (hc1 : path.length + 1 ≤ cap) (hc2 : 256 ≤ cap) :
    ∃ ret cap2 out, _findglob opendir qsort fuel path cap ms = some (ret, cap2, out)
      ∧ (∀ (i j : Nat) (d r : string_t),
          out[i]? = some d → out[j]? = some (d ++ '/' :: r) → i < j)
      ∧ (∀ (i j : Nat) (q a b ra rb : string_t),
          out[i]? = some (q ++ a ++ ra) → out[j]? = some (q ++ b ++ rb) →
          '/' ∉ a → '/' ∉ b → (ra = [] ∨ ra.head? = some '/') →
          string_cmp a b < 0 → i < j) := by
  obtain ⟨ret, cap2, out, h1, _, h3, h4⟩ :=
    findglob_walk opendir qsort hsort hdir fuel path cap ms htree hnul hms hc1 hc2
  refine ⟨ret, cap2, out, h1, ?_, ?_⟩
  · intro i j d r hi hj
    exact walk_position out h3 i j _ _ hi hj (path_before_below d '/' r)
  · intro i j q a b ra rb hi hj ha hb hra hlt
    exact walk_siblings out h3 (fun l hl => (h4 l hl).1) i j q a b ra rb hi hj ha hb hra hlt

end Findglob


namespace Findglob

/-! ## The claims on the order of the output, on the example tree -/

theorem example_tree_ok (p : List Char) (entries : List dirent)
    (h : example_tree p = some entries) : readdir_ok entries := by
  unfold example_tree at h
  split at h
  · cases h
    unfold readdir_ok entry_name_ok
    refine ⟨by decide, ?_⟩
    intro e he
    simp only [List.mem_cons, List.mem_singleton, List.not_mem_nil, or_false] at he
    rcases he with rfl | rfl | rfl | rfl <;> decide
  · split at h
    · cases h
      unfold readdir_ok entry_name_ok
      refine ⟨by decide, ?_⟩
      intro e he
      simp only [List.mem_cons, List.mem_singleton, List.not_mem_nil, or_false] at he
      rcases he with rfl | rfl | rfl <;> decide
    · cases h

/-- The example tree is two directories deep, although each of its directories
lists `.` and `..`. -/
theorem example_dirs_within : dirs_within example_tree 2 [] := by
  unfold dirs_within
  intro entries h e he hisdir hd hdd
  have h2 : entries = [{ d_name := ['.'], isdir := true }, { d_name := ['.', '.'], isdir := true },
      { d_name := ['b'], isdir := false }, { d_name := ['a'], isdir := true }] := by
    have : example_tree ['.'] = some entries := h
    unfold example_tree at this
    simp only [if_true, Option.some.injEq] at this
    exact this.symm
  subst h2
  simp only [List.mem_cons, List.mem_singleton, List.not_mem_nil, or_false] at he
  rcases he with rfl | rfl | rfl | rfl
  · exact absurd rfl hd
  · exact absurd rfl hdd
  · cases hisdir
  · unfold dirs_within
    intro entries2 h3 e2 he2 hisdir2 hd2 hdd2
    have h4 : entries2 = [{ d_name := ['.'], isdir := true },
        { d_name := ['.', '.'], isdir := true }, { d_name := ['c'], isdir := false }] := by
      have : example_tree ['a'] = some entries2 := h3
      unfold example_tree at this
      simp only [List.cons.injEq, Char.reduceEq, and_true, if_false, if_true,
        Option.some.injEq] at this
      exact this.symm
    subst h4
    simp only [List.mem_cons, List.mem_singleton, List.not_mem_nil, or_false] at he2
    rcases he2 with rfl | rfl | rfl
    · exact absurd rfl hd2
    · exact absurd rfl hdd2
    · cases hisdir2

theorem findglob_siblings_sorted_witness :
    tree_within example_tree 2 [] [⟨{ sects := [.SECTION_ANY], cls := CLASS_ANY }, 0⟩]
    ∧ _findglob example_tree insertion_qsort 2 [] 4096
          [⟨{ sects := [.SECTION_ANY], cls := CLASS_ANY }, 0⟩]
        = some (0, 4096, [['a'], ['a', '/', 'c'], ['b']])
    ∧ ∃ ret cap2 out, _findglob example_tree insertion_qsort 2 [] 4096
          [⟨{ sects := [.SECTION_ANY], cls := CLASS_ANY }, 0⟩] = some (ret, cap2, out)
      ∧ (∀ (i j : Nat) (a b ra rb : string_t),
          out[i]? = some (findglob_join [] ++ a ++ ra) →
          out[j]? = some (findglob_join [] ++ b ++ rb) →
          '/' ∉ a → '/' ∉ b → (ra = [] ∨ ra.head? = some '/') →
          (rb = [] ∨ rb.head? = some '/') → a ≠ b →
          (i < j ↔ string_cmp a b < 0) ∧ (string_cmp a b < 0 ↔ byte_lex a b))
      ∧ (∀ (opendir2 : List Char → Option (List dirent)) (qsort2 : List file_t → List file_t),
          same_entries example_tree opendir2 →
          (∀ l, (∀ f ∈ l, nul_free f.name) → qsort_files l (qsort2 l)) →
          _findglob opendir2 qsort2 2 [] 4096
            [⟨{ sects := [.SECTION_ANY], cls := CLASS_ANY }, 0⟩] = some (ret, cap2, out)) :=
  ⟨dirs_within_tree_within example_tree 2 [] _ example_dirs_within, by decide,
    findglob_siblings_sorted example_tree insertion_qsort insertion_sort_qsort example_tree_ok
      2 [] 4096 _ (dirs_within_tree_within example_tree 2 [] _ example_dirs_within)
      (by intro c hc; cases hc) (by decide) (by decide) (by decide)⟩

theorem findglob_parents_first_witness :
    tree_within example_tree 2 [] [⟨{ sects := [.SECTION_ANY], cls := CLASS_ANY }, 0⟩]
    ∧ _findglob example_tree insertion_qsort 2 [] 4096
          [⟨{ sects := [.SECTION_ANY], cls := CLASS_ANY }, 0⟩]
        = some (0, 4096, [['a'], ['a', '/', 'c'], ['b']])
    ∧ ∃ ret cap2 out, _findglob example_tree insertion_qsort 2 [] 4096
          [⟨{ sects := [.SECTION_ANY], cls := CLASS_ANY }, 0⟩] = some (ret, cap2, out)
      ∧ (∀ (i j : Nat) (d r : string_t),
          out[i]? = some d → out[j]? = some (d ++ '/' :: r) → i < j)
      ∧ (∀ (i j : Nat) (q a b ra rb : string_t),
          out[i]? = some (q ++ a ++ ra) → out[j]? = some (q ++ b ++ rb) →
          '/' ∉ a → '/' ∉ b → (ra = [] ∨ ra.head? = some '/') →
          string_cmp a b < 0 → i < j) :=
  ⟨dirs_within_tree_within example_tree 2 [] _ example_dirs_within, by decide,
    findglob_parents_first example_tree insertion_qsort insertion_sort_qsort example_tree_ok
      2 [] 4096 _ (dirs_within_tree_within example_tree 2 [] _ example_dirs_within)
      (by intro c hc; cases hc) (by decide) (by decide) (by decide)⟩

end Findglob


namespace Findglob

/-! ## path_startswith is a preorder -/

/-- Claim C36: `path_startswith` is a preorder on strings: `path_startswith(a, a)` holds
for every `a`, and for all `a`, `b`, `c`, `path_startswith(a, b)` and
`path_startswith(b, c)` imply `path_startswith(a, c)`. -/
theorem path_startswith_preorder (a b c : string_t) :
    path_startswith a a = true
      ∧ (path_startswith a b = true → path_startswith b c = true →
          path_startswith a c = true) :=
  ⟨path_startswith_refl a, path_startswith_trans a b c⟩

theorem path_startswith_preorder_witness :
    path_startswith ['a', '/', 'b', '/', 'c'] ['a', '/', 'b'] = true
      ∧ path_startswith ['a', '/', 'b'] ['a'] = true
      ∧ path_startswith ['a', '/', 'b', '/', 'c'] ['a'] = true :=
  ⟨by decide, by decide,
    (path_startswith_preorder ['a', '/', 'b', '/', 'c'] ['a', '/', 'b'] ['a']).2
      (by decide) (by decide)⟩

/-! ## The match arrays stay inside their patterns -/

/-- Claim C35: for every match `(pattern, k)` with `k < len(pattern)`, every name and
class, `match_text` returns without a read outside the sections, and whenever its
result contains `MATCH_n` (`n` in 0, 1, 2) then `k + n < len(pattern)`; and for every
match array of such members, `process_dir` returns (the exit of `match_minus` is not
reached) and every match in the array that it leaves satisfies
`matched < len(pattern)` again. -/
theorem match_text_in_range (p : pattern_t) (k : Nat) (name : string_t) (cls : class_e)
    (hk : k < p.len) (parent : List match_t)
    (hparent : ∀ m ∈ parent, m.matched < m.pattern.len) :
    (∃ flags, match_text ⟨p, k⟩ name cls = some flags
        ∧ ∀ n, n ≤ 2 → has_flag flags (match_n n) = true → k + n < p.len)
      ∧ ∃ r, process_dir name parent [] = some r
          ∧ ∀ m ∈ r.newmatches, m.matched < m.pattern.len := by
  refine ⟨⟨_, match_text_flags p k name cls hk, ?_⟩, process_dir_total name parent hparent⟩
  intro n hn hf
  exact match_n_lt p k name cls n hn ((has_flag_flags_of _ _).1 hf)

theorem match_text_in_range_witness :
    (∃ flags, match_text
          ⟨{ sects := [.SECTION_ANY, .SECTION_CONSTANT ['a'], .SECTION_ANY], cls := CLASS_ANY }, 0⟩
          ['a'] CLASS_DIR = some flags
        ∧ ∀ n, n ≤ 2 → has_flag flags (match_n n) = true
            → 0 + n < ({ sects := [.SECTION_ANY, .SECTION_CONSTANT ['a'], .SECTION_ANY],
                          cls := CLASS_ANY } : pattern_t).len)
      ∧ ∃ r, process_dir ['a']
            [⟨{ sects := [.SECTION_ANY, .SECTION_CONSTANT ['a'], .SECTION_ANY],
                cls := CLASS_ANY }, 0⟩] [] = some r
          ∧ ∀ m ∈ r.newmatches, m.matched < m.pattern.len :=
  match_text_in_range _ 0 ['a'] CLASS_DIR (by decide) _ (by decide)

end Findglob


namespace Findglob

/-! ## The shape of what process_dir leaves -/

/-- A flag in the result of `match_text` means that the current section matches the
name. -/
theorem flag_section_matches (name : string_t) (cls : class_e) (m : match_t)
    (flags : match_flags_e) (a : action) (h : match_text m name cls = some flags)
    (hf : has_flag flags a = true) : current_section_matches name m = true := by
  unfold current_section_matches
  cases hsec : m.pattern.sects[m.matched]? with
  | none =>
    simp [match_text, hsec] at h
  | some sect =>
    simp only
    by_contra hm
    have hm' : section_matches sect name = false := by simpa using hm
    simp only [match_text, hsec, hm', Option.bind_eq_bind, Option.some_bind, Bool.not_false,
      if_true, pure, Option.some.injEq] at h
    subst h
    cases a <;> simp [has_flag, MATCH_NONE, action.bit] at hf

/-- The loop of `process_dir` over members inside their patterns: it consumes a
front part of the array, leaves the entries of these members in order, and raises
a flag only for a consumed member that is not an anti-pattern and has the flag. -/
theorem process_dir_loop_shape (name : string_t) :
    ∀ (parent : List match_t) (out : process_dir_out),
      (∀ m ∈ parent, m.matched < m.pattern.len) →
      ∃ pre post r, parent = pre ++ post ∧ process_dir_loop name parent out = some r
        ∧ r.newmatches = out.newmatches ++ pre.flatMap (member_entries name)
        ∧ (r.isterminal = true → out.isterminal = true
            ∨ ∃ m ∈ pre, m.pattern.anti = false
                ∧ has_flag (member_flags name m) .TERMINAL = true)
        ∧ (r.isintermediate = true → out.isintermediate = true
            ∨ ∃ m ∈ pre, m.pattern.anti = false
                ∧ (has_flag (member_flags name m) .MATCH_0 = true
                  ∨ has_flag (member_flags name m) .MATCH_1 = true
                  ∨ has_flag (member_flags name m) .MATCH_2 = true)) := by
  intro parent
  induction parent with
  | nil =>
    intro out _
    exact ⟨[], [], out, rfl, by simp [process_dir_loop], by simp, Or.inl, Or.inl⟩
  | cons m rest ih =>
    intro out hk
    obtain ⟨hflags, hlt⟩ := member_flags_eq name m (hk m (List.mem_cons_self _ _))
    by_cases hcond : ((member_flags name m &&& MATCH_TERMINAL) != 0 && m.pattern.anti) = true
    · refine ⟨[], m :: rest, out, rfl, ?_, by simp, Or.inl, Or.inl⟩
      simp only [process_dir_loop, hflags, Option.bind_eq_bind, Option.some_bind, hcond,
        if_true]
    · have hcond : ((member_flags name m &&& MATCH_TERMINAL) != 0 && m.pattern.anti) = false := by
        simpa using hcond
      have hterm : ((member_flags name m &&& MATCH_TERMINAL) != 0)
          = has_flag (member_flags name m) .TERMINAL := rfl
      have hm : (⟨m.pattern, m.matched⟩ : match_t) = m := rfl
      have hstep := process_dir_member_any m.pattern m.matched (member_flags name m)
        (if ((member_flags name m &&& MATCH_TERMINAL) != 0) = true
          then { out with isterminal := true } else out)
        (process_dir_loop name rest) hlt
      rw [hm] at hstep
      simp only [bind, Option.bind_eq_bind] at hstep
      obtain ⟨pre, post, r, h1, h2, h3, h4, h5⟩ := ih
        { (if ((member_flags name m &&& MATCH_TERMINAL) != 0) = true
            then { out with isterminal := true } else out) with
          newmatches := (if ((member_flags name m &&& MATCH_TERMINAL) != 0) = true
              then { out with isterminal := true } else out).newmatches
            ++ (step_targets (member_flags name m) m.matched).map (fun k' => ⟨m.pattern, k'⟩),
          isintermediate := (if ((member_flags name m &&& MATCH_TERMINAL) != 0) = true
              then { out with isterminal := true } else out).isintermediate
            || (!m.pattern.anti && (has_flag (member_flags name m) .MATCH_0
                  || has_flag (member_flags name m) .MATCH_1
                  || has_flag (member_flags name m) .MATCH_2)) }
        (fun x hx => hk x (List.mem_cons_of_mem _ hx))
      refine ⟨m :: pre, post, r, by rw [h1]; rfl, ?_, ?_, ?_, ?_⟩
      · simp only [process_dir_loop, hflags, Option.bind_eq_bind, Option.some_bind, hcond,
          Bool.false_eq_true, if_false]
        rw [hstep]
        exact h2
      · rw [h3]
        simp only [List.flatMap_cons, member_entries]
        split <;> simp [List.append_assoc]
      · intro ht
        rcases h4 ht with h | ⟨x, hx, hx1, hx2⟩
        · simp only at h
          by_cases hT : ((member_flags name m &&& MATCH_TERMINAL) != 0) = true
          · right
            refine ⟨m, List.mem_cons_self _ _, ?_, by rw [← hterm]; exact hT⟩
            rw [hT] at hcond
            simpa using hcond
          · rw [if_neg hT] at h
            exact Or.inl h
        · exact Or.inr ⟨x, List.mem_cons_of_mem _ hx, hx1, hx2⟩
      · intro hi
        rcases h5 hi with h | ⟨x, hx, hx1, hx2⟩
        · simp only [Bool.or_eq_true, Bool.and_eq_true, Bool.not_eq_true'] at h
          rcases h with h | ⟨ha, hf⟩
          · left
            split at h <;> exact h
          · right
            exact ⟨m, List.mem_cons_self _ _, ha, by
              rcases hf with (hf | hf) | hf
              · exact Or.inl hf
              · exact Or.inr (Or.inl hf)
              · exact Or.inr (Or.inr hf)⟩
        · exact Or.inr ⟨x, List.mem_cons_of_mem _ hx, hx1, hx2⟩

/-- Function `process_dir` on members inside their patterns, from an empty output
array. -/
theorem process_dir_shape (name : string_t) (parent : List match_t)
    (hk : ∀ m ∈ parent, m.matched < m.pattern.len) :
    ∃ pre post r, parent = pre ++ post ∧ process_dir name parent [] = some r
      ∧ r.newmatches = pre.flatMap (member_entries name)
      ∧ (r.isterminal = true → ∃ m ∈ pre, m.pattern.anti = false
          ∧ has_flag (member_flags name m) .TERMINAL = true)
      ∧ (r.isintermediate = true → ∃ m ∈ pre, m.pattern.anti = false
          ∧ (has_flag (member_flags name m) .MATCH_0 = true
            ∨ has_flag (member_flags name m) .MATCH_1 = true
            ∨ has_flag (member_flags name m) .MATCH_2 = true)) := by
  obtain ⟨pre, post, r, h1, h2, h3, h4, h5⟩ := process_dir_loop_shape name parent
    { newmatches := [], isintermediate := false, isterminal := false } hk
  refine ⟨pre, post, r, h1, h2, by simpa using h3, ?_, ?_⟩
  · intro ht
    rcases h4 ht with h | h
    · cases h
    · exact h
  · intro hi
    rcases h5 hi with h | h
    · cases h
    · exact h

end Findglob


namespace Findglob

/-! ## keep_dir keeps what process_dir would print or descend into -/

theorem keep_dir_of_flag (ms : List match_t) (name : string_t)
    (hk : ∀ m ∈ ms, m.matched < m.pattern.len)
    (hd : name ≠ ['.']) (hdd : name ≠ ['.', '.']) (m : match_t) (hm : m ∈ ms)
    (ha : m.pattern.anti = false) (a : action)
    (hf : has_flag (member_flags name m) a = true) : keep_dir ms name = some true := by
  have hsec := flag_section_matches name CLASS_DIR m _ a (member_flags_eq name m (hk m hm)).1 hf
  rw [keep_dir_spec ms name hk]
  have hany : ms.any (fun m => !m.pattern.anti && current_section_matches name m) = true :=
    List.any_eq_true.2 ⟨m, hm, by simp [ha, hsec]⟩
  simp [hd, hdd, hany]

/-- Claim C38: directory pruning is sound.  For every match array of members inside
their patterns and every directory name other than `.` and `..`, `process_dir` on the
name returns, and if it reports `isterminal` or `isintermediate` then `keep_dir` on the
same array and name is true. -/
theorem keep_dir_sound (ms : List match_t) (name : string_t)
    (hk : ∀ m ∈ ms, m.matched < m.pattern.len)
    (hd : name ≠ ['.']) (hdd : name ≠ ['.', '.']) :
    ∃ r, process_dir name ms [] = some r
      ∧ (r.isterminal = true ∨ r.isintermediate = true → keep_dir ms name = some true) := by
  obtain ⟨pre, post, r, h1, h2, _, h4, h5⟩ := process_dir_shape name ms hk
  refine ⟨r, h2, ?_⟩
  have hsub : ∀ m ∈ pre, m ∈ ms := fun m hm => by
    rw [h1]
    exact List.mem_append_left _ hm
  rintro (ht | hi)
  · obtain ⟨m, hm, ha, hf⟩ := h4 ht
    exact keep_dir_of_flag ms name hk hd hdd m (hsub m hm) ha _ hf
  · obtain ⟨m, hm, ha, hf⟩ := h5 hi
    rcases hf with hf | hf | hf
    · exact keep_dir_of_flag ms name hk hd hdd m (hsub m hm) ha _ hf
    · exact keep_dir_of_flag ms name hk hd hdd m (hsub m hm) ha _ hf
    · exact keep_dir_of_flag ms name hk hd hdd m (hsub m hm) ha _ hf

theorem keep_dir_sound_witness :
    ∃ r, process_dir ['a']
          [⟨{ sects := [.SECTION_CONSTANT ['x']], anti := true, cls := CLASS_ANY }, 0⟩,
            ⟨{ sects := [.SECTION_CONSTANT ['a'], .SECTION_ANY], cls := CLASS_ANY }, 0⟩] []
        = some r
      ∧ (r.isterminal = true ∨ r.isintermediate = true →
          keep_dir
            [⟨{ sects := [.SECTION_CONSTANT ['x']], anti := true, cls := CLASS_ANY }, 0⟩,
              ⟨{ sects := [.SECTION_CONSTANT ['a'], .SECTION_ANY], cls := CLASS_ANY }, 0⟩]
            ['a'] = some true) :=
  keep_dir_sound _ ['a'] (by decide) (by decide) (by decide)

/-! ## The anti-patterns stay in front -/

theorem member_entries_pattern (name : string_t) (m x : match_t)
    (hx : x ∈ member_entries name m) : x.pattern = m.pattern := by
  unfold member_entries at hx
  obtain ⟨k, _, rfl⟩ := List.mem_map.1 hx
  rfl

theorem antis_first_entries (name : string_t) (ms : List match_t) (hs : antis_first ms) :
    antis_first (ms.flatMap (member_entries name)) := by
  unfold antis_first at *
  rw [List.pairwise_flatMap]
  constructor
  · intro m _
    rw [List.pairwise_iff_forall_sublist]
    intro a b hab hb
    have ha1 := member_entries_pattern name m a (hab.subset (List.mem_cons_self _ _))
    have hb1 := member_entries_pattern name m b
      (hab.subset (List.mem_cons_of_mem _ (List.mem_singleton_self _)))
    rw [ha1]
    rw [hb1] at hb
    exact hb
  · refine hs.imp ?_
    intro m1 m2 h x hx y hy hyanti
    rw [member_entries_pattern name m1 x hx]
    rw [member_entries_pattern name m2 y hy] at hyanti
    exact h hyanti

/-- Function `process_dir` keeps the anti-patterns in front, and the members inside
their patterns. -/
theorem process_dir_antis_first (name : string_t) (ms : List match_t)
    (hk : ∀ m ∈ ms, m.matched < m.pattern.len) (hs : antis_first ms) :
    ∃ r, process_dir name ms [] = some r ∧ antis_first r.newmatches
      ∧ ∀ m ∈ r.newmatches, m.matched < m.pattern.len := by
  obtain ⟨pre, post, r, h1, h2, h3, _, _⟩ := process_dir_shape name ms hk
  obtain ⟨r2, g1, g2⟩ := process_dir_total name ms hk
  rw [h2] at g1
  cases g1
  refine ⟨r, h2, ?_, g2⟩
  rw [h3]
  apply antis_first_entries
  rw [h1] at hs
  exact List.Pairwise.sublist (List.sublist_append_left _ _) hs

theorem process_dir_path_antis_first : ∀ (names : List string_t) (ms : List match_t),
    (∀ m ∈ ms, m.matched < m.pattern.len) → antis_first ms →
    ∃ ms2, process_dir_path ms names = some ms2 ∧ antis_first ms2 := by
  intro names
  induction names with
  | nil =>
    intro ms _ hs
    exact ⟨ms, rfl, hs⟩
  | cons name rest ih =>
    intro ms hk hs
    obtain ⟨r, h1, h2, h3⟩ := process_dir_antis_first name ms hk hs
    obtain ⟨ms2, g1, g2⟩ := ih r.newmatches h3 h2
    refine ⟨ms2, ?_, g2⟩
    unfold process_dir_path
    rw [h1]
    exact g1

theorem matches_init_loop_antis_first : ∀ (segs : List (string_t × Bool)) (ms : List match_t)
    (t : Bool), (∀ m ∈ ms, m.matched < m.pattern.len) → antis_first ms →
    ∃ res, matches_init_loop segs ms t = some res ∧ antis_first res.1
      ∧ ∀ m ∈ res.1, m.matched < m.pattern.len := by
  intro segs
  induction segs with
  | nil =>
    intro ms t hk hs
    exact ⟨_, rfl, hs, hk⟩
  | cons seg rest ih =>
    intro ms t hk hs
    obtain ⟨text, v⟩ := seg
    obtain ⟨r, h1, h2, h3⟩ := process_dir_antis_first text ms hk hs
    unfold matches_init_loop
    rw [h1]
    simp only
    cases hi : r.isintermediate with
    | false =>
      simp only [Bool.not_false, if_true]
      exact ⟨_, rfl, List.Pairwise.nil, by simp⟩
    | true =>
      simp only [Bool.not_true, Bool.false_eq_true, if_false]
      exact ih r.newmatches r.isterminal h3 h2

/-- The array of a group that `qsort_patterns` has ordered, every member at its first
section, has the anti-patterns in front. -/
theorem sorted_group_antis_first (group sorted : List pattern_t)
    (hq : qsort_patterns group sorted) (hlen : ∀ p ∈ group, 0 < p.len) :
    antis_first (sorted.map (fun p => (⟨p, 0⟩ : match_t)))
      ∧ ∀ m ∈ sorted.map (fun p => (⟨p, 0⟩ : match_t)), m.matched < m.pattern.len := by
  have heq := (qsort_patterns_iff group sorted).1 hq
  constructor
  · unfold antis_first
    rw [List.pairwise_map, heq]
    refine (anti_first_sorted group).imp ?_
    intro a b hab hb
    simp only at hb ⊢
    rcases hab with ⟨h1, _⟩ | ⟨h1, _⟩
    · exact h1
    · rw [h1]
      exact hb
  · intro m hm
    obtain ⟨p, hp, rfl⟩ := List.mem_map.1 hm
    have hp2 : p ∈ assign_order group 0 := hq.1.mem_iff.1 hp
    rw [assign_order_eq] at hp2
    obtain ⟨ip, hip, rfl⟩ := List.mem_map.1 hp2
    exact hlen ip.2 (List.snd_mem_of_mem_enumFrom hip)

end Findglob


namespace Findglob

/-- Claim C37: the anti-first ordering is an invariant of the walk.  If in a match
array, of members inside their patterns, every anti-pattern member precedes every
member that is not one, then the same holds in the output array of `process_dir`, and
in the array below any chain of directories; it holds in the array of a group that
`qsort_patterns` has ordered (patterns with at least one section), and in the array
that `matches_init` returns for such a group and any start. -/
theorem antis_first_invariant (name : string_t) (ms : List match_t)
    (hk : ∀ m ∈ ms, m.matched < m.pattern.len) (hs : antis_first ms)
    (names : List string_t) (group sorted : List pattern_t)
    (hq : qsort_patterns group sorted) (hlen : ∀ p ∈ group, 0 < p.len) (start : string_t) :
    (∃ r, process_dir name ms [] = some r ∧ antis_first r.newmatches)
      ∧ (∃ ms2, process_dir_path ms names = some ms2 ∧ antis_first ms2)
      ∧ antis_first (sorted.map (fun p => (⟨p, 0⟩ : match_t)))
      ∧ ∃ res, matches_init sorted start = some res ∧ antis_first res.1 := by
  obtain ⟨r, h1, h2, _⟩ := process_dir_antis_first name ms hk hs
  obtain ⟨g1, g2⟩ := sorted_group_antis_first group sorted hq hlen
  obtain ⟨res, e1, e2, _⟩ := matches_init_loop_antis_first (path_segments start) _ false g2 g1
  exact ⟨⟨r, h1, h2⟩, process_dir_path_antis_first names ms hk hs, g1, res, e1, e2⟩

theorem antis_first_invariant_witness :
    (∃ r, process_dir ['a']
          [⟨{ sects := [.SECTION_CONSTANT ['x']], anti := true, cls := CLASS_ANY }, 0⟩,
            ⟨{ sects := [.SECTION_CONSTANT ['a'], .SECTION_ANY], cls := CLASS_ANY }, 0⟩] []
          = some r ∧ antis_first r.newmatches)
      ∧ (∃ ms2, process_dir_path
          [⟨{ sects := [.SECTION_CONSTANT ['x']], anti := true, cls := CLASS_ANY }, 0⟩,
            ⟨{ sects := [.SECTION_CONSTANT ['a'], .SECTION_ANY], cls := CLASS_ANY }, 0⟩]
          [['a'], ['b']] = some ms2 ∧ antis_first ms2)
      ∧ antis_first ((anti_first
          [{ sects := [.SECTION_CONSTANT ['a'], .SECTION_ANY], cls := CLASS_ANY },
            { sects := [.SECTION_CONSTANT ['x']], anti := true, cls := CLASS_ANY }]).map
          (fun p => (⟨p, 0⟩ : match_t)))
      ∧ ∃ res, matches_init (anti_first
          [{ sects := [.SECTION_CONSTANT ['a'], .SECTION_ANY], cls := CLASS_ANY },
            { sects := [.SECTION_CONSTANT ['x']], anti := true, cls := CLASS_ANY }]) ['a']
          = some res ∧ antis_first res.1 :=
  antis_first_invariant ['a'] _ (by decide) (by unfold antis_first; simp) [['a'], ['b']]
    [{ sects := [.SECTION_CONSTANT ['a'], .SECTION_ANY], cls := CLASS_ANY },
      { sects := [.SECTION_CONSTANT ['x']], anti := true, cls := CLASS_ANY }] _
    ((qsort_patterns_iff _ _).2 rfl) (by decide) ['a']

end Findglob


namespace Findglob

/-! ## string_cmp is an order -/

theorem string_cmp_nil_cons (x : Char) (t : string_t) : string_cmp [] (x :: t) = -1 := by
  simp [string_cmp, strncmp]

theorem string_cmp_cons_nil (x : Char) (t : string_t) : string_cmp (x :: t) [] = 1 := by
  simp [string_cmp, strncmp]

/-- Function `string_cmp` on a string and one that continues it. -/
theorem string_cmp_continued (a : string_t) (ha : nul_free a) (x : Char) (t : string_t) :
    string_cmp a (a ++ x :: t) = -1 ∧ string_cmp (a ++ x :: t) a = 1 := by
  induction a with
  | nil => exact ⟨string_cmp_nil_cons x t, string_cmp_cons_nil x t⟩
  | cons c rest ih =>
    have hc : c.toNat ≠ 0 := ha c (List.mem_cons_self _ _)
    have hrest : nul_free rest := fun y hy => ha y (List.mem_cons_of_mem _ hy)
    simp only [List.cons_append]
    rw [string_cmp_cons c _ _ hc, string_cmp_cons c _ _ hc]
    exact ih hrest

/-- Function `string_cmp` on two strings that differ first after a common front. -/
theorem string_cmp_differ (p : string_t) (hp : nul_free p) (x y : Char) (ra rb : string_t)
    (hxy : x ≠ y) :
    string_cmp (p ++ x :: ra) (p ++ y :: rb) = (x.toNat : Int) - (y.toNat : Int) := by
  induction p with
  | nil => exact string_cmp_ne x y ra rb hxy
  | cons c rest ih =>
    have hc : c.toNat ≠ 0 := hp c (List.mem_cons_self _ _)
    have hrest : nul_free rest := fun y hy => hp y (List.mem_cons_of_mem _ hy)
    simp only [List.cons_append]
    rw [string_cmp_cons c _ _ hc]
    exact ih hrest

theorem string_cmp_sign (a b : string_t) (ha : nul_free a) (hb : nul_free b) :
    Int.sign (string_cmp a b) = - Int.sign (string_cmp b a) := by
  obtain ⟨h1, h2, h3⟩ := string_cmp_spec a b ha hb
  obtain ⟨g1, g2, g3⟩ := string_cmp_spec b a hb ha
  rcases lt_trichotomy (string_cmp a b) 0 with h | h | h
  · have : 0 < string_cmp b a := g3.2 (h1.1 h)
    rw [Int.sign_eq_neg_one_iff_neg.2 h, Int.sign_eq_one_iff_pos.2 this]
  · have hab := h2.1 h
    subst hab
    rw [h]
    rfl
  · have : string_cmp b a < 0 := g1.2 (h3.1 h)
    rw [Int.sign_eq_one_iff_pos.2 h, Int.sign_eq_neg_one_iff_neg.2 this]
    rfl

theorem string_cmp_le_trans (a b c : string_t) (ha : nul_free a) (hb : nul_free b)
    (hc : nul_free c) (h1 : string_cmp a b ≤ 0) (h2 : string_cmp b c ≤ 0) :
    string_cmp a c ≤ 0 := by
  rcases lt_or_eq_of_le h1 with h1 | h1
  · rcases lt_or_eq_of_le h2 with h2 | h2
    · exact le_of_lt (string_cmp_lt_trans a b c ha hb hc h1 h2)
    · have := (string_cmp_spec b c hb hc).2.1.1 h2
      subst this
      exact le_of_lt h1
  · have := (string_cmp_spec a b ha hb).2.1.1 h1
    subst this
    exact h2

/-- Claim C32: `string_cmp` is the byte-lexicographic order on strings without a NUL
byte: it returns 0 iff `string_eq(a, b)`; it returns -1 when `a` is a proper prefix of
`b` and 1 when `b` is a proper prefix of `a`; when the two strings differ first in the
bytes `x` and `y` after a common front, its sign is the sign of `x - y` as bytes; it is
negative exactly when `a` is below `b` in the byte-lexicographic order; it is
antisymmetric (`sign(string_cmp(a, b)) = -sign(string_cmp(b, a))`) and transitive. -/
theorem string_cmp_order (a b c : string_t) (ha : nul_free a) (hb : nul_free b)
    (hc : nul_free c) :
    (string_cmp a b = 0 ↔ string_eq a b = true)
      ∧ (a <+: b → a ≠ b → string_cmp a b = -1)
      ∧ (b <+: a → a ≠ b → string_cmp a b = 1)
      ∧ (∀ (p : string_t) (x y : Char) (ra rb : string_t),
          a = p ++ x :: ra → b = p ++ y :: rb → x ≠ y →
          Int.sign (string_cmp a b) = Int.sign ((x.toNat : Int) - (y.toNat : Int)))
      ∧ (string_cmp a b < 0 ↔ byte_lex a b)
      ∧ Int.sign (string_cmp a b) = - Int.sign (string_cmp b a)
      ∧ (string_cmp a b ≤ 0 → string_cmp b c ≤ 0 → string_cmp a c ≤ 0)
      ∧ (string_cmp a b < 0 → string_cmp b c < 0 → string_cmp a c < 0) := by
  refine ⟨?_, ?_, ?_, ?_, (string_cmp_spec a b ha hb).1, string_cmp_sign a b ha hb,
    string_cmp_le_trans a b c ha hb hc, string_cmp_lt_trans a b c ha hb hc⟩
  · rw [string_eq_iff a b (Or.inl ha)]
    exact (string_cmp_spec a b ha hb).2.1
  · rintro ⟨t, rfl⟩ hne
    cases t with
    | nil => exact absurd (List.append_nil a).symm hne
    | cons x t => exact (string_cmp_continued a ha x t).1
  · rintro ⟨t, rfl⟩ hne
    cases t with
    | nil => exact absurd (List.append_nil b) hne
    | cons x t => exact (string_cmp_continued b hb x t).2
  · intro p x y ra rb e1 e2 hxy
    subst e1 e2
    rw [string_cmp_differ p (fun c hc => ha c (List.mem_append_left _ hc)) x y ra rb hxy]

theorem string_cmp_order_witness :
    (string_cmp ['a', 'b'] ['a', 'c'] = 0 ↔ string_eq ['a', 'b'] ['a', 'c'] = true)
      ∧ (['a', 'b'] <+: ['a', 'c'] → ['a', 'b'] ≠ ['a', 'c'] →
          string_cmp ['a', 'b'] ['a', 'c'] = -1)
      ∧ (['a', 'c'] <+: ['a', 'b'] → ['a', 'b'] ≠ ['a', 'c'] →
          string_cmp ['a', 'b'] ['a', 'c'] = 1)
      ∧ (∀ (p : string_t) (x y : Char) (ra rb : string_t),
          ['a', 'b'] = p ++ x :: ra → ['a', 'c'] = p ++ y :: rb → x ≠ y →
          Int.sign (string_cmp ['a', 'b'] ['a', 'c'])
            = Int.sign ((x.toNat : Int) - (y.toNat : Int)))
      ∧ (string_cmp ['a', 'b'] ['a', 'c'] < 0 ↔ byte_lex ['a', 'b'] ['a', 'c'])
      ∧ Int.sign (string_cmp ['a', 'b'] ['a', 'c'])
          = - Int.sign (string_cmp ['a', 'c'] ['a', 'b'])
      ∧ (string_cmp ['a', 'b'] ['a', 'c'] ≤ 0 → string_cmp ['a', 'c'] ['a', 'c', 'd'] ≤ 0 →
          string_cmp ['a', 'b'] ['a', 'c', 'd'] ≤ 0)
      ∧ (string_cmp ['a', 'b'] ['a', 'c'] < 0 → string_cmp ['a', 'c'] ['a', 'c', 'd'] < 0 →
          string_cmp ['a', 'b'] ['a', 'c', 'd'] < 0) :=
  string_cmp_order ['a', 'b'] ['a', 'c'] ['a', 'c', 'd'] (by unfold nul_free; decide)
    (by unfold nul_free; decide) (by unfold nul_free; decide)

end Findglob


namespace Findglob

/-! ## The glob a?c -/

theorem glob_wf_aqc (l : Bool) : glob_wf ['a', '?', 'c'] [true, l, true] := by
  refine ⟨rfl, ?_, ?_⟩
  · intro i g hg hl
    rcases i with _ | _ | _ | i <;> simp at hg hl
    subst hg
    exact Or.inr rfl
  · intro i
    unfold wild_star
    rcases i with _ | _ | _ | i <;> simp

/-- Claim C31: for every string `s`, `glob_match("a?c", [lit, wild, lit], s)` is true
iff `len(s) = 3` and `s[0] = 'a'` and `s[2] = 'c'`; and with the `?` marked literal
(`[lit, lit, lit]`) it is true iff `s` is exactly `a?c`. -/
theorem glob_match_aqc (s : string_t) :
    (glob_match ['a', '?', 'c'] [true, false, true] s = true
        ↔ s.length = 3 ∧ s[0]? = some 'a' ∧ s[2]? = some 'c')
      ∧ (glob_match ['a', '?', 'c'] [true, true, true] s = true ↔ s = ['a', '?', 'c']) := by
  constructor
  · rw [glob_match_iff_gsplit _ _ _ (glob_wf_aqc false)]
    constructor
    · intro h
      simp only [gsplit, if_true, Bool.false_eq_true, if_false] at h
      obtain ⟨t1, rfl, b, t2, rfl, t3, rfl, rfl⟩ := h
      simp
    · rintro ⟨hlen, h0, h2⟩
      rcases s with _ | ⟨x, _ | ⟨y, _ | ⟨z, _ | ⟨w, t⟩⟩⟩⟩ <;> simp at hlen
      simp only [List.getElem?_cons_zero, Option.some.injEq, List.getElem?_cons_succ] at h0 h2
      subst h0 h2
      simp [gsplit]
  · rw [glob_match_iff_gsplit _ _ _ (glob_wf_aqc true)]
    constructor
    · intro h
      simp only [gsplit, if_true] at h
      obtain ⟨t1, rfl, t2, rfl, t3, rfl, rfl⟩ := h
      rfl
    · rintro rfl
      simp [gsplit]

end Findglob


namespace Findglob

/-! ## string_icmp -/

/-- Function `string_icmp` never returns 1 on the length alone: when a common front
compares equal, the result is 0 although `b` is the shorter string. -/
theorem string_icmp_shorter (a b : string_t) (h : strncasecmp a b b.length = 0)
    (hlen : b.length < a.length) : string_icmp a b = 0 := by
  unfold string_icmp
  have h1 : ¬ a.length < b.length := by omega
  have h2 : ¬ b.length > a.length := by omega
  simp only [h1, if_false, h, ne_eq, not_true_eq_false, h2]

/-- Claim C39, evaluated on the code: `string_icmp("ab", "a")` returns 0, not 1,
although `b` is the shorter string: the last line of the function tests
`b.len > a.len`, which is always false after `a.len < b.len` has been excluded (in
`string_cmp` the line reads `b.len < a.len`).  So `string_icmp` is 0 on two strings
that `string_ieq` tells apart, and its sign is not antisymmetric:
`string_icmp("a", "ab")` is -1. -/
theorem string_icmp_length_tie :
    string_icmp ['a', 'b'] ['a'] = 0
      ∧ string_ieq ['a', 'b'] ['a'] = false
      ∧ string_icmp ['a'] ['a', 'b'] = -1
      ∧ string_cmp ['a', 'b'] ['a'] = 1 := by
  refine ⟨string_icmp_shorter _ _ (by decide) (by decide), by decide, by decide, by decide⟩

end Findglob

namespace Manifest

/-! ## detect_endings -/

theorem detect_endings_loop_skip (pre : List Char)
    (hpre : ∀ x ∈ pre, x ≠ '\r' ∧ x ≠ '\n') (rest : List Char) :
    detect_endings_loop (pre ++ rest) [] = detect_endings_loop rest [] := by
  induction pre with
  | nil => rfl
  | cons x t ih =>
    obtain ⟨h1, h2⟩ := hpre x (List.mem_cons_self _ _)
    simp only [List.cons_append, detect_endings_loop, h1, h2, or_self, if_false,
      List.length_nil, ne_eq, not_true_eq_false]
    exact ih (fun y hy => hpre y (List.mem_cons_of_mem _ hy))

/-- Claim C40: in the manifest tool, `detect_endings` returns the first line ending
that occurs in the text, of `\r`, `\n`, `\r\n` and `\n\r`: when the first CR or LF byte
of the text is `c`, the result is `c`, extended by the byte right after it iff that
byte is the other one of CR and LF (so a doubled `\n\n` or `\r\r` yields the one-byte
ending); and a text without CR and LF yields the one-byte separator NUL. -/
theorem detect_endings_first (pre rest : string_t) (c : Char)
    (hpre : ∀ x ∈ pre, x ≠ '\r' ∧ x ≠ '\n') (hc : c = '\r' ∨ c = '\n') :
    detect_endings (pre ++ c :: rest)
        = (match rest.head? with
          | some d => if (d = '\r' ∨ d = '\n') ∧ d ≠ c then [c, d] else [c]
          | none => [c])
      ∧ detect_endings (pre ++ c :: rest)
          ∈ [['\r'], ['\n'], ['\r', '\n'], ['\n', '\r']]
      ∧ detect_endings pre = [Char.ofNat 0]
      ∧ (detect_endings pre).length = 1 := by
  have hmain : detect_endings (pre ++ c :: rest)
      = (match rest.head? with
        | some d => if (d = '\r' ∨ d = '\n') ∧ d ≠ c then [c, d] else [c]
        | none => [c]) := by
    unfold detect_endings
    rw [detect_endings_loop_skip pre hpre]
    cases rest with
    | nil =>
      simp [detect_endings_loop, hc]
    | cons d t =>
      simp only [detect_endings_loop, hc, if_true, List.head?_cons]
      by_cases hd : d = '\r' ∨ d = '\n'
      · by_cases hdc : c = d
        · subst hdc
          simp [hd]
        · have hdc' : d ≠ c := fun h => hdc h.symm
          simp [hd, hdc, hdc']
      · simp [hd]
  have hnone : detect_endings pre = [Char.ofNat 0] := by
    unfold detect_endings
    have := detect_endings_loop_skip pre hpre []
    rw [List.append_nil] at this
    rw [this]
    rfl
  refine ⟨hmain, ?_, hnone, by rw [hnone]; rfl⟩
  rw [hmain]
  cases rest with
  | nil =>
    rcases hc with rfl | rfl <;> simp
  | cons d t =>
    simp only [List.head?_cons]
    split
    · rename_i h
      obtain ⟨hd, hdc⟩ := h
      rcases hc with rfl | rfl <;> rcases hd with rfl | rfl <;> simp at hdc ⊢
    · rcases hc with rfl | rfl <;> simp

theorem detect_endings_first_witness :
    detect_endings ['a', 'b', '\r', '\n', 'c', '\n'] = ['\r', '\n']
      ∧ detect_endings ['a', 'b', '\r', '\n', 'c', '\n']
          ∈ [['\r'], ['\n'], ['\r', '\n'], ['\n', '\r']]
      ∧ detect_endings ['a', 'b'] = [Char.ofNat 0]
      ∧ (detect_endings ['a', 'b']).length = 1 :=
  detect_endings_first ['a', 'b'] ['\n', 'c', '\n'] '\r'
    (by
      intro x hx
      simp only [List.mem_cons, List.mem_singleton, List.not_mem_nil, or_false] at hx
      rcases hx with rfl | rfl <;> decide)
    (Or.inl rfl)

end Manifest


namespace Findglob

/-! ## The index and the volume flag of the path iterator -/

theorem path_iter_trace_ok (sub : string_t) (it : path_iter_t) (h : it.ok = true) :
    path_iter_trace sub it
      = ((sub, it.isvol, it.i) :: (path_iter_trace (path_next it).1 (path_next it).2).1,
          (path_iter_trace (path_next it).1 (path_next it).2).2) := by
  rw [path_iter_trace]
  simp [h]

theorem path_iter_trace_done (sub : string_t) (it : path_iter_t) (h : ¬ it.ok = true) :
    path_iter_trace sub it = ([], it.i) := by
  rw [path_iter_trace]
  simp [h]

/-- The loop over the segments from a round in which `k` segments have been yielded
before: the rounds see the indices `k`, `k + 1`, ..., and the index after the loop is
the number of all segments. -/
theorem path_iter_trace_spec (sub : string_t) (it : path_iter_t) :
    ∀ k : Nat, it.i = k → (it.ok = true → it.nskip ≠ 0) →
      path_iter_trace sub it
        = (((path_iter_collect sub it).enumFrom k).map (fun ks => (ks.2.1, ks.2.2, ks.1)),
            k + (path_iter_collect sub it).length) := by
  induction sub, it using path_iter_collect.induct with
  | case1 sub it hok ih =>
    intro k hi hskip
    have hs := hskip hok
    rw [path_iter_trace_ok sub it hok, path_iter_collect_ok sub it hok]
    have hnext : (path_next it).2.i = k + 1 := by
      rw [path_next_index it hok]
      have : (it.nskip != 0) = true := by simpa using hs
      rw [if_pos this, hi]
    rw [ih (k + 1) hnext (fun hok' => (path_next_spec it hok hok').2.1)]
    simp only [List.enumFrom_cons, List.map_cons, List.length_cons, hi]
    congr 1
    omega
  | case2 sub it hok =>
    intro k hi _
    rw [path_iter_trace_done sub it hok, path_iter_collect_done sub it hok]
    simp [hi]

/-- Claim C33: for every path, in the loop over `path_iter` and `path_next` the index
`i` of the iterator equals `k` at the `k`-th yielded segment (zero-based), and after
the loop `i` equals the number of segments yielded; `isvol` is true only for the first
yielded segment, and only when the path begins with the volume `/`. -/
theorem path_iter_index (path : string_t) :
    path_iter_trace (path_iter path).1 (path_iter path).2
        = ((path_segments path).enum.map (fun ks => (ks.2.1, ks.2.2, ks.1)),
            (path_segments path).length)
      ∧ ∀ (k : Nat) (seg : string_t × Bool), (path_segments path)[k]? = some seg →
          seg.2 = true → k = 0 ∧ path.head? = some '/' := by
  constructor
  · have hok0 : ({ base := path, nskip := 0, ok := true, i := 0 } : path_iter_t).ok = true := rfl
    have hi : (path_iter path).2.i = 0 := by
      unfold path_iter
      rw [path_next_index _ hok0]
      rfl
    have := path_iter_trace_spec (path_iter path).1 (path_iter path).2 0 hi
      (fun hok' => (path_next_spec _ hok0 hok').2.1)
    rw [this]
    simp [path_segments, List.enum]
  · intro k seg hk hv
    rw [path_segments_eq] at hk
    unfold segments_spec at hk
    by_cases hh : path.head? = some '/'
    · rw [if_pos hh] at hk
      cases k with
      | zero => exact ⟨rfl, hh⟩
      | succ k =>
        simp only [List.singleton_append, List.getElem?_cons_succ, List.getElem?_map,
          Option.map_eq_some'] at hk
        obtain ⟨r, _, rfl⟩ := hk
        cases hv
    · rw [if_neg hh] at hk
      simp only [List.nil_append, List.getElem?_map, Option.map_eq_some'] at hk
      obtain ⟨r, _, rfl⟩ := hk
      cases hv

end Findglob


namespace Findglob

/-! ## The shape of a normalized absolute path -/

end Findglob


namespace Findglob

/-! ## The pattern invariants after pattern_rewrite_start -/

end Findglob


namespace Findglob

end Findglob
